import Mathlib

/-!
# Fused mapping to affine relations: a verification development

Shallow embedding of `src/loop-analysis/fused-mapping-to-isl.cpp`,
`src/applications/looptree-model/model.cpp` and of the parts of the
integer-set engine they call.

An affine relation of the engine is represented by its meaning: the numbers of
input and output coordinates and the set of pairs of integer tuples it holds.
Engine operations are given by their set semantics; `coalesce` changes the
representation only and is the identity here.  Errors raised by the engine
itself on ill-dimensioned operands are not modelled; lookups that throw in
the source (`std::map::at`, `std::get`) return `none`.
-/

namespace Timeloop

/-! ## Identifiers -/

abbrev NodeID := Nat
abbrev EinsumId := Nat
abbrev DataSpaceId := Nat
abbrev DimensionId := Nat
abbrev BufferId := Nat

/-! ## Integer sets and relations -/

/-- An integer set of the engine: its number of coordinates and its points. -/
structure IslSet where
  dim : Nat
  mem : List Int → Prop

/-- An integer relation of the engine: coordinate counts and its pairs. -/
structure IslMap where
  nIn : Nat
  nOut : Nat
  rel : List Int → List Int → Prop

namespace IslSet

/-- `isl::set::universe` on a space of `n` coordinates. -/
def universe_on (n : Nat) : IslSet :=
  { dim := n, mem := fun x => x.length = n }

/-- `isl::set::intersect`. -/
def intersect (s t : IslSet) : IslSet :=
  { dim := s.dim, mem := fun x => s.mem x ∧ t.mem x }

end IslSet

namespace IslMap

/-- `isl::map::domain`. -/
def domain (m : IslMap) : IslSet :=
  { dim := m.nIn, mem := fun x => ∃ y, m.rel x y }

/-- `isl::map::range`. -/
def range (m : IslMap) : IslSet :=
  { dim := m.nOut, mem := fun y => ∃ x, m.rel x y }

/-- `isl::map::reverse`. -/
def reverse (m : IslMap) : IslMap :=
  { nIn := m.nOut, nOut := m.nIn, rel := fun y x => m.rel x y }

/-- `isl::map::apply_range`: relational composition, `m` first. -/
def apply_range (m n : IslMap) : IslMap :=
  { nIn := m.nIn, nOut := n.nOut, rel := fun x z => ∃ y, m.rel x y ∧ n.rel y z }

/-- `isl::map::intersect_domain`. -/
def intersect_domain (m : IslMap) (s : IslSet) : IslMap :=
  { nIn := m.nIn, nOut := m.nOut, rel := fun x y => m.rel x y ∧ s.mem x }

/-- `isl::map::intersect_range`. -/
def intersect_range (m : IslMap) (s : IslSet) : IslMap :=
  { nIn := m.nIn, nOut := m.nOut, rel := fun x y => m.rel x y ∧ s.mem y }

/-- `isl::map::subtract`. -/
def subtract (m n : IslMap) : IslMap :=
  { nIn := m.nIn, nOut := m.nOut, rel := fun x y => m.rel x y ∧ ¬ n.rel x y }

/-- `isl::map::coalesce`: same relation, simplified representation. -/
def coalesce (m : IslMap) : IslMap := m

end IslMap

/-! ## Affine expressions -/

/-- An affine expression `isl::aff` over `coeffs.length` input coordinates. -/
structure Aff where
  coeffs : List Int
  const : Int

namespace Aff

/-- `isl::aff::zero_on_domain` for a space of `n` coordinates. -/
def zero_on_domain (n : Nat) : Aff :=
  { coeffs := List.replicate n 0, const := 0 }

/-- `isl::set_coefficient_si(aff, isl_dim_in, pos, v)`. -/
def set_coefficient_si (a : Aff) (pos : Nat) (v : Int) : Aff :=
  { coeffs := a.coeffs.set pos v, const := a.const }

/-- `isl::set_constant_si(aff, v)`. -/
def set_constant_si (a : Aff) (v : Int) : Aff :=
  { coeffs := a.coeffs, const := v }

/-- Value of the expression at the point `x`. -/
def eval (a : Aff) (x : List Int) : Int :=
  a.const + (List.zipWith (fun c v => c * v) a.coeffs x).sum

/-- `isl::aff::ge_set`: the points where `a ≥ b`. -/
def ge_set (a b : Aff) : IslSet :=
  { dim := a.coeffs.length,
    mem := fun x => x.length = a.coeffs.length ∧ b.eval x ≤ a.eval x }

/-- `isl::aff::lt_set`: the points where `a < b`. -/
def lt_set (a b : Aff) : IslSet :=
  { dim := a.coeffs.length,
    mem := fun x => x.length = a.coeffs.length ∧ a.eval x < b.eval x }

end Aff

/-- A tuple of affine expressions `isl::multi_aff`: `nIn` inputs, one
expression per output coordinate. -/
structure MultiAff where
  nIn : Nat
  affs : List Aff

namespace MultiAff

/-- `isl::multi_aff::zero` on the space `nIn → nOut`. -/
def zero (nIn nOut : Nat) : MultiAff :=
  { nIn := nIn, affs := List.replicate nOut (Aff.zero_on_domain nIn) }

/-- `isl::multi_aff::get_at`. -/
def get_at (m : MultiAff) (i : Nat) : Aff :=
  m.affs.getD i (Aff.zero_on_domain m.nIn)

/-- `isl::multi_aff::set_at`. -/
def set_at (m : MultiAff) (i : Nat) (a : Aff) : MultiAff :=
  { nIn := m.nIn, affs := m.affs.set i a }

/-- `isl::multi_aff::identity_on_domain` for a space of `n` coordinates. -/
def identity_on_domain (n : Nat) : MultiAff :=
  { nIn := n,
    affs := (List.range n).map
      (fun i => (Aff.zero_on_domain n).set_coefficient_si i 1) }

end MultiAff

/-- `isl::map_from_multi_aff`: the graph of the affine function. -/
def map_from_multi_aff (m : MultiAff) : IslMap :=
  { nIn := m.nIn, nOut := m.affs.length,
    rel := fun x o => x.length = m.nIn ∧ o = m.affs.map (fun a => a.eval x) }

/-! ## Ordered maps (`std::map`) as association lists kept in key order -/

namespace StdMap

/-- `std::map::find`: the value stored under `k`, if any. -/
def find {K V : Type} [DecidableEq K] (k : K) : List (K × V) → Option V
  | [] => none
  | e :: rest => if e.1 = k then some e.2 else find k rest

/-- Insertion of a fresh key at its place in the key order `lt`. -/
def insertSorted {K V : Type} (lt : K → K → Bool) (k : K) (v : V) :
    List (K × V) → List (K × V)
  | [] => [(k, v)]
  | e :: rest =>
    if lt k e.1 then (k, v) :: e :: rest else e :: insertSorted lt k v rest

/-- `std::map::emplace`: inserts only when the key is absent. -/
def emplace {K V : Type} [DecidableEq K] (lt : K → K → Bool) (k : K) (v : V)
    (m : List (K × V)) : List (K × V) :=
  match find k m with
  | some _ => m
  | none => insertSorted lt k v m

/-- The assignment `m[k] = v`: overwrites, or inserts when the key is absent. -/
def assign {K V : Type} [DecidableEq K] (lt : K → K → Bool) (k : K) (v : V)
    (m : List (K × V)) : List (K × V) :=
  match find k m with
  | some _ => m.map (fun e => if e.1 = k then (e.1, v) else e)
  | none => insertSorted lt k v m

end StdMap

/-- Key order of maps keyed by an identifier. -/
def natLt (a b : Nat) : Bool := decide (a < b)

/-- A loop that may throw: `f` is applied to each element in order. -/
def forEachM {α β : Type} (f : α → Option β) : List α → Option (List β)
  | [] => some []
  | a :: rest =>
    match f a with
    | none => none
    | some b =>
      match forEachM f rest with
      | none => none
      | some bs => some (b :: bs)

/-- A loop body that may throw, run `n` times. -/
def iterateM {α : Type} (f : α → Option α) : Nat → α → Option α
  | 0, a => some a
  | n + 1, a =>
    match f a with
    | none => none
    | some b => iterateM f n b

/-! ## Mapping tree and workload (read-only inputs) -/

/-- The node kinds of a fused mapping (`mapping::MappingNodeTypes`).
`For` and `ParFor` are the loop kinds, `Pipeline` and `Sequential` the
branch kinds.  The tile size of a loop is an optional unsigned size;
`TilingFromMapping` converts it to `int` where it records it. -/
inductive MappingNode where
  | Root (id : NodeID)
  | For (id : NodeID) (op_dim : DimensionId) (tile_size : Option Nat)
  | ParFor (id : NodeID) (op_dim : DimensionId) (tile_size : Option Nat)
  | Storage (id : NodeID) (buffer : BufferId) (dspace : DataSpaceId)
  | Compute (id : NodeID) (kernel : EinsumId)
  | Pipeline (id : NodeID)
  | Sequential (id : NodeID)
  deriving DecidableEq, Repr

/-- `mapping::GetNodeId`. -/
def GetNodeId : MappingNode → NodeID
  | .Root id => id
  | .For id _ _ => id
  | .ParFor id _ _ => id
  | .Storage id _ _ => id
  | .Compute id _ => id
  | .Pipeline id => id
  | .Sequential id => id

/-- `mapping::IsLoopV`. -/
def IsLoopV : MappingNode → Bool
  | .For _ _ _ => true
  | .ParFor _ _ _ => true
  | _ => false

/-- `mapping::IsBranchV`. -/
def IsBranchV : MappingNode → Bool
  | .Pipeline _ => true
  | .Sequential _ => true
  | _ => false

/-- What the analysis reads of a `mapping::FusedMapping`: the root-to-leaf
paths in enumeration order (`GetPaths`) and node lookup by id (`NodeAt`). -/
structure FusedMapping where
  paths : List (List MappingNode)
  NodeAt : NodeID → Option MappingNode

/-- The kernel read by `std::get<mapping::Compute>(mapping.NodeAt(id)).kernel`;
`none` when the node is absent or not a `Compute` node. -/
def FusedMapping.kernelAt (m : FusedMapping) (id : NodeID) : Option EinsumId :=
  match m.NodeAt id with
  | some (.Compute _ kernel) => some kernel
  | _ => none

/-- The queries of `problem::FusedWorkload` used by the analysis. -/
structure FusedWorkload where
  TensorsReadByEinsum : EinsumId → List DataSpaceId
  TensorsWrittenByEinsum : EinsumId → List DataSpaceId
  WriterEinsum : DataSpaceId → Option EinsumId
  ReadAccesses : EinsumId → DataSpaceId → IslMap
  WriteAccesses : EinsumId → DataSpaceId → IslMap
  EinsumOspaceBound : EinsumId → IslSet
  DataSpaceBound : DataSpaceId → IslSet
  EinsumDimToIdx : EinsumId → List (DimensionId × Nat)

/-- Engine entry points whose result is not determined by the set of pairs
of their operand or whose definition is not among the sources at hand. -/
structure Engine where
  isl_set_dim_has_lower_bound : IslSet → Nat → Bool
  MapToPriorData : Nat → Nat → IslMap

/-- `BranchTilings`: leaf id to tiling, in key order. -/
abbrev BranchTilings := List (NodeID × IslMap)

/-! ## Branch tiling builder (`TilingFromMapping`) -/

/-- Local state of the walk over one path in `TilingFromMapping`. -/
structure TilingWalk where
  prob_id_to_expr : List (DimensionId × List (Nat × Int))
  cur_dim_idx : Nat
  einsum_id : Option EinsumId
  leaf_id : Option NodeID

/-- The conversion of an unsigned size to `int` (32 bits, two's complement):
the value modulo `2^32`, read as a signed number.  It happens where a tile
size becomes the second component of a `std::pair<size_t, int>`. -/
def narrowToInt (v : Nat) : Int :=
  ((v : Int) + 2147483648) % 4294967296 - 2147483648

/-- A loop node seen by the walk: its tile size, when known, is recorded
under its problem dimension as an `int`, and the coordinate counter
advances. -/
def tilingLoop (s : TilingWalk) (op_dim : DimensionId) (tile_size : Option Nat) :
    TilingWalk :=
  match tile_size with
  | some t =>
    { s with
      prob_id_to_expr := StdMap.assign natLt op_dim
        ((StdMap.find op_dim s.prob_id_to_expr).getD [] ++
          [(s.cur_dim_idx, narrowToInt t)])
        s.prob_id_to_expr,
      cur_dim_idx := s.cur_dim_idx + 1 }
  | none => { s with cur_dim_idx := s.cur_dim_idx + 1 }

/-- The visitor of the path walk in `TilingFromMapping`. -/
def tilingVisit (s : TilingWalk) : MappingNode → TilingWalk
  | .For _ op_dim tile_size => tilingLoop s op_dim tile_size
  | .ParFor _ op_dim tile_size => tilingLoop s op_dim tile_size
  | .Compute id kernel => { s with leaf_id := some id, einsum_id := some kernel }
  | _ => s

/-- State of the loop over the `(iter_id, coef)` pairs of one dimension. -/
structure ExprState where
  eq_aff : Aff
  iter_set : IslSet
  last_coef : Option Int

/-- Body of the loop over the `(iter_id, coef)` pairs of one dimension. -/
def exprStep (zero_aff : Aff) (s : ExprState) (p : Nat × Int) : ExprState :=
  let var_aff := zero_aff.set_coefficient_si p.1 1
  let iter_set := s.iter_set.intersect (var_aff.ge_set zero_aff)
  { eq_aff := s.eq_aff.set_coefficient_si p.1 p.2,
    iter_set :=
      match s.last_coef with
      | some c => iter_set.intersect (var_aff.lt_set (zero_aff.set_constant_si c))
      | none => iter_set,
    last_coef := some p.2 }

/-- Body of the loop over `prob_id_to_expr`: a dimension the einsum does not
have leaves the map and the iteration set untouched. -/
def probDimStep (einsum_dim_to_idx : List (DimensionId × Nat)) (zero_aff : Aff)
    (s : MultiAff × IslSet) (e : DimensionId × List (Nat × Int)) :
    MultiAff × IslSet :=
  match StdMap.find e.1 einsum_dim_to_idx with
  | some einsum_dim_idx =>
    let r := e.2.foldl (exprStep zero_aff)
      { eq_aff := s.1.get_at einsum_dim_idx, iter_set := s.2, last_coef := none }
    (s.1.set_at einsum_dim_idx r.eq_aff, r.iter_set)
  | none => s

/-- The leaf id and relation built for one path, before the range is cut to
the output-space bound.  A path without a `Compute` node leaves the leaf and
the einsum unset in the source; this is reported as `none`. -/
def pathTiling (w : FusedWorkload) (path : List MappingNode) :
    Option (NodeID × IslMap) :=
  let walk := path.foldl tilingVisit
    { prob_id_to_expr := [], cur_dim_idx := 0, einsum_id := none, leaf_id := none }
  match walk.einsum_id, walk.leaf_id with
  | some einsum_id, some leaf_id =>
    let eq_maff := MultiAff.zero walk.cur_dim_idx (w.EinsumOspaceBound einsum_id).dim
    let iter_set := IslSet.universe_on walk.cur_dim_idx
    let zero_aff := Aff.zero_on_domain walk.cur_dim_idx
    let r := walk.prob_id_to_expr.foldl
      (probDimStep (w.EinsumDimToIdx einsum_id) zero_aff) (eq_maff, iter_set)
    some (leaf_id, (map_from_multi_aff r.1).intersect_domain r.2)
  | _, _ => none

/-- The first loop of `TilingFromMapping`: one `emplace` per path. -/
def tilingPaths (w : FusedWorkload) :
    List (List MappingNode) → BranchTilings → Option BranchTilings
  | [], result => some result
  | path :: rest, result =>
    match pathTiling w path with
    | none => none
    | some (leaf_id, map) =>
      tilingPaths w rest (StdMap.emplace natLt leaf_id map result)

/-- Body of the second loop of `TilingFromMapping`. -/
def boundRange (m : FusedMapping) (w : FusedWorkload) (e : NodeID × IslMap) :
    Option (NodeID × IslMap) :=
  match m.kernelAt e.1 with
  | none => none
  | some kernel => some (e.1, e.2.intersect_range (w.EinsumOspaceBound kernel))

/-- `TilingFromMapping`. -/
def TilingFromMapping (m : FusedMapping) (w : FusedWorkload) : Option BranchTilings :=
  match tilingPaths w m.paths [] with
  | none => none
  | some result => forEachM (boundRange m w) result

/-! ## Helpers of the relation wrapper used by the analysis -/

/-- Modelled from the spec: `isl::project_dim_in_after(map, start)` is defined
in the relation wrapper, whose source is not at hand.  The input coordinates at
positions `start` and beyond are projected away: a reduced tuple is related to
an output exactly when some tuple extending it is. -/
def project_dim_in_after (map : IslMap) (start : Nat) : IslMap :=
  { nIn := min map.nIn start, nOut := map.nOut,
    rel := fun x o => ∃ x', map.rel x' o ∧ x = x'.take start }

/-- Modelled from the spec: `ConstraintDimEquals(map, n)` is defined in the
relation wrapper, whose source is not at hand.  It keeps the pairs whose input
and output tuples agree on the first `n` coordinates (the coordinates up to the
pipeline index are held fixed). -/
def ConstraintDimEquals (map : IslMap) (n : Nat) : IslMap :=
  { nIn := map.nIn, nOut := map.nOut,
    rel := fun c x => map.rel c x ∧ c.take n = x.take n }

/-! ## Loop bound inference (`LoopBoundsInference`) -/

/-- The `complete` flag of a leaf: every coordinate of the tiling domain has a
lower bound. -/
def isComplete (E : Engine) (tiling : IslMap) : Bool :=
  (List.range tiling.domain.dim).all
    (fun i => E.isl_set_dim_has_lower_bound tiling.domain i)

/-- The operations of the producer that the consumer requires (`required_ops`),
computed from the consumer's current tiling. -/
def requiredOps (E : Engine) (w : FusedWorkload) (pipeline_tiling_idx top_idx : Nat)
    (einsum_id : EinsumId) (read_tensor : DataSpaceId) (prod_einsum : EinsumId)
    (tiling : IslMap) : IslMap :=
  let pruned_tiling := project_dim_in_after tiling pipeline_tiling_idx
  let pruned_tiling := pruned_tiling.intersect_range (w.EinsumOspaceBound einsum_id)
  let read_accesses := w.ReadAccesses einsum_id read_tensor
  let required_data := pruned_tiling.apply_range read_accesses
  let shifter := E.MapToPriorData pipeline_tiling_idx top_idx
  let buffered_data := shifter.apply_range required_data
  let computed_data := (required_data.subtract buffered_data).coalesce
  let computed_data := computed_data.intersect_range (w.DataSpaceBound read_tensor)
  let producer_write_dep := w.WriteAccesses prod_einsum read_tensor
  let required_ops := computed_data.apply_range producer_write_dep.reverse
  required_ops.intersect_range (w.EinsumOspaceBound prod_einsum)

/-- The new tiling of a producer leaf (`inferred_prod_tiling`). -/
def inferredProdTiling (required_ops : IslMap) (pipeline_tiling_idx : Nat)
    (producer_tiling : IslMap) : IslMap :=
  let required_iters := ConstraintDimEquals
    (required_ops.apply_range producer_tiling.reverse) pipeline_tiling_idx
  (producer_tiling.intersect_domain required_iters.range).coalesce

/-- Body of the loop over the producer leaves: a leaf of another einsum is left
as it is, a leaf of the producer einsum gets its restricted tiling. -/
def producerUpdate (m : FusedMapping) (prod_einsum : EinsumId) (required_ops : IslMap)
    (pipeline_tiling_idx : Nat) (e : NodeID × IslMap) : Option (NodeID × IslMap) :=
  match m.kernelAt e.1 with
  | none => none
  | some kernel =>
    if kernel ≠ prod_einsum then some e
    else some (e.1, inferredProdTiling required_ops pipeline_tiling_idx e.2)

/-- Body of the loop over the tensors read by the consumer at position `j`. -/
def readTensorStep (E : Engine) (m : FusedMapping) (w : FusedWorkload)
    (pipeline_tiling_idx : Nat) (dspace_top_idx : List (DataSpaceId × Nat))
    (j : Nat) (einsum_id : EinsumId) (inferred_tilings : BranchTilings)
    (read_tensor : DataSpaceId) : Option BranchTilings :=
  match w.WriterEinsum read_tensor with
  | none => some inferred_tilings
  | some prod_einsum =>
    match inferred_tilings[j]? with
    | none => none
    | some (_, tiling) =>
      match StdMap.find read_tensor dspace_top_idx with
      | none => none
      | some top_idx =>
        forEachM
          (producerUpdate m prod_einsum
            (requiredOps E w pipeline_tiling_idx top_idx einsum_id read_tensor
              prod_einsum tiling)
            pipeline_tiling_idx)
          inferred_tilings

/-- A loop whose body may throw, over the elements of a list. -/
def foldM {σ α : Type} (f : σ → α → Option σ) : σ → List α → Option σ
  | s, [] => some s
  | s, a :: rest =>
    match f s a with
    | none => none
    | some s' => foldM f s' rest

/-- Body of the loop over the leaves: the leaf at position `j` acts as the
consumer. -/
def consumerStep (E : Engine) (m : FusedMapping) (w : FusedWorkload)
    (pipeline_tiling_idx : Nat) (dspace_top_idx : List (DataSpaceId × Nat))
    (inferred_tilings : BranchTilings) (j : Nat) : Option BranchTilings :=
  match inferred_tilings[j]? with
  | none => some inferred_tilings
  | some (leaf_id, tiling) =>
    if isComplete E tiling then
      match m.kernelAt leaf_id with
      | none => none
      | some einsum_id =>
        foldM (readTensorStep E m w pipeline_tiling_idx dspace_top_idx j einsum_id)
          inferred_tilings (w.TensorsReadByEinsum einsum_id)
    else some inferred_tilings

/-- One full pass over the leaves. -/
def inferencePass (E : Engine) (m : FusedMapping) (w : FusedWorkload)
    (pipeline_tiling_idx : Nat) (dspace_top_idx : List (DataSpaceId × Nat))
    (inferred_tilings : BranchTilings) : Option BranchTilings :=
  foldM (consumerStep E m w pipeline_tiling_idx dspace_top_idx) inferred_tilings
    (List.range inferred_tilings.length)

/-- `LoopBoundsInference`: as many passes as there are tilings. -/
def LoopBoundsInference (E : Engine) (tilings : BranchTilings) (m : FusedMapping)
    (w : FusedWorkload) (pipeline_tiling_idx : Nat)
    (dspace_top_idx : List (DataSpaceId × Nat)) : Option BranchTilings :=
  iterateM (inferencePass E m w pipeline_tiling_idx dspace_top_idx)
    tilings.length tilings

/-! ## Concrete inputs -/

/-- The tiling stored under `leaf`, or the empty relation when the analysis
failed or has no such leaf. -/
def tilingAt (T : Option BranchTilings) (leaf : NodeID) : IslMap :=
  match T with
  | some t => (StdMap.find leaf t).getD { nIn := 0, nOut := 0, rel := fun _ _ => False }
  | none => { nIn := 0, nOut := 0, rel := fun _ _ => False }

/-- The box `0 ≤ o[k] < bounds[k]`. -/
def boxSet (bounds : List Int) : IslSet :=
  { dim := bounds.length,
    mem := fun o => List.Forall₂ (fun v b => 0 ≤ v ∧ v < b) o bounds }

/-- The relation with no pair. -/
def emptyMap (nIn nOut : Nat) : IslMap :=
  { nIn := nIn, nOut := nOut, rel := fun _ _ => False }

/-- Node lookup of a mapping given by its paths. -/
def nodeAtOf (paths : List (List MappingNode)) (id : NodeID) : Option MappingNode :=
  paths.flatten.find? (fun n => GetNodeId n == id)

/-- Two-loop scenario: `ParFor` on dimension `j` (id 1, tile size 2) above `For`
on dimension `i` (id 0, tile size 4) above a `Storage` node and the leaf. -/
def scenarioPath : List MappingNode :=
  [.ParFor 0 1 (some 2), .For 1 0 (some 4), .Storage 2 0 0, .Compute 3 0]

/-- The mapping of the two-loop scenario. -/
def scenarioMapping : FusedMapping :=
  { paths := [scenarioPath], NodeAt := nodeAtOf [scenarioPath] }

/-- The workload of the two-loop scenario: one einsum over `(i, j)` with output
bound `0 ≤ i < 8`, `0 ≤ j < 4`, writing dataspace 0 and reading dataspace 1,
an input that no einsum writes. -/
def scenarioWorkload : FusedWorkload :=
  { TensorsReadByEinsum := fun _ => [1],
    TensorsWrittenByEinsum := fun _ => [0],
    WriterEinsum := fun d => if d = 0 then some 0 else none,
    ReadAccesses := fun _ _ => map_from_multi_aff (MultiAff.identity_on_domain 2),
    WriteAccesses := fun _ _ => map_from_multi_aff (MultiAff.identity_on_domain 2),
    EinsumOspaceBound := fun _ => boxSet [8, 4],
    DataSpaceBound := fun _ => boxSet [8, 4],
    EinsumDimToIdx := fun _ => [(0, 0), (1, 1)] }

/-- Modelled from the spec: `isl::MapToPriorData(n, top)` is defined in the
relation wrapper, whose source is not at hand.  The spec describes it as the
shift backward by one pipelining step along the pipeline-index coordinate: a
tuple of `n` coordinates is related to the tuple whose last coordinate is one
less.  The spec does not say how the second argument enters; the inputs below
use it with `top = n` only. -/
def MapToPriorData (n : Nat) (_top : Nat) : IslMap :=
  { nIn := n, nOut := n,
    rel := fun c c' => c.length = n ∧
      ∃ pre v, c = pre ++ [v] ∧ c' = pre ++ [v - 1] }

/-- An engine for inputs in which every tiling domain is bounded below on
every coordinate. -/
def boundedEngine : Engine :=
  { isl_set_dim_has_lower_bound := fun _ _ => true,
    MapToPriorData := MapToPriorData }

/-- A path with two nested loops on dimension 0 (tile sizes 4 and 1), the
outer one above a `Pipeline` node, and a `Storage` node for dataspace 0. -/
def recurrencePath : List MappingNode :=
  [.For 0 0 (some 4), .Pipeline 1, .Storage 2 0 0, .For 3 0 (some 1), .Compute 4 0]

/-- The mapping with `recurrencePath` as its only path. -/
def recurrenceMapping : FusedMapping :=
  { paths := [recurrencePath], NodeAt := nodeAtOf [recurrencePath] }

/-- The access `o ↦ o + shift` of a one-dimensional einsum to a
one-dimensional dataspace. -/
def shiftAccess (shift : Int) : IslMap :=
  map_from_multi_aff
    { nIn := 1, affs := [((Aff.zero_on_domain 1).set_coefficient_si 0 1).set_constant_si shift] }

/-- A workload with one einsum over `0 ≤ o < 4` that writes element `o` of
dataspace 0 and reads element `o + 1` of the same dataspace. -/
def recurrenceWorkload : FusedWorkload :=
  { TensorsReadByEinsum := fun _ => [0],
    TensorsWrittenByEinsum := fun _ => [0],
    WriterEinsum := fun d => if d = 0 then some 0 else none,
    ReadAccesses := fun _ _ => shiftAccess 1,
    WriteAccesses := fun _ _ => shiftAccess 0,
    EinsumOspaceBound := fun _ => boxSet [4],
    DataSpaceBound := fun _ => boxSet [8],
    EinsumDimToIdx := fun _ => [(0, 0)] }

/-- The tilings `TilingFromMapping` builds for the two-loop scenario. -/
def scenarioTilings : BranchTilings :=
  (TilingFromMapping scenarioMapping scenarioWorkload).getD []

/-- The tilings `TilingFromMapping` builds for the recurrence. -/
def recurrenceTilings : BranchTilings :=
  (TilingFromMapping recurrenceMapping recurrenceWorkload).getD []

/-- Entry `b` has the leaf id of entry `a` and a relation contained in that
of `a`. -/
def leafShrinks (a b : NodeID × IslMap) : Prop :=
  b.1 = a.1 ∧ ∀ x o, b.2.rel x o → a.2.rel x o

/-! ## Pipeline index and top indices -/

/-- The walk of `BranchIdxFromMapping` over one path: the number of loop nodes
seen before the first branch node, or no value when the path has none. -/
def branchIdxPath : List MappingNode → Nat → Option Nat
  | [], _ => none
  | node :: rest, potential_idx =>
    if IsBranchV node then some potential_idx
    else if IsLoopV node then branchIdxPath rest (potential_idx + 1)
    else branchIdxPath rest potential_idx

/-- `BranchIdxFromMapping`: the walk stops at the first path that has a
branch node. -/
def BranchIdxFromMapping (m : FusedMapping) : Option Nat :=
  m.paths.findSome? (fun path => branchIdxPath path 0)

/-- The visitor of `DspaceTopIdxFromMapping`; the state is the map and the
loop counter of the current path. -/
def dspaceTopVisit (s : List (DataSpaceId × Nat) × Nat) :
    MappingNode → List (DataSpaceId × Nat) × Nat
  | .Storage _ _ dspace => (StdMap.emplace natLt dspace s.2 s.1, s.2)
  | .For _ _ _ => (s.1, s.2 + 1)
  | .ParFor _ _ _ => (s.1, s.2 + 1)
  | _ => s

/-- `DspaceTopIdxFromMapping`. -/
def DspaceTopIdxFromMapping (m : FusedMapping) : List (DataSpaceId × Nat) :=
  m.paths.foldl (fun dspace_to_idx path => (path.foldl dspaceTopVisit (dspace_to_idx, 0)).1) []

/-! ## Logical buffers: levels, tilings, skews -/

/-- `LogicalBuffer`: a buffer, a dataspace and the compute leaf that owns it. -/
structure LogicalBuffer where
  buffer_id : BufferId
  dspace_id : DataSpaceId
  branch_leaf_id : NodeID
  deriving DecidableEq, Repr

/-- Key order of maps keyed by `LogicalBuffer`: lexicographic on the three
identifiers. -/
def LogicalBuffer.lt (a b : LogicalBuffer) : Bool :=
  decide (a.buffer_id < b.buffer_id) ||
    (decide (a.buffer_id = b.buffer_id) &&
      (decide (a.dspace_id < b.dspace_id) ||
        (decide (a.dspace_id = b.dspace_id) &&
          decide (a.branch_leaf_id < b.branch_leaf_id))))

/-- The visitor of `BufferIterLevelsFromMapping`; the state is `new_results`
and `iter_idx`. -/
def bufferLevelVisit (s : List (LogicalBuffer × Nat) × Nat) :
    MappingNode → List (LogicalBuffer × Nat) × Nat
  | .Storage _ buffer dspace =>
    (s.1 ++ [({ buffer_id := buffer, dspace_id := dspace, branch_leaf_id := 0 }, s.2)], s.2)
  | .For _ _ _ => (s.1, s.2 + 1)
  | .ParFor _ _ _ => (s.1, s.2 + 1)
  | .Compute id _ =>
    (s.1.map (fun e => ({ e.1 with branch_leaf_id := id }, e.2)), s.2)
  | _ => s

/-- `BufferIterLevelsFromMapping`. -/
def BufferIterLevelsFromMapping (m : FusedMapping) : List (LogicalBuffer × Nat) :=
  m.paths.foldl (fun result path => result ++ (path.foldl bufferLevelVisit ([], 0)).1) []

/-- `LogicalBufTiling`: logical buffer to reduced tiling. -/
abbrev LogicalBufTiling := List (LogicalBuffer × IslMap)

/-- `LogicalBufTilingFromMapping`; `branch_tiling.at` throws on a leaf id
that has no tiling. -/
def LogicalBufTilingFromMapping (m : FusedMapping) (branch_tiling : BranchTilings) :
    Option LogicalBufTiling :=
  foldM
    (fun result (e : LogicalBuffer × Nat) =>
      match StdMap.find e.1.branch_leaf_id branch_tiling with
      | none => none
      | some tiling =>
        some (StdMap.emplace LogicalBuffer.lt e.1 (project_dim_in_after tiling e.2) result))
    [] (BufferIterLevelsFromMapping m)

/-- The tags of `spacetime::Dimension` used by the skew builder. -/
inductive spacetime.Dimension where
  | Time
  | SpaceX
  | SpaceY
  deriving DecidableEq, Repr

/-- `TaggedMap`: a relation with one tag per input coordinate. -/
structure TaggedMap (Tag : Type) where
  map : IslMap
  dim_in_tags : List Tag

/-- `TaggedMap<isl::map, spacetime::Dimension>`, the tagged relations of the
skew builder and of the occupancy composer. -/
abbrev Skew := TaggedMap spacetime.Dimension

/-- Modelled from the spec: `TaggedMap::apply_range` is declared in a header
that is not at hand.  The relation is composed with the argument (the tagged
relation first) and the tags of the input coordinates are kept. -/
def TaggedMap.apply_range {Tag : Type} (t : TaggedMap Tag) (n : IslMap) : TaggedMap Tag :=
  { map := t.map.apply_range n, dim_in_tags := t.dim_in_tags }

/-- Modelled from the spec: `isl::insert_equal_dims(map, in_pos, out_pos, n)`
is defined in the relation wrapper, whose source is not at hand.  It inserts
`n` input coordinates at `in_pos` and `n` output coordinates at `out_pos`,
constrained equal (pass-through coordinates). -/
def insert_equal_dims (map : IslMap) (in_pos out_pos n : Nat) : IslMap :=
  { nIn := map.nIn + n, nOut := map.nOut + n,
    rel := fun x y =>
      x.length = map.nIn + n ∧ y.length = map.nOut + n ∧
      map.rel (x.take in_pos ++ x.drop (in_pos + n)) (y.take out_pos ++ y.drop (out_pos + n)) ∧
      (x.drop in_pos).take n = (y.drop out_pos).take n }

/-- Modelled from the spec: `isl::insert_dummy_dim_ins(map, pos, n)` is defined
in the relation wrapper, whose source is not at hand.  It inserts `n`
synthetic input coordinates of width 1 at `pos`: each takes the value 0 only. -/
def insert_dummy_dim_ins (map : IslMap) (pos n : Nat) : IslMap :=
  { nIn := map.nIn + n, nOut := map.nOut,
    rel := fun x y =>
      x.length = map.nIn + n ∧
      map.rel (x.take pos ++ x.drop (pos + n)) y ∧
      (x.drop pos).take n = List.replicate n 0 }

/-- `LogicalBufSkews`: logical buffer to tagged skew relation. -/
abbrev LogicalBufSkews := List (LogicalBuffer × Skew)

/-- Local state of the walk over one path in `LogicalBufSkewsFromMapping`,
together with the map `skews` being filled. -/
structure SkewWalk where
  tags : List spacetime.Dimension
  map : IslMap
  cur_has_spatial : Bool
  new_cur_has_spatial : Bool
  last_buf : Option BufferId
  skews : LogicalBufSkews

/-- A `Storage` node seen by the skew walk. -/
def skewStorage (leaf : MappingNode) (s : SkewWalk) (buffer : BufferId)
    (dspace : DataSpaceId) : SkewWalk :=
  let cur_has_spatial :=
    if s.last_buf = some buffer then s.new_cur_has_spatial || s.cur_has_spatial
    else s.new_cur_has_spatial
  let tags := if cur_has_spatial then s.tags else s.tags ++ [spacetime.Dimension.SpaceX]
  let map := if cur_has_spatial then s.map else insert_dummy_dim_ins s.map s.map.nIn 1
  { tags := tags,
    map := map,
    cur_has_spatial := true,
    new_cur_has_spatial := false,
    last_buf := some buffer,
    skews := StdMap.emplace LogicalBuffer.lt
      { buffer_id := buffer, dspace_id := dspace, branch_leaf_id := GetNodeId leaf }
      { map := map, dim_in_tags := tags } s.skews }

/-- The visitor of the skew walk.  The loop kinds are `For` and `ParFor`, so
the branch that throws `std::logic_error("unreachable")` has no case here. -/
def skewVisit (leaf : MappingNode) (s : SkewWalk) : MappingNode → SkewWalk
  | .Storage _ buffer dspace => skewStorage leaf s buffer dspace
  | .For _ _ _ =>
    { s with
      tags := s.tags ++ [spacetime.Dimension.Time],
      map := insert_equal_dims s.map s.map.nIn s.map.nOut 1 }
  | .ParFor _ _ _ =>
    { s with
      new_cur_has_spatial := true,
      tags := s.tags ++ [spacetime.Dimension.SpaceX],
      map := insert_equal_dims s.map s.map.nIn s.map.nOut 1 }
  | _ => s

/-- The walk of `LogicalBufSkewsFromMapping` over one path, from the state
every path starts in. -/
def skewPath (skews : LogicalBufSkews) (path : List MappingNode) : LogicalBufSkews :=
  match path.getLast? with
  | none => skews
  | some leaf =>
    (path.foldl (skewVisit leaf)
      { tags := [],
        map := map_from_multi_aff (MultiAff.identity_on_domain 0),
        cur_has_spatial := false,
        new_cur_has_spatial := false,
        last_buf := none,
        skews := skews }).skews

/-- `LogicalBufSkewsFromMapping`. -/
def LogicalBufSkewsFromMapping (m : FusedMapping) : LogicalBufSkews :=
  m.paths.foldl skewPath []

/-! ## Occupancy composer (`OccupanciesFromMapping`) -/

/-- `LogicalBufOccupancies`: logical buffer to tagged occupancy relation. -/
abbrev LogicalBufOccupancies := List (LogicalBuffer × Skew)

/-- The access relation chosen for a buffer: the read accesses when the einsum
reads the dataspace, else the write accesses when it writes it, else none. -/
def accessesOf (w : FusedWorkload) (einsum : EinsumId) (dspace : DataSpaceId) :
    Option IslMap :=
  if dspace ∈ w.TensorsReadByEinsum einsum then some (w.ReadAccesses einsum dspace)
  else if dspace ∈ w.TensorsWrittenByEinsum einsum then some (w.WriteAccesses einsum dspace)
  else none

/-- Body of the loop over `buf_skew` in `OccupanciesFromMapping`. -/
def occupancyStep (m : FusedMapping) (w : FusedWorkload) (tilings : LogicalBufTiling)
    (occupancies : LogicalBufOccupancies) (e : LogicalBuffer × Skew) :
    Option LogicalBufOccupancies :=
  match m.kernelAt e.1.branch_leaf_id with
  | none => none
  | some einsum =>
    match StdMap.find e.1 tilings with
    | none => none
    | some tiling =>
      match accessesOf w einsum e.1.dspace_id with
      | none => some occupancies
      | some accesses =>
        some (StdMap.emplace LogicalBuffer.lt e.1
          (e.2.apply_range
            (project_dim_in_after (tiling.apply_range accesses) e.2.map.nOut))
          occupancies)

/-- `OccupanciesFromMapping`.  The source dereferences the optional returned
by `BranchIdxFromMapping` without a test; `unchecked` stands for the value
that dereference yields when the optional is empty. -/
def OccupanciesFromMapping (E : Engine) (unchecked : Nat) (m : FusedMapping)
    (w : FusedWorkload) : Option LogicalBufOccupancies :=
  match TilingFromMapping m w with
  | none => none
  | some branch_tiling =>
    let branch_idx := BranchIdxFromMapping m
    let dspace_indices := DspaceTopIdxFromMapping m
    match LoopBoundsInference E branch_tiling m w (branch_idx.getD unchecked)
        dspace_indices with
    | none => none
    | some branch_tiling =>
      match LogicalBufTilingFromMapping m branch_tiling with
      | none => none
      | some tilings =>
        foldM (occupancyStep m w tilings) [] (LogicalBufSkewsFromMapping m)

/-- The entry of `new_results` once the `Compute` node `id` has been seen. -/
def withLeaf (id : NodeID) (e : LogicalBuffer × Nat) : LogicalBuffer × Nat :=
  ({ e.1 with branch_leaf_id := id }, e.2)

/-- Every path ends with a `Compute` node (its leaf). -/
def PathsEndInCompute (m : FusedMapping) : Prop :=
  ∀ p ∈ m.paths, ∃ pre id kernel, p = pre ++ [MappingNode.Compute id kernel]

/-- The skew walk and the level walk agree: the skew relation has as many output
coordinates as loops were counted, every recorded skew has as many output
coordinates as the level recorded first for its buffer, and a buffer without
a skew has no level. -/
def SkewLevelInv (levels : List (LogicalBuffer × Nat)) (nOut level : Nat)
    (skews : LogicalBufSkews) : Prop :=
  nOut = level ∧
  (∀ buf sk, (buf, sk) ∈ skews → StdMap.find buf levels = some sk.map.nOut) ∧
  (∀ buf, StdMap.find buf skews = none → StdMap.find buf levels = none)

/-! ## Result aggregator (`LooptreeModel::Run`) -/

/-- The alternatives of `analysis::SpaceTime`. -/
inductive SpaceTime where
  | Temporal
  | Spatial
  | Sequential
  | PipelineTemporal
  | PipelineSpatial
  deriving DecidableEq, Repr

/-- A tagged relation of the reuse analysis. -/
abbrev Occupancy := TaggedMap SpaceTime

/-- The count `isl_pw_qpolynomial` of a relation: `dom` holds the points where
the count is defined, and the value at such a point is the number of tuples
in its `fiber`. -/
structure PwQPolynomial where
  dom : List Int → Prop
  fiber : List Int → List Int → Prop

/-- `isl_map_card`: at each point of the domain of the relation, the number of
tuples related to it. -/
def isl_map_card (m : IslMap) : PwQPolynomial :=
  { dom := fun s => ∃ d, m.rel s d, fiber := m.rel }

/-- `isl_pw_qpolynomial_intersect_domain`. -/
def isl_pw_qpolynomial_intersect_domain (q : PwQPolynomial) (s : IslSet) : PwQPolynomial :=
  { dom := fun x => q.dom x ∧ s.mem x, fiber := q.fiber }

/-- `isl_map_identity` on the space of a set with `n` coordinates. -/
def isl_map_identity (n : Nat) : IslMap :=
  { nIn := n, nOut := n, rel := fun x y => x.length = n ∧ y = x }

/-- The coordinates of `s` at the positions where the mask is false. -/
def dropMasked : List Bool → List Int → List Int
  | b :: mask, v :: s => if b then dropMasked mask s else v :: dropMasked mask s
  | _, _ => []

/-- Modelled from the spec: `isl::dim_projector(space, mask)` is defined in the
relation wrapper, whose source is not at hand.  It is the projector that drops
the masked coordinates; it is applied in front of the relation, so it relates
a reduced tuple to every tuple of the space that reduces to it. -/
def dim_projector (n : Nat) (mask : List Bool) : IslMap :=
  { nIn := (mask.filter (fun b => !b)).length, nOut := n,
    rel := fun t s => s.length = n ∧ t = dropMasked mask s }

/-- The statistics record of one buffer returned by the reuse analysis. -/
structure BufStats where
  effective_occupancy : Occupancy
  fill : Occupancy
  parent_reads : Occupancy
  link_transfer : Occupancy

/-- `analysis::ReuseAnalysisOptions`. -/
structure ReuseAnalysisOptions where
  count_hops : Bool

/-- `analysis::ReuseAnalysisOutput`. -/
structure ReuseAnalysisOutput where
  buf_to_stats : List (LogicalBuffer × BufStats)

/-- The key of `lcomp_to_occupancy`; `Run` reads its leaf only. -/
structure LogicalComputeUnit where
  branch_leaf_id : NodeID
  deriving DecidableEq, Repr

/-- `analysis::MappingAnalysisResult`, the two fields `Run` reads. -/
structure MappingAnalysisResult where
  lbuf_to_occupancy : List (LogicalBuffer × Occupancy)
  lcomp_to_occupancy : List (LogicalComputeUnit × Occupancy)

/-- The key `(buffer, dataspace, einsum)` of the per-buffer maps of `Result`. -/
abbrev ResultKey := BufferId × DataSpaceId × EinsumId

/-- Key order of `std::tuple`: lexicographic. -/
def ResultKey.lt (a b : ResultKey) : Bool :=
  decide (a.1 < b.1) ||
    (decide (a.1 = b.1) &&
      (decide (a.2.1 < b.2.1) || (decide (a.2.1 = b.2.1) && decide (a.2.2 < b.2.2))))

/-- A value of `Result`: a tag sequence and a count.  The source stores the
text that `isl_pw_qpolynomial_to_str` prints for the count; the count stands
for its text here. -/
abbrev ResultValue := List SpaceTime × PwQPolynomial

/-- `LooptreeModel::Result`. -/
structure Result where
  ops : List (EinsumId × ResultValue)
  fills : List (ResultKey × ResultValue)
  fills_by_parent : List (ResultKey × ResultValue)
  fills_by_peer : List (ResultKey × ResultValue)
  occupancy : List (ResultKey × ResultValue)
  temporal_steps : List (EinsumId × ResultValue)

/-- Body of the first loop of `Run`, over `buf_to_stats`. -/
def bufStatsStep (m : FusedMapping) (model_result : Result)
    (e : LogicalBuffer × BufStats) : Option Result :=
  match m.kernelAt e.1.branch_leaf_id with
  | none => none
  | some einsum_id =>
    let key : ResultKey := (e.1.buffer_id, e.1.dspace_id, einsum_id)
    let p_occ_count := isl_map_card e.2.effective_occupancy.map
    let model_result := { model_result with
      occupancy := StdMap.assign ResultKey.lt key
        (e.2.effective_occupancy.dim_in_tags, p_occ_count) model_result.occupancy }
    let p_fill_count := isl_map_card e.2.fill.map
    let model_result := { model_result with
      fills_by_parent := StdMap.assign ResultKey.lt key
        (e.2.fill.dim_in_tags, p_fill_count) model_result.fills_by_parent }
    let p_parent_reads_count := isl_map_card e.2.parent_reads.map
    let model_result := { model_result with
      fills_by_parent := StdMap.assign ResultKey.lt key
        (e.2.parent_reads.dim_in_tags, p_parent_reads_count) model_result.fills_by_parent }
    let p_peer_fills_count := isl_map_card e.2.link_transfer.map
    let p_peer_fills_count :=
      isl_pw_qpolynomial_intersect_domain p_peer_fills_count e.2.fill.map.domain
    some { model_result with
      fills_by_peer := StdMap.assign ResultKey.lt key
        (e.2.link_transfer.dim_in_tags, p_peer_fills_count) model_result.fills_by_peer }

/-- `std::holds_alternative<analysis::Spatial>`. -/
def isSpatial : SpaceTime → Bool
  | .Spatial => true
  | _ => false

/-- The relation `bounded_identity` whose count is the temporal-step count. -/
def boundedIdentity (occupancy : Occupancy) : IslMap :=
  let is_spatial_mask := occupancy.dim_in_tags.map isSpatial
  let projector := dim_projector occupancy.map.nIn is_spatial_mask
  let non_spatial_map := projector.apply_range occupancy.map
  let unbounded_identity := isl_map_identity non_spatial_map.domain.dim
  unbounded_identity.intersect_domain non_spatial_map.domain

/-- Body of the second loop of `Run`, over `lcomp_to_occupancy`. -/
def computeStep (m : FusedMapping) (model_result : Result)
    (e : LogicalComputeUnit × Occupancy) : Option Result :=
  match m.kernelAt e.1.branch_leaf_id with
  | none => none
  | some kernel =>
    let dim_tags := e.2.dim_in_tags
    let p_ops := isl_map_card e.2.map
    let model_result := { model_result with
      ops := StdMap.assign natLt kernel (dim_tags, p_ops) model_result.ops }
    let new_dim_tags := dim_tags.filter (fun dim_tag => !isSpatial dim_tag)
    let temporal_steps := isl_map_card (boundedIdentity e.2)
    some { model_result with
      temporal_steps := StdMap.assign natLt kernel (new_dim_tags, temporal_steps)
        model_result.temporal_steps }

/-- `LooptreeModel::Run`.  `mapping_analysis_result` is what the call of
`OccupanciesFromMapping` hands to `Run`, and `ReuseAnalysis` is the reuse
analysis, an external collaborator. -/
def Run (m : FusedMapping) (mapping_analysis_result : MappingAnalysisResult)
    (ReuseAnalysis : List (LogicalBuffer × Occupancy) → ReuseAnalysisOptions →
      ReuseAnalysisOutput) : Option Result :=
  let reuse_analysis_options : ReuseAnalysisOptions := { count_hops := false }
  let reuse_analysis_output :=
    ReuseAnalysis mapping_analysis_result.lbuf_to_occupancy reuse_analysis_options
  match foldM (bufStatsStep m)
      { ops := [], fills := [], fills_by_parent := [], fills_by_peer := [],
        occupancy := [], temporal_steps := [] }
      reuse_analysis_output.buf_to_stats with
  | none => none
  | some model_result =>
    foldM (computeStep m) model_result mapping_analysis_result.lcomp_to_occupancy

/-- The finite relation on one input and one output coordinate that holds
exactly the listed pairs. -/
def pointMap (pairs : List (List Int × List Int)) : IslMap :=
  { nIn := 1, nOut := 1, rel := fun x y => (x, y) ∈ pairs }

/-- Statistics of one buffer in which the four relations are all different:
the fill relation holds two pairs, the parent reads one of them. -/
def distinctStats : BufStats :=
  { effective_occupancy :=
      { map := pointMap [([0], [0]), ([0], [1]), ([0], [2])],
        dim_in_tags := [SpaceTime.Temporal] },
    fill := { map := pointMap [([0], [0]), ([0], [1])], dim_in_tags := [SpaceTime.Temporal] },
    parent_reads := { map := pointMap [([0], [0])], dim_in_tags := [SpaceTime.Temporal] },
    link_transfer := { map := pointMap [([1], [1])], dim_in_tags := [SpaceTime.Temporal] } }

/-- A reuse analysis that reports `distinctStats` for the logical buffer
(buffer 0, dataspace 0, leaf 3). -/
def distinctReuse (_ : List (LogicalBuffer × Occupancy)) (_ : ReuseAnalysisOptions) :
    ReuseAnalysisOutput :=
  { buf_to_stats :=
      [({ buffer_id := 0, dspace_id := 0, branch_leaf_id := 3 }, distinctStats)] }

/-- The values stored anywhere in a `Result`. -/
def Result.values (r : Result) : List ResultValue :=
  (r.ops ++ r.temporal_steps).map Prod.snd ++
    (r.fills ++ r.fills_by_parent ++ r.fills_by_peer ++ r.occupancy).map Prod.snd

/-- The coordinates of `s` at the positions where the mask is true. -/
def keepMasked : List Bool → List Int → List Int
  | b :: mask, v :: s => if b then v :: keepMasked mask s else keepMasked mask s
  | _, _ => []

/-- The tuple `p` lies in the box of the given extents: `0 ≤ p[k] < extents[k]`. -/
def inBox (extents : List Nat) (p : List Int) : Prop :=
  List.Forall₂ (fun v (e : Nat) => 0 ≤ v ∧ v < (e : Int)) p extents

/-- The pairs a count ranges over: the sum of the count over its domain is
the number of these pairs. -/
def PwQPolynomial.graph (q : PwQPolynomial) : Set (List Int × List Int) :=
  {p | q.dom p.1 ∧ q.fiber p.1 p.2}

/-- The relation of a compute leaf runs one operation at each of its space-time
points, and its points are a full product: the Spatial-tagged coordinates of
every point lie in the box of the given extents, and with a point every tuple
with the same other coordinates and Spatial-tagged coordinates in that box is
a point as well. -/
def FullSpatialBox (occupancy : Occupancy) (extents : List Nat) : Prop :=
  occupancy.map.nIn = occupancy.dim_in_tags.length ∧
  (∀ s o o', occupancy.map.rel s o → occupancy.map.rel s o' → o = o') ∧
  (∀ s o, occupancy.map.rel s o →
    s.length = occupancy.dim_in_tags.length ∧
    inBox extents (keepMasked (occupancy.dim_in_tags.map isSpatial) s)) ∧
  (∀ s o s', occupancy.map.rel s o → s'.length = occupancy.dim_in_tags.length →
    dropMasked (occupancy.dim_in_tags.map isSpatial) s'
      = dropMasked (occupancy.dim_in_tags.map isSpatial) s →
    inBox extents (keepMasked (occupancy.dim_in_tags.map isSpatial) s') →
    ∃ o', occupancy.map.rel s' o')

/-- A path that splits dimension 0 into a temporal loop (tile size 2) and a
spatial loop (tile size 1) inside it. -/
def splitPath : List MappingNode :=
  [.For 0 0 (some 2), .ParFor 1 0 (some 1), .Compute 2 0]

/-- The mapping with `splitPath` as its only path. -/
def splitMapping : FusedMapping :=
  { paths := [splitPath], NodeAt := nodeAtOf [splitPath] }

/-- A workload with one einsum over `0 ≤ o < bound` on dimension 0. -/
def splitWorkload (bound : Int) : FusedWorkload :=
  { TensorsReadByEinsum := fun _ => [1],
    TensorsWrittenByEinsum := fun _ => [0],
    WriterEinsum := fun d => if d = 0 then some 0 else none,
    ReadAccesses := fun _ _ => shiftAccess 0,
    WriteAccesses := fun _ _ => shiftAccess 0,
    EinsumOspaceBound := fun _ => boxSet [bound],
    DataSpaceBound := fun _ => boxSet [bound],
    EinsumDimToIdx := fun _ => [(0, 0)] }

/-- The relation of the leaf of `splitMapping`: its tiling, tagged with the
kinds of its two loops. -/
def splitOccupancy (bound : Int) : Occupancy :=
  { map := tilingAt (TilingFromMapping splitMapping (splitWorkload bound)) 2,
    dim_in_tags := [SpaceTime.Temporal, SpaceTime.Spatial] }

/-- What `Run` is handed for `splitMapping`: no logical buffer, one leaf. -/
def splitAnalysis (bound : Int) : MappingAnalysisResult :=
  { lbuf_to_occupancy := [],
    lcomp_to_occupancy := [({ branch_leaf_id := 2 }, splitOccupancy bound)] }

/-- A reuse analysis with no buffer to report. -/
def noReuse (_ : List (LogicalBuffer × Occupancy)) (_ : ReuseAnalysisOptions) :
    ReuseAnalysisOutput :=
  { buf_to_stats := [] }

/-- Entry `b` keeps the leaf id and the coordinate counts of entry `a`, and its
relation is that of `a` restricted to a set of iteration tuples: it is
contained in it and, with a pair `(x, o)`, holds every pair `(x, o')` of `a`. -/
def xFilter (a b : NodeID × IslMap) : Prop :=
  b.1 = a.1 ∧ b.2.nIn = a.2.nIn ∧ b.2.nOut = a.2.nOut ∧
  (∀ x o, b.2.rel x o → a.2.rel x o) ∧
  (∀ x o o', b.2.rel x o → a.2.rel x o' → b.2.rel x o')

/-- Entry `b` is a restriction of entry `a` that leaves `a` as it is when the
einsum of the leaf has rank below `k`. -/
def evolves (m : FusedMapping) (rank : EinsumId → Nat) (k : Nat)
    (a b : NodeID × IslMap) : Prop :=
  xFilter a b ∧ ∀ e, m.kernelAt a.1 = some e → rank e < k → b = a

/-- Every update that a complete consumer leaf of the tilings would make to a
producer leaf whose einsum has rank below `k` changes nothing. -/
def settled (E : Engine) (m : FusedMapping) (w : FusedWorkload) (idx : Nat)
    (top : List (DataSpaceId × Nat)) (rank : EinsumId → Nat) (k : Nat)
    (S : BranchTilings) : Prop :=
  ∀ c ∈ S, ∀ kc, m.kernelAt c.1 = some kc → isComplete E c.2 = true →
    ∀ t ∈ w.TensorsReadByEinsum kc, ∀ p, w.WriterEinsum t = some p →
      ∀ ti, StdMap.find t top = some ti →
        ∀ e ∈ S, m.kernelAt e.1 = some p → rank p < k →
          inferredProdTiling (requiredOps E w idx ti kc t p c.2) idx e.2 = e.2

/-- The producer einsums of the leaves rank strictly above their consumers,
with ranks below the number of leaves: no einsum of a leaf depends on its own
output, directly or through other leaves. -/
def rankedLeaves (m : FusedMapping) (w : FusedWorkload) (rank : EinsumId → Nat)
    (keys : List NodeID) : Prop :=
  (∀ l ∈ keys, ∀ p, m.kernelAt l = some p → rank p < keys.length) ∧
  (∀ lc ∈ keys, ∀ lp ∈ keys, ∀ kc p, m.kernelAt lc = some kc → m.kernelAt lp = some p →
    ∀ t ∈ w.TensorsReadByEinsum kc, w.WriterEinsum t = some p → rank kc < rank p)

/-- No lookup of the inference can throw: every leaf is a `Compute` node and
every intermediate tensor read by a leaf's einsum has a top index. -/
def lookupsDefined (m : FusedMapping) (w : FusedWorkload)
    (top : List (DataSpaceId × Nat)) (keys : List NodeID) : Prop :=
  ∀ l ∈ keys, ∃ k, m.kernelAt l = some k ∧
    ∀ t ∈ w.TensorsReadByEinsum k, ∀ p, w.WriterEinsum t = some p →
      ∃ ti, StdMap.find t top = some ti

/-- The tiling of the leaf of the recurrence. -/
def recurrenceTiling : IslMap :=
  tilingAt (TilingFromMapping recurrenceMapping recurrenceWorkload) 4

/-- The tiling of the leaf of the recurrence after one update by itself as
the consumer, with pipeline index 1 and top index 1. -/
def recurrenceOnce : IslMap :=
  inferredProdTiling
    (requiredOps boundedEngine recurrenceWorkload 1 1 0 0 0 recurrenceTiling) 1
    recurrenceTiling

/-- The tiling of the leaf of the recurrence after a second such update. -/
def recurrenceTwice : IslMap :=
  inferredProdTiling
    (requiredOps boundedEngine recurrenceWorkload 1 1 0 0 0 recurrenceOnce) 1
    recurrenceOnce

/-- The paths of a pipeline of two einsums under a shared loop: the leaf of
einsum 0 (node 3) and the leaf of einsum 1 (node 5). -/
def chainPaths : List (List MappingNode) :=
  [[.For 0 0 (some 2), .Pipeline 1, .Storage 6 0 0, .For 2 0 (some 1), .Compute 3 0],
   [.For 0 0 (some 2), .Pipeline 1, .Storage 7 0 1, .For 4 0 (some 1), .Compute 5 1]]

/-- The mapping of the pipeline of two einsums. -/
def chainMapping : FusedMapping :=
  { paths := chainPaths, NodeAt := nodeAtOf chainPaths }

/-- Einsum 0 reads the input dataspace 2 and writes dataspace 0; einsum 1 reads
dataspace 0 and writes dataspace 1.  Both range over `0 ≤ o < 4`. -/
def chainWorkload : FusedWorkload :=
  { TensorsReadByEinsum := fun e => if e = 0 then [2] else [0],
    TensorsWrittenByEinsum := fun e => if e = 0 then [0] else [1],
    WriterEinsum := fun d => if d = 0 then some 0 else if d = 1 then some 1 else none,
    ReadAccesses := fun _ _ => shiftAccess 0,
    WriteAccesses := fun _ _ => shiftAccess 0,
    EinsumOspaceBound := fun _ => boxSet [4],
    DataSpaceBound := fun _ => boxSet [4],
    EinsumDimToIdx := fun _ => [(0, 0)] }

/-- The tilings `TilingFromMapping` builds for the pipeline of two einsums. -/
def chainTilings : BranchTilings :=
  (TilingFromMapping chainMapping chainWorkload).getD []

/-- The producer einsum 0 ranks above its consumer, einsum 1. -/
def chainRank (e : EinsumId) : Nat := if e = 0 then 1 else 0

/-! ## The skew builder with its structural check -/

/-- A loop whose body may throw with a message, over the elements of a list. -/
def foldExcept {σ α : Type} (f : σ → α → Except String σ) : σ → List α → Except String σ
  | s, [] => .ok s
  | s, a :: rest =>
    match f s a with
    | .error msg => .error msg
    | .ok s' => foldExcept f s' rest

/-- The visitor of the skew walk with the branch that throws
`std::logic_error("unreachable")`.  The trait `mapping::IsLoopV` is declared in
a header that is not at hand and is taken as the parameter `isLoop`: a node of
a loop kind that is neither `For` nor `ParFor` reaches the throw. -/
def skewVisitChecked (isLoop : MappingNode → Bool) (leaf : MappingNode) (s : SkewWalk)
    (node : MappingNode) : Except String SkewWalk :=
  match node with
  | .Storage _ buffer dspace => .ok (skewStorage leaf s buffer dspace)
  | .For _ _ _ =>
    if isLoop node then
      .ok { s with
        tags := s.tags ++ [spacetime.Dimension.Time],
        map := insert_equal_dims s.map s.map.nIn s.map.nOut 1 }
    else .ok s
  | .ParFor _ _ _ =>
    if isLoop node then
      .ok { s with
        new_cur_has_spatial := true,
        tags := s.tags ++ [spacetime.Dimension.SpaceX],
        map := insert_equal_dims s.map s.map.nIn s.map.nOut 1 }
    else .ok s
  | _ => if isLoop node then .error "unreachable" else .ok s

/-- The walk over one path with the structural check. -/
def skewPathChecked (isLoop : MappingNode → Bool) (skews : LogicalBufSkews)
    (path : List MappingNode) : Except String LogicalBufSkews :=
  match path.getLast? with
  | none => .ok skews
  | some leaf =>
    match foldExcept (skewVisitChecked isLoop leaf)
        { tags := [],
          map := map_from_multi_aff (MultiAff.identity_on_domain 0),
          cur_has_spatial := false,
          new_cur_has_spatial := false,
          last_buf := none,
          skews := skews } path with
    | .error msg => .error msg
    | .ok s => .ok s.skews

/-- `LogicalBufSkewsFromMapping` with the structural check. -/
def LogicalBufSkewsFromMappingChecked (isLoop : MappingNode → Bool) (m : FusedMapping) :
    Except String LogicalBufSkews :=
  foldExcept (skewPathChecked isLoop) [] m.paths

/-- A path with two `Storage` nodes under one loop: buffer 0 holds dataspace 0,
which the einsum writes, and buffer 1 holds dataspace 5, which the einsum
neither reads nor writes. -/
def inertPath : List MappingNode :=
  [.For 0 0 (some 1), .Storage 1 0 0, .Storage 2 1 5, .Compute 3 0]

/-- The mapping with `inertPath` as its only path. -/
def inertMapping : FusedMapping :=
  { paths := [inertPath], NodeAt := nodeAtOf [inertPath] }

/-! ## The producer update of the inference, in the words of the specification -/

/-- The data the consumer einsum `kc` requires of the tensor `t` at the
pipeline step `c`: an element `d` read by an operation `o` inside the
consumer's output-space bound that some iteration `x` of the consumer tiling
`T` at that step (`c` is `x` cut to the pipeline index) executes. -/
def requiredData (w : FusedWorkload) (idx : Nat) (kc : EinsumId) (t : DataSpaceId)
    (T : IslMap) (c d : List Int) : Prop :=
  ∃ x o, T.rel x o ∧ c = x.take idx ∧ (w.EinsumOspaceBound kc).mem o ∧
    (w.ReadAccesses kc t).rel o d

/-- The data buffered from the prior step: what the consumer requires at a
step that the shift to prior data relates to `c`. -/
def bufferedData (E : Engine) (w : FusedWorkload) (idx ti : Nat) (kc : EinsumId)
    (t : DataSpaceId) (T : IslMap) (c d : List Int) : Prop :=
  ∃ c', (E.MapToPriorData idx ti).rel c c' ∧ requiredData w idx kc t T c' d

/-- The required operations of the producer einsum `p` at the pipeline step
`c`: the operations inside the producer's output-space bound that write an
element inside the dataspace bound which the consumer requires at `c` and
which is not among the data buffered from the prior step. -/
def requiredOperation (E : Engine) (w : FusedWorkload) (idx ti : Nat) (kc : EinsumId)
    (t : DataSpaceId) (p : EinsumId) (T : IslMap) (c o : List Int) : Prop :=
  (w.EinsumOspaceBound p).mem o ∧
    ∃ d, (w.WriteAccesses p t).rel o d ∧ (w.DataSpaceBound t).mem d ∧
      requiredData w idx kc t T c d ∧ ¬ bufferedData E w idx ti kc t T c d

/-! ## The branch tiling in closed form

The definitions of this section describe in closed form the relation that
`TilingFromMapping` builds for a path, with the tile sizes as the walk records
them; the theorems compare them with the walk taken from the source. -/

/-- The problem dimension and tile size of a loop node, as the mapping
declares them; no value for a node that is not a loop. -/
def loopOf : MappingNode → Option (DimensionId × Option Nat)
  | .For _ op_dim tile_size => some (op_dim, tile_size)
  | .ParFor _ op_dim tile_size => some (op_dim, tile_size)
  | _ => none

/-- The loops of a path from the root down; the loop at position `k` of this
list owns coordinate `k` of the iteration tuples. -/
def loopsOf (path : List MappingNode) : List (DimensionId × Option Nat) :=
  path.filterMap loopOf

/-- The problem dimension of a loop node and its tile size as the walk of
`TilingFromMapping` records it: converted to `int`. -/
def storedLoopOf : MappingNode → Option (DimensionId × Option Int)
  | .For _ op_dim tile_size => some (op_dim, tile_size.map narrowToInt)
  | .ParFor _ op_dim tile_size => some (op_dim, tile_size.map narrowToInt)
  | _ => none

/-- The loops of a path from the root down, each with its tile size as
recorded (`int`); position by position the loops of `loopsOf`. -/
def storedLoopsOf (path : List MappingNode) : List (DimensionId × Option Int) :=
  path.filterMap storedLoopOf

/-- The leaf and einsum of a path: the id and kernel of its last `Compute`
node. -/
def pathLeaf (path : List MappingNode) : Option (NodeID × EinsumId) :=
  path.foldl
    (fun acc node =>
      match node with
      | .Compute id kernel => some (id, kernel)
      | _ => acc)
    none

/-- The loops bound to dimension `d` that have a known tile size, outermost
first, each with its position (counted from `k`) and its recorded tile size. -/
def tiledFrom (d : DimensionId) : List (DimensionId × Option Int) → Nat → List (Nat × Int)
  | [], _ => []
  | (op_dim, some t) :: rest, k =>
    if op_dim = d then (k, t) :: tiledFrom d rest (k + 1) else tiledFrom d rest (k + 1)
  | (_, none) :: rest, k => tiledFrom d rest (k + 1)

/-- The tiled loops of a path that are bound to dimension `d`, each with its
position among the loops of the path and its tile size as recorded (`int`). -/
def tiledLoops (d : DimensionId) (path : List MappingNode) : List (Nat × Int) :=
  tiledFrom d (storedLoopsOf path) 0

/-- The constraints on the coordinates of the tiled loops of one dimension:
each is non-negative, and each but the outermost is below the tile size of the
tiled loop before it (`last`). -/
def chainFrom (x : List Int) : Option Int → List (Nat × Int) → Prop
  | _, [] => True
  | last, (k, t) :: rest =>
    0 ≤ x.getD k 0 ∧
      (match last with
        | some c => x.getD k 0 < c
        | none => True) ∧
      chainFrom x (some t) rest

/-- The coefficients of the output coordinate `i`: the recorded tile size of
every tiled loop whose dimension the einsum has at index `i`, and zero for the
others. -/
def targetRow (D : List (DimensionId × Nat)) (i : Nat)
    (L : List (DimensionId × Option Int)) : List Int :=
  L.map (fun l =>
    match l.2 with
    | some t => if StdMap.find l.1 D = some i then t else 0
    | none => 0)

/-- The sum of `c(k) · x[k]` over the tiled loops `k` whose dimension the
einsum has at index `i`, with `c(k)` the recorded tile size of loop `k`. -/
def tileSum (D : List (DimensionId × Nat)) (i : Nat)
    (L : List (DimensionId × Option Int)) (x : List Int) : Int :=
  (List.zipWith (fun c v => c * v) (targetRow D i L) x).sum

/-- The relation of a path in closed form: one coordinate per loop, every output
coordinate the sum of recorded tile size times coordinate over its tiled loops,
and the chain constraints on the tiled loops of every dimension of the
einsum. -/
def tilingSpec (w : FusedWorkload) (einsum : EinsumId) (path : List MappingNode) : IslMap :=
  { nIn := (storedLoopsOf path).length,
    nOut := (w.EinsumOspaceBound einsum).dim,
    rel := fun x o =>
      x.length = (storedLoopsOf path).length ∧
      o = (List.range (w.EinsumOspaceBound einsum).dim).map
        (fun i => tileSum (w.EinsumDimToIdx einsum) i (storedLoopsOf path) x) ∧
      ∀ d, (StdMap.find d (w.EinsumDimToIdx einsum)).isSome →
        chainFrom x none (tiledLoops d path) }

/-- The first path of the list whose leaf has the given id: the one whose
relation the `emplace` of `TilingFromMapping` keeps. -/
def firstPathOf (paths : List (List MappingNode)) (leaf : NodeID) :
    Option (List MappingNode) :=
  paths.find? (fun p => decide ((pathLeaf p).map Prod.fst = some leaf))

/-- A path whose only loop has no tile size. -/
def untiledPath : List MappingNode :=
  [.For 0 0 none, .Compute 1 0]

/-- The mapping with `untiledPath` as its only path. -/
def untiledMapping : FusedMapping :=
  { paths := [untiledPath], NodeAt := nodeAtOf [untiledPath] }

/-- A path with two nested loops on dimension 0, both with tile size 2. -/
def overlapPath : List MappingNode :=
  [.For 0 0 (some 2), .For 1 0 (some 2), .Compute 2 0]

/-- The mapping with `overlapPath` as its only path. -/
def overlapMapping : FusedMapping :=
  { paths := [overlapPath], NodeAt := nodeAtOf [overlapPath] }

/-- A path with a loop on dimension 0 above a loop on dimension 7, which the
einsum of `recurrenceWorkload` does not have. -/
def foreignPath : List MappingNode :=
  [.For 0 0 (some 1), .For 1 7 (some 3), .Compute 2 0]

/-- The mapping with `foreignPath` as its only path. -/
def foreignMapping : FusedMapping :=
  { paths := [foreignPath], NodeAt := nodeAtOf [foreignPath] }

/-- An engine for inputs in which no coordinate of a tiling domain is bounded
below (every loop of the path is without a tile size). -/
def unboundedEngine : Engine :=
  { isl_set_dim_has_lower_bound := fun _ _ => false,
    MapToPriorData := MapToPriorData }

/-! ## Buffer levels in closed form -/

/-- The entries of the `Storage` nodes of a list of nodes, in order: the logical
buffer (buffer id, dataspace id, `leaf`) and, as its level, the number of
`For`/`ParFor` nodes among the nodes that precede the `Storage` node (`before`
holds the nodes in front of the list). -/
def levelsAfter (leaf : NodeID) :
    List MappingNode → List MappingNode → List (LogicalBuffer × Nat)
  | _, [] => []
  | before, node :: rest =>
    (match node with
      | .Storage _ buffer dspace =>
        [({ buffer_id := buffer, dspace_id := dspace, branch_leaf_id := leaf },
          (loopsOf before).length)]
      | _ => []) ++ levelsAfter leaf (before ++ [node]) rest

/-- The entries of one path, owned by the leaf of the path. -/
def levelsOfPath (path : List MappingNode) : List (LogicalBuffer × Nat) :=
  levelsAfter (((pathLeaf path).map Prod.fst).getD 0) [] path

/-! ## The history of a path as the skew builder reads it -/

/-- The buffer of a `Storage` node; no value for another node. -/
def storageBuffer : MappingNode → Option BufferId
  | .Storage _ buffer _ => some buffer
  | _ => none

/-- The buffer of the last `Storage` node of a list of nodes. -/
def lastBuffer (pre : List MappingNode) : Option BufferId :=
  pre.reverse.findSome? storageBuffer

/-- The nodes that follow the last `Storage` node of a list of nodes (all of
them when there is none). -/
def sinceLastStorage (pre : List MappingNode) : List MappingNode :=
  (pre.reverse.takeWhile (fun n => (storageBuffer n).isNone)).reverse

/-- A `ParFor` node follows the last `Storage` node: a spatial coordinate has
been accumulated since. -/
def spatialSinceStorage (pre : List MappingNode) : Bool :=
  (sinceLastStorage pre).any
    (fun n =>
      match n with
      | .ParFor _ _ _ => true
      | _ => false)

/-- The state in which the skew walk starts every path. -/
def skewStart (skews : LogicalBufSkews) : SkewWalk :=
  { tags := [],
    map := map_from_multi_aff (MultiAff.identity_on_domain 0),
    cur_has_spatial := false,
    new_cur_has_spatial := false,
    last_buf := none,
    skews := skews }

/-! ## The loop of `Run` over the tags of a compute leaf -/

/-- Body of the loop over the positions of `dim_tags` in `Run`: the state is
`is_spatial_mask` and `new_dim_tags`; `at` throws on a position outside the
vector. -/
def spatialMaskStep (dim_tags : List SpaceTime) (s : List Bool × List SpaceTime)
    (i : Nat) : Option (List Bool × List SpaceTime) :=
  match dim_tags[i]? with
  | none => none
  | some dim_tag =>
    let is_spatial := isSpatial dim_tag
    if i < s.1.length then
      some (s.1.set i is_spatial, if !is_spatial then s.2 ++ [dim_tag] else s.2)
    else none

/-- The loop over the positions of `dim_tags` in `Run`, from a mask of
`dim_tags.size()` entries `false` and no tag. -/
def spatialMaskLoop (dim_tags : List SpaceTime) : Option (List Bool × List SpaceTime) :=
  foldM (spatialMaskStep dim_tags) (List.replicate dim_tags.length false, [])
    (List.range dim_tags.length)

/-! ## Element counts of component names (`parseElementSize`) -/

/-- `std::string::find(pat)`: the first position at which `pat` occurs, or no
value (`npos`). -/
def strFind (pat : List Char) : List Char → Option Nat
  | [] => if pat = [] then some 0 else none
  | c :: rest =>
    if pat.isPrefixOf (c :: rest) then some 0
    else (strFind pat rest).map (fun i => i + 1)

/-- `std::string::substr(pos, len)`; it throws when `pos` lies beyond the end. -/
def substr (s : List Char) (pos len : Nat) : Option (List Char) :=
  if pos ≤ s.length then some ((s.drop pos).take len) else none

/-- The characters `std::isspace` accepts in the C locale. -/
def isSpaceChar (c : Char) : Bool :=
  c.toNat = 32 || (9 ≤ c.toNat && c.toNat ≤ 13)

/-- The decimal digits `0` to `9`. -/
def isDigitChar (c : Char) : Bool :=
  48 ≤ c.toNat && c.toNat ≤ 57

/-- The value of a string of decimal digits. -/
def decimalValue (ds : List Char) : Nat :=
  ds.foldl (fun acc c => 10 * acc + (c.toNat - 48)) 0

/-- `std::stoul` in base 10 with a 64-bit `unsigned long`: leading white space
is skipped, a sign is accepted, the longest run of digits is read and what
follows is ignored.  It throws when there is no digit or when the digits
exceed `ULONG_MAX`; with a minus sign the value is negated in the unsigned
type. -/
def stoul (s : List Char) : Option Nat :=
  let s1 := s.dropWhile isSpaceChar
  let neg := s1.head? = some (Char.ofNat 45)
  let s2 := if s1.head? = some (Char.ofNat 45) ∨ s1.head? = some (Char.ofNat 43) then s1.tail
    else s1
  let ds := s2.takeWhile isDigitChar
  if ds = [] then none
  else if decimalValue ds < 2 ^ 64 then
    some (if neg then (2 ^ 64 - decimalValue ds) % 2 ^ 64 else decimalValue ds)
  else none

/-- `parseElementSize`; the name is given by its characters.  A failed
assertion and a throwing `substr` or `stoul` give no value; the arithmetic is
that of `unsigned long`, modulo `2 ^ 64`. -/
def parseElementSize (name : List Char) : Option Nat :=
  match strFind "[".toList name, strFind "]".toList name, strFind "..".toList name with
  | some posBegin, some posEnd, some posDots =>
    if posBegin < posEnd ∧ posDots < posEnd ∧ posBegin < posDots then
      match substr name (posBegin + 1) (posDots - posBegin - 1),
          substr name (posDots + 2) (posEnd - posDots - 2) with
      | some beginIdx, some endIdx =>
        match stoul endIdx, stoul beginIdx with
        | some e, some b => some ((e + 2 ^ 64 - b + 1) % 2 ^ 64)
        | _, _ => none
      | _, _ => none
    else none
  | _, _, _ => some 1

/-! ## The skew of a buffer in closed form -/

/-- The tag of a loop node: `Time` for `For`, `SpaceX` for `ParFor`. -/
def loopTag : MappingNode → Option spacetime.Dimension
  | .For _ _ _ => some spacetime.Dimension.Time
  | .ParFor _ _ _ => some spacetime.Dimension.SpaceX
  | _ => none

/-- The tags of the loop nodes of a list of nodes, in order. -/
def loopTags (pre : List MappingNode) : List spacetime.Dimension :=
  pre.filterMap loopTag

/-- The tags and relation of a skew under the nodes `pre`: the positions split
into synthetic ones (`mask` true), all tagged `SpaceX`, and the others, which
carry the tags of the loops of `pre` in order; the relation passes the
coordinates of the loops through unchanged and holds the synthetic
coordinates at 0. -/
def skewShape (pre : List MappingNode) (tags : List spacetime.Dimension) (map : IslMap) :
    Prop :=
  ∃ mask : List Bool, mask.length = tags.length ∧
    (tags.zip mask).filterMap (fun p => if p.2 then none else some p.1) = loopTags pre ∧
    (∀ p ∈ tags.zip mask, p.2 = true → p.1 = spacetime.Dimension.SpaceX) ∧
    map.nIn = tags.length ∧ map.nOut = (mask.filter (fun b => !b)).length ∧
    ∀ x y, map.rel x y ↔
      x.length = tags.length ∧ y = dropMasked mask x ∧ ∀ v ∈ keepMasked mask x, v = 0

/-- A path with a `For` loop above a `ParFor` loop above a `Storage` node. -/
def nestedPath : List MappingNode :=
  [.For 0 0 (some 2), .ParFor 1 1 (some 2), .Storage 2 0 0, .Compute 3 0]

/-- The mapping with `nestedPath` as its only path. -/
def nestedMapping : FusedMapping :=
  { paths := [nestedPath], NodeAt := nodeAtOf [nestedPath] }

/-- The entry `e` of the skews was recorded at a `Storage` node of the nodes
`full` that binds the buffer and dataspace of `e`, with the shape of the nodes
before it. -/
def recordedAt (full : List MappingNode) (e : LogicalBuffer × Skew) : Prop :=
  ∃ pre id post, full = pre ++ MappingNode.Storage id e.1.buffer_id e.1.dspace_id :: post ∧
    skewShape pre e.2.dim_in_tags e.2.map

/-- A path whose only loop has a tile size beyond the range of `int`:
`2^32 + 2`. -/
def widePath : List MappingNode :=
  [.For 0 0 (some 4294967298), .Compute 1 0]

/-- The mapping with `widePath` as its only path. -/
def wideMapping : FusedMapping :=
  { paths := [widePath], NodeAt := nodeAtOf [widePath] }

/-- A path with two `Storage` nodes for buffer 0 and dataspace 0, one above
and one below a `For` loop. -/
def dupPath : List MappingNode :=
  [.Storage 0 0 0, .For 1 0 (some 2), .Storage 2 0 0, .Compute 3 0]

/-- The mapping with `dupPath` as its only path. -/
def dupMapping : FusedMapping :=
  { paths := [dupPath], NodeAt := nodeAtOf [dupPath] }

/-- Two branches under a `Sequential` node; both keep dataspace 0 in buffer 0
and both end in a `Compute` node of einsum 0 (the leaves 3 and 5). -/
def twinPaths : List (List MappingNode) :=
  [[.Sequential 0, .Storage 1 0 0, .Compute 3 0],
    [.Sequential 0, .Storage 4 0 0, .Compute 5 0]]

/-- The mapping with the paths `twinPaths`. -/
def twinMapping : FusedMapping :=
  { paths := twinPaths, NodeAt := nodeAtOf twinPaths }

/-- Statistics of a buffer whose four relations all hold the single pair
`([p], [p])`. -/
def pointStats (p : Int) : BufStats :=
  { effective_occupancy := { map := pointMap [([p], [p])], dim_in_tags := [SpaceTime.Temporal] },
    fill := { map := pointMap [([p], [p])], dim_in_tags := [SpaceTime.Temporal] },
    parent_reads := { map := pointMap [([p], [p])], dim_in_tags := [SpaceTime.Temporal] },
    link_transfer := { map := pointMap [([p], [p])], dim_in_tags := [SpaceTime.Temporal] } }

/-- A reuse analysis that reports, in key order, the logical buffers
(buffer 0, dataspace 0, leaf 3) and (buffer 0, dataspace 0, leaf 5): the first
is filled at the point `[0]`, the second at the point `[5]`. -/
def twinReuse (_ : List (LogicalBuffer × Occupancy)) (_ : ReuseAnalysisOptions) :
    ReuseAnalysisOutput :=
  { buf_to_stats :=
      [({ buffer_id := 0, dspace_id := 0, branch_leaf_id := 3 }, pointStats 0),
        ({ buffer_id := 0, dspace_id := 0, branch_leaf_id := 5 }, pointStats 5)] }

/-- The relation of a compute leaf with one coordinate, tagged `Temporal`. -/
def temporalLeaf : Occupancy :=
  { map := pointMap [([0], [0])], dim_in_tags := [SpaceTime.Temporal] }

/-- The relation of a compute leaf with one coordinate, tagged `Spatial`. -/
def spatialLeaf : Occupancy :=
  { map := pointMap [([0], [0])], dim_in_tags := [SpaceTime.Spatial] }

/-- What `Run` is handed for `twinMapping`: no logical buffer and, in key
order, the compute leaves 3 and 5 of einsum 0. -/
def twinAnalysis : MappingAnalysisResult :=
  { lbuf_to_occupancy := [],
    lcomp_to_occupancy :=
      [({ branch_leaf_id := 3 }, temporalLeaf), ({ branch_leaf_id := 5 }, spatialLeaf)] }

/-! # Theorems -/

/-! ## Loops that may throw -/

theorem forEachM_mem {α β : Type} (f : α → Option β) :
    ∀ (l : List α) (r : List β), forEachM f l = some r →
      ∀ b ∈ r, ∃ a ∈ l, f a = some b := by
  intro l
  induction l with
  | nil =>
    intro r h b hb
    simp [forEachM] at h
    subst h
    simp at hb
  | cons a rest ih =>
    intro r h b hb
    unfold forEachM at h
    cases hfa : f a with
    | none => simp [hfa] at h
    | some b0 =>
      cases hrest : forEachM f rest with
      | none => simp [hfa, hrest] at h
      | some bs =>
        simp [hfa, hrest] at h
        subst h
        rcases List.mem_cons.mp hb with h1 | h1
        · exact ⟨a, List.mem_cons_self _ _, by rw [hfa, h1]⟩
        · obtain ⟨a', ha', hf⟩ := ih bs hrest b h1
          exact ⟨a', List.mem_cons_of_mem _ ha', hf⟩

/-! ## Branch tiling builder -/

/-- C1: every relation returned by `TilingFromMapping` has its range inside
the output-space bound of the einsum bound to its leaf: the leaf resolves to a
`Compute` node, and every output tuple related to an iteration tuple lies in
`EinsumOspaceBound` of that node's kernel. -/
theorem TilingFromMapping_range_in_ospace_bound (m : FusedMapping) (w : FusedWorkload)
    (T : BranchTilings) (L : NodeID) (M : IslMap) (x o : List Int)
    (hT : TilingFromMapping m w = some T) (hL : (L, M) ∈ T) (hrel : M.rel x o) :
    ∃ e, m.kernelAt L = some e ∧ (w.EinsumOspaceBound e).mem o := by
  unfold TilingFromMapping at hT
  cases hp : tilingPaths w m.paths [] with
  | none => simp [hp] at hT
  | some result =>
    simp only [hp] at hT
    obtain ⟨a, _, ha⟩ := forEachM_mem (boundRange m w) result T hT (L, M) hL
    unfold boundRange at ha
    cases hk : m.kernelAt a.1 with
    | none => simp [hk] at ha
    | some kernel =>
      simp only [hk, Option.some.injEq, Prod.mk.injEq] at ha
      obtain ⟨h1, h2⟩ := ha
      subst h1
      subst h2
      exact ⟨kernel, hk, hrel.2⟩

/-- The tiling of the leaf of the two-loop scenario, point by point. -/
theorem scenario_tiling_rel (x o : List Int) :
    (tilingAt (TilingFromMapping scenarioMapping scenarioWorkload) 3).rel x o ↔
      ∃ a b, x = [a, b] ∧ o = [4 * b, 2 * a] ∧ 0 ≤ a ∧ a < 2 ∧ 0 ≤ b ∧ b < 2 := by
  show ((x.length = 2 ∧
      o = [(0:Int) + (List.zipWith (fun c v => c * v) [0, 4] x).sum,
           (0:Int) + (List.zipWith (fun c v => c * v) [2, 0] x).sum]) ∧
     ((x.length = 2 ∧ (x.length = 2 ∧
        (0:Int) + (List.zipWith (fun c v => c * v) [0, 0] x).sum
          ≤ (0:Int) + (List.zipWith (fun c v => c * v) [0, 1] x).sum)) ∧
       (x.length = 2 ∧
        (0:Int) + (List.zipWith (fun c v => c * v) [0, 0] x).sum
          ≤ (0:Int) + (List.zipWith (fun c v => c * v) [1, 0] x).sum))) ∧
     List.Forall₂ (fun v b => 0 ≤ v ∧ v < b) o [8, 4] ↔ _
  constructor
  · rintro ⟨⟨⟨hx, ho⟩, h2⟩, h3⟩
    match x, hx with
    | [a, b], _ =>
      subst ho
      simp at h2 h3
      refine ⟨a, b, rfl, by simp, ?_, ?_, ?_, ?_⟩ <;> omega
  · rintro ⟨a, b, rfl, rfl, h1, h2, h3, h4⟩
    simp
    omega

/-- Witness for C1 on the two-loop scenario: the pair `([1, 1], [4, 2])` is in
the tiling of leaf 3 and `[4, 2]` lies in the output-space bound. -/
theorem TilingFromMapping_range_in_ospace_bound_witness :
    ∃ T M, TilingFromMapping scenarioMapping scenarioWorkload = some T ∧
      (3, M) ∈ T ∧ M.rel [1, 1] [4, 2] ∧
      ∃ e, scenarioMapping.kernelAt 3 = some e ∧
        (scenarioWorkload.EinsumOspaceBound e).mem [4, 2] :=
  have hrel : (tilingAt (TilingFromMapping scenarioMapping scenarioWorkload) 3).rel
      [1, 1] [4, 2] :=
    (scenario_tiling_rel [1, 1] [4, 2]).mpr ⟨1, 1, rfl, rfl, by decide, by decide,
      by decide, by decide⟩
  ⟨_, _, rfl, List.mem_singleton.mpr rfl, hrel,
    TilingFromMapping_range_in_ospace_bound scenarioMapping scenarioWorkload _ 3 _
      [1, 1] [4, 2] rfl (List.mem_singleton.mpr rfl) hrel⟩

/-- The iteration points of the scenario's tiling are the four tile origins. -/
theorem scenario_tiling_domain :
    {x | (tilingAt (TilingFromMapping scenarioMapping scenarioWorkload) 3).domain.mem x}
      = ((({[0, 0], [0, 1], [1, 0], [1, 1]} : Finset (List Int)) : Set (List Int))) := by
  ext x
  simp only [IslMap.domain, Set.mem_setOf_eq, scenario_tiling_rel]
  constructor
  · rintro ⟨o, a, b, rfl, -, h1, h2, h3, h4⟩
    have ha : a = 0 ∨ a = 1 := by omega
    have hb : b = 0 ∨ b = 1 := by omega
    rcases ha with rfl | rfl <;> rcases hb with rfl | rfl <;> simp
  · intro h
    simp at h
    rcases h with rfl | rfl | rfl | rfl
    · exact ⟨_, 0, 0, rfl, rfl, by decide, by decide, by decide, by decide⟩
    · exact ⟨_, 0, 1, rfl, rfl, by decide, by decide, by decide, by decide⟩
    · exact ⟨_, 1, 0, rfl, rfl, by decide, by decide, by decide, by decide⟩
    · exact ⟨_, 1, 1, rfl, rfl, by decide, by decide, by decide, by decide⟩

/-- C7 (as the code has it): in the two-loop scenario the leaf's tiling has a
2-coordinate domain and exactly 4 iteration points, one per tile: the loop
coordinates are scaled by the tile sizes 4 and 2, so only the tile origins
of the 8 by 4 output space are reached. -/
theorem scenario_tiling_count :
    TilingFromMapping scenarioMapping scenarioWorkload
        = some [(3, tilingAt (TilingFromMapping scenarioMapping scenarioWorkload) 3)] ∧
      (tilingAt (TilingFromMapping scenarioMapping scenarioWorkload) 3).nIn = 2 ∧
      Set.ncard {x | (tilingAt (TilingFromMapping scenarioMapping scenarioWorkload)
        3).domain.mem x} = 4 := by
  refine ⟨rfl, rfl, ?_⟩
  rw [scenario_tiling_domain, Set.ncard_coe_Finset]
  rfl

/-- C7 counterexample: in the two-loop scenario the number of iteration points
of the leaf's tiling is not 32. -/
theorem scenario_tiling_count_not_32 :
    ¬ ((tilingAt (TilingFromMapping scenarioMapping scenarioWorkload) 3).nIn = 2 ∧
      Set.ncard {x | (tilingAt (TilingFromMapping scenarioMapping scenarioWorkload)
        3).domain.mem x} = 32) := by
  rw [scenario_tiling_domain, Set.ncard_coe_Finset]
  decide

/-! ## Loop bound inference: generic loop lemmas -/

theorem forEachM_forall₂ {α β : Type} (f : α → Option β) (R : α → β → Prop)
    (hf : ∀ a b, f a = some b → R a b) :
    ∀ (l : List α) (r : List β), forEachM f l = some r → List.Forall₂ R l r := by
  intro l
  induction l with
  | nil =>
    intro r h
    simp [forEachM] at h
    subst h
    exact List.Forall₂.nil
  | cons a rest ih =>
    intro r h
    unfold forEachM at h
    cases hfa : f a with
    | none => simp [hfa] at h
    | some b0 =>
      cases hrest : forEachM f rest with
      | none => simp [hfa, hrest] at h
      | some bs =>
        simp [hfa, hrest] at h
        subst h
        exact List.Forall₂.cons (hf a b0 hfa) (ih bs hrest)

theorem foldM_invariant {σ α : Type} (f : σ → α → Option σ) (P : σ → Prop)
    (hstep : ∀ s a s', P s → f s a = some s' → P s') :
    ∀ (l : List α) (s r : σ), P s → foldM f s l = some r → P r := by
  intro l
  induction l with
  | nil =>
    intro s r hs h
    simp [foldM] at h
    subst h
    exact hs
  | cons a rest ih =>
    intro s r hs h
    unfold foldM at h
    cases hfa : f s a with
    | none => simp [hfa] at h
    | some s' =>
      simp only [hfa] at h
      exact ih s' r (hstep s a s' hs hfa) h

theorem foldM_fixed {σ α : Type} (f : σ → α → Option σ) (s : σ) :
    ∀ (l : List α), (∀ a ∈ l, f s a = some s) → foldM f s l = some s := by
  intro l
  induction l with
  | nil => intro _; rfl
  | cons a rest ih =>
    intro h
    unfold foldM
    rw [h a (List.mem_cons_self _ _)]
    exact ih (fun b hb => h b (List.mem_cons_of_mem _ hb))

theorem iterateM_invariant {α : Type} (f : α → Option α) (P : α → Prop)
    (hstep : ∀ a b, P a → f a = some b → P b) :
    ∀ (n : Nat) (a r : α), P a → iterateM f n a = some r → P r := by
  intro n
  induction n with
  | zero =>
    intro a r ha h
    simp [iterateM] at h
    subst h
    exact ha
  | succ n ih =>
    intro a r ha h
    unfold iterateM at h
    cases hfa : f a with
    | none => simp [hfa] at h
    | some b =>
      simp only [hfa] at h
      exact ih b r (hstep a b ha hfa) h

theorem iterateM_fixed {α : Type} (f : α → Option α) (a : α) (h : f a = some a) :
    ∀ (n : Nat), iterateM f n a = some a := by
  intro n
  induction n with
  | zero => rfl
  | succ n ih =>
    unfold iterateM
    rw [h]
    exact ih

/-! ## Loop bound inference: tilings only shrink -/

theorem forall₂_leafShrinks_refl :
    ∀ (T : BranchTilings), List.Forall₂ leafShrinks T T := by
  intro T
  induction T with
  | nil => exact List.Forall₂.nil
  | cons a rest ih => exact List.Forall₂.cons ⟨rfl, fun _ _ h => h⟩ ih

theorem forall₂_leafShrinks_trans :
    ∀ (T S U : BranchTilings), List.Forall₂ leafShrinks T S →
      List.Forall₂ leafShrinks S U → List.Forall₂ leafShrinks T U := by
  intro T S U h1
  induction h1 generalizing U with
  | nil =>
    intro h2
    cases h2
    exact List.Forall₂.nil
  | cons hab _ ih =>
    intro h2
    cases h2 with
    | cons hbc hrest =>
      exact List.Forall₂.cons
        ⟨hbc.1.trans hab.1, fun x o h => hab.2 x o (hbc.2 x o h)⟩ (ih _ hrest)

theorem producerUpdate_shrinks (m : FusedMapping) (prod_einsum : EinsumId)
    (required_ops : IslMap) (idx : Nat) (a b : NodeID × IslMap)
    (h : producerUpdate m prod_einsum required_ops idx a = some b) :
    leafShrinks a b := by
  unfold producerUpdate at h
  cases hk : m.kernelAt a.1 with
  | none => simp [hk] at h
  | some kernel =>
    simp only [hk] at h
    by_cases hne : kernel ≠ prod_einsum
    · rw [if_pos hne, Option.some.injEq] at h
      subst h
      exact ⟨rfl, fun _ _ h => h⟩
    · rw [if_neg hne, Option.some.injEq] at h
      subst h
      exact ⟨rfl, fun x o hrel => hrel.1⟩

theorem readTensorStep_shrinks (E : Engine) (m : FusedMapping) (w : FusedWorkload)
    (idx : Nat) (top : List (DataSpaceId × Nat)) (j : Nat) (einsum_id : EinsumId)
    (S S' : BranchTilings) (t : DataSpaceId)
    (h : readTensorStep E m w idx top j einsum_id S t = some S') :
    List.Forall₂ leafShrinks S S' := by
  unfold readTensorStep at h
  cases hw : w.WriterEinsum t with
  | none =>
    simp only [hw, Option.some.injEq] at h
    subst h
    exact forall₂_leafShrinks_refl S
  | some prod_einsum =>
    simp only [hw] at h
    cases hj : S[j]? with
    | none => simp [hj] at h
    | some entry =>
      simp only [hj] at h
      cases ht : StdMap.find t top with
      | none => simp [ht] at h
      | some top_idx =>
        simp only [ht] at h
        exact forEachM_forall₂ _ leafShrinks
          (fun a b hab => producerUpdate_shrinks m prod_einsum _ idx a b hab) S S' h

theorem consumerStep_shrinks (E : Engine) (m : FusedMapping) (w : FusedWorkload)
    (idx : Nat) (top : List (DataSpaceId × Nat)) (S S' : BranchTilings) (j : Nat)
    (h : consumerStep E m w idx top S j = some S') :
    List.Forall₂ leafShrinks S S' := by
  unfold consumerStep at h
  cases hj : S[j]? with
  | none =>
    simp only [hj, Option.some.injEq] at h
    subst h
    exact forall₂_leafShrinks_refl S
  | some entry =>
    simp only [hj] at h
    cases hc : isComplete E entry.2 with
    | true =>
      simp only [hc, if_true] at h
      cases hk : m.kernelAt entry.1 with
      | none => simp [hk] at h
      | some einsum_id =>
        simp only [hk] at h
        exact foldM_invariant _ (fun U => List.Forall₂ leafShrinks S U)
          (fun U t U' hU hstep => forall₂_leafShrinks_trans S U U' hU
            (readTensorStep_shrinks E m w idx top j einsum_id U U' t hstep))
          _ S S' (forall₂_leafShrinks_refl S) h
    | false =>
      simp only [hc, Bool.false_eq_true, if_false, Option.some.injEq] at h
      subst h
      exact forall₂_leafShrinks_refl S

theorem inferencePass_shrinks (E : Engine) (m : FusedMapping) (w : FusedWorkload)
    (idx : Nat) (top : List (DataSpaceId × Nat)) (S S' : BranchTilings)
    (h : inferencePass E m w idx top S = some S') :
    List.Forall₂ leafShrinks S S' := by
  unfold inferencePass at h
  exact foldM_invariant _ (fun U => List.Forall₂ leafShrinks S U)
    (fun U j U' hU hstep => forall₂_leafShrinks_trans S U U' hU
      (consumerStep_shrinks E m w idx top U U' j hstep))
    _ S S' (forall₂_leafShrinks_refl S) h

theorem LoopBoundsInference_leafShrinks (E : Engine) (T : BranchTilings)
    (m : FusedMapping) (w : FusedWorkload) (idx : Nat) (top : List (DataSpaceId × Nat))
    (S : BranchTilings) (h : LoopBoundsInference E T m w idx top = some S) :
    List.Forall₂ leafShrinks T S := by
  unfold LoopBoundsInference at h
  exact iterateM_invariant _ (fun U => List.Forall₂ leafShrinks T U)
    (fun U U' hU hstep => forall₂_leafShrinks_trans T U U' hU
      (inferencePass_shrinks E m w idx top U U' hstep))
    _ T S (forall₂_leafShrinks_refl T) h

theorem forall₂_leafShrinks_keys :
    ∀ (T S : BranchTilings), List.Forall₂ leafShrinks T S →
      S.map Prod.fst = T.map Prod.fst := by
  intro T S h
  induction h with
  | nil => rfl
  | cons hab _ ih => simp [hab.1, ih]

/-- C4: `LoopBoundsInference` only shrinks tilings.  The result has exactly the
leaf ids of the input, in the same order, and entry by entry the returned
relation is contained in the input relation; hence any set that contains the
range of the input tiling (such as the einsum's output-space bound) contains
the range of the inferred tiling. -/
theorem LoopBoundsInference_shrinks (E : Engine) (T : BranchTilings)
    (m : FusedMapping) (w : FusedWorkload) (idx : Nat) (top : List (DataSpaceId × Nat))
    (S : BranchTilings) (h : LoopBoundsInference E T m w idx top = some S) :
    S.map Prod.fst = T.map Prod.fst ∧
      List.Forall₂
        (fun a b => b.1 = a.1 ∧ (∀ x o, b.2.rel x o → a.2.rel x o) ∧
          ∀ B : IslSet, (∀ x o, a.2.rel x o → B.mem o) → ∀ x o, b.2.rel x o → B.mem o)
        T S := by
  have hs := LoopBoundsInference_leafShrinks E T m w idx top S h
  refine ⟨forall₂_leafShrinks_keys T S hs, ?_⟩
  exact List.Forall₂.imp
    (fun a b hab => ⟨hab.1, hab.2, fun B hB x o hrel => hB x o (hab.2 x o hrel)⟩) hs

/-- Witness for C4: on the recurrence, inference with pipeline index 1 returns
tilings with the leaf ids of the input, each contained in its input tiling. -/
theorem LoopBoundsInference_shrinks_witness :
    ∃ S, LoopBoundsInference boundedEngine recurrenceTilings recurrenceMapping
        recurrenceWorkload 1 [(0, 1)] = some S ∧
      S.map Prod.fst = recurrenceTilings.map Prod.fst ∧
      List.Forall₂
        (fun a b => b.1 = a.1 ∧ (∀ x o, b.2.rel x o → a.2.rel x o) ∧
          ∀ B : IslSet, (∀ x o, a.2.rel x o → B.mem o) → ∀ x o, b.2.rel x o → B.mem o)
        recurrenceTilings S :=
  ⟨_, rfl, LoopBoundsInference_shrinks boundedEngine recurrenceTilings recurrenceMapping
    recurrenceWorkload 1 [(0, 1)] _ rfl⟩

/-! ## Loop bound inference: conservation -/

/-- C2: conservation.  When every leaf of the tilings is a `Compute` node
whose einsum reads no tensor that has a writer einsum, `LoopBoundsInference`
returns exactly the tilings it was given, whatever the pipeline index. -/
theorem LoopBoundsInference_conservation (E : Engine) (T : BranchTilings)
    (m : FusedMapping) (w : FusedWorkload) (idx : Nat) (top : List (DataSpaceId × Nat))
    (hno : ∀ e ∈ T, ∃ k, m.kernelAt e.1 = some k ∧
      ∀ t ∈ w.TensorsReadByEinsum k, w.WriterEinsum t = none) :
    LoopBoundsInference E T m w idx top = some T := by
  unfold LoopBoundsInference
  apply iterateM_fixed
  unfold inferencePass
  apply foldM_fixed
  intro j _
  unfold consumerStep
  cases hj : T[j]? with
  | none => rfl
  | some entry =>
    simp only
    cases hc : isComplete E entry.2 with
    | true =>
      simp only [if_true]
      obtain ⟨k, hk, hreads⟩ := hno entry (List.getElem?_mem hj)
      simp only [hk]
      apply foldM_fixed
      intro t ht
      unfold readTensorStep
      simp only [hreads t ht]
    | false => simp

/-- Witness for C2: in the two-loop scenario the einsum reads only dataspace 1,
which has no writer, and inference returns the tilings of the builder. -/
theorem LoopBoundsInference_conservation_witness :
    scenarioWorkload.TensorsReadByEinsum 0 = [1] ∧
      scenarioWorkload.WriterEinsum 1 = none ∧
      LoopBoundsInference boundedEngine scenarioTilings scenarioMapping
        scenarioWorkload 0 [(0, 2)] = some scenarioTilings :=
  ⟨rfl, rfl,
    LoopBoundsInference_conservation boundedEngine scenarioTilings scenarioMapping
      scenarioWorkload 0 [(0, 2)] (by
        intro e he
        have h3 : e.1 = 3 := by
          have := List.mem_singleton.mp he
          rw [this]
        refine ⟨0, by rw [h3]; rfl, ?_⟩
        intro t ht
        have : t = 1 := List.mem_singleton.mp ht
        rw [this]
        rfl)⟩

/-! ## Ordered maps -/

theorem StdMap.find_append_singleton {K V : Type} [DecidableEq K] (k k' : K) (v : V) :
    ∀ (l : List (K × V)), StdMap.find k (l ++ [(k', v)]) =
      match StdMap.find k l with
      | some u => some u
      | none => if k' = k then some v else none := by
  intro l
  induction l with
  | nil => simp [StdMap.find]
  | cons e rest ih =>
    by_cases he : e.1 = k
    · simp [StdMap.find, he]
    · simp [StdMap.find, he, ih]

theorem StdMap.mem_insertSorted {K V : Type} (lt : K → K → Bool) (k : K) (v : V)
    (x : K × V) :
    ∀ (m : List (K × V)), x ∈ StdMap.insertSorted lt k v m ↔ x = (k, v) ∨ x ∈ m := by
  intro m
  induction m with
  | nil => simp [StdMap.insertSorted]
  | cons e rest ih =>
    unfold StdMap.insertSorted
    by_cases hlt : lt k e.1 = true
    · simp [hlt]
    · simp only [hlt, Bool.false_eq_true, if_false, List.mem_cons, ih]
      tauto

theorem StdMap.find_insertSorted {K V : Type} [DecidableEq K] (lt : K → K → Bool)
    (k k' : K) (v : V) :
    ∀ (m : List (K × V)), StdMap.find k' m = none →
      StdMap.find k (StdMap.insertSorted lt k' v m) =
        if k' = k then some v else StdMap.find k m := by
  intro m
  induction m with
  | nil => intro _; simp [StdMap.insertSorted, StdMap.find]
  | cons e rest ih =>
    intro hnone
    have he : e.1 ≠ k' := by
      intro h
      simp [StdMap.find, h] at hnone
    have hrest : StdMap.find k' rest = none := by
      simpa [StdMap.find, he] using hnone
    unfold StdMap.insertSorted
    by_cases hlt : lt k' e.1 = true
    · simp [hlt, StdMap.find]
    · simp only [hlt, Bool.false_eq_true, if_false]
      by_cases hk : k' = k
      · subst hk
        simp [StdMap.find, he, ih hrest]
      · simp [StdMap.find, hk, ih hrest]

theorem StdMap.mem_emplace {K V : Type} [DecidableEq K] (lt : K → K → Bool)
    (k : K) (v : V) (m : List (K × V)) (x : K × V)
    (h : x ∈ StdMap.emplace lt k v m) :
    x ∈ m ∨ (StdMap.find k m = none ∧ x = (k, v)) := by
  unfold StdMap.emplace at h
  cases hf : StdMap.find k m with
  | some u =>
    simp only [hf] at h
    exact Or.inl h
  | none =>
    simp only [hf] at h
    rcases (StdMap.mem_insertSorted lt k v x m).mp h with h1 | h1
    · exact Or.inr ⟨rfl, h1⟩
    · exact Or.inl h1

theorem StdMap.find_emplace {K V : Type} [DecidableEq K] (lt : K → K → Bool)
    (k k' : K) (v : V) (m : List (K × V)) :
    StdMap.find k (StdMap.emplace lt k' v m) =
      match StdMap.find k m with
      | some u => some u
      | none => if k' = k then some v else none := by
  unfold StdMap.emplace
  cases hf : StdMap.find k' m with
  | some u =>
    simp only
    cases hk : StdMap.find k m with
    | some u' => rfl
    | none =>
      have : k' ≠ k := by
        intro h
        rw [h, hk] at hf
        exact Option.noConfusion hf
      simp [this]
  | none =>
    simp only
    rw [StdMap.find_insertSorted lt k k' v m hf]
    by_cases hk : k' = k
    · subst hk
      simp [hf]
    · simp only [hk, if_false]
      cases StdMap.find k m <;> rfl

/-! ## Skews and levels are recorded in step -/

theorem withLeaf_withLeaf (id id' : NodeID) (l : List (LogicalBuffer × Nat)) :
    (l.map (withLeaf id')).map (withLeaf id) = l.map (withLeaf id) := by
  rw [List.map_map]
  rfl

theorem skewVisit_bufferLevelVisit (leaf : MappingNode) (result : List (LogicalBuffer × Nat))
    (s : SkewWalk) (lv : List (LogicalBuffer × Nat) × Nat) (node : MappingNode)
    (h : SkewLevelInv (result ++ lv.1.map (withLeaf (GetNodeId leaf))) s.map.nOut lv.2
      s.skews) :
    SkewLevelInv
      (result ++ (bufferLevelVisit lv node).1.map (withLeaf (GetNodeId leaf)))
      (skewVisit leaf s node).map.nOut (bufferLevelVisit lv node).2
      (skewVisit leaf s node).skews := by
  obtain ⟨h1, h2, h3⟩ := h
  cases node with
  | Root id => exact ⟨h1, h2, h3⟩
  | Pipeline id => exact ⟨h1, h2, h3⟩
  | Sequential id => exact ⟨h1, h2, h3⟩
  | For id op_dim tile_size =>
    refine ⟨?_, h2, h3⟩
    show s.map.nOut + 1 = lv.2 + 1
    rw [h1]
  | ParFor id op_dim tile_size =>
    refine ⟨?_, h2, h3⟩
    show s.map.nOut + 1 = lv.2 + 1
    rw [h1]
  | Compute id kernel =>
    refine ⟨h1, ?_, ?_⟩
    · intro buf sk hmem
      show StdMap.find buf (result ++ (lv.1.map (withLeaf id)).map
        (withLeaf (GetNodeId leaf))) = _
      rw [withLeaf_withLeaf]
      exact h2 buf sk hmem
    · intro buf hnone
      show StdMap.find buf (result ++ (lv.1.map (withLeaf id)).map
        (withLeaf (GetNodeId leaf))) = _
      rw [withLeaf_withLeaf]
      exact h3 buf hnone
  | Storage id buffer dspace =>
    have hlist : result ++ (bufferLevelVisit lv (.Storage id buffer dspace)).1.map
          (withLeaf (GetNodeId leaf))
        = (result ++ lv.1.map (withLeaf (GetNodeId leaf))) ++
          [(({ buffer_id := buffer, dspace_id := dspace,
               branch_leaf_id := GetNodeId leaf } : LogicalBuffer), lv.2)] := by
      simp [bufferLevelVisit, withLeaf]
    have hnOut : (skewVisit leaf s (.Storage id buffer dspace)).map.nOut = s.map.nOut := by
      simp only [skewVisit, skewStorage]
      split <;> split <;> rfl
    rw [hlist]
    refine ⟨by rw [hnOut]; exact h1, ?_, ?_⟩
    · intro buf sk hmem
      rw [StdMap.find_append_singleton]
      rcases StdMap.mem_emplace _ _ _ _ _ hmem with hold | ⟨hfresh, hnew⟩
      · rw [h2 buf sk hold]
      · simp only [Prod.mk.injEq] at hnew
        obtain ⟨hb, hs⟩ := hnew
        subst hb
        rw [h3 _ hfresh]
        simp only [if_true]
        rw [hs]
        exact congrArg some (h1.symm.trans hnOut.symm)
    · intro buf hnone
      rw [StdMap.find_append_singleton]
      have hnone' := hnone
      simp only [skewVisit, skewStorage] at hnone'
      rw [StdMap.find_emplace] at hnone'
      cases hf : StdMap.find buf s.skews with
      | some u => simp [hf] at hnone'
      | none =>
        simp only [hf] at hnone'
        rw [h3 buf hf]
        simpa using hnone'

theorem skewWalk_bufferLevelWalk (leaf : MappingNode) (result : List (LogicalBuffer × Nat)) :
    ∀ (nodes : List MappingNode) (s : SkewWalk) (lv : List (LogicalBuffer × Nat) × Nat),
      SkewLevelInv (result ++ lv.1.map (withLeaf (GetNodeId leaf))) s.map.nOut lv.2 s.skews →
      SkewLevelInv
        (result ++ (nodes.foldl bufferLevelVisit lv).1.map (withLeaf (GetNodeId leaf)))
        (nodes.foldl (skewVisit leaf) s).map.nOut (nodes.foldl bufferLevelVisit lv).2
        (nodes.foldl (skewVisit leaf) s).skews := by
  intro nodes
  induction nodes with
  | nil => intro s lv h; exact h
  | cons node rest ih =>
    intro s lv h
    simp only [List.foldl_cons]
    exact ih _ _ (skewVisit_bufferLevelVisit leaf result s lv node h)

theorem skewPath_bufferLevels (result : List (LogicalBuffer × Nat)) (skews : LogicalBufSkews)
    (pre : List MappingNode) (id : NodeID) (kernel : EinsumId)
    (h2 : ∀ buf sk, (buf, sk) ∈ skews → StdMap.find buf result = some sk.map.nOut)
    (h3 : ∀ buf, StdMap.find buf skews = none → StdMap.find buf result = none) :
    (∀ buf sk, (buf, sk) ∈ skewPath skews (pre ++ [MappingNode.Compute id kernel]) →
        StdMap.find buf
          (result ++ ((pre ++ [MappingNode.Compute id kernel]).foldl bufferLevelVisit ([], 0)).1)
          = some sk.map.nOut) ∧
      (∀ buf, StdMap.find buf (skewPath skews (pre ++ [MappingNode.Compute id kernel])) = none →
        StdMap.find buf
          (result ++ ((pre ++ [MappingNode.Compute id kernel]).foldl bufferLevelVisit ([], 0)).1)
          = none) := by
  have hwalk := skewWalk_bufferLevelWalk (MappingNode.Compute id kernel) result
    (pre ++ [MappingNode.Compute id kernel])
    { tags := [],
      map := map_from_multi_aff (MultiAff.identity_on_domain 0),
      cur_has_spatial := false,
      new_cur_has_spatial := false,
      last_buf := none,
      skews := skews } ([], 0)
    ⟨rfl, by simpa using h2, by simpa using h3⟩
  have hlv : ((pre ++ [MappingNode.Compute id kernel]).foldl bufferLevelVisit ([], 0)).1.map
      (withLeaf (GetNodeId (MappingNode.Compute id kernel)))
      = ((pre ++ [MappingNode.Compute id kernel]).foldl bufferLevelVisit ([], 0)).1 := by
    rw [List.foldl_append]
    simp only [List.foldl_cons, List.foldl_nil, bufferLevelVisit, GetNodeId]
    exact withLeaf_withLeaf id id _
  have hskew : skewPath skews (pre ++ [MappingNode.Compute id kernel])
      = ((pre ++ [MappingNode.Compute id kernel]).foldl
          (skewVisit (MappingNode.Compute id kernel))
          { tags := [],
            map := map_from_multi_aff (MultiAff.identity_on_domain 0),
            cur_has_spatial := false,
            new_cur_has_spatial := false,
            last_buf := none,
            skews := skews }).skews := by
    unfold skewPath
    simp
  rw [hlv] at hwalk
  rw [hskew]
  exact ⟨hwalk.2.1, hwalk.2.2⟩

theorem skews_bufferLevels :
    ∀ (paths : List (List MappingNode)) (result : List (LogicalBuffer × Nat))
      (skews : LogicalBufSkews),
      (∀ p ∈ paths, ∃ pre id kernel, p = pre ++ [MappingNode.Compute id kernel]) →
      (∀ buf sk, (buf, sk) ∈ skews → StdMap.find buf result = some sk.map.nOut) →
      (∀ buf, StdMap.find buf skews = none → StdMap.find buf result = none) →
      (∀ buf sk, (buf, sk) ∈ paths.foldl skewPath skews →
        StdMap.find buf
          (paths.foldl (fun result path => result ++ (path.foldl bufferLevelVisit ([], 0)).1)
            result) = some sk.map.nOut) := by
  intro paths
  induction paths with
  | nil => intro result skews _ h2 _; exact h2
  | cons p rest ih =>
    intro result skews hwf h2 h3
    obtain ⟨pre, id, kernel, hp⟩ := hwf p (List.mem_cons_self _ _)
    subst hp
    have hstep := skewPath_bufferLevels result skews pre id kernel h2 h3
    simp only [List.foldl_cons]
    exact ih _ _ (fun q hq => hwf q (List.mem_cons_of_mem _ hq)) hstep.1 hstep.2

/-- Under the skew of a logical buffer lie as many output coordinates as the
level recorded first for that buffer. -/
theorem LogicalBufSkews_level (m : FusedMapping) (hwf : PathsEndInCompute m)
    (buf : LogicalBuffer) (sk : Skew) (h : (buf, sk) ∈ LogicalBufSkewsFromMapping m) :
    StdMap.find buf (BufferIterLevelsFromMapping m) = some sk.map.nOut :=
  skews_bufferLevels m.paths [] [] hwf
    (fun _ _ hmem => absurd hmem (List.not_mem_nil _)) (fun _ _ => rfl) buf sk h

/-! ## Occupancy composer -/

theorem LogicalBufTiling_find (branch_tiling : BranchTilings) :
    ∀ (levels : List (LogicalBuffer × Nat)) (init result : LogicalBufTiling),
      foldM
        (fun result (e : LogicalBuffer × Nat) =>
          match StdMap.find e.1.branch_leaf_id branch_tiling with
          | none => none
          | some tiling =>
            some (StdMap.emplace LogicalBuffer.lt e.1 (project_dim_in_after tiling e.2) result))
        init levels = some result →
      ∀ buf T, StdMap.find buf result = some T →
        StdMap.find buf init = some T ∨
          (StdMap.find buf init = none ∧ ∃ B l, StdMap.find buf levels = some l ∧
            StdMap.find buf.branch_leaf_id branch_tiling = some B ∧
            T = project_dim_in_after B l) := by
  intro levels
  induction levels with
  | nil =>
    intro init result h buf T hfind
    simp only [foldM, Option.some.injEq] at h
    subst h
    exact Or.inl hfind
  | cons e rest ih =>
    intro init result h buf T hfind
    unfold foldM at h
    cases hB : StdMap.find e.1.branch_leaf_id branch_tiling with
    | none => simp [hB] at h
    | some B0 =>
      simp only [hB] at h
      rcases ih _ result h buf T hfind with hA | ⟨hnone, B, l, hl, hB', hT⟩
      · rw [StdMap.find_emplace] at hA
        cases hinit : StdMap.find buf init with
        | some u =>
          simp only [hinit] at hA
          exact Or.inl hA
        | none =>
          simp only [hinit] at hA
          refine Or.inr ⟨rfl, ?_⟩
          by_cases he : e.1 = buf
          · simp only [he, if_true, Option.some.injEq] at hA
            refine ⟨B0, e.2, by simp [StdMap.find, he], ?_, hA.symm⟩
            rw [← he]
            exact hB
          · simp [he] at hA
      · rw [StdMap.find_emplace] at hnone
        cases hinit : StdMap.find buf init with
        | some u => simp [hinit] at hnone
        | none =>
          simp only [hinit] at hnone
          have he : e.1 ≠ buf := by
            intro he
            simp [he] at hnone
          refine Or.inr ⟨rfl, B, l, ?_, hB', hT⟩
          simp [StdMap.find, he, hl]

theorem occupancy_mem (m : FusedMapping) (w : FusedWorkload) (tilings : LogicalBufTiling) :
    ∀ (skews : LogicalBufSkews) (init occ : LogicalBufOccupancies),
      foldM (occupancyStep m w tilings) init skews = some occ →
      ∀ buf o, (buf, o) ∈ occ →
        (buf, o) ∈ init ∨
          ∃ sk einsum tiling acc, (buf, sk) ∈ skews ∧
            m.kernelAt buf.branch_leaf_id = some einsum ∧
            StdMap.find buf tilings = some tiling ∧
            accessesOf w einsum buf.dspace_id = some acc ∧
            o = sk.apply_range
              (project_dim_in_after (tiling.apply_range acc) sk.map.nOut) := by
  intro skews
  induction skews with
  | nil =>
    intro init occ h buf o hmem
    simp only [foldM, Option.some.injEq] at h
    subst h
    exact Or.inl hmem
  | cons e rest ih =>
    intro init occ h buf o hmem
    unfold foldM at h
    cases hstep : occupancyStep m w tilings init e with
    | none => simp [hstep] at h
    | some init' =>
      simp only [hstep] at h
      rcases ih init' occ h buf o hmem with hin | ⟨sk, einsum, tiling, acc, h1, h2, h3, h4, h5⟩
      · unfold occupancyStep at hstep
        cases hk : m.kernelAt e.1.branch_leaf_id with
        | none => simp [hk] at hstep
        | some einsum =>
          simp only [hk] at hstep
          cases ht : StdMap.find e.1 tilings with
          | none => simp [ht] at hstep
          | some tiling =>
            simp only [ht] at hstep
            cases ha : accessesOf w einsum e.1.dspace_id with
            | none =>
              simp only [ha, Option.some.injEq] at hstep
              subst hstep
              exact Or.inl hin
            | some acc =>
              simp only [ha, Option.some.injEq] at hstep
              subst hstep
              rcases StdMap.mem_emplace _ _ _ _ _ hin with hold | ⟨_, hnew⟩
              · exact Or.inl hold
              · simp only [Prod.mk.injEq] at hnew
                obtain ⟨hb, ho⟩ := hnew
                subst hb
                exact Or.inr ⟨e.2, einsum, tiling, acc, List.mem_cons_self _ _,
                  hk, ht, ha, ho⟩
      · exact Or.inr ⟨sk, einsum, tiling, acc, List.mem_cons_of_mem _ h1, h2, h3, h4, h5⟩

/-- C5: composition identity.  For a mapping whose paths end in their `Compute`
leaf, every entry `(buf, o)` of the result of `OccupanciesFromMapping` comes
from the skew recorded for `buf`, the logical-buffer tiling of `buf` (built
from the inferred branch tilings) and the kernel of the owning leaf, and `o`
relates `s` to `d` exactly when some reduced iteration tuple `x` and operation
`op` have `(s, x)` in the skew, `(x, op)` in the tiling and `(op, d)` in the
access relation: the read accesses when the einsum reads the dataspace, the
write accesses otherwise.  The tags of `o` are those of the skew. -/
theorem OccupanciesFromMapping_composition (E : Engine) (unchecked : Nat)
    (m : FusedMapping) (w : FusedWorkload) (occ : LogicalBufOccupancies)
    (buf : LogicalBuffer) (o : Skew)
    (hwf : PathsEndInCompute m)
    (h : OccupanciesFromMapping E unchecked m w = some occ)
    (hmem : (buf, o) ∈ occ) :
    ∃ branch_tiling inferred tilings skew tiling einsum,
      TilingFromMapping m w = some branch_tiling ∧
      LoopBoundsInference E branch_tiling m w ((BranchIdxFromMapping m).getD unchecked)
        (DspaceTopIdxFromMapping m) = some inferred ∧
      LogicalBufTilingFromMapping m inferred = some tilings ∧
      (buf, skew) ∈ LogicalBufSkewsFromMapping m ∧
      StdMap.find buf tilings = some tiling ∧
      m.kernelAt buf.branch_leaf_id = some einsum ∧
      o.dim_in_tags = skew.dim_in_tags ∧
      ∀ s d, o.map.rel s d ↔
        ∃ x op, skew.map.rel s x ∧ tiling.rel x op ∧
          (if buf.dspace_id ∈ w.TensorsReadByEinsum einsum
            then w.ReadAccesses einsum buf.dspace_id
            else w.WriteAccesses einsum buf.dspace_id).rel op d := by
  unfold OccupanciesFromMapping at h
  cases hbt : TilingFromMapping m w with
  | none => simp [hbt] at h
  | some branch_tiling =>
    simp only [hbt] at h
    cases hinf : LoopBoundsInference E branch_tiling m w
        ((BranchIdxFromMapping m).getD unchecked) (DspaceTopIdxFromMapping m) with
    | none => simp [hinf] at h
    | some inferred =>
      simp only [hinf] at h
      cases hlt : LogicalBufTilingFromMapping m inferred with
      | none => simp [hlt] at h
      | some tilings =>
        simp only [hlt] at h
        rcases occupancy_mem m w tilings _ [] occ h buf o hmem with
          hnil | ⟨sk, einsum, tiling, acc, h1, h2, h3, h4, h5⟩
        · exact absurd hnil (List.not_mem_nil _)
        · refine ⟨branch_tiling, inferred, tilings, sk, tiling, einsum, rfl, hinf, hlt,
            h1, h3, h2, by rw [h5]; rfl, ?_⟩
          have hlevel := LogicalBufSkews_level m hwf buf sk h1
          unfold LogicalBufTilingFromMapping at hlt
          rcases LogicalBufTiling_find inferred _ [] tilings hlt buf tiling h3 with
            hinit | ⟨_, B, l, hl, _, hT⟩
          · simp [StdMap.find] at hinit
          · rw [hlevel] at hl
            have hln : l = sk.map.nOut := (Option.some.inj hl).symm
            subst hln
            have hacc : acc = (if buf.dspace_id ∈ w.TensorsReadByEinsum einsum
                then w.ReadAccesses einsum buf.dspace_id
                else w.WriteAccesses einsum buf.dspace_id) := by
              unfold accessesOf at h4
              by_cases hr : buf.dspace_id ∈ w.TensorsReadByEinsum einsum
              · simp only [hr, if_true, Option.some.injEq] at h4
                simp only [hr, if_true]
                exact h4.symm
              · simp only [hr, if_false] at h4
                by_cases hw : buf.dspace_id ∈ w.TensorsWrittenByEinsum einsum
                · simp only [hw, if_true, Option.some.injEq] at h4
                  simp only [hr, if_false]
                  exact h4.symm
                · simp [hw] at h4
            rw [← hacc, h5, hT]
            intro s d
            constructor
            · rintro ⟨x, hsx, x', ⟨op, ⟨x'', hB, hx'⟩, hop⟩, hx⟩
              refine ⟨x, op, hsx, ⟨x'', hB, ?_⟩, hop⟩
              rw [hx, hx', List.take_take, Nat.min_self]
            · rintro ⟨x, op, hsx, ⟨x'', hB, hx⟩, hop⟩
              refine ⟨x, hsx, x, ⟨op, ⟨x'', hB, hx⟩, hop⟩, ?_⟩
              rw [hx, List.take_take, Nat.min_self]

theorem scenario_paths_end_in_compute : PathsEndInCompute scenarioMapping := by
  intro p hp
  have hp' : p = scenarioPath := List.mem_singleton.mp hp
  exact ⟨[.ParFor 0 1 (some 2), .For 1 0 (some 4), .Storage 2 0 0], 3, 0, hp'⟩

/-- Witness for C5: the two-loop scenario has one logical buffer, (buffer 0,
dataspace 0, leaf 3), and its occupancy is the composition of its skew, its
tiling and the write accesses of einsum 0. -/
theorem OccupanciesFromMapping_composition_witness :
    ∃ occ o, OccupanciesFromMapping boundedEngine 0 scenarioMapping scenarioWorkload
        = some occ ∧
      (({ buffer_id := 0, dspace_id := 0, branch_leaf_id := 3 } : LogicalBuffer), o) ∈ occ ∧
      ∃ branch_tiling inferred tilings skew tiling einsum,
        TilingFromMapping scenarioMapping scenarioWorkload = some branch_tiling ∧
        LoopBoundsInference boundedEngine branch_tiling scenarioMapping scenarioWorkload
          ((BranchIdxFromMapping scenarioMapping).getD 0)
          (DspaceTopIdxFromMapping scenarioMapping) = some inferred ∧
        LogicalBufTilingFromMapping scenarioMapping inferred = some tilings ∧
        (({ buffer_id := 0, dspace_id := 0, branch_leaf_id := 3 } : LogicalBuffer), skew)
          ∈ LogicalBufSkewsFromMapping scenarioMapping ∧
        StdMap.find ({ buffer_id := 0, dspace_id := 0, branch_leaf_id := 3 } : LogicalBuffer)
          tilings = some tiling ∧
        scenarioMapping.kernelAt 3 = some einsum ∧
        o.dim_in_tags = skew.dim_in_tags ∧
        ∀ s d, o.map.rel s d ↔
          ∃ x op, skew.map.rel s x ∧ tiling.rel x op ∧
            (if 0 ∈ scenarioWorkload.TensorsReadByEinsum einsum
              then scenarioWorkload.ReadAccesses einsum 0
              else scenarioWorkload.WriteAccesses einsum 0).rel op d :=
  ⟨_, _, rfl, List.mem_singleton.mpr rfl,
    OccupanciesFromMapping_composition boundedEngine 0 scenarioMapping scenarioWorkload _
      { buffer_id := 0, dspace_id := 0, branch_leaf_id := 3 } _
      scenario_paths_end_in_compute rfl (List.mem_singleton.mpr rfl)⟩

/-- C6 (what the code does): the two-loop scenario has no branch node, so
`BranchIdxFromMapping` yields no value; `OccupanciesFromMapping` nevertheless
returns a result, whatever value the unchecked dereference yields. -/
theorem OccupanciesFromMapping_no_branch_idx_no_error :
    BranchIdxFromMapping scenarioMapping = none ∧
      ∀ unchecked : Nat,
        (OccupanciesFromMapping boundedEngine unchecked scenarioMapping
          scenarioWorkload).isSome = true :=
  ⟨rfl, fun _ => rfl⟩

/-! ## Result aggregator -/

theorem foldM_invariant_mem {σ α : Type} (f : σ → α → Option σ) (P : σ → Prop) :
    ∀ (l : List α) (s r : σ),
      (∀ s a s', a ∈ l → P s → f s a = some s' → P s') →
      P s → foldM f s l = some r → P r := by
  intro l
  induction l with
  | nil =>
    intro s r _ hs h
    simp [foldM] at h
    subst h
    exact hs
  | cons a rest ih =>
    intro s r hstep hs h
    unfold foldM at h
    cases hfa : f s a with
    | none => simp [hfa] at h
    | some s' =>
      simp only [hfa] at h
      exact ih s' r (fun s a' s'' ha' => hstep s a' s'' (List.mem_cons_of_mem _ ha'))
        (hstep s a s' (List.mem_cons_self _ _) hs hfa) h

theorem StdMap.mem_assign {K V : Type} [DecidableEq K] (lt : K → K → Bool)
    (k : K) (v : V) (m : List (K × V)) (x : K × V)
    (h : x ∈ StdMap.assign lt k v m) : x = (k, v) ∨ x ∈ m := by
  unfold StdMap.assign at h
  cases hf : StdMap.find k m with
  | some u =>
    simp only [hf, List.mem_map] at h
    obtain ⟨e, he, hx⟩ := h
    by_cases hk : e.1 = k
    · rw [if_pos hk] at hx
      exact Or.inl (by rw [← hx, hk])
    · rw [if_neg hk] at hx
      exact Or.inr (by rw [← hx]; exact he)
  | none =>
    simp only [hf] at h
    exact (StdMap.mem_insertSorted lt k v x m).mp h

theorem bufStatsStep_fills (m : FusedMapping) (r r' : Result)
    (e : LogicalBuffer × BufStats) (h : bufStatsStep m r e = some r') :
    r'.fills = r.fills := by
  unfold bufStatsStep at h
  cases hk : m.kernelAt e.1.branch_leaf_id with
  | none => simp [hk] at h
  | some einsum_id =>
    simp only [hk, Option.some.injEq] at h
    rw [← h]

theorem computeStep_fills (m : FusedMapping) (r r' : Result)
    (e : LogicalComputeUnit × Occupancy) (h : computeStep m r e = some r') :
    r'.fills = r.fills ∧ r'.fills_by_peer = r.fills_by_peer := by
  unfold computeStep at h
  cases hk : m.kernelAt e.1.branch_leaf_id with
  | none => simp [hk] at h
  | some kernel =>
    simp only [hk, Option.some.injEq] at h
    rw [← h]
    exact ⟨rfl, rfl⟩

/-- No run of `Run` stores anything in the `fills` map of its result. -/
theorem Run_fills_empty (m : FusedMapping) (mar : MappingAnalysisResult)
    (ReuseAnalysis : List (LogicalBuffer × Occupancy) → ReuseAnalysisOptions →
      ReuseAnalysisOutput) (r : Result) (h : Run m mar ReuseAnalysis = some r) :
    r.fills = [] := by
  unfold Run at h
  simp only at h
  cases h1 : foldM (bufStatsStep m)
      { ops := [], fills := [], fills_by_parent := [], fills_by_peer := [],
        occupancy := [], temporal_steps := [] }
      (ReuseAnalysis mar.lbuf_to_occupancy { count_hops := false }).buf_to_stats with
  | none => simp [h1] at h
  | some r1 =>
    simp only [h1] at h
    have hr1 : r1.fills = [] :=
      foldM_invariant (bufStatsStep m) (fun r => r.fills = [])
        (fun s a s' hs hstep => (bufStatsStep_fills m s s' a hstep).trans hs) _ _ r1 rfl h1
    exact foldM_invariant (computeStep m) (fun r => r.fills = [])
      (fun s a s' hs hstep => (computeStep_fills m s s' a hstep).1.trans hs) _ r1 r hr1 h

/-- C8 (what the code does): for a buffer whose four relations differ, the
result of `Run` has an empty `fills` map, its `fills_by_parent` entry holds
the count of the parent reads, and the count of the fill relation is stored
nowhere in the result. -/
theorem Run_fill_count_lost :
    ∃ r, Run scenarioMapping { lbuf_to_occupancy := [], lcomp_to_occupancy := [] }
        distinctReuse = some r ∧
      r.fills = [] ∧
      r.fills_by_parent =
        [((0, 0, 0), (distinctStats.parent_reads.dim_in_tags,
          isl_map_card distinctStats.parent_reads.map))] ∧
      ∀ v ∈ r.values, v.2 ≠ isl_map_card distinctStats.fill.map := by
  refine ⟨_, rfl, rfl, rfl, ?_⟩
  intro v hv
  have hcases : v.2 = isl_map_card distinctStats.parent_reads.map ∨
      v.2 = isl_pw_qpolynomial_intersect_domain (isl_map_card distinctStats.link_transfer.map)
        distinctStats.fill.map.domain ∨
      v.2 = isl_map_card distinctStats.effective_occupancy.map := by
    have hv' : v ∈ [(distinctStats.parent_reads.dim_in_tags,
          isl_map_card distinctStats.parent_reads.map),
        (distinctStats.link_transfer.dim_in_tags,
          isl_pw_qpolynomial_intersect_domain
            (isl_map_card distinctStats.link_transfer.map) distinctStats.fill.map.domain),
        (distinctStats.effective_occupancy.dim_in_tags,
          isl_map_card distinctStats.effective_occupancy.map)] := hv
    simp only [List.mem_cons, List.mem_singleton, List.not_mem_nil, or_false] at hv'
    rcases hv' with h | h | h
    · exact Or.inl (by rw [h])
    · exact Or.inr (Or.inl (by rw [h]))
    · exact Or.inr (Or.inr (by rw [h]))
  intro heq
  rcases hcases with h | h | h
  · have := congrArg (fun q => q.fiber [0] [1]) (h.symm.trans heq)
    simp [isl_map_card, distinctStats, pointMap] at this
  · have := congrArg (fun q => q.fiber [0] [1]) (h.symm.trans heq)
    simp [isl_map_card, isl_pw_qpolynomial_intersect_domain, distinctStats, pointMap] at this
  · have := congrArg (fun q => q.fiber [0] [2]) (h.symm.trans heq)
    simp [isl_map_card, distinctStats, pointMap] at this

theorem bufStatsStep_fills_by_peer (m : FusedMapping) (r r' : Result)
    (e : LogicalBuffer × BufStats) (h : bufStatsStep m r e = some r')
    (key : ResultKey) (v : ResultValue) (hv : (key, v) ∈ r'.fills_by_peer) :
    (key, v) ∈ r.fills_by_peer ∨
      ∃ einsum, m.kernelAt e.1.branch_leaf_id = some einsum ∧
        key = (e.1.buffer_id, e.1.dspace_id, einsum) ∧
        v = (e.2.link_transfer.dim_in_tags,
          isl_pw_qpolynomial_intersect_domain (isl_map_card e.2.link_transfer.map)
            e.2.fill.map.domain) := by
  unfold bufStatsStep at h
  cases hk : m.kernelAt e.1.branch_leaf_id with
  | none => simp [hk] at h
  | some einsum_id =>
    simp only [hk, Option.some.injEq] at h
    rw [← h] at hv
    rcases StdMap.mem_assign _ _ _ _ _ hv with hnew | hold
    · simp only [Prod.mk.injEq] at hnew
      exact Or.inr ⟨einsum_id, rfl, hnew.1, hnew.2⟩
    · exact Or.inl hold

theorem StdMap.find_map_replace {K V : Type} [DecidableEq K] (k k' : K) (v : V) :
    ∀ (m : List (K × V)),
      StdMap.find k (m.map (fun e => if e.1 = k' then (e.1, v) else e)) =
        if k' = k then (StdMap.find k m).map (fun _ => v) else StdMap.find k m := by
  intro m
  induction m with
  | nil => simp [StdMap.find]
  | cons e rest ih =>
    by_cases he : e.1 = k'
    · by_cases hk : k' = k
      · subst hk
        simp [StdMap.find, he]
      · have hek : e.1 ≠ k := by rw [he]; exact hk
        simp only [List.map_cons, he, if_true, StdMap.find, hk, if_false]
        simp only [hk, if_false] at ih
        exact ih
    · by_cases hk : k' = k
      · subst hk
        simp only [List.map_cons, he, if_false, StdMap.find, if_true]
        simp only [if_true] at ih
        exact ih
      · simp only [List.map_cons, he, if_false, StdMap.find, hk]
        simp only [hk, if_false] at ih
        rw [ih]

theorem StdMap.find_assign {K V : Type} [DecidableEq K] (lt : K → K → Bool)
    (k k' : K) (v : V) (m : List (K × V)) :
    StdMap.find k (StdMap.assign lt k' v m) = if k' = k then some v else StdMap.find k m := by
  unfold StdMap.assign
  cases hf : StdMap.find k' m with
  | some u =>
    simp only
    rw [StdMap.find_map_replace]
    by_cases hk : k' = k
    · subst hk
      simp [hf]
    · simp [hk]
  | none =>
    simp only
    exact StdMap.find_insertSorted lt k k' v m hf

theorem foldM_last_write {σ α β : Type} (f : σ → α → Option σ) (g : σ → Option β) (v : β)
    (a : α) (hw : ∀ s s', f s a = some s' → g s' = some v) (post : List α)
    (hkeep : ∀ b ∈ post, ∀ s s', f s b = some s' → g s = some v → g s' = some v) :
    ∀ (pre : List α) (s r : σ), foldM f s (pre ++ a :: post) = some r → g r = some v := by
  intro pre
  induction pre with
  | nil =>
    intro s r h
    rw [List.nil_append] at h
    unfold foldM at h
    cases hfa : f s a with
    | none => simp [hfa] at h
    | some s1 =>
      simp only [hfa] at h
      exact foldM_invariant_mem f (fun s => g s = some v) post s1 r
        (fun s b s' hb hs hstep => hkeep b hb s s' hstep hs) (hw s s1 hfa) h
  | cons c rest ih =>
    intro s r h
    rw [List.cons_append] at h
    unfold foldM at h
    cases hfc : f s c with
    | none => simp [hfc] at h
    | some s1 =>
      simp only [hfc] at h
      exact ih s1 r h

theorem foldM_step_defined {σ α : Type} (f : σ → α → Option σ) :
    ∀ (l : List α) (s r : σ), foldM f s l = some r →
      ∀ a ∈ l, ∃ s0 s1, f s0 a = some s1 := by
  intro l
  induction l with
  | nil => intro s r _ a ha; exact absurd ha (List.not_mem_nil _)
  | cons c rest ih =>
    intro s r h a ha
    unfold foldM at h
    cases hfc : f s c with
    | none => simp [hfc] at h
    | some s1 =>
      simp only [hfc] at h
      rcases List.mem_cons.mp ha with h1 | h1
      · exact ⟨s, s1, by rw [h1]; exact hfc⟩
      · exact ih s1 r h a h1

theorem bufStatsStep_peer_find (m : FusedMapping) (r r' : Result)
    (e : LogicalBuffer × BufStats) (h : bufStatsStep m r e = some r') :
    ∃ einsum, m.kernelAt e.1.branch_leaf_id = some einsum ∧
      ∀ key, StdMap.find key r'.fills_by_peer =
        if (e.1.buffer_id, e.1.dspace_id, einsum) = key then
          some (e.2.link_transfer.dim_in_tags,
            isl_pw_qpolynomial_intersect_domain (isl_map_card e.2.link_transfer.map)
              e.2.fill.map.domain)
        else StdMap.find key r.fills_by_peer := by
  unfold bufStatsStep at h
  cases hk : m.kernelAt e.1.branch_leaf_id with
  | none => simp [hk] at h
  | some einsum_id =>
    simp only [hk, Option.some.injEq] at h
    refine ⟨einsum_id, rfl, ?_⟩
    intro key
    rw [← h]
    exact StdMap.find_assign ResultKey.lt key _ _ r.fills_by_peer

theorem computeStep_steps_find (m : FusedMapping) (r r' : Result)
    (e : LogicalComputeUnit × Occupancy) (h : computeStep m r e = some r') :
    ∃ kernel, m.kernelAt e.1.branch_leaf_id = some kernel ∧
      ∀ k, StdMap.find k r'.temporal_steps =
        if kernel = k then
          some (e.2.dim_in_tags.filter (fun dim_tag => !isSpatial dim_tag),
            isl_map_card (boundedIdentity e.2))
        else StdMap.find k r.temporal_steps := by
  unfold computeStep at h
  cases hk : m.kernelAt e.1.branch_leaf_id with
  | none => simp [hk] at h
  | some kernel =>
    simp only [hk, Option.some.injEq] at h
    refine ⟨kernel, rfl, ?_⟩
    intro k
    rw [← h]
    exact StdMap.find_assign natLt k _ _ r.temporal_steps

theorem Run_peer_fill_source (m : FusedMapping) (mar : MappingAnalysisResult)
    (ReuseAnalysis : List (LogicalBuffer × Occupancy) → ReuseAnalysisOptions →
      ReuseAnalysisOutput) (r : Result) (key : ResultKey) (v : ResultValue)
    (h : Run m mar ReuseAnalysis = some r) (hv : (key, v) ∈ r.fills_by_peer) :
    ∃ buf stats einsum,
      (buf, stats) ∈ (ReuseAnalysis mar.lbuf_to_occupancy { count_hops := false }).buf_to_stats ∧
      m.kernelAt buf.branch_leaf_id = some einsum ∧
      key = (buf.buffer_id, buf.dspace_id, einsum) ∧
      v.2 = isl_pw_qpolynomial_intersect_domain (isl_map_card stats.link_transfer.map)
        stats.fill.map.domain ∧
      ∀ s, v.2.dom s → stats.fill.map.domain.mem s := by
  unfold Run at h
  simp only at h
  cases h1 : foldM (bufStatsStep m)
      { ops := [], fills := [], fills_by_parent := [], fills_by_peer := [],
        occupancy := [], temporal_steps := [] }
      (ReuseAnalysis mar.lbuf_to_occupancy { count_hops := false }).buf_to_stats with
  | none => simp [h1] at h
  | some r1 =>
    simp only [h1] at h
    have hpeer : r.fills_by_peer = r1.fills_by_peer :=
      foldM_invariant (computeStep m) (fun r => r.fills_by_peer = r1.fills_by_peer)
        (fun s a s' hs hstep => (computeStep_fills m s s' a hstep).2.trans hs) _ r1 r rfl h
    rw [hpeer] at hv
    have hinv := foldM_invariant_mem (bufStatsStep m)
      (fun r => ∀ key v, (key, v) ∈ r.fills_by_peer →
        ∃ buf stats einsum,
          (buf, stats) ∈
            (ReuseAnalysis mar.lbuf_to_occupancy { count_hops := false }).buf_to_stats ∧
          m.kernelAt buf.branch_leaf_id = some einsum ∧
          key = (buf.buffer_id, buf.dspace_id, einsum) ∧
          v.2 = isl_pw_qpolynomial_intersect_domain (isl_map_card stats.link_transfer.map)
            stats.fill.map.domain ∧
          ∀ s, v.2.dom s → stats.fill.map.domain.mem s)
      _ _ r1
      (fun s a s' ha hs hstep key v hmem => by
        rcases bufStatsStep_fills_by_peer m s s' a hstep key v hmem with hold | ⟨k, hk, hkey, hval⟩
        · exact hs key v hold
        · refine ⟨a.1, a.2, k, ha, hk, hkey, by rw [hval], ?_⟩
          intro x hx
          rw [hval] at hx
          exact hx.2)
      (fun key v hmem => absurd hmem (List.not_mem_nil _)) h1
    exact hinv key v hv

/-- C9 counterexample: two logical buffers with buffer 0 and dataspace 0 whose
leaves 3 and 5 both compute einsum 0 share the key `(0, 0, 0)`.  The first is
filled at the point `[0]` only, the second at `[5]`.  The peer-fill count that
`Run` records under the key is the one of the second buffer: it is defined at
`[5]`, which is not in the domain of the fill relation of the first buffer. -/
theorem Run_peer_fill_outside_fill_domain :
    ∃ r v, Run twinMapping { lbuf_to_occupancy := [], lcomp_to_occupancy := [] }
        twinReuse = some r ∧
      (twinReuse [] { count_hops := false }).buf_to_stats =
        [({ buffer_id := 0, dspace_id := 0, branch_leaf_id := 3 }, pointStats 0),
          ({ buffer_id := 0, dspace_id := 0, branch_leaf_id := 5 }, pointStats 5)] ∧
      twinMapping.kernelAt 3 = some 0 ∧
      StdMap.find ((0, 0, 0) : ResultKey) r.fills_by_peer = some v ∧
      v.2.dom [5] ∧ ¬ (pointStats 0).fill.map.domain.mem [5] := by
  refine ⟨_, _, rfl, rfl, rfl, rfl, ?_, ?_⟩
  · exact ⟨⟨[5], List.mem_singleton.mpr rfl⟩, ⟨[5], List.mem_singleton.mpr rfl⟩⟩
  · rintro ⟨y, hy⟩
    have hy' : (([5] : List Int), y) ∈ [(([0] : List Int), ([0] : List Int))] := hy
    simp at hy'

/-- C9 (amended): peer-fill containment.  When `Run` returns, every logical
buffer of the reuse-analysis output has an einsum, and for a logical buffer
that no later buffer of the output shares its key `(buffer, dataspace,
einsum)` with, the entry of `fills_by_peer` under that key is the
link-transfer count of this buffer restricted to the domain of its fill
relation: it is defined only at space-time points where the fill relation of
the buffer holds some element.  Every entry of `fills_by_peer` is such a
restricted count of some logical buffer of the output with that key. -/
theorem Run_peer_fill_within_fill_domain (m : FusedMapping) (mar : MappingAnalysisResult)
    (ReuseAnalysis : List (LogicalBuffer × Occupancy) → ReuseAnalysisOptions →
      ReuseAnalysisOutput) (r : Result) (h : Run m mar ReuseAnalysis = some r) :
    (∀ pre buf stats post,
      (ReuseAnalysis mar.lbuf_to_occupancy { count_hops := false }).buf_to_stats =
        pre ++ (buf, stats) :: post →
      ∃ einsum, m.kernelAt buf.branch_leaf_id = some einsum ∧
        ((∀ e ∈ post, ¬ (e.1.buffer_id = buf.buffer_id ∧ e.1.dspace_id = buf.dspace_id ∧
            m.kernelAt e.1.branch_leaf_id = some einsum)) →
          ∃ v, StdMap.find (buf.buffer_id, buf.dspace_id, einsum) r.fills_by_peer = some v ∧
            v = (stats.link_transfer.dim_in_tags,
              isl_pw_qpolynomial_intersect_domain (isl_map_card stats.link_transfer.map)
                stats.fill.map.domain) ∧
            ∀ s, v.2.dom s → stats.fill.map.domain.mem s)) ∧
    (∀ key v, (key, v) ∈ r.fills_by_peer →
      ∃ buf stats einsum,
        (buf, stats) ∈
          (ReuseAnalysis mar.lbuf_to_occupancy { count_hops := false }).buf_to_stats ∧
        m.kernelAt buf.branch_leaf_id = some einsum ∧
        key = (buf.buffer_id, buf.dspace_id, einsum) ∧
        v.2 = isl_pw_qpolynomial_intersect_domain (isl_map_card stats.link_transfer.map)
          stats.fill.map.domain ∧
        ∀ s, v.2.dom s → stats.fill.map.domain.mem s) := by
  refine ⟨?_, fun key v hv => Run_peer_fill_source m mar ReuseAnalysis r key v h hv⟩
  intro pre buf stats post hsplit
  unfold Run at h
  simp only at h
  cases h1 : foldM (bufStatsStep m)
      { ops := [], fills := [], fills_by_parent := [], fills_by_peer := [],
        occupancy := [], temporal_steps := [] }
      (ReuseAnalysis mar.lbuf_to_occupancy { count_hops := false }).buf_to_stats with
  | none => simp [h1] at h
  | some r1 =>
    simp only [h1] at h
    have hpeer : r.fills_by_peer = r1.fills_by_peer :=
      foldM_invariant (computeStep m) (fun r => r.fills_by_peer = r1.fills_by_peer)
        (fun s a s' hs hstep => (computeStep_fills m s s' a hstep).2.trans hs) _ r1 r rfl h
    rw [hsplit] at h1
    obtain ⟨s0, s1, hstep⟩ := foldM_step_defined (bufStatsStep m) _ _ r1 h1 (buf, stats)
      (List.mem_append.mpr (Or.inr (List.mem_cons_self _ _)))
    obtain ⟨einsum, hk, _⟩ := bufStatsStep_peer_find m s0 s1 (buf, stats) hstep
    refine ⟨einsum, hk, ?_⟩
    intro hlast
    refine ⟨_, ?_, rfl, fun s hs => hs.2⟩
    rw [hpeer]
    refine foldM_last_write (bufStatsStep m)
      (fun s => StdMap.find (buf.buffer_id, buf.dspace_id, einsum) s.fills_by_peer) _
      (buf, stats) ?_ post ?_ pre _ r1 h1
    · intro s s' hs
      obtain ⟨e2, hk2, hfind⟩ := bufStatsStep_peer_find m s s' (buf, stats) hs
      have he2 : e2 = einsum := Option.some.inj (hk2.symm.trans hk)
      subst he2
      show StdMap.find _ s'.fills_by_peer = _
      rw [hfind, if_pos rfl]
    · intro b hb s s' hs hg
      obtain ⟨e2, hk2, hfind⟩ := bufStatsStep_peer_find m s s' b hs
      show StdMap.find _ s'.fills_by_peer = _
      rw [hfind, if_neg]
      · exact hg
      · intro heq
        simp only [Prod.mk.injEq] at heq
        exact hlast b hb ⟨heq.1, heq.2.1, by rw [hk2, heq.2.2]⟩

/-- Witness for C9 (amended): of the two buffers that share the key
`(0, 0, 0)` the one of leaf 5 is the later one; the count recorded under the
key is defined at `[5]` and lies within the fill domain of that buffer. -/
theorem Run_peer_fill_within_fill_domain_witness :
    ∃ r, Run twinMapping { lbuf_to_occupancy := [], lcomp_to_occupancy := [] }
        twinReuse = some r ∧
      (∃ v, StdMap.find ((0, 0, 0) : ResultKey) r.fills_by_peer = some v ∧ v.2.dom [5]) ∧
      ∃ einsum, twinMapping.kernelAt 5 = some einsum ∧
        ((∀ e ∈ ([] : List (LogicalBuffer × BufStats)),
            ¬ (e.1.buffer_id = 0 ∧ e.1.dspace_id = 0 ∧
              twinMapping.kernelAt e.1.branch_leaf_id = some einsum)) →
          ∃ v, StdMap.find ((0, 0, einsum) : ResultKey) r.fills_by_peer = some v ∧
            v = ((pointStats 5).link_transfer.dim_in_tags,
              isl_pw_qpolynomial_intersect_domain
                (isl_map_card (pointStats 5).link_transfer.map)
                (pointStats 5).fill.map.domain) ∧
            ∀ s, v.2.dom s → (pointStats 5).fill.map.domain.mem s) :=
  ⟨_, rfl,
    ⟨_, rfl, ⟨⟨[5], List.mem_singleton.mpr rfl⟩, ⟨[5], List.mem_singleton.mpr rfl⟩⟩⟩,
    (Run_peer_fill_within_fill_domain twinMapping
      { lbuf_to_occupancy := [], lcomp_to_occupancy := [] } twinReuse _ rfl).1
      [({ buffer_id := 0, dspace_id := 0, branch_leaf_id := 3 }, pointStats 0)]
      { buffer_id := 0, dspace_id := 0, branch_leaf_id := 5 } (pointStats 5) [] rfl⟩

/-! ## Masked coordinates and boxes -/

theorem masked_injective :
    ∀ (mask : List Bool) (s s' : List Int), s.length = mask.length →
      s'.length = mask.length → dropMasked mask s = dropMasked mask s' →
      keepMasked mask s = keepMasked mask s' → s = s' := by
  intro mask
  induction mask with
  | nil =>
    intro s s' hs hs' _ _
    rw [List.length_eq_zero.mp hs, List.length_eq_zero.mp hs']
  | cons b mask ih =>
    intro s s' hs hs' hd hk
    cases s with
    | nil => simp at hs
    | cons v s1 =>
      cases s' with
      | nil => simp at hs'
      | cons v' s2 =>
        simp only [List.length_cons, Nat.add_right_cancel_iff] at hs hs'
        cases b with
        | true =>
          simp only [dropMasked, keepMasked, if_true, List.cons.injEq] at hd hk
          rw [hk.1, ih s1 s2 hs hs' hd hk.2]
        | false =>
          simp only [dropMasked, keepMasked, Bool.false_eq_true, if_false, List.cons.injEq]
            at hd hk
          rw [hd.1, ih s1 s2 hs hs' hd.2 hk]

theorem masked_surjective :
    ∀ (mask : List Bool) (t p : List Int),
      t.length = (mask.filter (fun b => !b)).length →
      p.length = (mask.filter (fun b => b)).length →
      ∃ s, s.length = mask.length ∧ dropMasked mask s = t ∧ keepMasked mask s = p := by
  intro mask
  induction mask with
  | nil =>
    intro t p ht hp
    simp only [List.filter_nil, List.length_nil, List.length_eq_zero] at ht hp
    exact ⟨[], rfl, by rw [ht]; rfl, by rw [hp]; rfl⟩
  | cons b mask ih =>
    intro t p ht hp
    cases b with
    | true =>
      simp only [List.filter_cons, Bool.not_true, Bool.false_eq_true, if_false, if_true,
        List.length_cons] at ht hp
      match p, hp with
      | v :: p, hp =>
        simp only [List.length_cons, Nat.add_right_cancel_iff] at hp
        obtain ⟨s, h1, h2, h3⟩ := ih t p ht hp
        exact ⟨v :: s, by simp [h1], by simp [dropMasked, h2], by simp [keepMasked, h3]⟩
    | false =>
      simp only [List.filter_cons, Bool.not_false, Bool.false_eq_true, if_false, if_true,
        List.length_cons] at ht hp
      match t, ht with
      | v :: t, ht =>
        simp only [List.length_cons, Nat.add_right_cancel_iff] at ht
        obtain ⟨s, h1, h2, h3⟩ := ih t p ht hp
        exact ⟨v :: s, by simp [h1], by simp [dropMasked, h2], by simp [keepMasked, h3]⟩

theorem dropMasked_length :
    ∀ (mask : List Bool) (s : List Int), s.length = mask.length →
      (dropMasked mask s).length = (mask.filter (fun b => !b)).length := by
  intro mask
  induction mask with
  | nil => intro s _; cases s <;> rfl
  | cons b mask ih =>
    intro s hs
    cases s with
    | nil => simp at hs
    | cons v s1 =>
      simp only [List.length_cons, Nat.add_right_cancel_iff] at hs
      cases b <;> simp [dropMasked, ih s1 hs]

theorem keepMasked_length :
    ∀ (mask : List Bool) (s : List Int), s.length = mask.length →
      (keepMasked mask s).length = (mask.filter (fun b => b)).length := by
  intro mask
  induction mask with
  | nil => intro s _; cases s <;> rfl
  | cons b mask ih =>
    intro s hs
    cases s with
    | nil => simp at hs
    | cons v s1 =>
      simp only [List.length_cons, Nat.add_right_cancel_iff] at hs
      cases b <;> simp [keepMasked, ih s1 hs]

theorem ncard_prod_eq {α β : Type} (s : Set α) (t : Set β) :
    (s ×ˢ t).ncard = s.ncard * t.ncard := by
  rw [← Set.Nat.card_coe_set_eq, ← Set.Nat.card_coe_set_eq, ← Set.Nat.card_coe_set_eq,
    Nat.card_congr (Equiv.Set.prod s t), Nat.card_prod]

theorem inBox_length (extents : List Nat) (p : List Int) (h : inBox extents p) :
    p.length = extents.length :=
  List.Forall₂.length_eq h

theorem ncard_interval (e : Nat) : Set.ncard {v : Int | 0 ≤ v ∧ v < (e : Int)} = e := by
  have h : {v : Int | 0 ≤ v ∧ v < (e : Int)} = ((Finset.Ico (0 : Int) e : Finset Int) : Set Int) := by
    ext v
    simp
  rw [h, Set.ncard_coe_Finset, Int.card_Ico]
  simp

theorem ncard_inBox : ∀ (extents : List Nat), Set.ncard {p | inBox extents p} = extents.prod := by
  intro extents
  induction extents with
  | nil =>
    have h : {p | inBox [] p} = {([] : List Int)} := by
      ext p
      simp [inBox]
    rw [h, Set.ncard_singleton]
    rfl
  | cons e rest ih =>
    have h : {p | inBox (e :: rest) p} =
        (fun q : Int × List Int => q.1 :: q.2) ''
          ({v : Int | 0 ≤ v ∧ v < (e : Int)} ×ˢ {p | inBox rest p}) := by
      ext p
      constructor
      · intro hp
        cases hp with
        | cons hv hrest => exact ⟨(_, _), ⟨hv, hrest⟩, rfl⟩
      · rintro ⟨⟨v, q⟩, ⟨hv, hq⟩, rfl⟩
        exact List.Forall₂.cons hv hq
    have hinj : Function.Injective (fun q : Int × List Int => q.1 :: q.2) := by
      rintro ⟨a, b⟩ ⟨c, d⟩ hq
      simp only [List.cons.injEq] at hq
      rw [hq.1, hq.2]
    rw [h, Set.ncard_image_of_injective _ hinj, ncard_prod_eq, ncard_interval, ih,
      List.prod_cons]

/-! ## Operation count and temporal steps -/

theorem card_graph_of_functional (m : IslMap)
    (hfun : ∀ s o o', m.rel s o → m.rel s o' → o = o') :
    (isl_map_card m).graph.ncard = Set.ncard {s | ∃ o, m.rel s o} := by
  apply Set.ncard_congr (fun p _ => p.1)
  · intro p hp
    exact hp.1
  · rintro ⟨s, o⟩ ⟨s', o'⟩ hp hq heq
    simp only at heq
    subst heq
    have : o = o' := hfun s o o' hp.2 hq.2
    rw [this]
  · rintro s ⟨o, ho⟩
    exact ⟨(s, o), ⟨⟨o, ho⟩, ho⟩, rfl⟩

theorem boundedIdentity_graph (occupancy : Occupancy)
    (hn : occupancy.map.nIn = occupancy.dim_in_tags.length)
    (hlen : ∀ s o, occupancy.map.rel s o → s.length = occupancy.dim_in_tags.length) :
    (isl_map_card (boundedIdentity occupancy)).graph.ncard =
      Set.ncard {t | ∃ s, (∃ o, occupancy.map.rel s o) ∧
        t = dropMasked (occupancy.dim_in_tags.map isSpatial) s} := by
  apply Set.ncard_congr (fun p _ => p.1)
  · rintro ⟨t, t'⟩ ⟨_, ⟨_, _⟩, ⟨y, s, ⟨_, ht⟩, hrel⟩⟩
    exact ⟨s, ⟨y, hrel⟩, ht⟩
  · rintro ⟨t, t'⟩ ⟨u, u'⟩ ⟨_, ⟨_, h1⟩, _⟩ ⟨_, ⟨_, h2⟩, _⟩ heq
    simp only at heq h1 h2
    rw [h1, h2, heq]
  · rintro t ⟨s, ⟨o, ho⟩, ht⟩
    have hs := hlen s o ho
    have hk : t.length = ((occupancy.dim_in_tags.map isSpatial).filter (fun b => !b)).length := by
      rw [ht]
      exact dropMasked_length _ s (by rw [hs, List.length_map])
    have hrel : (boundedIdentity occupancy).rel t t :=
      ⟨⟨hk, rfl⟩, ⟨o, s, ⟨by rw [hs]; exact hn.symm, ht⟩, ho⟩⟩
    exact ⟨(t, t), ⟨⟨t, hrel⟩, hrel⟩, rfl⟩

/-- For a leaf relation that is a full product over the box of its spatial
extents, the number of operations is the number of temporal steps times the
product of the extents. -/
theorem ops_eq_steps_mul_extents (occupancy : Occupancy) (extents : List Nat)
    (h : FullSpatialBox occupancy extents) :
    (isl_map_card occupancy.map).graph.ncard =
      (isl_map_card (boundedIdentity occupancy)).graph.ncard * extents.prod := by
  obtain ⟨hn, hfun, hbox, hfull⟩ := h
  rw [card_graph_of_functional occupancy.map hfun,
    boundedIdentity_graph occupancy hn (fun s o ho => (hbox s o ho).1),
    ← ncard_inBox extents, ← ncard_prod_eq]
  apply Set.ncard_congr
    (fun s _ => (dropMasked (occupancy.dim_in_tags.map isSpatial) s,
      keepMasked (occupancy.dim_in_tags.map isSpatial) s))
  · rintro s ⟨o, ho⟩
    exact ⟨⟨s, ⟨o, ho⟩, rfl⟩, (hbox s o ho).2⟩
  · rintro s s' ⟨o, ho⟩ ⟨o', ho'⟩ heq
    simp only [Prod.mk.injEq] at heq
    exact masked_injective _ s s'
      (by rw [(hbox s o ho).1, List.length_map])
      (by rw [(hbox s' o' ho').1, List.length_map]) heq.1 heq.2
  · rintro ⟨t, p⟩ ⟨⟨s0, ⟨o0, ho0⟩, ht⟩, hp⟩
    replace ht : t = dropMasked (occupancy.dim_in_tags.map isSpatial) s0 := ht
    replace hp : inBox extents p := hp
    have hs0 : s0.length = (occupancy.dim_in_tags.map isSpatial).length := by
      rw [(hbox s0 o0 ho0).1, List.length_map]
    have htlen : t.length
        = ((occupancy.dim_in_tags.map isSpatial).filter (fun b => !b)).length := by
      rw [ht]
      exact dropMasked_length _ s0 hs0
    have hplen : p.length
        = ((occupancy.dim_in_tags.map isSpatial).filter (fun b => b)).length := by
      rw [inBox_length extents p hp, ← inBox_length extents _ (hbox s0 o0 ho0).2]
      exact keepMasked_length _ s0 hs0
    obtain ⟨s', hlen', hdrop, hkeep⟩ := masked_surjective _ t p htlen hplen
    have hmem : ∃ o', occupancy.map.rel s' o' :=
      hfull s0 o0 s' ho0 (by rw [hlen', List.length_map]) (by rw [hdrop, ← ht])
        (by rw [hkeep]; exact hp)
    exact ⟨s', hmem, by rw [hdrop, hkeep]⟩

theorem bufStatsStep_ops (m : FusedMapping) (r r' : Result)
    (e : LogicalBuffer × BufStats) (h : bufStatsStep m r e = some r') :
    r'.ops = r.ops := by
  unfold bufStatsStep at h
  cases hk : m.kernelAt e.1.branch_leaf_id with
  | none => simp [hk] at h
  | some einsum_id =>
    simp only [hk, Option.some.injEq] at h
    rw [← h]

theorem computeStep_ops_steps (m : FusedMapping) (L : List (LogicalComputeUnit × Occupancy))
    (r r' : Result) (e : LogicalComputeUnit × Occupancy) (he : e ∈ L)
    (hr : ∀ kernel ops, StdMap.find kernel r.ops = some ops →
      ∃ e ∈ L, m.kernelAt e.1.branch_leaf_id = some kernel ∧
        ops = (e.2.dim_in_tags, isl_map_card e.2.map) ∧
        StdMap.find kernel r.temporal_steps =
          some (e.2.dim_in_tags.filter (fun dim_tag => !isSpatial dim_tag),
            isl_map_card (boundedIdentity e.2)))
    (h : computeStep m r e = some r') :
    ∀ kernel ops, StdMap.find kernel r'.ops = some ops →
      ∃ e ∈ L, m.kernelAt e.1.branch_leaf_id = some kernel ∧
        ops = (e.2.dim_in_tags, isl_map_card e.2.map) ∧
        StdMap.find kernel r'.temporal_steps =
          some (e.2.dim_in_tags.filter (fun dim_tag => !isSpatial dim_tag),
            isl_map_card (boundedIdentity e.2)) := by
  unfold computeStep at h
  cases hk : m.kernelAt e.1.branch_leaf_id with
  | none => simp [hk] at h
  | some k0 =>
    simp only [hk, Option.some.injEq] at h
    intro kernel ops hfind
    rw [← h] at hfind ⊢
    simp only [StdMap.find_assign] at hfind ⊢
    by_cases hkk : k0 = kernel
    · simp only [hkk, if_true, Option.some.injEq] at hfind ⊢
      exact ⟨e, he, by rw [hk, hkk], hfind.symm, rfl⟩
    · simp only [hkk, if_false] at hfind ⊢
      exact hr kernel ops hfind

/-- The operation count and the temporal-step count that `Run` stores for an
einsum come from one and the same compute leaf of that einsum. -/
theorem Run_ops_steps_source (m : FusedMapping) (mar : MappingAnalysisResult)
    (ReuseAnalysis : List (LogicalBuffer × Occupancy) → ReuseAnalysisOptions →
      ReuseAnalysisOutput) (r : Result) (h : Run m mar ReuseAnalysis = some r)
    (kernel : EinsumId) (ops : ResultValue) (hops : StdMap.find kernel r.ops = some ops) :
    ∃ e ∈ mar.lcomp_to_occupancy, m.kernelAt e.1.branch_leaf_id = some kernel ∧
      ops = (e.2.dim_in_tags, isl_map_card e.2.map) ∧
      StdMap.find kernel r.temporal_steps =
        some (e.2.dim_in_tags.filter (fun dim_tag => !isSpatial dim_tag),
          isl_map_card (boundedIdentity e.2)) := by
  unfold Run at h
  simp only at h
  cases h1 : foldM (bufStatsStep m)
      { ops := [], fills := [], fills_by_parent := [], fills_by_peer := [],
        occupancy := [], temporal_steps := [] }
      (ReuseAnalysis mar.lbuf_to_occupancy { count_hops := false }).buf_to_stats with
  | none => simp [h1] at h
  | some r1 =>
    simp only [h1] at h
    have hr1 : r1.ops = [] :=
      foldM_invariant (bufStatsStep m) (fun r => r.ops = [])
        (fun s a s' hs hstep => (bufStatsStep_ops m s s' a hstep).trans hs) _ _ r1 rfl h1
    have hinv := foldM_invariant_mem (computeStep m)
      (fun r => ∀ kernel ops, StdMap.find kernel r.ops = some ops →
        ∃ e ∈ mar.lcomp_to_occupancy, m.kernelAt e.1.branch_leaf_id = some kernel ∧
          ops = (e.2.dim_in_tags, isl_map_card e.2.map) ∧
          StdMap.find kernel r.temporal_steps =
            some (e.2.dim_in_tags.filter (fun dim_tag => !isSpatial dim_tag),
              isl_map_card (boundedIdentity e.2)))
      _ r1 r
      (fun s a s' ha hs hstep =>
        computeStep_ops_steps m mar.lcomp_to_occupancy s s' a ha hs hstep)
      (fun kernel ops hfind => by
        rw [hr1] at hfind
        simp [StdMap.find] at hfind) h
    exact hinv kernel ops hops

/-- C10 (as the code has it): temporal/spatial split.  When every compute leaf
of an einsum has a relation that runs one operation at each space-time point
and whose points are the full product of its temporal steps with the box of
the spatial extents, the operation count `Run` stores for the einsum is its
temporal-step count times the product of the spatial extents. -/
theorem Run_ops_eq_steps_mul_extents (m : FusedMapping) (mar : MappingAnalysisResult)
    (ReuseAnalysis : List (LogicalBuffer × Occupancy) → ReuseAnalysisOptions →
      ReuseAnalysisOutput) (r : Result) (kernel : EinsumId) (ops steps : ResultValue)
    (extents : List Nat)
    (h : Run m mar ReuseAnalysis = some r)
    (hops : StdMap.find kernel r.ops = some ops)
    (hsteps : StdMap.find kernel r.temporal_steps = some steps)
    (hfull : ∀ e ∈ mar.lcomp_to_occupancy,
      m.kernelAt e.1.branch_leaf_id = some kernel → FullSpatialBox e.2 extents) :
    ops.2.graph.ncard = steps.2.graph.ncard * extents.prod := by
  obtain ⟨e, he, hk, hval, hst⟩ := Run_ops_steps_source m mar ReuseAnalysis r h kernel ops hops
  rw [hsteps, Option.some.injEq] at hst
  rw [hval, hst]
  exact ops_eq_steps_mul_extents e.2 extents (hfull e he hk)

/-- The tiling of the leaf of `splitMapping`, point by point. -/
theorem split_tiling_rel (bound : Int) (x o : List Int) :
    (splitOccupancy bound).map.rel x o ↔
      ∃ a b, x = [a, b] ∧ o = [2 * a + b] ∧ 0 ≤ a ∧ 0 ≤ b ∧ b < 2 ∧ 2 * a + b < bound := by
  show ((x.length = 2 ∧
      o = [(0:Int) + (List.zipWith (fun c v => c * v) [2, 1] x).sum]) ∧
     (((x.length = 2 ∧ (x.length = 2 ∧
        (0:Int) + (List.zipWith (fun c v => c * v) [0, 0] x).sum
          ≤ (0:Int) + (List.zipWith (fun c v => c * v) [1, 0] x).sum)) ∧
       (x.length = 2 ∧
        (0:Int) + (List.zipWith (fun c v => c * v) [0, 0] x).sum
          ≤ (0:Int) + (List.zipWith (fun c v => c * v) [0, 1] x).sum)) ∧
       (x.length = 2 ∧
        (0:Int) + (List.zipWith (fun c v => c * v) [0, 1] x).sum
          < (2:Int) + (List.zipWith (fun c v => c * v) [0, 0] x).sum))) ∧
     List.Forall₂ (fun v b => 0 ≤ v ∧ v < b) o [bound] ↔ _
  constructor
  · rintro ⟨⟨⟨hx, ho⟩, h2⟩, h3⟩
    match x, hx with
    | [a, b], _ =>
      subst ho
      simp at h2 h3
      refine ⟨a, b, rfl, by simp, ?_, ?_, ?_, ?_⟩ <;> omega
  · rintro ⟨a, b, rfl, rfl, h1, h2, h3, h4⟩
    simp
    omega

theorem split_tiling_functional (bound : Int) (s o o' : List Int)
    (h : (splitOccupancy bound).map.rel s o) (h' : (splitOccupancy bound).map.rel s o') :
    o = o' := by
  obtain ⟨a, b, hs, ho, -⟩ := (split_tiling_rel bound s o).mp h
  obtain ⟨a', b', hs', ho', -⟩ := (split_tiling_rel bound s o').mp h'
  rw [hs] at hs'
  simp only [List.cons.injEq, and_true] at hs'
  rw [ho, ho', hs'.1, hs'.2]

theorem split_ragged_points :
    {s | ∃ o, (splitOccupancy 3).map.rel s o}
      = ((({[0, 0], [0, 1], [1, 0]} : Finset (List Int)) : Set (List Int))) := by
  ext s
  simp only [Set.mem_setOf_eq, split_tiling_rel]
  constructor
  · rintro ⟨o, a, b, rfl, -, h1, h2, h3, h4⟩
    have hab : (a = 0 ∧ b = 0) ∨ (a = 0 ∧ b = 1) ∨ (a = 1 ∧ b = 0) := by omega
    rcases hab with ⟨rfl, rfl⟩ | ⟨rfl, rfl⟩ | ⟨rfl, rfl⟩ <;> simp
  · intro h
    simp at h
    rcases h with rfl | rfl | rfl
    · exact ⟨_, 0, 0, rfl, rfl, by decide, by decide, by decide, by decide⟩
    · exact ⟨_, 0, 1, rfl, rfl, by decide, by decide, by decide, by decide⟩
    · exact ⟨_, 1, 0, rfl, rfl, by decide, by decide, by decide, by decide⟩

theorem split_ragged_steps :
    {t | ∃ s, (∃ o, (splitOccupancy 3).map.rel s o) ∧
        t = dropMasked ((splitOccupancy 3).dim_in_tags.map isSpatial) s}
      = ((({[0], [1]} : Finset (List Int)) : Set (List Int))) := by
  ext t
  simp only [Set.mem_setOf_eq, split_tiling_rel]
  constructor
  · rintro ⟨s, ⟨o, a, b, rfl, -, h1, h2, h3, h4⟩, rfl⟩
    have ha : a = 0 ∨ a = 1 := by omega
    rcases ha with rfl | rfl <;> simp [splitOccupancy, isSpatial, dropMasked]
  · intro h
    simp at h
    rcases h with rfl | rfl
    · exact ⟨[0, 0], ⟨_, 0, 0, rfl, rfl, by decide, by decide, by decide, by decide⟩, rfl⟩
    · exact ⟨[1, 0], ⟨_, 1, 0, rfl, rfl, by decide, by decide, by decide, by decide⟩, rfl⟩

theorem split_tiling_length (bound : Int) (s o : List Int)
    (h : (splitOccupancy bound).map.rel s o) :
    s.length = (splitOccupancy bound).dim_in_tags.length := by
  obtain ⟨a, b, hs, -⟩ := (split_tiling_rel bound s o).mp h
  rw [hs]
  rfl

/-- C10 counterexample: dimension 0 with bound 3 is split into a temporal loop
of tile size 2 and a spatial loop inside it, whose coordinate ranges over
exactly `0, 1` (extent 2).  `Run` stores 3 operations and 2 temporal steps
for the einsum, and 3 is not 2 times 2. -/
theorem Run_ops_ne_steps_mul_extents_ragged :
    ∃ r, Run splitMapping (splitAnalysis 3) noReuse = some r ∧
      StdMap.find 0 r.ops = some ((splitOccupancy 3).dim_in_tags,
        isl_map_card (splitOccupancy 3).map) ∧
      StdMap.find 0 r.temporal_steps = some ([SpaceTime.Temporal],
        isl_map_card (boundedIdentity (splitOccupancy 3))) ∧
      (∀ v, (∃ s, (isl_map_card (splitOccupancy 3).map).dom s ∧
          keepMasked ((splitOccupancy 3).dim_in_tags.map isSpatial) s = [v])
        ↔ 0 ≤ v ∧ v < 2) ∧
      (isl_map_card (splitOccupancy 3).map).graph.ncard = 3 ∧
      (isl_map_card (boundedIdentity (splitOccupancy 3))).graph.ncard = 2 ∧
      (isl_map_card (splitOccupancy 3).map).graph.ncard
        ≠ (isl_map_card (boundedIdentity (splitOccupancy 3))).graph.ncard * [2].prod := by
  have hops : (isl_map_card (splitOccupancy 3).map).graph.ncard = 3 := by
    rw [card_graph_of_functional _ (split_tiling_functional 3), split_ragged_points,
      Set.ncard_coe_Finset]
    rfl
  have hsteps : (isl_map_card (boundedIdentity (splitOccupancy 3))).graph.ncard = 2 := by
    rw [boundedIdentity_graph _ rfl (split_tiling_length 3), split_ragged_steps,
      Set.ncard_coe_Finset]
    rfl
  refine ⟨_, rfl, rfl, rfl, ?_, hops, hsteps, ?_⟩
  · intro v
    constructor
    · rintro ⟨s, ⟨o, ho⟩, hv⟩
      obtain ⟨a, b, rfl, -, h1, h2, h3, h4⟩ := (split_tiling_rel 3 s o).mp ho
      simp [splitOccupancy, isSpatial, keepMasked] at hv
      omega
    · rintro ⟨h1, h2⟩
      refine ⟨[0, v], ⟨[2 * 0 + v], (split_tiling_rel 3 _ _).mpr
        ⟨0, v, rfl, rfl, by decide, h1, h2, by omega⟩⟩, ?_⟩
      simp [splitOccupancy, isSpatial, keepMasked]
  · rw [hops, hsteps]
    decide

theorem split_even_full : FullSpatialBox (splitOccupancy 4) [2] := by
  refine ⟨rfl, split_tiling_functional 4, ?_, ?_⟩
  · intro s o ho
    refine ⟨split_tiling_length 4 s o ho, ?_⟩
    obtain ⟨a, b, rfl, -, h1, h2, h3, h4⟩ := (split_tiling_rel 4 s o).mp ho
    simp [splitOccupancy, isSpatial, keepMasked, inBox]
    omega
  · intro s o s' ho hlen hdrop hkeep
    obtain ⟨a, b, rfl, -, h1, h2, h3, h4⟩ := (split_tiling_rel 4 s o).mp ho
    match s', hlen with
    | [a', b'], _ =>
      simp [splitOccupancy, isSpatial, keepMasked, dropMasked, inBox] at hdrop hkeep
      exact ⟨[2 * a' + b'], (split_tiling_rel 4 _ _).mpr
        ⟨a', b', rfl, rfl, by omega, by omega, by omega, by omega⟩⟩

/-- Witness for C10: with bound 4 the same split is a full product (2 temporal
steps, spatial extent 2), and the stored counts satisfy the identity. -/
theorem Run_ops_eq_steps_mul_extents_witness :
    ∃ r, Run splitMapping (splitAnalysis 4) noReuse = some r ∧
      StdMap.find 0 r.ops = some ((splitOccupancy 4).dim_in_tags,
        isl_map_card (splitOccupancy 4).map) ∧
      StdMap.find 0 r.temporal_steps = some ([SpaceTime.Temporal],
        isl_map_card (boundedIdentity (splitOccupancy 4))) ∧
      FullSpatialBox (splitOccupancy 4) [2] ∧
      (isl_map_card (splitOccupancy 4).map).graph.ncard
        = (isl_map_card (boundedIdentity (splitOccupancy 4))).graph.ncard * [2].prod :=
  ⟨_, rfl, rfl, rfl, split_even_full,
    Run_ops_eq_steps_mul_extents splitMapping (splitAnalysis 4) noReuse _ 0
      ((splitOccupancy 4).dim_in_tags, isl_map_card (splitOccupancy 4).map)
      ([SpaceTime.Temporal], isl_map_card (boundedIdentity (splitOccupancy 4))) [2]
      rfl rfl rfl
      (fun e he _ => by
        have : e = ({ branch_leaf_id := 2 }, splitOccupancy 4) := List.mem_singleton.mp he
        rw [this]
        exact split_even_full)⟩

/-! ## Loop bound inference: fixpoint -/

theorem IslMap.eq_of_rel {a b : IslMap} (h1 : a.nIn = b.nIn) (h2 : a.nOut = b.nOut)
    (h3 : ∀ x y, a.rel x y ↔ b.rel x y) : a = b := by
  cases a with
  | mk an ao ar =>
    cases b with
    | mk bn bo br =>
      simp only at h1 h2 h3
      subst h1
      subst h2
      have : ar = br := funext (fun x => funext (fun y => propext (h3 x y)))
      rw [this]

theorem inferredProdTiling_rel (R : IslMap) (idx : Nat) (P : IslMap) (x o : List Int) :
    (inferredProdTiling R idx P).rel x o ↔
      P.rel x o ∧ ∃ c o', R.rel c o' ∧ P.rel x o' ∧ c.take idx = x.take idx := by
  constructor
  · rintro ⟨h1, c, ⟨o', hR, hP⟩, hc⟩
    exact ⟨h1, c, o', hR, hP, hc⟩
  · rintro ⟨h1, c, o', hR, hP, hc⟩
    exact ⟨h1, c, ⟨o', hR, hP⟩, hc⟩

theorem xFilter_refl (a : NodeID × IslMap) : xFilter a a :=
  ⟨rfl, rfl, rfl, fun _ _ h => h, fun _ _ _ _ h => h⟩

theorem xFilter_trans (a b c : NodeID × IslMap) (hab : xFilter a b) (hbc : xFilter b c) :
    xFilter a c := by
  obtain ⟨h1, h2, h3, h4, h5⟩ := hab
  obtain ⟨g1, g2, g3, g4, g5⟩ := hbc
  refine ⟨g1.trans h1, g2.trans h2, g3.trans h3, fun x o h => h4 x o (g4 x o h), ?_⟩
  intro x o o' hc ha
  exact g5 x o o' hc (h5 x o o' (g4 x o hc) ha)

theorem inferredProdTiling_xFilter (R : IslMap) (idx : Nat) (a : NodeID × IslMap) :
    xFilter a (a.1, inferredProdTiling R idx a.2) := by
  refine ⟨rfl, rfl, rfl, fun x o h => h.1, ?_⟩
  intro x o o' hb ha
  exact ⟨ha, hb.2⟩

theorem inferredProdTiling_fixed_of_xFilter (R : IslMap) (idx : Nat)
    (a b : NodeID × IslMap) (hfix : inferredProdTiling R idx a.2 = a.2)
    (hab : xFilter a b) : inferredProdTiling R idx b.2 = b.2 := by
  obtain ⟨_, _, _, hsub, hclosed⟩ := hab
  apply IslMap.eq_of_rel
  · rfl
  · rfl
  intro x o
  rw [inferredProdTiling_rel]
  constructor
  · exact fun h => h.1
  · intro hb
    have ha : (inferredProdTiling R idx a.2).rel x o := by
      rw [hfix]
      exact hsub x o hb
    obtain ⟨_, c, o', hR, hP, hc⟩ := (inferredProdTiling_rel R idx a.2 x o).mp ha
    exact ⟨hb, c, o', hR, hclosed x o o' hb hP, hc⟩

theorem inferredProdTiling_idem (R : IslMap) (idx : Nat) (P : IslMap) :
    inferredProdTiling R idx (inferredProdTiling R idx P) = inferredProdTiling R idx P := by
  apply IslMap.eq_of_rel
  · rfl
  · rfl
  intro x o
  rw [inferredProdTiling_rel]
  constructor
  · exact fun h => h.1
  · intro h
    obtain ⟨hP, c, o', hR, hP', hc⟩ := (inferredProdTiling_rel R idx P x o).mp h
    exact ⟨h, c, o', hR, (inferredProdTiling_rel R idx P x o').mpr
      ⟨hP', c, o', hR, hP', hc⟩, hc⟩

theorem evolves_refl (m : FusedMapping) (rank : EinsumId → Nat) (k : Nat)
    (a : NodeID × IslMap) : evolves m rank k a a :=
  ⟨xFilter_refl a, fun _ _ _ => rfl⟩

theorem evolves_trans (m : FusedMapping) (rank : EinsumId → Nat) (k : Nat)
    (a b c : NodeID × IslMap) (hab : evolves m rank k a b) (hbc : evolves m rank k b c) :
    evolves m rank k a c := by
  refine ⟨xFilter_trans a b c hab.1 hbc.1, ?_⟩
  intro e he hlt
  have hb : b = a := hab.2 e he hlt
  have hc : c = b := hbc.2 e (by rw [hb]; exact he) hlt
  rw [hc, hb]

theorem forall₂_refl_of {α : Type} (R : α → α → Prop) (hR : ∀ a, R a a) :
    ∀ (l : List α), List.Forall₂ R l l := by
  intro l
  induction l with
  | nil => exact List.Forall₂.nil
  | cons a rest ih => exact List.Forall₂.cons (hR a) ih

theorem forall₂_trans_of {α : Type} (R : α → α → Prop)
    (hR : ∀ a b c, R a b → R b c → R a c) :
    ∀ (l1 l2 l3 : List α), List.Forall₂ R l1 l2 → List.Forall₂ R l2 l3 →
      List.Forall₂ R l1 l3 := by
  intro l1 l2 l3 h1
  induction h1 generalizing l3 with
  | nil =>
    intro h2
    cases h2
    exact List.Forall₂.nil
  | cons hab _ ih =>
    intro h2
    cases h2 with
    | cons hbc hrest => exact List.Forall₂.cons (hR _ _ _ hab hbc) (ih _ hrest)

theorem forall₂_mem_right {α : Type} (R : α → α → Prop) :
    ∀ (l1 l2 : List α), List.Forall₂ R l1 l2 → ∀ b ∈ l2, ∃ a ∈ l1, R a b := by
  intro l1 l2 h
  induction h with
  | nil => intro b hb; exact absurd hb (List.not_mem_nil _)
  | cons hab _ ih =>
    intro b hb
    rcases List.mem_cons.mp hb with h1 | h1
    · subst h1
      exact ⟨_, List.mem_cons_self _ _, hab⟩
    · obtain ⟨a, ha, hr⟩ := ih b h1
      exact ⟨a, List.mem_cons_of_mem _ ha, hr⟩

theorem forall₂_getElem? {α : Type} (R : α → α → Prop) :
    ∀ (l1 l2 : List α), List.Forall₂ R l1 l2 → ∀ (j : Nat) (a : α), l1[j]? = some a →
      ∃ b, l2[j]? = some b ∧ R a b := by
  intro l1 l2 h
  induction h with
  | nil => intro j a ha; simp at ha
  | cons hab _ ih =>
    intro j a ha
    cases j with
    | zero =>
      simp only [List.getElem?_cons_zero, Option.some.injEq] at ha
      subst ha
      exact ⟨_, by simp, hab⟩
    | succ j =>
      simp only [List.getElem?_cons_succ] at ha
      obtain ⟨b, hb, hr⟩ := ih j a ha
      exact ⟨b, by simpa using hb, hr⟩

theorem forall₂_keys_of_xFilter :
    ∀ (S S' : BranchTilings), List.Forall₂ xFilter S S' →
      S'.map Prod.fst = S.map Prod.fst := by
  intro S S' h
  induction h with
  | nil => rfl
  | cons hab _ ih => simp [hab.1, ih]

theorem forEachM_forall₂_mem {α β : Type} (f : α → Option β) (R : α → β → Prop) :
    ∀ (l : List α) (r : List β), (∀ a ∈ l, ∀ b, f a = some b → R a b) →
      forEachM f l = some r → List.Forall₂ R l r := by
  intro l
  induction l with
  | nil =>
    intro r _ h
    simp [forEachM] at h
    subst h
    exact List.Forall₂.nil
  | cons a rest ih =>
    intro r hf h
    unfold forEachM at h
    cases hfa : f a with
    | none => simp [hfa] at h
    | some b0 =>
      cases hrest : forEachM f rest with
      | none => simp [hfa, hrest] at h
      | some bs =>
        simp [hfa, hrest] at h
        subst h
        exact List.Forall₂.cons (hf a (List.mem_cons_self _ _) b0 hfa)
          (ih bs (fun a' ha' => hf a' (List.mem_cons_of_mem _ ha')) hrest)

theorem forEachM_total {α β : Type} (f : α → Option β) :
    ∀ (l : List α), (∀ a ∈ l, ∃ b, f a = some b) → ∃ r, forEachM f l = some r := by
  intro l
  induction l with
  | nil => intro _; exact ⟨[], rfl⟩
  | cons a rest ih =>
    intro hf
    obtain ⟨b, hb⟩ := hf a (List.mem_cons_self _ _)
    obtain ⟨bs, hbs⟩ := ih (fun a' ha' => hf a' (List.mem_cons_of_mem _ ha'))
    exact ⟨b :: bs, by simp [forEachM, hb, hbs]⟩

theorem forall₂_evolves_keys (m : FusedMapping) (rank : EinsumId → Nat) (k : Nat)
    (S S' : BranchTilings) (h : List.Forall₂ (evolves m rank k) S S') :
    S'.map Prod.fst = S.map Prod.fst :=
  forall₂_keys_of_xFilter S S' (List.Forall₂.imp (fun _ _ hab => hab.1) h)

theorem mem_keys {S : BranchTilings} {a : NodeID × IslMap} (ha : a ∈ S) :
    a.1 ∈ S.map Prod.fst :=
  List.mem_map_of_mem Prod.fst ha

theorem readTensorStep_evolves (E : Engine) (m : FusedMapping) (w : FusedWorkload)
    (idx : Nat) (top : List (DataSpaceId × Nat)) (rank : EinsumId → Nat) (k : Nat)
    (S S' : BranchTilings) (j : Nat) (c : NodeID × IslMap) (kc : EinsumId)
    (t : DataSpaceId)
    (hranked : rankedLeaves m w rank (S.map Prod.fst))
    (hj : S[j]? = some c) (hkc : m.kernelAt c.1 = some kc)
    (hcomp : isComplete E c.2 = true) (ht : t ∈ w.TensorsReadByEinsum kc)
    (hset : settled E m w idx top rank k S)
    (h : readTensorStep E m w idx top j kc S t = some S') :
    List.Forall₂ (fun a b => evolves m rank k a b ∧ (m.kernelAt a.1 = some kc → b = a))
      S S' := by
  unfold readTensorStep at h
  cases hw : w.WriterEinsum t with
  | none =>
    simp only [hw, Option.some.injEq] at h
    subst h
    exact forall₂_refl_of _ (fun a => ⟨evolves_refl m rank k a, fun _ => rfl⟩) S
  | some p =>
    simp only [hw, hj] at h
    cases hti : StdMap.find t top with
    | none => simp [hti] at h
    | some ti =>
      simp only [hti] at h
      refine forEachM_forall₂_mem _ _ S S' ?_ h
      intro a ha b hab
      unfold producerUpdate at hab
      cases hka : m.kernelAt a.1 with
      | none => simp [hka] at hab
      | some ka =>
        simp only [hka] at hab
        by_cases hne : ka ≠ p
        · rw [if_pos hne, Option.some.injEq] at hab
          subst hab
          exact ⟨evolves_refl m rank k a, fun _ => rfl⟩
        · rw [if_neg hne, Option.some.injEq] at hab
          have hkap : ka = p := not_not.mp hne
          subst hkap
          have hlt : rank kc < rank ka :=
            hranked.2 c.1 (mem_keys (List.getElem?_mem hj)) a.1 (mem_keys ha) kc ka hkc hka
              t ht hw
          subst hab
          refine ⟨⟨inferredProdTiling_xFilter _ idx a, ?_⟩, ?_⟩
          · intro e he hek
            rw [hka, Option.some.injEq] at he
            subst he
            have hfix := hset c (List.getElem?_mem hj) kc hkc hcomp t ht ka hw ti hti
              a ha hka hek
            rw [hfix]
          · intro hckc
            have hkk : ka = kc := Option.some.inj hckc
            rw [hkk] at hlt
            exact absurd hlt (Nat.lt_irrefl _)

theorem settled_of_evolves (E : Engine) (m : FusedMapping) (w : FusedWorkload)
    (idx : Nat) (top : List (DataSpaceId × Nat)) (rank : EinsumId → Nat) (k : Nat)
    (S S' : BranchTilings)
    (hranked : rankedLeaves m w rank (S.map Prod.fst))
    (hset : settled E m w idx top rank k S)
    (hev : List.Forall₂ (evolves m rank k) S S') :
    settled E m w idx top rank k S' := by
  intro c' hc' kc hkc hcomp t ht p hw ti hti e' he' hke hlt
  obtain ⟨c, hc, hcc'⟩ := forall₂_mem_right _ S S' hev c' hc'
  obtain ⟨e, he, hee'⟩ := forall₂_mem_right _ S S' hev e' he'
  have hc1 : c'.1 = c.1 := hcc'.1.1
  have he1 : e'.1 = e.1 := hee'.1.1
  rw [hc1] at hkc
  rw [he1] at hke
  have hrk : rank kc < rank p :=
    hranked.2 c.1 (mem_keys hc) e.1 (mem_keys he) kc p hkc hke t ht hw
  have hceq : c' = c := hcc'.2 kc hkc (Nat.lt_trans hrk hlt)
  have heeq : e' = e := hee'.2 p hke hlt
  rw [hceq] at hcomp ⊢
  rw [heeq]
  exact hset c hc kc hkc hcomp t ht p hw ti hti e he hke hlt

theorem forall₂_evolves_trans (m : FusedMapping) (rank : EinsumId → Nat) (k : Nat)
    (S U V : BranchTilings) (h1 : List.Forall₂ (evolves m rank k) S U)
    (h2 : List.Forall₂ (evolves m rank k) U V) : List.Forall₂ (evolves m rank k) S V :=
  forall₂_trans_of _ (evolves_trans m rank k) S U V h1 h2

theorem consumerStep_reads_evolves (E : Engine) (m : FusedMapping) (w : FusedWorkload)
    (idx : Nat) (top : List (DataSpaceId × Nat)) (rank : EinsumId → Nat) (k : Nat)
    (S S' : BranchTilings) (j : Nat) (c : NodeID × IslMap) (kc : EinsumId)
    (hranked : rankedLeaves m w rank (S.map Prod.fst))
    (hj : S[j]? = some c) (hkc : m.kernelAt c.1 = some kc)
    (hcomp : isComplete E c.2 = true)
    (hset : settled E m w idx top rank k S)
    (h : foldM (readTensorStep E m w idx top j kc) S (w.TensorsReadByEinsum kc) = some S') :
    List.Forall₂ (evolves m rank k) S S' ∧ settled E m w idx top rank k S' ∧
      S'[j]? = some c := by
  refine foldM_invariant_mem (readTensorStep E m w idx top j kc)
    (fun U => List.Forall₂ (evolves m rank k) S U ∧ settled E m w idx top rank k U ∧
      U[j]? = some c) _ S S' ?_
    ⟨forall₂_refl_of _ (evolves_refl m rank k) S, hset, hj⟩ h
  intro U t U' ht hU hstep
  obtain ⟨hSU, hsetU, hjU⟩ := hU
  have hkeysU : U.map Prod.fst = S.map Prod.fst := forall₂_evolves_keys m rank k S U hSU
  have hrankedU : rankedLeaves m w rank (U.map Prod.fst) := by rw [hkeysU]; exact hranked
  have hstep' := readTensorStep_evolves E m w idx top rank k U U' j c kc t hrankedU hjU hkc
    hcomp ht hsetU hstep
  have hUU' : List.Forall₂ (evolves m rank k) U U' :=
    List.Forall₂.imp (fun _ _ hab => hab.1) hstep'
  refine ⟨forall₂_evolves_trans m rank k S U U' hSU hUU',
    settled_of_evolves E m w idx top rank k U U' hrankedU hsetU hUU', ?_⟩
  obtain ⟨b, hb, hcb⟩ := forall₂_getElem? _ U U' hstep' j c hjU
  rw [hb, hcb.2 hkc]

theorem consumerStep_evolves (E : Engine) (m : FusedMapping) (w : FusedWorkload)
    (idx : Nat) (top : List (DataSpaceId × Nat)) (rank : EinsumId → Nat) (k : Nat)
    (S S' : BranchTilings) (j : Nat)
    (hranked : rankedLeaves m w rank (S.map Prod.fst))
    (hset : settled E m w idx top rank k S)
    (h : consumerStep E m w idx top S j = some S') :
    List.Forall₂ (evolves m rank k) S S' ∧ settled E m w idx top rank k S' := by
  unfold consumerStep at h
  cases hj : S[j]? with
  | none =>
    simp only [hj, Option.some.injEq] at h
    subst h
    exact ⟨forall₂_refl_of _ (evolves_refl m rank k) S, hset⟩
  | some c =>
    simp only [hj] at h
    cases hc : isComplete E c.2 with
    | false =>
      simp only [hc, Bool.false_eq_true, if_false, Option.some.injEq] at h
      subst h
      exact ⟨forall₂_refl_of _ (evolves_refl m rank k) S, hset⟩
    | true =>
      simp only [hc, if_true] at h
      cases hk : m.kernelAt c.1 with
      | none => simp [hk] at h
      | some kc =>
        simp only [hk] at h
        have hres := consumerStep_reads_evolves E m w idx top rank k S S' j c kc hranked
          hj hk hc hset h
        exact ⟨hres.1, hres.2.1⟩

theorem inferencePass_evolves (E : Engine) (m : FusedMapping) (w : FusedWorkload)
    (idx : Nat) (top : List (DataSpaceId × Nat)) (rank : EinsumId → Nat) (k : Nat)
    (S S' : BranchTilings)
    (hranked : rankedLeaves m w rank (S.map Prod.fst))
    (hset : settled E m w idx top rank k S)
    (h : inferencePass E m w idx top S = some S') :
    List.Forall₂ (evolves m rank k) S S' ∧ settled E m w idx top rank k S' := by
  unfold inferencePass at h
  refine foldM_invariant (consumerStep E m w idx top)
    (fun U => List.Forall₂ (evolves m rank k) S U ∧ settled E m w idx top rank k U)
    ?_ _ S S' ⟨forall₂_refl_of _ (evolves_refl m rank k) S, hset⟩ h
  intro U j U' hU hstep
  have hkeysU : U.map Prod.fst = S.map Prod.fst := forall₂_evolves_keys m rank k S U hU.1
  have hrankedU : rankedLeaves m w rank (U.map Prod.fst) := by rw [hkeysU]; exact hranked
  have hres := consumerStep_evolves E m w idx top rank k U U' j hrankedU hU.2 hstep
  exact ⟨forall₂_evolves_trans m rank k S U U' hU.1 hres.1, hres.2⟩

theorem foldM_establish {σ α : Type} (f : σ → α → Option σ) (Inv Q : σ → Prop) (a : α) :
    ∀ (l : List α) (s r : σ),
      (∀ s b s', b ∈ l → Inv s → f s b = some s' → Inv s') →
      (∀ s s', Inv s → f s a = some s' → Q s') →
      (∀ s b s', b ∈ l → Inv s → Q s → f s b = some s' → Q s') →
      a ∈ l → Inv s → foldM f s l = some r → Q r := by
  intro l
  induction l with
  | nil => intro s r _ _ _ ha; exact absurd ha (List.not_mem_nil _)
  | cons b rest ih =>
    intro s r hpres hest hkeep ha hs h
    unfold foldM at h
    cases hfb : f s b with
    | none => simp [hfb] at h
    | some s1 =>
      simp only [hfb] at h
      have hs1 : Inv s1 := hpres s b s1 (List.mem_cons_self _ _) hs hfb
      rcases List.mem_cons.mp ha with hab | hin
      · have hq1 : Q s1 := hest s s1 hs (by rw [hab]; exact hfb)
        have hboth := foldM_invariant_mem f (fun u => Inv u ∧ Q u) rest s1 r
          (fun u b' u' hb' hu hstep =>
            ⟨hpres u b' u' (List.mem_cons_of_mem _ hb') hu.1 hstep,
              hkeep u b' u' (List.mem_cons_of_mem _ hb') hu.1 hu.2 hstep⟩)
          ⟨hs1, hq1⟩ h
        exact hboth.2
      · exact ih s1 r
          (fun u b' u' hb' => hpres u b' u' (List.mem_cons_of_mem _ hb'))
          hest
          (fun u b' u' hb' => hkeep u b' u' (List.mem_cons_of_mem _ hb'))
          hin hs1 h

theorem fixed_preserved (m : FusedMapping) (rank : EinsumId → Nat) (k : Nat)
    (R : IslMap) (idx : Nat) (p : EinsumId) (U U' : BranchTilings)
    (hev : List.Forall₂ (evolves m rank k) U U')
    (hQ : ∀ e ∈ U, m.kernelAt e.1 = some p → inferredProdTiling R idx e.2 = e.2) :
    ∀ e ∈ U', m.kernelAt e.1 = some p → inferredProdTiling R idx e.2 = e.2 := by
  intro e' he' hke
  obtain ⟨e, he, hee'⟩ := forall₂_mem_right _ U U' hev e' he'
  have he1 : e'.1 = e.1 := hee'.1.1
  rw [he1] at hke
  exact inferredProdTiling_fixed_of_xFilter R idx e e' (hQ e he hke) hee'.1

theorem readTensorStep_inv (E : Engine) (m : FusedMapping) (w : FusedWorkload)
    (idx : Nat) (top : List (DataSpaceId × Nat)) (rank : EinsumId → Nat) (k : Nat)
    (S U U' : BranchTilings) (j : Nat) (c : NodeID × IslMap) (kc : EinsumId)
    (t : DataSpaceId)
    (hranked : rankedLeaves m w rank (S.map Prod.fst))
    (hkc : m.kernelAt c.1 = some kc) (hcomp : isComplete E c.2 = true)
    (ht : t ∈ w.TensorsReadByEinsum kc)
    (hU : List.Forall₂ (evolves m rank k) S U ∧ settled E m w idx top rank k U ∧
      U[j]? = some c)
    (hstep : readTensorStep E m w idx top j kc U t = some U') :
    List.Forall₂ (evolves m rank k) U U' ∧
      (List.Forall₂ (evolves m rank k) S U' ∧ settled E m w idx top rank k U' ∧
        U'[j]? = some c) := by
  obtain ⟨hSU, hsetU, hjU⟩ := hU
  have hkeysU : U.map Prod.fst = S.map Prod.fst := forall₂_evolves_keys m rank k S U hSU
  have hrankedU : rankedLeaves m w rank (U.map Prod.fst) := by rw [hkeysU]; exact hranked
  have hstep' := readTensorStep_evolves E m w idx top rank k U U' j c kc t hrankedU hjU hkc
    hcomp ht hsetU hstep
  have hUU' : List.Forall₂ (evolves m rank k) U U' :=
    List.Forall₂.imp (fun _ _ hab => hab.1) hstep'
  refine ⟨hUU', forall₂_evolves_trans m rank k S U U' hSU hUU',
    settled_of_evolves E m w idx top rank k U U' hrankedU hsetU hUU', ?_⟩
  obtain ⟨b, hb, hcb⟩ := forall₂_getElem? _ U U' hstep' j c hjU
  rw [hb, hcb.2 hkc]

theorem readTensorStep_establishes (E : Engine) (m : FusedMapping) (w : FusedWorkload)
    (idx : Nat) (top : List (DataSpaceId × Nat))
    (V V' : BranchTilings) (j : Nat) (c : NodeID × IslMap) (kc p : EinsumId)
    (t : DataSpaceId) (ti : Nat)
    (hj : V[j]? = some c) (hw : w.WriterEinsum t = some p)
    (hti : StdMap.find t top = some ti)
    (hstep : readTensorStep E m w idx top j kc V t = some V') :
    ∀ e ∈ V', m.kernelAt e.1 = some p →
      inferredProdTiling (requiredOps E w idx ti kc t p c.2) idx e.2 = e.2 := by
  unfold readTensorStep at hstep
  simp only [hw, hj, hti] at hstep
  intro e' he' hke
  obtain ⟨a, _, hab⟩ := forEachM_mem _ V V' hstep e' he'
  unfold producerUpdate at hab
  cases hka : m.kernelAt a.1 with
  | none => simp [hka] at hab
  | some ka =>
    simp only [hka] at hab
    by_cases hne : ka ≠ p
    · rw [if_pos hne, Option.some.injEq] at hab
      rw [← hab, hka, Option.some.injEq] at hke
      exact absurd hke hne
    · rw [if_neg hne, Option.some.injEq] at hab
      rw [← hab]
      exact inferredProdTiling_idem _ idx a.2

theorem consumerStep_establishes (E : Engine) (m : FusedMapping) (w : FusedWorkload)
    (idx : Nat) (top : List (DataSpaceId × Nat)) (rank : EinsumId → Nat) (k : Nat)
    (U U' : BranchTilings) (j : Nat) (c : NodeID × IslMap) (kc p : EinsumId)
    (t : DataSpaceId) (ti : Nat)
    (hranked : rankedLeaves m w rank (U.map Prod.fst))
    (hset : settled E m w idx top rank k U)
    (hj : U[j]? = some c) (hkc : m.kernelAt c.1 = some kc)
    (hcomp : isComplete E c.2 = true) (ht : t ∈ w.TensorsReadByEinsum kc)
    (hw : w.WriterEinsum t = some p) (hti : StdMap.find t top = some ti)
    (h : consumerStep E m w idx top U j = some U') :
    ∀ e ∈ U', m.kernelAt e.1 = some p →
      inferredProdTiling (requiredOps E w idx ti kc t p c.2) idx e.2 = e.2 := by
  unfold consumerStep at h
  simp only [hj, hcomp, if_true, hkc] at h
  refine foldM_establish (readTensorStep E m w idx top j kc)
    (fun V => List.Forall₂ (evolves m rank k) U V ∧ settled E m w idx top rank k V ∧
      V[j]? = some c)
    (fun V => ∀ e ∈ V, m.kernelAt e.1 = some p →
      inferredProdTiling (requiredOps E w idx ti kc t p c.2) idx e.2 = e.2)
    t (w.TensorsReadByEinsum kc) U U' ?_ ?_ ?_ ht
    ⟨forall₂_refl_of _ (evolves_refl m rank k) U, hset, hj⟩ h
  · intro V t' V' ht' hV hstep
    exact (readTensorStep_inv E m w idx top rank k U V V' j c kc t' hranked hkc hcomp ht'
      hV hstep).2
  · intro V V' hV hstep
    exact readTensorStep_establishes E m w idx top V V' j c kc p t ti hV.2.2 hw hti hstep
  · intro V t' V' ht' hV hQ hstep
    exact fixed_preserved m rank k _ idx p V V'
      (readTensorStep_inv E m w idx top rank k U V V' j c kc t' hranked hkc hcomp ht'
        hV hstep).1 hQ

theorem inferencePass_settles (E : Engine) (m : FusedMapping) (w : FusedWorkload)
    (idx : Nat) (top : List (DataSpaceId × Nat)) (rank : EinsumId → Nat) (k : Nat)
    (S S' : BranchTilings)
    (hranked : rankedLeaves m w rank (S.map Prod.fst))
    (hset : settled E m w idx top rank k S)
    (h : inferencePass E m w idx top S = some S') :
    settled E m w idx top rank (k + 1) S' := by
  have hpass := inferencePass_evolves E m w idx top rank k S S' hranked hset h
  intro c' hc' kc hkc hcomp t ht p hw ti hti e' he' hke hlt
  by_cases hlow : rank p < k
  · exact hpass.2 c' hc' kc hkc hcomp t ht p hw ti hti e' he' hke hlow
  · have hkeys : S'.map Prod.fst = S.map Prod.fst := forall₂_evolves_keys m rank k S S' hpass.1
    have hrk : rank kc < rank p :=
      hranked.2 c'.1 (by rw [← hkeys]; exact mem_keys hc') e'.1
        (by rw [← hkeys]; exact mem_keys he') kc p hkc hke t ht hw
    have hkc_low : rank kc < k := by omega
    obtain ⟨j, hj'⟩ := List.mem_iff_getElem?.mp hc'
    have hlen : S.length = S'.length := List.Forall₂.length_eq hpass.1
    have hjlt : j < S.length := by
      rw [hlen]
      by_contra hge
      rw [List.getElem?_eq_none (Nat.le_of_not_lt hge)] at hj'
      exact Option.noConfusion hj'
    obtain ⟨c0, hc0⟩ : ∃ c0, S[j]? = some c0 := ⟨S[j], List.getElem?_eq_getElem hjlt⟩
    obtain ⟨b, hb, hcb⟩ := forall₂_getElem? _ S S' hpass.1 j c0 hc0
    have hbc : b = c' := Option.some.inj (hb.symm.trans hj')
    rw [hbc] at hcb
    have hc01 : c'.1 = c0.1 := hcb.1.1
    have hceq : c' = c0 := hcb.2 kc (by rw [← hc01]; exact hkc) hkc_low
    rw [← hceq] at hc0
    unfold inferencePass at h
    refine foldM_establish (consumerStep E m w idx top)
      (fun U => List.Forall₂ (evolves m rank k) S U ∧ settled E m w idx top rank k U)
      (fun U => ∀ e ∈ U, m.kernelAt e.1 = some p →
        inferredProdTiling (requiredOps E w idx ti kc t p c'.2) idx e.2 = e.2)
      j (List.range S.length) S S' ?_ ?_ ?_ (List.mem_range.mpr hjlt)
      ⟨forall₂_refl_of _ (evolves_refl m rank k) S, hset⟩ h e' he' hke
    · intro U j' U' _ hU hstep
      have hkeysU : U.map Prod.fst = S.map Prod.fst :=
        forall₂_evolves_keys m rank k S U hU.1
      have hres := consumerStep_evolves E m w idx top rank k U U' j'
        (by rw [hkeysU]; exact hranked) hU.2 hstep
      exact ⟨forall₂_evolves_trans m rank k S U U' hU.1 hres.1, hres.2⟩
    · intro U U' hU hstep
      have hkeysU : U.map Prod.fst = S.map Prod.fst :=
        forall₂_evolves_keys m rank k S U hU.1
      obtain ⟨b', hb', hcb'⟩ := forall₂_getElem? _ S U hU.1 j c' hc0
      have hb'eq : b' = c' := hcb'.2 kc hkc hkc_low
      rw [hb'eq] at hb'
      exact consumerStep_establishes E m w idx top rank k U U' j c' kc p t ti
        (by rw [hkeysU]; exact hranked) hU.2 hb' hkc hcomp ht hw hti hstep
    · intro U j' U' _ hU hQ hstep
      have hkeysU : U.map Prod.fst = S.map Prod.fst :=
        forall₂_evolves_keys m rank k S U hU.1
      have hres := consumerStep_evolves E m w idx top rank k U U' j'
        (by rw [hkeysU]; exact hranked) hU.2 hstep
      exact fixed_preserved m rank k _ idx p U U' hres.1 hQ

theorem forEachM_id {α : Type} (f : α → Option α) :
    ∀ (l : List α), (∀ a ∈ l, f a = some a) → forEachM f l = some l := by
  intro l
  induction l with
  | nil => intro _; rfl
  | cons a rest ih =>
    intro hf
    unfold forEachM
    rw [hf a (List.mem_cons_self _ _), ih (fun a' ha' => hf a' (List.mem_cons_of_mem _ ha'))]

theorem foldM_total {σ α : Type} (f : σ → α → Option σ) (Inv : σ → Prop) :
    ∀ (l : List α) (s : σ),
      (∀ s a, a ∈ l → Inv s → ∃ s', f s a = some s' ∧ Inv s') →
      Inv s → ∃ r, foldM f s l = some r ∧ Inv r := by
  intro l
  induction l with
  | nil => intro s _ hs; exact ⟨s, rfl, hs⟩
  | cons a rest ih =>
    intro s hstep hs
    obtain ⟨s1, hs1, hinv1⟩ := hstep s a (List.mem_cons_self _ _) hs
    obtain ⟨r, hr, hinvr⟩ := ih s1 (fun u b hb => hstep u b (List.mem_cons_of_mem _ hb)) hinv1
    exact ⟨r, by unfold foldM; rw [hs1]; exact hr, hinvr⟩

theorem readTensorStep_total (E : Engine) (m : FusedMapping) (w : FusedWorkload)
    (idx : Nat) (top : List (DataSpaceId × Nat)) (keys : List NodeID)
    (U : BranchTilings) (j : Nat) (c : NodeID × IslMap) (kc : EinsumId) (t : DataSpaceId)
    (hlook : lookupsDefined m w top keys) (hkeys : U.map Prod.fst = keys)
    (hj : U[j]? = some c) (hkc : m.kernelAt c.1 = some kc)
    (ht : t ∈ w.TensorsReadByEinsum kc) :
    ∃ U', readTensorStep E m w idx top j kc U t = some U' := by
  unfold readTensorStep
  cases hw : w.WriterEinsum t with
  | none => exact ⟨U, rfl⟩
  | some p =>
    simp only [hj]
    obtain ⟨k', hk', htop⟩ := hlook c.1 (by rw [← hkeys]; exact mem_keys (List.getElem?_mem hj))
    have hkk : k' = kc := Option.some.inj (hk'.symm.trans hkc)
    rw [hkk] at htop
    obtain ⟨ti, hti⟩ := htop t ht p hw
    simp only [hti]
    apply forEachM_total
    intro a ha
    obtain ⟨ka, hka, _⟩ := hlook a.1 (by rw [← hkeys]; exact mem_keys ha)
    unfold producerUpdate
    simp only [hka]
    by_cases hne : ka ≠ p
    · exact ⟨a, by rw [if_pos hne]⟩
    · exact ⟨_, by rw [if_neg hne]⟩

theorem consumerStep_total (E : Engine) (m : FusedMapping) (w : FusedWorkload)
    (idx : Nat) (top : List (DataSpaceId × Nat)) (keys : List NodeID)
    (U : BranchTilings) (j : Nat)
    (hlook : lookupsDefined m w top keys) (hkeys : U.map Prod.fst = keys) :
    ∃ U', consumerStep E m w idx top U j = some U' ∧ U'.map Prod.fst = keys := by
  have hstepkeys : ∀ U', consumerStep E m w idx top U j = some U' →
      U'.map Prod.fst = keys := fun U' h =>
    (forall₂_leafShrinks_keys U U' (consumerStep_shrinks E m w idx top U U' j h)).trans hkeys
  suffices hex : ∃ U', consumerStep E m w idx top U j = some U' by
    obtain ⟨U', hU'⟩ := hex
    exact ⟨U', hU', hstepkeys U' hU'⟩
  unfold consumerStep
  cases hj : U[j]? with
  | none => exact ⟨U, rfl⟩
  | some c =>
    simp only
    cases hc : isComplete E c.2 with
    | false => exact ⟨U, by simp⟩
    | true =>
      simp only [if_true]
      obtain ⟨kc, hkc, _⟩ := hlook c.1 (by rw [← hkeys]; exact mem_keys (List.getElem?_mem hj))
      simp only [hkc]
      obtain ⟨r, hr, _⟩ := foldM_total (readTensorStep E m w idx top j kc)
        (fun V => V.map Prod.fst = keys ∧ ∃ c', V[j]? = some c' ∧ c'.1 = c.1)
        (w.TensorsReadByEinsum kc) U
        (fun V t ht hV => by
          obtain ⟨hVkeys, c', hc', hc1⟩ := hV
          obtain ⟨V', hV'⟩ := readTensorStep_total E m w idx top keys V j c' kc t hlook hVkeys
            hc' (by rw [hc1]; exact hkc) ht
          have hshr := readTensorStep_shrinks E m w idx top j kc V V' t hV'
          refine ⟨V', hV', (forall₂_leafShrinks_keys V V' hshr).trans hVkeys, ?_⟩
          obtain ⟨b, hb, hcb⟩ := forall₂_getElem? _ V V' hshr j c' hc'
          exact ⟨b, hb, hcb.1.trans hc1⟩)
        ⟨hkeys, c, hj, rfl⟩
      exact ⟨r, hr⟩

theorem inferencePass_total (E : Engine) (m : FusedMapping) (w : FusedWorkload)
    (idx : Nat) (top : List (DataSpaceId × Nat)) (keys : List NodeID)
    (U : BranchTilings)
    (hlook : lookupsDefined m w top keys) (hkeys : U.map Prod.fst = keys) :
    ∃ U', inferencePass E m w idx top U = some U' := by
  unfold inferencePass
  obtain ⟨r, hr, _⟩ := foldM_total (consumerStep E m w idx top)
    (fun V => V.map Prod.fst = keys) (List.range U.length) U
    (fun V j _ hV => consumerStep_total E m w idx top keys V j hlook hV) hkeys
  exact ⟨r, hr⟩

theorem iterate_inferencePass_settles (E : Engine) (m : FusedMapping) (w : FusedWorkload)
    (idx : Nat) (top : List (DataSpaceId × Nat)) (rank : EinsumId → Nat)
    (keys : List NodeID)
    (hlook : lookupsDefined m w top keys) (hranked : rankedLeaves m w rank keys) :
    ∀ (n k : Nat) (S : BranchTilings), S.map Prod.fst = keys →
      settled E m w idx top rank k S →
      ∃ R, iterateM (inferencePass E m w idx top) n S = some R ∧
        R.map Prod.fst = keys ∧ settled E m w idx top rank (k + n) R := by
  intro n
  induction n with
  | zero => intro k S hkeys hset; exact ⟨S, rfl, hkeys, hset⟩
  | succ n ih =>
    intro k S hkeys hset
    obtain ⟨S1, hS1⟩ := inferencePass_total E m w idx top keys S hlook hkeys
    have hranked' : rankedLeaves m w rank (S.map Prod.fst) := by rw [hkeys]; exact hranked
    have hset1 := inferencePass_settles E m w idx top rank k S S1 hranked' hset hS1
    have hkeys1 : S1.map Prod.fst = keys :=
      (forall₂_leafShrinks_keys S S1 (inferencePass_shrinks E m w idx top S S1 hS1)).trans
        hkeys
    obtain ⟨R, hR, hRkeys, hRset⟩ := ih (k + 1) S1 hkeys1 hset1
    refine ⟨R, ?_, hRkeys, ?_⟩
    · unfold iterateM
      rw [hS1]
      exact hR
    · have : k + (n + 1) = k + 1 + n := by omega
      rw [this]
      exact hRset

theorem inferencePass_fixed_of_settled (E : Engine) (m : FusedMapping) (w : FusedWorkload)
    (idx : Nat) (top : List (DataSpaceId × Nat)) (rank : EinsumId → Nat)
    (S : BranchTilings)
    (hlook : lookupsDefined m w top (S.map Prod.fst))
    (hranked : rankedLeaves m w rank (S.map Prod.fst))
    (hset : settled E m w idx top rank (S.map Prod.fst).length S) :
    inferencePass E m w idx top S = some S := by
  unfold inferencePass
  apply foldM_fixed
  intro j _
  unfold consumerStep
  cases hj : S[j]? with
  | none => rfl
  | some c =>
    simp only
    cases hc : isComplete E c.2 with
    | false => simp
    | true =>
      simp only [if_true]
      obtain ⟨kc, hkc, htop⟩ := hlook c.1 (mem_keys (List.getElem?_mem hj))
      simp only [hkc]
      apply foldM_fixed
      intro t ht
      unfold readTensorStep
      cases hw : w.WriterEinsum t with
      | none => rfl
      | some p =>
        simp only [hj]
        obtain ⟨ti, hti⟩ := htop t ht p hw
        simp only [hti]
        apply forEachM_id
        intro a ha
        obtain ⟨ka, hka, _⟩ := hlook a.1 (mem_keys ha)
        unfold producerUpdate
        simp only [hka]
        by_cases hne : ka ≠ p
        · rw [if_pos hne]
        · rw [if_neg hne]
          have hkap : ka = p := not_not.mp hne
          rw [hkap] at hka
          have hlt : rank p < (S.map Prod.fst).length := hranked.1 a.1 (mem_keys ha) p hka
          rw [hset c (List.getElem?_mem hj) kc hkc hc t ht p hw ti hti a ha hka hlt]

/-- C3 (as the code has it): fixpoint idempotence for acyclic producer/consumer
leaves.  When every leaf is a `Compute` node, every intermediate tensor read
has a top index, and the einsums of the leaves can be ranked below the number
of leaves so that each producer ranks strictly above the einsums reading its
output, `LoopBoundsInference` returns some tilings, and applied to them it
returns them unchanged. -/
theorem LoopBoundsInference_idempotent_of_ranked (E : Engine) (T : BranchTilings)
    (m : FusedMapping) (w : FusedWorkload) (idx : Nat) (top : List (DataSpaceId × Nat))
    (rank : EinsumId → Nat)
    (hlook : lookupsDefined m w top (T.map Prod.fst))
    (hranked : rankedLeaves m w rank (T.map Prod.fst)) :
    ∃ S, LoopBoundsInference E T m w idx top = some S ∧
      LoopBoundsInference E S m w idx top = some S := by
  obtain ⟨S, hS, hSkeys, hSset⟩ := iterate_inferencePass_settles E m w idx top rank
    (T.map Prod.fst) hlook hranked T.length 0 T rfl
    (fun c _ kc _ _ t _ p _ ti _ e _ _ hlt => absurd hlt (Nat.not_lt_zero _))
  refine ⟨S, hS, ?_⟩
  unfold LoopBoundsInference
  apply iterateM_fixed
  apply inferencePass_fixed_of_settled E m w idx top rank S
  · rw [hSkeys]; exact hlook
  · rw [hSkeys]; exact hranked
  · rw [hSkeys, List.length_map]
    rw [Nat.zero_add] at hSset
    exact hSset

/-! ## Loop bound inference on a recurrence -/

theorem requiredOps_rel (E : Engine) (w : FusedWorkload) (idx ti : Nat)
    (kc : EinsumId) (t : DataSpaceId) (p : EinsumId) (T : IslMap) (c o' : List Int) :
    (requiredOps E w idx ti kc t p T).rel c o' ↔
      (∃ d,
        (((∃ o, ((∃ x', T.rel x' o ∧ c = x'.take idx) ∧ (w.EinsumOspaceBound kc).mem o) ∧
              (w.ReadAccesses kc t).rel o d) ∧
            ¬ ∃ c', (E.MapToPriorData idx ti).rel c c' ∧
                ∃ o, ((∃ x', T.rel x' o ∧ c' = x'.take idx) ∧
                    (w.EinsumOspaceBound kc).mem o) ∧
                  (w.ReadAccesses kc t).rel o d) ∧
          (w.DataSpaceBound t).mem d) ∧
        (w.WriteAccesses p t).rel o' d) ∧
      (w.EinsumOspaceBound p).mem o' :=
  Iff.rfl

theorem shiftAccess_rel (k : Int) (x d : List Int) :
    (shiftAccess k).rel x d ↔ ∃ v, x = [v] ∧ d = [v + k] := by
  show (x.length = 1 ∧ d = [k + (List.zipWith (fun c v => c * v) [1] x).sum]) ↔ _
  constructor
  · rintro ⟨hx, hd⟩
    match x, hx with
    | [v], _ =>
      refine ⟨v, rfl, ?_⟩
      rw [hd]
      simp
      omega
  · rintro ⟨v, rfl, rfl⟩
    refine ⟨rfl, ?_⟩
    simp
    omega

theorem boxSet_singleton_mem (n : Int) (o : List Int) :
    (boxSet [n]).mem o ↔ ∃ v, o = [v] ∧ 0 ≤ v ∧ v < n := by
  show List.Forall₂ (fun v b => 0 ≤ v ∧ v < b) o [n] ↔ _
  constructor
  · intro h
    cases h with
    | cons hv hrest =>
      cases hrest
      exact ⟨_, rfl, hv⟩
  · rintro ⟨v, rfl, hv⟩
    exact List.Forall₂.cons hv List.Forall₂.nil

theorem recurrence_tiling_rel (x o : List Int) :
    recurrenceTiling.rel x o ↔
      ∃ a b, x = [a, b] ∧ o = [4 * a + b] ∧ 0 ≤ a ∧ 0 ≤ b ∧ b < 4 ∧
        0 ≤ 4 * a + b ∧ 4 * a + b < 4 := by
  show ((x.length = 2 ∧
      o = [(0:Int) + (List.zipWith (fun c v => c * v) [4, 1] x).sum]) ∧
     (((x.length = 2 ∧ (x.length = 2 ∧
        (0:Int) + (List.zipWith (fun c v => c * v) [0, 0] x).sum
          ≤ (0:Int) + (List.zipWith (fun c v => c * v) [1, 0] x).sum)) ∧
       (x.length = 2 ∧
        (0:Int) + (List.zipWith (fun c v => c * v) [0, 0] x).sum
          ≤ (0:Int) + (List.zipWith (fun c v => c * v) [0, 1] x).sum)) ∧
       (x.length = 2 ∧
        (0:Int) + (List.zipWith (fun c v => c * v) [0, 1] x).sum
          < (4:Int) + (List.zipWith (fun c v => c * v) [0, 0] x).sum))) ∧
     List.Forall₂ (fun v b => 0 ≤ v ∧ v < b) o [4] ↔ _
  constructor
  · rintro ⟨⟨⟨hx, ho⟩, h2⟩, h3⟩
    match x, hx with
    | [a, b], _ =>
      subst ho
      simp at h2 h3
      refine ⟨a, b, rfl, by simp, ?_, ?_, ?_, ?_, ?_⟩ <;> omega
  · rintro ⟨a, b, rfl, rfl, h1, h2, h3, h4, h5⟩
    simp
    omega

theorem recurrenceOnce_excludes_zero (x : List Int) : ¬ recurrenceOnce.rel x [0] := by
  intro h
  obtain ⟨hM, c, o', hR, hM', _⟩ := (inferredProdTiling_rel _ 1 _ x [0]).mp h
  obtain ⟨a, b, hx, ho, -, -, -, -, -⟩ := (recurrence_tiling_rel x [0]).mp hM
  obtain ⟨a', b', hx', ho', -⟩ := (recurrence_tiling_rel x o').mp hM'
  rw [hx] at hx'
  simp only [List.cons.injEq, and_true] at hx' ho
  rw [← hx'.1, ← hx'.2, ← ho] at ho'
  subst ho'
  obtain ⟨⟨d, ⟨⟨⟨o, ⟨_, hbound⟩, hread⟩, _⟩, _⟩, hwrite⟩, _⟩ := (requiredOps_rel _ _ _ _ _ _ _ _ _ _).mp hR
  obtain ⟨v, hv, hd⟩ := (shiftAccess_rel 0 [0] d).mp hwrite
  obtain ⟨u, hu, hd'⟩ := (shiftAccess_rel 1 o d).mp hread
  obtain ⟨u', hu', hu0, _⟩ := (boxSet_singleton_mem 4 o).mp hbound
  simp only [List.cons.injEq, and_true] at hv
  rw [hu] at hu'
  simp only [List.cons.injEq, and_true] at hu'
  rw [hd] at hd'
  simp only [List.cons.injEq, and_true] at hd'
  omega

theorem recurrenceOnce_has_one : recurrenceOnce.rel [0, 1] [1] := by
  have hM : ∀ b : Int, 0 ≤ b → b < 4 → recurrenceTiling.rel [0, b] [b] := by
    intro b h1 h2
    exact (recurrence_tiling_rel _ _).mpr ⟨0, b, rfl, by simp, by decide, h1, h2,
      by omega, by omega⟩
  refine (inferredProdTiling_rel _ 1 _ _ _).mpr ⟨hM 1 (by decide) (by decide), [0], [1], ?_,
    hM 1 (by decide) (by decide), rfl⟩
  refine (requiredOps_rel _ _ _ _ _ _ _ _ _ _).mpr ⟨⟨[1], ⟨⟨⟨[0], ⟨⟨[0, 0],
    hM 0 (by decide) (by decide), rfl⟩, ?_⟩, ?_⟩, ?_⟩, ?_⟩, ?_⟩, ?_⟩
  · exact (boxSet_singleton_mem 4 [0]).mpr ⟨0, rfl, by decide, by decide⟩
  · exact (shiftAccess_rel 1 [0] [1]).mpr ⟨0, rfl, rfl⟩
  · rintro ⟨c', ⟨_, pre, v, hpre, hc'⟩, o, ⟨⟨x', hx', hc'x⟩, _⟩, _⟩
    obtain ⟨a, b, hx, -, ha, -⟩ := (recurrence_tiling_rel x' o).mp hx'
    have hpv : pre = [] ∧ v = 0 := by
      cases pre with
      | nil =>
        simp only [List.nil_append, List.cons.injEq, and_true] at hpre
        exact ⟨rfl, hpre.symm⟩
      | cons u rest =>
        have := congrArg List.length hpre
        simp at this
    rw [hpv.1, hpv.2] at hc'
    rw [hx, hc'] at hc'x
    simp at hc'x
    omega
  · exact (boxSet_singleton_mem 8 [1]).mpr ⟨1, rfl, by decide, by decide⟩
  · exact (shiftAccess_rel 0 [1] [1]).mpr ⟨1, rfl, rfl⟩
  · exact (boxSet_singleton_mem 4 [1]).mpr ⟨1, rfl, by decide, by decide⟩

theorem recurrenceTwice_lacks_one : ¬ recurrenceTwice.rel [0, 1] [1] := by
  intro h
  obtain ⟨_, c, o', hR, hM', _⟩ := (inferredProdTiling_rel _ 1 _ [0, 1] [1]).mp h
  have hM'' : recurrenceTiling.rel [0, 1] o' := ((inferredProdTiling_rel _ 1 _ _ _).mp hM').1
  obtain ⟨a, b, hx, ho, -⟩ := (recurrence_tiling_rel [0, 1] o').mp hM''
  simp only [List.cons.injEq, and_true] at hx
  rw [← hx.1, ← hx.2] at ho
  subst ho
  obtain ⟨⟨d, ⟨⟨⟨o, ⟨⟨x', hx', _⟩, _⟩, hread⟩, _⟩, _⟩, hwrite⟩, _⟩ :=
    (requiredOps_rel _ _ _ _ _ _ _ _ _ _).mp hR
  obtain ⟨v, hv, hd⟩ := (shiftAccess_rel 0 _ d).mp hwrite
  obtain ⟨u, hu, hd'⟩ := (shiftAccess_rel 1 o d).mp hread
  simp only [List.cons.injEq, and_true] at hv
  rw [hd] at hd'
  simp only [List.cons.injEq, and_true] at hd'
  have hu0 : u = 0 := by omega
  rw [hu, hu0] at hx'
  exact recurrenceOnce_excludes_zero x' hx'

/-- C3 counterexample: an einsum that reads element `o + 1` of the dataspace it
writes at `o`.  One run of `LoopBoundsInference` on the tilings of the builder
keeps the iteration `[0, 1]`; a run on that output drops it. -/
theorem LoopBoundsInference_not_idempotent_recurrence :
    LoopBoundsInference boundedEngine recurrenceTilings recurrenceMapping
        recurrenceWorkload 1 [(0, 1)] = some [(4, recurrenceOnce)] ∧
      LoopBoundsInference boundedEngine [(4, recurrenceOnce)] recurrenceMapping
        recurrenceWorkload 1 [(0, 1)] = some [(4, recurrenceTwice)] ∧
      recurrenceOnce.rel [0, 1] [1] ∧ ¬ recurrenceTwice.rel [0, 1] [1] ∧
      ([(4, recurrenceTwice)] : BranchTilings) ≠ [(4, recurrenceOnce)] := by
  refine ⟨rfl, rfl, recurrenceOnce_has_one, recurrenceTwice_lacks_one, ?_⟩
  intro heq
  have h2 : recurrenceTwice = recurrenceOnce := by
    simpa using heq
  exact recurrenceTwice_lacks_one (h2 ▸ recurrenceOnce_has_one)

theorem chain_keys : chainTilings.map Prod.fst = [3, 5] := rfl

theorem chain_lookupsDefined :
    lookupsDefined chainMapping chainWorkload [(0, 1)] (chainTilings.map Prod.fst) := by
  rw [chain_keys]
  intro l hl
  simp only [List.mem_cons, List.mem_singleton, List.not_mem_nil, or_false] at hl
  rcases hl with rfl | rfl
  · refine ⟨0, rfl, ?_⟩
    intro t ht p hw
    have ht2 : t = 2 := List.mem_singleton.mp ht
    rw [ht2] at hw
    exact Option.noConfusion hw
  · refine ⟨1, rfl, ?_⟩
    intro t ht p _
    have ht0 : t = 0 := List.mem_singleton.mp ht
    rw [ht0]
    exact ⟨1, rfl⟩

theorem chain_rankedLeaves :
    rankedLeaves chainMapping chainWorkload chainRank (chainTilings.map Prod.fst) := by
  rw [chain_keys]
  refine ⟨?_, ?_⟩
  · intro l _ p _
    unfold chainRank
    split <;> decide
  · intro lc hlc lp _ kc p hkc _ t ht hw
    simp only [List.mem_cons, List.mem_singleton, List.not_mem_nil, or_false] at hlc
    rcases hlc with rfl | rfl
    · have hk : kc = 0 := (Option.some.inj hkc).symm
      subst hk
      have ht2 : t = 2 := List.mem_singleton.mp ht
      rw [ht2] at hw
      exact Option.noConfusion hw
    · have hk : kc = 1 := (Option.some.inj hkc).symm
      subst hk
      have ht0 : t = 0 := List.mem_singleton.mp ht
      rw [ht0] at hw
      have hp : p = 0 := (Option.some.inj hw).symm
      subst hp
      decide

/-- Witness for C3: the pipeline of two einsums satisfies the hypotheses, so
inference succeeds on the tilings of the builder and is stable on its
output. -/
theorem LoopBoundsInference_idempotent_of_ranked_witness :
    lookupsDefined chainMapping chainWorkload [(0, 1)] (chainTilings.map Prod.fst) ∧
      rankedLeaves chainMapping chainWorkload chainRank (chainTilings.map Prod.fst) ∧
      ∃ S, LoopBoundsInference boundedEngine chainTilings chainMapping chainWorkload 1
          [(0, 1)] = some S ∧
        LoopBoundsInference boundedEngine S chainMapping chainWorkload 1 [(0, 1)] = some S :=
  ⟨chain_lookupsDefined, chain_rankedLeaves,
    LoopBoundsInference_idempotent_of_ranked boundedEngine chainTilings chainMapping
      chainWorkload 1 [(0, 1)] chainRank chain_lookupsDefined chain_rankedLeaves⟩

/-! ## Skew builder: tags and structural check -/

theorem foldl_invariant {σ α : Type} (f : σ → α → σ) (P : σ → Prop)
    (hstep : ∀ s a, P s → P (f s a)) :
    ∀ (l : List α) (s : σ), P s → P (l.foldl f s) := by
  intro l
  induction l with
  | nil => intro s hs; exact hs
  | cons a rest ih =>
    intro s hs
    exact ih (f s a) (hstep s a hs)

theorem skewVisit_tags (leaf : MappingNode) (s : SkewWalk) (node : MappingNode)
    (h : s.tags.length = s.map.nIn ∧ s.map.nOut ≤ s.map.nIn ∧
      ∀ buf sk, (buf, sk) ∈ s.skews →
        sk.dim_in_tags.length = sk.map.nIn ∧ sk.map.nOut ≤ sk.map.nIn) :
    (skewVisit leaf s node).tags.length = (skewVisit leaf s node).map.nIn ∧
      (skewVisit leaf s node).map.nOut ≤ (skewVisit leaf s node).map.nIn ∧
      ∀ buf sk, (buf, sk) ∈ (skewVisit leaf s node).skews →
        sk.dim_in_tags.length = sk.map.nIn ∧ sk.map.nOut ≤ sk.map.nIn := by
  obtain ⟨h1, h2, h3⟩ := h
  cases node with
  | Root id => exact ⟨h1, h2, h3⟩
  | Pipeline id => exact ⟨h1, h2, h3⟩
  | Sequential id => exact ⟨h1, h2, h3⟩
  | Compute id kernel => exact ⟨h1, h2, h3⟩
  | For id op_dim tile_size =>
    refine ⟨?_, ?_, h3⟩
    · show (s.tags ++ [spacetime.Dimension.Time]).length = s.map.nIn + 1
      simp [h1]
    · show s.map.nOut + 1 ≤ s.map.nIn + 1
      omega
  | ParFor id op_dim tile_size =>
    refine ⟨?_, ?_, h3⟩
    · show (s.tags ++ [spacetime.Dimension.SpaceX]).length = s.map.nIn + 1
      simp [h1]
    · show s.map.nOut + 1 ≤ s.map.nIn + 1
      omega
  | Storage id buffer dspace =>
    have hcore : ∀ (b : Bool),
        (if b then s.tags else s.tags ++ [spacetime.Dimension.SpaceX]).length
          = (if b then s.map else insert_dummy_dim_ins s.map s.map.nIn 1).nIn ∧
        (if b then s.map else insert_dummy_dim_ins s.map s.map.nIn 1).nOut
          ≤ (if b then s.map else insert_dummy_dim_ins s.map s.map.nIn 1).nIn := by
      intro b
      cases b with
      | true => exact ⟨h1, h2⟩
      | false =>
        refine ⟨?_, ?_⟩
        · show (s.tags ++ [spacetime.Dimension.SpaceX]).length = s.map.nIn + 1
          simp [h1]
        · show s.map.nOut ≤ s.map.nIn + 1
          omega
    refine ⟨(hcore _).1, (hcore _).2, ?_⟩
    intro buf sk hmem
    rcases StdMap.mem_emplace _ _ _ _ _ hmem with hold | ⟨_, hnew⟩
    · exact h3 buf sk hold
    · simp only [Prod.mk.injEq] at hnew
      rw [hnew.2]
      exact hcore _

theorem skewPath_tags (skews : LogicalBufSkews) (path : List MappingNode)
    (h : ∀ buf sk, (buf, sk) ∈ skews →
      sk.dim_in_tags.length = sk.map.nIn ∧ sk.map.nOut ≤ sk.map.nIn) :
    ∀ buf sk, (buf, sk) ∈ skewPath skews path →
      sk.dim_in_tags.length = sk.map.nIn ∧ sk.map.nOut ≤ sk.map.nIn := by
  unfold skewPath
  cases hl : path.getLast? with
  | none => exact h
  | some leaf =>
    simp only
    exact (foldl_invariant (skewVisit leaf)
      (fun s => s.tags.length = s.map.nIn ∧ s.map.nOut ≤ s.map.nIn ∧
        ∀ buf sk, (buf, sk) ∈ s.skews →
          sk.dim_in_tags.length = sk.map.nIn ∧ sk.map.nOut ≤ sk.map.nIn)
      (fun s node hs => skewVisit_tags leaf s node hs) path _
      ⟨rfl, Nat.le_refl _, h⟩).2.2

/-- C14: every logical buffer in the result of `LogicalBufSkewsFromMapping` has
exactly one tag per domain coordinate of its skew relation; the domain holds
the pass-through coordinates of the loops above the `Storage` node (as many as
the relation has output coordinates) and the synthetic coordinates inserted
so far. -/
theorem LogicalBufSkews_one_tag_per_coordinate (m : FusedMapping) (buf : LogicalBuffer)
    (sk : Skew) (h : (buf, sk) ∈ LogicalBufSkewsFromMapping m) :
    sk.dim_in_tags.length = sk.map.nIn ∧ sk.map.nOut ≤ sk.map.nIn := by
  unfold LogicalBufSkewsFromMapping at h
  exact foldl_invariant skewPath
    (fun skews => ∀ buf sk, (buf, sk) ∈ skews →
      sk.dim_in_tags.length = sk.map.nIn ∧ sk.map.nOut ≤ sk.map.nIn)
    (fun skews path hs => skewPath_tags skews path hs) m.paths []
    (fun _ _ hmem => absurd hmem (List.not_mem_nil _)) buf sk h

/-- Witness for C14: the buffer of the two-loop scenario has two tags and a
skew relation with two domain coordinates. -/
theorem LogicalBufSkews_one_tag_per_coordinate_witness :
    ∃ sk, (({ buffer_id := 0, dspace_id := 0, branch_leaf_id := 3 } : LogicalBuffer), sk)
        ∈ LogicalBufSkewsFromMapping scenarioMapping ∧
      sk.dim_in_tags = [spacetime.Dimension.SpaceX, spacetime.Dimension.Time] ∧
      sk.dim_in_tags.length = sk.map.nIn ∧ sk.map.nOut ≤ sk.map.nIn :=
  ⟨_, List.mem_singleton.mpr rfl, rfl,
    LogicalBufSkews_one_tag_per_coordinate scenarioMapping
      { buffer_id := 0, dspace_id := 0, branch_leaf_id := 3 } _
      (List.mem_singleton.mpr rfl)⟩

theorem skewVisitChecked_eq (leaf : MappingNode) (s : SkewWalk) (node : MappingNode) :
    skewVisitChecked IsLoopV leaf s node = .ok (skewVisit leaf s node) := by
  cases node <;> rfl

theorem foldExcept_skewVisitChecked (leaf : MappingNode) :
    ∀ (path : List MappingNode) (s : SkewWalk),
      foldExcept (skewVisitChecked IsLoopV leaf) s path
        = .ok (path.foldl (skewVisit leaf) s) := by
  intro path
  induction path with
  | nil => intro s; rfl
  | cons node rest ih =>
    intro s
    unfold foldExcept
    rw [skewVisitChecked_eq]
    exact ih _

theorem skewPathChecked_eq (skews : LogicalBufSkews) (path : List MappingNode) :
    skewPathChecked IsLoopV skews path = .ok (skewPath skews path) := by
  unfold skewPathChecked skewPath
  cases path.getLast? with
  | none => rfl
  | some leaf =>
    simp only
    rw [foldExcept_skewVisitChecked]

theorem foldExcept_skewPathChecked :
    ∀ (paths : List (List MappingNode)) (skews : LogicalBufSkews),
      foldExcept (skewPathChecked IsLoopV) skews paths
        = .ok (paths.foldl skewPath skews) := by
  intro paths
  induction paths with
  | nil => intro skews; rfl
  | cons path rest ih =>
    intro skews
    unfold foldExcept
    rw [skewPathChecked_eq]
    exact ih _

/-- C15: the skew builder throws `unreachable` only at a node that the loop
trait accepts and that is neither `For` nor `ParFor` (nor `Storage`); a trait
that accepts another kind does reach the throw; and with the loop kinds `For`
and `ParFor` the builder never throws, for every mapping: it returns the
skews. -/
theorem LogicalBufSkews_unreachable_only_at_other_loop_kind :
    (∀ (isLoop : MappingNode → Bool) (leaf : MappingNode) (s : SkewWalk)
        (node : MappingNode) (msg : String),
        skewVisitChecked isLoop leaf s node = .error msg →
          isLoop node = true ∧ msg = "unreachable" ∧
          (∀ id op_dim tile_size, node ≠ .For id op_dim tile_size) ∧
          (∀ id op_dim tile_size, node ≠ .ParFor id op_dim tile_size) ∧
          (∀ id buffer dspace, node ≠ .Storage id buffer dspace)) ∧
      (∀ (leaf : MappingNode) (s : SkewWalk),
        skewVisitChecked (fun _ => true) leaf s (.Root 0) = .error "unreachable") ∧
      (∀ m : FusedMapping,
        LogicalBufSkewsFromMappingChecked IsLoopV m = .ok (LogicalBufSkewsFromMapping m)) := by
  refine ⟨?_, fun _ _ => rfl, ?_⟩
  · intro isLoop leaf s node msg h
    cases node with
    | Storage id buffer dspace => simp [skewVisitChecked] at h
    | For id op_dim tile_size =>
      simp only [skewVisitChecked] at h
      split at h <;> simp at h
    | ParFor id op_dim tile_size =>
      simp only [skewVisitChecked] at h
      split at h <;> simp at h
    | Root id =>
      simp only [skewVisitChecked] at h
      split at h
      · rename_i hl
        simp only [Except.error.injEq] at h
        exact ⟨hl, h.symm, by simp, by simp, by simp⟩
      · simp at h
    | Compute id kernel =>
      simp only [skewVisitChecked] at h
      split at h
      · rename_i hl
        simp only [Except.error.injEq] at h
        exact ⟨hl, h.symm, by simp, by simp, by simp⟩
      · simp at h
    | Pipeline id =>
      simp only [skewVisitChecked] at h
      split at h
      · rename_i hl
        simp only [Except.error.injEq] at h
        exact ⟨hl, h.symm, by simp, by simp, by simp⟩
      · simp at h
    | Sequential id =>
      simp only [skewVisitChecked] at h
      split at h
      · rename_i hl
        simp only [Except.error.injEq] at h
        exact ⟨hl, h.symm, by simp, by simp, by simp⟩
      · simp at h
  · intro m
    unfold LogicalBufSkewsFromMappingChecked LogicalBufSkewsFromMapping
    exact foldExcept_skewPathChecked m.paths []

/-! ## Occupancy composer: which buffers get an entry -/

theorem StdMap.find_mem {K V : Type} [DecidableEq K] (k : K) (v : V) :
    ∀ (m : List (K × V)), StdMap.find k m = some v → (k, v) ∈ m := by
  intro m
  induction m with
  | nil => intro h; simp [StdMap.find] at h
  | cons e rest ih =>
    intro h
    by_cases he : e.1 = k
    · simp only [StdMap.find, he, if_true, Option.some.injEq] at h
      have : e = (k, v) := by rw [← he, ← h]
      rw [this]
      exact List.mem_cons_self _ _
    · simp only [StdMap.find, he, if_false] at h
      exact List.mem_cons_of_mem _ (ih h)

theorem StdMap.mem_emplace_of_mem {K V : Type} [DecidableEq K] (lt : K → K → Bool)
    (k : K) (v : V) (m : List (K × V)) (x : K × V) (h : x ∈ m) :
    x ∈ StdMap.emplace lt k v m := by
  unfold StdMap.emplace
  cases StdMap.find k m with
  | some u => exact h
  | none => exact (StdMap.mem_insertSorted lt k v x m).mpr (Or.inr h)

theorem StdMap.key_mem_emplace {K V : Type} [DecidableEq K] (lt : K → K → Bool)
    (k : K) (v : V) (m : List (K × V)) :
    ∃ v', (k, v') ∈ StdMap.emplace lt k v m := by
  unfold StdMap.emplace
  cases hf : StdMap.find k m with
  | some u => exact ⟨u, StdMap.find_mem k u m hf⟩
  | none => exact ⟨v, (StdMap.mem_insertSorted lt k v (k, v) m).mpr (Or.inl rfl)⟩

theorem occupancy_entry (m : FusedMapping) (w : FusedWorkload) (tilings : LogicalBufTiling) :
    ∀ (skews : LogicalBufSkews) (init occ : LogicalBufOccupancies),
      foldM (occupancyStep m w tilings) init skews = some occ →
      (∀ x, x ∈ init → x ∈ occ) ∧
      (∀ e ∈ skews, ∀ einsum acc, m.kernelAt e.1.branch_leaf_id = some einsum →
        accessesOf w einsum e.1.dspace_id = some acc → ∃ o, (e.1, o) ∈ occ) := by
  intro skews
  induction skews with
  | nil =>
    intro init occ h
    simp only [foldM, Option.some.injEq] at h
    subst h
    exact ⟨fun _ hx => hx, fun e he => absurd he (List.not_mem_nil _)⟩
  | cons e0 rest ih =>
    intro init occ h
    unfold foldM at h
    cases hstep : occupancyStep m w tilings init e0 with
    | none => simp [hstep] at h
    | some init' =>
      simp only [hstep] at h
      obtain ⟨hkeep, hrest⟩ := ih init' occ h
      unfold occupancyStep at hstep
      cases hk : m.kernelAt e0.1.branch_leaf_id with
      | none => simp [hk] at hstep
      | some einsum0 =>
        simp only [hk] at hstep
        cases ht : StdMap.find e0.1 tilings with
        | none => simp [ht] at hstep
        | some tiling =>
          simp only [ht] at hstep
          cases ha : accessesOf w einsum0 e0.1.dspace_id with
          | none =>
            simp only [ha, Option.some.injEq] at hstep
            subst hstep
            refine ⟨hkeep, ?_⟩
            intro e he einsum acc hke hacc
            rcases List.mem_cons.mp he with h1 | h1
            · rw [h1, hk, Option.some.injEq] at hke
              rw [h1, ← hke, ha] at hacc
              exact Option.noConfusion hacc
            · exact hrest e h1 einsum acc hke hacc
          | some acc0 =>
            simp only [ha, Option.some.injEq] at hstep
            subst hstep
            refine ⟨fun x hx => hkeep x (StdMap.mem_emplace_of_mem _ _ _ _ x hx), ?_⟩
            intro e he einsum acc hke hacc
            rcases List.mem_cons.mp he with h1 | h1
            · obtain ⟨v', hv'⟩ := StdMap.key_mem_emplace LogicalBuffer.lt e0.1
                (e0.2.apply_range
                  (project_dim_in_after (tiling.apply_range acc0) e0.2.map.nOut)) init
              rw [h1]
              exact ⟨v', hkeep _ hv'⟩
            · exact hrest e h1 einsum acc hke hacc

theorem accessesOf_isSome (w : FusedWorkload) (einsum : EinsumId) (dspace : DataSpaceId) :
    (∃ acc, accessesOf w einsum dspace = some acc) ↔
      (dspace ∈ w.TensorsReadByEinsum einsum ∨ dspace ∈ w.TensorsWrittenByEinsum einsum) := by
  unfold accessesOf
  by_cases hr : dspace ∈ w.TensorsReadByEinsum einsum
  · simp [hr]
  · by_cases hw : dspace ∈ w.TensorsWrittenByEinsum einsum
    · simp [hr, hw]
    · simp [hr, hw]

/-- C11: when `OccupanciesFromMapping` returns, a logical buffer has an entry in
the result exactly when it has a skew and its dataspace is read or written by
the einsum of its owning compute leaf; and the loop step of a buffer whose
dataspace that einsum neither reads nor writes returns the occupancies as
they are, with no error. -/
theorem OccupanciesFromMapping_entries (E : Engine) (unchecked : Nat) (m : FusedMapping)
    (w : FusedWorkload) (occ : LogicalBufOccupancies) (buf : LogicalBuffer)
    (h : OccupanciesFromMapping E unchecked m w = some occ) :
    ((∃ o, (buf, o) ∈ occ) ↔
      ∃ skew einsum, (buf, skew) ∈ LogicalBufSkewsFromMapping m ∧
        m.kernelAt buf.branch_leaf_id = some einsum ∧
        (buf.dspace_id ∈ w.TensorsReadByEinsum einsum ∨
          buf.dspace_id ∈ w.TensorsWrittenByEinsum einsum)) ∧
      (∀ (tilings : LogicalBufTiling) (occs : LogicalBufOccupancies)
          (e : LogicalBuffer × Skew) (einsum : EinsumId) (tiling : IslMap),
        m.kernelAt e.1.branch_leaf_id = some einsum →
        StdMap.find e.1 tilings = some tiling →
        e.1.dspace_id ∉ w.TensorsReadByEinsum einsum →
        e.1.dspace_id ∉ w.TensorsWrittenByEinsum einsum →
        occupancyStep m w tilings occs e = some occs) := by
  refine ⟨?_, ?_⟩
  · unfold OccupanciesFromMapping at h
    cases hbt : TilingFromMapping m w with
    | none => simp [hbt] at h
    | some branch_tiling =>
      simp only [hbt] at h
      cases hinf : LoopBoundsInference E branch_tiling m w
          ((BranchIdxFromMapping m).getD unchecked) (DspaceTopIdxFromMapping m) with
      | none => simp [hinf] at h
      | some inferred =>
        simp only [hinf] at h
        cases hlt : LogicalBufTilingFromMapping m inferred with
        | none => simp [hlt] at h
        | some tilings =>
          simp only [hlt] at h
          constructor
          · rintro ⟨o, ho⟩
            rcases occupancy_mem m w tilings _ [] occ h buf o ho with
              hnil | ⟨sk, einsum, tiling, acc, h1, h2, _, h4, _⟩
            · exact absurd hnil (List.not_mem_nil _)
            · exact ⟨sk, einsum, h1, h2, (accessesOf_isSome w einsum _).mp ⟨acc, h4⟩⟩
          · rintro ⟨sk, einsum, h1, h2, h3⟩
            obtain ⟨acc, hacc⟩ := (accessesOf_isSome w einsum _).mpr h3
            exact (occupancy_entry m w tilings _ [] occ h).2 (buf, sk) h1 einsum acc h2 hacc
  · intro tilings occs e einsum tiling hk ht hr hw
    unfold occupancyStep
    simp only [hk, ht]
    have : accessesOf w einsum e.1.dspace_id = none := by
      unfold accessesOf
      simp [hr, hw]
    simp only [this]

/-- Witness for C11: under one loop, buffer 0 holds a dataspace the einsum
writes and buffer 1 a dataspace it neither reads nor writes.  The composer
returns, the first buffer has an entry and the second has a skew but no
entry. -/
theorem OccupanciesFromMapping_entries_witness :
    ∃ occ, OccupanciesFromMapping boundedEngine 0 inertMapping scenarioWorkload = some occ ∧
      (∃ o, (({ buffer_id := 0, dspace_id := 0, branch_leaf_id := 3 } : LogicalBuffer), o)
        ∈ occ) ∧
      (∃ sk, (({ buffer_id := 1, dspace_id := 5, branch_leaf_id := 3 } : LogicalBuffer), sk)
        ∈ LogicalBufSkewsFromMapping inertMapping) ∧
      ¬ (∃ o, (({ buffer_id := 1, dspace_id := 5, branch_leaf_id := 3 } : LogicalBuffer), o)
        ∈ occ) := by
  refine ⟨_, rfl, ⟨_, List.mem_singleton.mpr rfl⟩, ⟨_, List.mem_cons_of_mem _
    (List.mem_singleton.mpr rfl)⟩, ?_⟩
  intro hex
  obtain ⟨sk, einsum, _, hk, hrw⟩ :=
    ((OccupanciesFromMapping_entries boundedEngine 0 inertMapping scenarioWorkload _
      { buffer_id := 1, dspace_id := 5, branch_leaf_id := 3 } rfl).1).mp hex
  have he : einsum = 0 := (Option.some.inj hk).symm
  subst he
  rcases hrw with hr | hw
  · have : (5 : Nat) = 1 := List.mem_singleton.mp hr
    exact absurd this (by decide)
  · have : (5 : Nat) = 0 := List.mem_singleton.mp hw
    exact absurd this (by decide)

/-! ## The producer update of the inference -/

theorem requiredOps_iff_requiredOperation (E : Engine) (w : FusedWorkload) (idx ti : Nat)
    (kc : EinsumId) (t : DataSpaceId) (p : EinsumId) (T : IslMap) (c o : List Int) :
    (requiredOps E w idx ti kc t p T).rel c o ↔
      requiredOperation E w idx ti kc t p T c o := by
  rw [requiredOps_rel]
  unfold requiredOperation bufferedData requiredData
  constructor
  · rintro ⟨⟨d, ⟨⟨⟨o1, ⟨⟨x1, hT, hc⟩, hb⟩, hr⟩, hnot⟩, hd⟩, hw⟩, hbound⟩
    refine ⟨hbound, d, hw, hd, ⟨x1, o1, hT, hc, hb, hr⟩, ?_⟩
    rintro ⟨c', hs, x2, o2, hT2, hc2, hb2, hr2⟩
    exact hnot ⟨c', hs, o2, ⟨⟨x2, hT2, hc2⟩, hb2⟩, hr2⟩
  · rintro ⟨hbound, d, hw, hd, ⟨x1, o1, hT, hc, hb, hr⟩, hnot⟩
    refine ⟨⟨d, ⟨⟨⟨o1, ⟨⟨x1, hT, hc⟩, hb⟩, hr⟩, ?_⟩, hd⟩, hw⟩, hbound⟩
    rintro ⟨c', hs, o2, ⟨⟨x2, hT2, hc2⟩, hb2⟩, hr2⟩
    exact hnot ⟨c', hs, x2, o2, hT2, hc2, hb2, hr2⟩

/-- C20: in the update that a consumer leaf (position `j`, einsum `kc`) and a
read tensor `t` with producer einsum `p` make to the tilings, every leaf keeps
its id and coordinate counts; a leaf of another einsum is left as it is, and
the new tiling of a leaf of the producer einsum holds exactly the pairs
`(x, o)` of its previous tiling for which some operation `o'` with `(x, o')`
in the previous tiling is a required operation at a consumer step `c` that
agrees with `x` on the coordinates before the pipeline index. -/
theorem LoopBoundsInference_producer_update (E : Engine) (m : FusedMapping)
    (w : FusedWorkload) (idx : Nat) (top : List (DataSpaceId × Nat)) (j : Nat)
    (kc : EinsumId) (S S' : BranchTilings) (t : DataSpaceId) (p : EinsumId)
    (cons : NodeID × IslMap) (ti : Nat)
    (hw : w.WriterEinsum t = some p) (hj : S[j]? = some cons)
    (hti : StdMap.find t top = some ti)
    (h : readTensorStep E m w idx top j kc S t = some S') :
    List.Forall₂
      (fun a b => b.1 = a.1 ∧ b.2.nIn = a.2.nIn ∧ b.2.nOut = a.2.nOut ∧
        (m.kernelAt a.1 ≠ some p → b = a) ∧
        (m.kernelAt a.1 = some p → ∀ x o,
          (b.2.rel x o ↔ a.2.rel x o ∧
            ∃ c o', a.2.rel x o' ∧ requiredOperation E w idx ti kc t p cons.2 c o' ∧
              c.take idx = x.take idx)))
      S S' := by
  unfold readTensorStep at h
  simp only [hw, hj, hti] at h
  refine forEachM_forall₂ _ _ ?_ S S' h
  intro a b hab
  unfold producerUpdate at hab
  cases hk : m.kernelAt a.1 with
  | none => simp [hk] at hab
  | some kernel =>
    simp only [hk] at hab
    by_cases hne : kernel ≠ p
    · rw [if_pos hne, Option.some.injEq] at hab
      subst hab
      refine ⟨rfl, rfl, rfl, fun _ => rfl, ?_⟩
      intro hkp
      exact absurd (Option.some.inj hkp) hne
    · rw [if_neg hne, Option.some.injEq] at hab
      subst hab
      refine ⟨rfl, rfl, rfl, ?_, ?_⟩
      · intro hkp
        exact absurd (congrArg some (not_not.mp hne)) hkp
      · intro _ x o
        show (inferredProdTiling _ idx a.2).rel x o ↔ _
        rw [inferredProdTiling_rel]
        constructor
        · rintro ⟨h1, c, o', hR, hP, hc⟩
          exact ⟨h1, c, o', hP,
            (requiredOps_iff_requiredOperation E w idx ti kc t p cons.2 c o').mp hR, hc⟩
        · rintro ⟨h1, c, o', hP, hR, hc⟩
          exact ⟨h1, c, o', (requiredOps_iff_requiredOperation E w idx ti kc t p
            cons.2 c o').mpr hR, hP, hc⟩

/-- Witness for C20: in the pipeline of two einsums, the leaf of einsum 1 (at
position 1) reads dataspace 0, which einsum 0 writes; the update returns. -/
theorem LoopBoundsInference_producer_update_witness :
    ∃ S', readTensorStep boundedEngine chainMapping chainWorkload 1
        (DspaceTopIdxFromMapping chainMapping) 1 1 chainTilings 0 = some S' ∧
      List.Forall₂
        (fun a b => b.1 = a.1 ∧ b.2.nIn = a.2.nIn ∧ b.2.nOut = a.2.nOut ∧
          (chainMapping.kernelAt a.1 ≠ some 0 → b = a) ∧
          (chainMapping.kernelAt a.1 = some 0 → ∀ x o,
            (b.2.rel x o ↔ a.2.rel x o ∧
              ∃ c o', a.2.rel x o' ∧
                requiredOperation boundedEngine chainWorkload 1 1 1 0 0
                  (tilingAt (TilingFromMapping chainMapping chainWorkload) 5) c o' ∧
                c.take 1 = x.take 1)))
        chainTilings S' :=
  ⟨_, rfl, LoopBoundsInference_producer_update boundedEngine chainMapping chainWorkload 1
    (DspaceTopIdxFromMapping chainMapping) 1 1 chainTilings _ 0 0
    (5, tilingAt (TilingFromMapping chainMapping chainWorkload) 5) 1 rfl rfl rfl rfl⟩

/-! ## The walk of the tiling builder -/

theorem StdMap.find_ne_none_of_mem {K V : Type} [DecidableEq K] (x : K × V) :
    ∀ (m : List (K × V)), x ∈ m → StdMap.find x.1 m ≠ none := by
  intro m
  induction m with
  | nil => intro h; exact absurd h (List.not_mem_nil _)
  | cons e rest ih =>
    intro h
    by_cases he : e.1 = x.1
    · simp [StdMap.find, he]
    · simp only [StdMap.find, he, if_false]
      rcases List.mem_cons.mp h with h1 | h1
      · exact absurd (by rw [h1]) he
      · exact ih h1

theorem StdMap.mem_assign_ne {K V : Type} [DecidableEq K] (lt : K → K → Bool)
    (k : K) (v : V) (m : List (K × V)) (x : K × V)
    (h : x ∈ StdMap.assign lt k v m) : x = (k, v) ∨ (x ∈ m ∧ x.1 ≠ k) := by
  unfold StdMap.assign at h
  cases hf : StdMap.find k m with
  | some u =>
    simp only [hf] at h
    obtain ⟨e, he, hx⟩ := List.mem_map.mp h
    by_cases hk : e.1 = k
    · rw [if_pos hk] at hx
      left
      rw [← hx, hk]
    · rw [if_neg hk] at hx
      right
      rw [← hx]
      exact ⟨he, hk⟩
  | none =>
    simp only [hf] at h
    rcases (StdMap.mem_insertSorted lt k v x m).mp h with h1 | h1
    · exact Or.inl h1
    · right
      refine ⟨h1, ?_⟩
      intro hk
      have := StdMap.find_ne_none_of_mem x m h1
      rw [hk] at this
      exact this hf

theorem StdMap.assign_functional {K V : Type} [DecidableEq K] (lt : K → K → Bool)
    (k : K) (v : V) (m : List (K × V))
    (h : ∀ e ∈ m, StdMap.find e.1 m = some e.2) :
    ∀ e ∈ StdMap.assign lt k v m, StdMap.find e.1 (StdMap.assign lt k v m) = some e.2 := by
  intro e he
  rw [StdMap.find_assign]
  rcases StdMap.mem_assign_ne lt k v m e he with h1 | ⟨h1, h2⟩
  · rw [h1]
    simp
  · rw [if_neg (fun hk => h2 hk.symm)]
    exact h e h1

theorem tilingVisit_functional (s : TilingWalk) (node : MappingNode)
    (h : ∀ e ∈ s.prob_id_to_expr, StdMap.find e.1 s.prob_id_to_expr = some e.2) :
    ∀ e ∈ (tilingVisit s node).prob_id_to_expr,
      StdMap.find e.1 (tilingVisit s node).prob_id_to_expr = some e.2 := by
  cases node with
  | For id op ts =>
    cases ts with
    | none => exact h
    | some t => exact StdMap.assign_functional natLt op _ _ h
  | ParFor id op ts =>
    cases ts with
    | none => exact h
    | some t => exact StdMap.assign_functional natLt op _ _ h
  | Root id => exact h
  | Storage id b d => exact h
  | Compute id k => exact h
  | Pipeline id => exact h
  | Sequential id => exact h

theorem narrowToInt_of_lt (v : Nat) (h : v < 2147483648) : narrowToInt v = v := by
  unfold narrowToInt
  omega

theorem narrowToInt_le (v : Nat) : narrowToInt v ≤ v := by
  unfold narrowToInt
  omega

theorem storedLoopsOf_eq_map (path : List MappingNode) :
    storedLoopsOf path =
      (loopsOf path).map (fun l => (l.1, l.2.map narrowToInt)) := by
  induction path with
  | nil => rfl
  | cons node rest ih =>
    unfold storedLoopsOf loopsOf at ih ⊢
    cases node <;> simp [List.filterMap_cons, storedLoopOf, loopOf, ih]

theorem storedLoopsOf_length (path : List MappingNode) :
    (storedLoopsOf path).length = (loopsOf path).length := by
  rw [storedLoopsOf_eq_map, List.length_map]

theorem storedLoopsOf_getElem? (path : List MappingNode) (k : Nat) :
    (storedLoopsOf path)[k]? =
      ((loopsOf path)[k]?).map (fun l => (l.1, l.2.map narrowToInt)) := by
  rw [storedLoopsOf_eq_map, List.getElem?_map]

theorem storedLoopsOf_tiled (path : List MappingNode) (k : Nat) (d : DimensionId)
    (t : Nat) (h : (loopsOf path)[k]? = some (d, some t)) :
    (storedLoopsOf path)[k]? = some (d, some (narrowToInt t)) := by
  rw [storedLoopsOf_getElem?, h]
  rfl

theorem storedLoopsOf_tiled_inv (path : List MappingNode) (k : Nat) (d : DimensionId)
    (c : Int) (h : (storedLoopsOf path)[k]? = some (d, some c)) :
    ∃ t, (loopsOf path)[k]? = some (d, some t) ∧ c = narrowToInt t := by
  rw [storedLoopsOf_getElem?] at h
  cases hk : (loopsOf path)[k]? with
  | none => rw [hk] at h; exact Option.noConfusion h
  | some l =>
    rw [hk] at h
    obtain ⟨d0, ts⟩ := l
    cases ts with
    | none => simp at h
    | some t =>
      simp only [Option.map_some', Option.some.injEq, Prod.mk.injEq] at h
      exact ⟨t, by rw [h.1], h.2.symm⟩

theorem tiledFrom_cons (d : DimensionId) (l : DimensionId × Option Int)
    (rest : List (DimensionId × Option Int)) (k : Nat) :
    tiledFrom d (l :: rest) k = tiledFrom d [l] k ++ tiledFrom d rest (k + 1) := by
  obtain ⟨op, ts⟩ := l
  cases ts with
  | none => simp [tiledFrom]
  | some t =>
    by_cases hop : op = d
    · simp [tiledFrom, hop]
    · simp [tiledFrom, hop]

theorem tilingLoop_spec (s : TilingWalk) (op : DimensionId) (ts : Option Nat) :
    (tilingLoop s op ts).cur_dim_idx = s.cur_dim_idx + 1 ∧
      (tilingLoop s op ts).leaf_id = s.leaf_id ∧
      (tilingLoop s op ts).einsum_id = s.einsum_id ∧
      ∀ d, (StdMap.find d (tilingLoop s op ts).prob_id_to_expr).getD [] =
        (StdMap.find d s.prob_id_to_expr).getD [] ++
          tiledFrom d [(op, ts.map narrowToInt)] s.cur_dim_idx := by
  cases ts with
  | none => exact ⟨rfl, rfl, rfl, fun d => by simp [tilingLoop, tiledFrom]⟩
  | some t =>
    refine ⟨rfl, rfl, rfl, ?_⟩
    intro d
    show (StdMap.find d (StdMap.assign natLt op _ s.prob_id_to_expr)).getD [] = _
    rw [StdMap.find_assign]
    by_cases hop : op = d
    · simp [tiledFrom, hop]
    · simp [tiledFrom, hop]

theorem tilingWalk_spec :
    ∀ (path : List MappingNode) (s : TilingWalk),
      (path.foldl tilingVisit s).cur_dim_idx = s.cur_dim_idx + (storedLoopsOf path).length ∧
      ∀ d, (StdMap.find d (path.foldl tilingVisit s).prob_id_to_expr).getD [] =
        (StdMap.find d s.prob_id_to_expr).getD [] ++
          tiledFrom d (storedLoopsOf path) s.cur_dim_idx := by
  intro path
  induction path with
  | nil => intro s; simp [storedLoopsOf, tiledFrom]
  | cons node rest ih =>
    intro s
    rw [List.foldl_cons]
    obtain ⟨h1, h2⟩ := ih (tilingVisit s node)
    have hloop : ∀ op ts, storedLoopOf node = some (op, ts) →
        ∃ ts0, ts = Option.map narrowToInt ts0 ∧
          tilingVisit s node = tilingLoop s op ts0 := by
      intro op ts hl
      cases node with
      | For id op1 ts1 =>
        simp only [storedLoopOf, Option.some.injEq, Prod.mk.injEq] at hl
        refine ⟨ts1, hl.2.symm, ?_⟩
        rw [← hl.1]
        rfl
      | ParFor id op1 ts1 =>
        simp only [storedLoopOf, Option.some.injEq, Prod.mk.injEq] at hl
        refine ⟨ts1, hl.2.symm, ?_⟩
        rw [← hl.1]
        rfl
      | Root id => simp [storedLoopOf] at hl
      | Storage id b d => simp [storedLoopOf] at hl
      | Compute id k => simp [storedLoopOf] at hl
      | Pipeline id => simp [storedLoopOf] at hl
      | Sequential id => simp [storedLoopOf] at hl
    have hother : storedLoopOf node = none →
        (tilingVisit s node).cur_dim_idx = s.cur_dim_idx ∧
          (tilingVisit s node).prob_id_to_expr = s.prob_id_to_expr := by
      intro hl
      cases node with
      | For id op1 ts1 => simp [storedLoopOf] at hl
      | ParFor id op1 ts1 => simp [storedLoopOf] at hl
      | Root id => exact ⟨rfl, rfl⟩
      | Storage id b d => exact ⟨rfl, rfl⟩
      | Compute id k => exact ⟨rfl, rfl⟩
      | Pipeline id => exact ⟨rfl, rfl⟩
      | Sequential id => exact ⟨rfl, rfl⟩
    cases hl : storedLoopOf node with
    | none =>
      obtain ⟨g1, g2⟩ := hother hl
      have hls : storedLoopsOf (node :: rest) = storedLoopsOf rest := by
        simp [storedLoopsOf, List.filterMap_cons, hl]
      rw [hls]
      refine ⟨by rw [h1, g1], ?_⟩
      intro d
      rw [h2 d, g1, g2]
    | some l =>
      obtain ⟨op, ts⟩ := l
      obtain ⟨ts0, hts, hv⟩ := hloop op ts hl
      obtain ⟨g1, _, _, g4⟩ := tilingLoop_spec s op ts0
      have hls : storedLoopsOf (node :: rest) = (op, ts) :: storedLoopsOf rest := by
        simp [storedLoopsOf, List.filterMap_cons, hl]
      rw [hls]
      refine ⟨?_, ?_⟩
      · rw [h1, hv, g1, List.length_cons]
        omega
      · intro d
        rw [tiledFrom_cons d (op, ts) (storedLoopsOf rest), h2 d, hv, g4 d, g1,
          List.append_assoc, hts]

theorem tilingWalk_leaf :
    ∀ (path : List MappingNode) (s : TilingWalk) (acc : Option (NodeID × EinsumId)),
      s.leaf_id = acc.map Prod.fst → s.einsum_id = acc.map Prod.snd →
      (path.foldl tilingVisit s).leaf_id =
          (path.foldl
            (fun acc node =>
              match node with
              | .Compute id kernel => some (id, kernel)
              | _ => acc) acc).map Prod.fst ∧
        (path.foldl tilingVisit s).einsum_id =
          (path.foldl
            (fun acc node =>
              match node with
              | .Compute id kernel => some (id, kernel)
              | _ => acc) acc).map Prod.snd := by
  intro path
  induction path with
  | nil => intro s acc h1 h2; exact ⟨h1, h2⟩
  | cons node rest ih =>
    intro s acc h1 h2
    rw [List.foldl_cons, List.foldl_cons]
    cases node with
    | For id op ts =>
      exact ih _ acc ((tilingLoop_spec s op ts).2.1.trans h1)
        ((tilingLoop_spec s op ts).2.2.1.trans h2)
    | ParFor id op ts =>
      exact ih _ acc ((tilingLoop_spec s op ts).2.1.trans h1)
        ((tilingLoop_spec s op ts).2.2.1.trans h2)
    | Root id => exact ih _ acc h1 h2
    | Storage id b d => exact ih _ acc h1 h2
    | Compute id k => exact ih _ (some (id, k)) rfl rfl
    | Pipeline id => exact ih _ acc h1 h2
    | Sequential id => exact ih _ acc h1 h2

/-! ## The affine expressions of the tiling builder -/

theorem getD_set_int (c : List Int) (k j : Nat) (v : Int) :
    (c.set k v).getD j 0 = if k = j ∧ k < c.length then v else c.getD j 0 := by
  rw [List.getD_eq_getElem?_getD, List.getD_eq_getElem?_getD, List.getElem?_set]
  by_cases hkj : k = j
  · subst hkj
    by_cases hk : k < c.length
    · simp [hk]
    · simp only [hk, if_false, and_false, true_and]
      rw [List.getElem?_eq_none (by omega)]
      simp
  · simp [hkj]

theorem exprFold_eq_aff (z : Aff) :
    ∀ (e : List (Nat × Int)) (s : ExprState),
      (e.foldl (exprStep z) s).eq_aff =
        e.foldl (fun a p => a.set_coefficient_si p.1 p.2) s.eq_aff := by
  intro e
  induction e with
  | nil => intro s; rfl
  | cons p rest ih =>
    intro s
    rw [List.foldl_cons, List.foldl_cons, ih]
    rfl

theorem coeffFold :
    ∀ (e : List (Nat × Int)) (a : Aff),
      (e.foldl (fun a p => a.set_coefficient_si p.1 p.2) a).const = a.const ∧
      (e.foldl (fun a p => a.set_coefficient_si p.1 p.2) a).coeffs.length = a.coeffs.length ∧
      ∀ k,
        (k ∉ e.map Prod.fst →
          (e.foldl (fun a p => a.set_coefficient_si p.1 p.2) a).coeffs.getD k 0 =
            a.coeffs.getD k 0) ∧
        (∀ t, (∀ t', (k, t') ∈ e → t' = t) → k ∈ e.map Prod.fst → k < a.coeffs.length →
          (e.foldl (fun a p => a.set_coefficient_si p.1 p.2) a).coeffs.getD k 0 = t) := by
  intro e
  induction e with
  | nil =>
    intro a
    refine ⟨rfl, rfl, fun k => ⟨fun _ => rfl, fun t _ hk => ?_⟩⟩
    simp at hk
  | cons p rest ih =>
    intro a
    rw [List.foldl_cons]
    obtain ⟨h1, h2, h3⟩ := ih (a.set_coefficient_si p.1 p.2)
    have hlen : (a.set_coefficient_si p.1 p.2).coeffs.length = a.coeffs.length := by
      simp [Aff.set_coefficient_si]
    refine ⟨h1, h2.trans hlen, ?_⟩
    intro k
    constructor
    · intro hk
      simp only [List.map_cons, List.mem_cons, not_or] at hk
      rw [(h3 k).1 hk.2]
      show (a.coeffs.set p.1 p.2).getD k 0 = _
      rw [getD_set_int, if_neg (fun hh => hk.1 hh.1.symm)]
    · intro t hall hk hlt
      by_cases hrest : k ∈ rest.map Prod.fst
      · exact (h3 k).2 t (fun t' ht' => hall t' (List.mem_cons_of_mem _ ht')) hrest
          (by rw [hlen]; exact hlt)
      · rw [(h3 k).1 hrest]
        simp only [List.map_cons, List.mem_cons] at hk
        rcases hk with hk | hk
        · show (a.coeffs.set p.1 p.2).getD k 0 = _
          rw [getD_set_int, if_pos ⟨hk.symm, by rw [← hk]; exact hlt⟩]
          exact hall p.2 (by rw [hk]; exact List.mem_cons_self _ _)
        · exact absurd hk hrest

theorem targetRow_getD (D : List (DimensionId × Nat)) (i : Nat)
    (L : List (DimensionId × Option Int)) (k : Nat) (d : DimensionId) (t : Int)
    (h : L[k]? = some (d, some t)) :
    (targetRow D i L).getD k 0 = if StdMap.find d D = some i then t else 0 := by
  unfold targetRow
  rw [List.getD_eq_getElem?_getD, List.getElem?_map, h]
  rfl

theorem targetRow_getD_zero (D : List (DimensionId × Nat)) (i : Nat)
    (L : List (DimensionId × Option Int)) (k : Nat)
    (h : ∀ d t, L[k]? = some (d, some t) → StdMap.find d D ≠ some i) :
    (targetRow D i L).getD k 0 = 0 := by
  unfold targetRow
  rw [List.getD_eq_getElem?_getD, List.getElem?_map]
  cases hk : L[k]? with
  | none => rfl
  | some l =>
    obtain ⟨d, ts⟩ := l
    cases ts with
    | none => rfl
    | some t =>
      have := h d t hk
      simp [this]

theorem lt_length_of_getElem? {α : Type} (l : List α) (k : Nat) (a : α)
    (h : l[k]? = some a) : k < l.length := by
  by_contra hk
  rw [List.getElem?_eq_none (by omega)] at h
  exact Option.noConfusion h

theorem probDimStep_fst (D : List (DimensionId × Nat)) (z : Aff) (s : MultiAff × IslSet)
    (e : DimensionId × List (Nat × Int)) :
    (probDimStep D z s e).1 =
      match StdMap.find e.1 D with
      | some i =>
        s.1.set_at i (e.2.foldl (fun a p => a.set_coefficient_si p.1 p.2) (s.1.get_at i))
      | none => s.1 := by
  unfold probDimStep
  cases StdMap.find e.1 D with
  | none => rfl
  | some i =>
    simp only
    rw [exprFold_eq_aff]

theorem probDimStep_maff (D : List (DimensionId × Nat)) (z : Aff)
    (L : List (DimensionId × Option Int)) (M : MultiAff) (S : IslSet)
    (de : DimensionId × List (Nat × Int))
    (hde : ∀ kt ∈ de.2, L[kt.1]? = some (de.1, some kt.2))
    (hlen : ∀ a ∈ M.affs, a.coeffs.length = L.length) :
    (probDimStep D z (M, S) de).1.nIn = M.nIn ∧
    (probDimStep D z (M, S) de).1.affs.length = M.affs.length ∧
    ∀ i a1, (probDimStep D z (M, S) de).1.affs[i]? = some a1 →
      ∃ a, M.affs[i]? = some a ∧ a1.const = a.const ∧ a1.coeffs.length = L.length ∧
        ∀ k,
          ((StdMap.find de.1 D = some i ∧ k ∈ de.2.map Prod.fst) →
            a1.coeffs.getD k 0 = (targetRow D i L).getD k 0) ∧
          (¬ (StdMap.find de.1 D = some i ∧ k ∈ de.2.map Prod.fst) →
            a1.coeffs.getD k 0 = a.coeffs.getD k 0) := by
  rw [probDimStep_fst]
  cases hf : StdMap.find de.1 D with
  | none =>
    refine ⟨rfl, rfl, ?_⟩
    intro i a1 ha1
    refine ⟨a1, ha1, rfl, hlen a1 (List.getElem?_mem ha1), fun k => ⟨?_, fun _ => rfl⟩⟩
    rintro ⟨hh, _⟩
    exact Option.noConfusion hh
  | some i0 =>
    refine ⟨rfl, by simp [MultiAff.set_at], ?_⟩
    intro i a1 ha1
    simp only [MultiAff.set_at] at ha1
    rw [List.getElem?_set] at ha1
    by_cases hi : i0 = i
    · subst hi
      rw [if_pos rfl] at ha1
      by_cases hlt : i0 < M.affs.length
      · rw [if_pos hlt, Option.some.injEq] at ha1
        have hget : M.affs[i0]? = some (M.get_at i0) := by
          unfold MultiAff.get_at
          rw [List.getD_eq_getElem?_getD, List.getElem?_eq_getElem hlt]
          rfl
        obtain ⟨c1, c2, c3⟩ := coeffFold de.2 (M.get_at i0)
        have hl0 : (M.get_at i0).coeffs.length = L.length :=
          hlen _ (List.getElem?_mem hget)
        refine ⟨M.get_at i0, hget, ?_, ?_, ?_⟩
        · rw [← ha1]; exact c1
        · rw [← ha1, c2]; exact hl0
        · intro k
          constructor
          · rintro ⟨_, hk⟩
            obtain ⟨kt, hkt, hkeq⟩ := List.mem_map.mp hk
            have hLk := hde kt hkt
            rw [hkeq] at hLk
            rw [targetRow_getD D i0 L k de.1 kt.2 hLk, if_pos hf, ← ha1]
            refine (c3 k).2 kt.2 ?_ hk ?_
            · intro t' ht'
              have h2 := hde (k, t') ht'
              simp only at h2
              rw [hLk] at h2
              simp only [Option.some.injEq, Prod.mk.injEq, true_and] at h2
              exact h2.symm
            · rw [hl0]
              exact lt_length_of_getElem? L k _ hLk
          · intro hn
            rw [← ha1]
            exact (c3 k).1 (fun hk => hn ⟨rfl, hk⟩)
      · rw [if_neg hlt] at ha1
        exact Option.noConfusion ha1
    · rw [if_neg hi] at ha1
      refine ⟨a1, ha1, rfl, hlen a1 (List.getElem?_mem ha1), fun k => ⟨?_, fun _ => rfl⟩⟩
      rintro ⟨hh, _⟩
      exact absurd (Option.some.inj hh) hi

theorem probFold_maff (D : List (DimensionId × Nat)) (z : Aff)
    (L : List (DimensionId × Option Int)) :
    ∀ (Q : List (DimensionId × List (Nat × Int))) (M : MultiAff) (S : IslSet),
      (∀ de ∈ Q, ∀ kt ∈ de.2, L[kt.1]? = some (de.1, some kt.2)) →
      (∀ a ∈ M.affs, a.coeffs.length = L.length) →
      (Q.foldl (probDimStep D z) (M, S)).1.nIn = M.nIn ∧
      (Q.foldl (probDimStep D z) (M, S)).1.affs.length = M.affs.length ∧
      ∀ i a1, (Q.foldl (probDimStep D z) (M, S)).1.affs[i]? = some a1 →
        ∃ a, M.affs[i]? = some a ∧ a1.const = a.const ∧ a1.coeffs.length = L.length ∧
          ∀ k,
            ((∃ de ∈ Q, StdMap.find de.1 D = some i ∧ k ∈ de.2.map Prod.fst) →
              a1.coeffs.getD k 0 = (targetRow D i L).getD k 0) ∧
            ((¬ ∃ de ∈ Q, StdMap.find de.1 D = some i ∧ k ∈ de.2.map Prod.fst) →
              a1.coeffs.getD k 0 = a.coeffs.getD k 0) := by
  intro Q
  induction Q with
  | nil =>
    intro M S _ hlen
    refine ⟨rfl, rfl, ?_⟩
    intro i a1 ha1
    refine ⟨a1, ha1, rfl, hlen a1 (List.getElem?_mem ha1), fun k => ⟨?_, fun _ => rfl⟩⟩
    rintro ⟨de, hde, _⟩
    exact absurd hde (List.not_mem_nil _)
  | cons de Q ih =>
    intro M S hQ hlen
    rw [List.foldl_cons]
    obtain ⟨s1, s2, s3⟩ := probDimStep_maff D z L M S de
      (hQ de (List.mem_cons_self _ _)) hlen
    have hlen1 : ∀ a ∈ (probDimStep D z (M, S) de).1.affs, a.coeffs.length = L.length := by
      intro a ha
      obtain ⟨i, hi⟩ := List.getElem?_of_mem ha
      obtain ⟨_, _, _, h4, _⟩ := s3 i a hi
      exact h4
    obtain ⟨r1, r2, r3⟩ := ih (probDimStep D z (M, S) de).1 (probDimStep D z (M, S) de).2
      (fun de' hde' => hQ de' (List.mem_cons_of_mem _ hde')) hlen1
    refine ⟨r1.trans s1, r2.trans s2, ?_⟩
    intro i a1 ha1
    obtain ⟨am, ham, q1, q2, q3⟩ := r3 i a1 ha1
    obtain ⟨a, ha, p1, _, p3⟩ := s3 i am ham
    refine ⟨a, ha, q1.trans p1, q2, ?_⟩
    intro k
    constructor
    · rintro ⟨de', hde', hc⟩
      by_cases hrest : ∃ de ∈ Q, StdMap.find de.1 D = some i ∧ k ∈ de.2.map Prod.fst
      · exact (q3 k).1 hrest
      · rw [(q3 k).2 hrest]
        rcases List.mem_cons.mp hde' with h1 | h1
        · rw [h1] at hc
          exact (p3 k).1 hc
        · exact absurd ⟨de', h1, hc⟩ hrest
    · intro hn
      rw [(q3 k).2 (fun ⟨de', hde', hc⟩ => hn ⟨de', List.mem_cons_of_mem _ hde', hc⟩)]
      exact (p3 k).2 (fun hc => hn ⟨de, List.mem_cons_self _ _, hc⟩)

/-! ## The iteration set of the tiling builder -/

theorem zipsum_replicate_zero :
    ∀ (n : Nat) (x : List Int),
      (List.zipWith (fun c v => c * v) (List.replicate n (0 : Int)) x).sum = 0 := by
  intro n
  induction n with
  | zero => intro x; simp
  | succ n ih =>
    intro x
    cases x with
    | nil => simp
    | cons v xs =>
      simp only [List.replicate_succ, List.zipWith_cons_cons, List.sum_cons, ih]
      omega

theorem zero_eval (n : Nat) (x : List Int) : (Aff.zero_on_domain n).eval x = 0 := by
  show (0 : Int) + (List.zipWith (fun c v => c * v) (List.replicate n (0 : Int)) x).sum = 0
  rw [zipsum_replicate_zero]
  rfl

theorem zipsum_unit :
    ∀ (n k : Nat) (x : List Int), x.length = n →
      (List.zipWith (fun c v => c * v) ((List.replicate n (0 : Int)).set k 1) x).sum =
        x.getD k 0 := by
  intro n
  induction n with
  | zero =>
    intro k x hx
    have : x = [] := List.length_eq_zero.mp hx
    subst this
    simp
  | succ n ih =>
    intro k x hx
    cases x with
    | nil => simp at hx
    | cons v xs =>
      have hxs : xs.length = n := by simpa using hx
      cases k with
      | zero =>
        simp only [List.replicate_succ, List.set_cons_zero, List.zipWith_cons_cons,
          List.sum_cons, zipsum_replicate_zero]
        simp
      | succ k =>
        simp only [List.replicate_succ, List.set_cons_succ, List.zipWith_cons_cons,
          List.sum_cons, ih k xs hxs]
        simp

theorem unit_eval (n k : Nat) (x : List Int) (hx : x.length = n) :
    ((Aff.zero_on_domain n).set_coefficient_si k 1).eval x = x.getD k 0 := by
  show (0 : Int) +
    (List.zipWith (fun c v => c * v) ((List.replicate n (0 : Int)).set k 1) x).sum = _
  rw [zipsum_unit n k x hx]
  omega

theorem const_eval (n : Nat) (c : Int) (x : List Int) :
    ((Aff.zero_on_domain n).set_constant_si c).eval x = c := by
  show c + (List.zipWith (fun c v => c * v) (List.replicate n (0 : Int)) x).sum = c
  rw [zipsum_replicate_zero]
  omega

theorem exprStep_iter_set (n : Nat) (s : ExprState) (p : Nat × Int) (x : List Int)
    (hx : s.iter_set.mem x → x.length = n) :
    (exprStep (Aff.zero_on_domain n) s p).iter_set.mem x ↔
      s.iter_set.mem x ∧ 0 ≤ x.getD p.1 0 ∧
        (match s.last_coef with
          | some c => x.getD p.1 0 < c
          | none => True) := by
  have hlen : ((Aff.zero_on_domain n).set_coefficient_si p.1 1).coeffs.length = n := by
    simp [Aff.set_coefficient_si, Aff.zero_on_domain]
  unfold exprStep
  cases hl : s.last_coef with
  | none =>
    show (s.iter_set.mem x ∧ (x.length = _ ∧ _ ≤ _)) ↔ _
    constructor
    · rintro ⟨h1, h2, h3⟩
      rw [zero_eval, unit_eval n p.1 x (hx h1)] at h3
      exact ⟨h1, h3, trivial⟩
    · rintro ⟨h1, h3, _⟩
      refine ⟨h1, by rw [hlen]; exact hx h1, ?_⟩
      rw [zero_eval, unit_eval n p.1 x (hx h1)]
      exact h3
  | some c =>
    show ((s.iter_set.mem x ∧ (x.length = _ ∧ _ ≤ _)) ∧ (x.length = _ ∧ _ < _)) ↔ _
    constructor
    · rintro ⟨⟨h1, h2, h3⟩, _, h4⟩
      rw [zero_eval, unit_eval n p.1 x (hx h1)] at h3
      rw [const_eval, unit_eval n p.1 x (hx h1)] at h4
      exact ⟨h1, h3, h4⟩
    · rintro ⟨h1, h3, h4⟩
      refine ⟨⟨h1, by rw [hlen]; exact hx h1, ?_⟩, by rw [hlen]; exact hx h1, ?_⟩
      · rw [zero_eval, unit_eval n p.1 x (hx h1)]
        exact h3
      · rw [const_eval, unit_eval n p.1 x (hx h1)]
        exact h4

theorem exprFold_iter_set (n : Nat) (x : List Int) :
    ∀ (e : List (Nat × Int)) (s : ExprState), (s.iter_set.mem x → x.length = n) →
      ((e.foldl (exprStep (Aff.zero_on_domain n)) s).iter_set.mem x ↔
        s.iter_set.mem x ∧ chainFrom x s.last_coef e) := by
  intro e
  induction e with
  | nil =>
    intro s _
    simp [chainFrom]
  | cons p rest ih =>
    intro s hx
    rw [List.foldl_cons]
    have hstep := exprStep_iter_set n s p x hx
    have hx1 : (exprStep (Aff.zero_on_domain n) s p).iter_set.mem x → x.length = n :=
      fun h => hx (hstep.mp h).1
    rw [ih _ hx1, hstep]
    obtain ⟨k, t⟩ := p
    show _ ↔ s.iter_set.mem x ∧ (0 ≤ x.getD k 0 ∧ _ ∧ chainFrom x (some t) rest)
    constructor
    · rintro ⟨⟨h1, h2, h3⟩, h4⟩
      exact ⟨h1, h2, h3, h4⟩
    · rintro ⟨h1, h2, h3, h4⟩
      exact ⟨⟨h1, h2, h3⟩, h4⟩

theorem probDimStep_iter_set (D : List (DimensionId × Nat)) (n : Nat) (x : List Int)
    (M : MultiAff) (S : IslSet) (de : DimensionId × List (Nat × Int))
    (hx : S.mem x → x.length = n) :
    (probDimStep D (Aff.zero_on_domain n) (M, S) de).2.mem x ↔
      S.mem x ∧ ((StdMap.find de.1 D).isSome → chainFrom x none de.2) := by
  unfold probDimStep
  cases hf : StdMap.find de.1 D with
  | none => simp
  | some i =>
    simp only [Option.isSome_some, true_implies]
    exact exprFold_iter_set n x de.2 _ hx

theorem probFold_iter_set (D : List (DimensionId × Nat)) (n : Nat) (x : List Int) :
    ∀ (Q : List (DimensionId × List (Nat × Int))) (M : MultiAff) (S : IslSet),
      (S.mem x → x.length = n) →
      ((Q.foldl (probDimStep D (Aff.zero_on_domain n)) (M, S)).2.mem x ↔
        S.mem x ∧ ∀ de ∈ Q, (StdMap.find de.1 D).isSome → chainFrom x none de.2) := by
  intro Q
  induction Q with
  | nil => intro M S _; simp
  | cons de Q ih =>
    intro M S hx
    rw [List.foldl_cons]
    have hstep := probDimStep_iter_set D n x M S de hx
    have hx1 : (probDimStep D (Aff.zero_on_domain n) (M, S) de).2.mem x → x.length = n :=
      fun h => hx (hstep.mp h).1
    rw [ih (probDimStep D (Aff.zero_on_domain n) (M, S) de).1 _ hx1, hstep]
    constructor
    · rintro ⟨⟨h1, h2⟩, h3⟩
      refine ⟨h1, ?_⟩
      intro de' hde'
      rcases List.mem_cons.mp hde' with h | h
      · rw [h]; exact h2
      · exact h3 de' h
    · rintro ⟨h1, h2⟩
      exact ⟨⟨h1, h2 de (List.mem_cons_self _ _)⟩,
        fun de' hde' => h2 de' (List.mem_cons_of_mem _ hde')⟩

/-! ## The relation of a path in closed form -/

theorem mem_tiledFrom (d : DimensionId) (k : Nat) (t : Int) :
    ∀ (L : List (DimensionId × Option Int)) (k0 : Nat),
      (k, t) ∈ tiledFrom d L k0 ↔ k0 ≤ k ∧ L[k - k0]? = some (d, some t) := by
  intro L
  induction L with
  | nil => intro k0; simp [tiledFrom]
  | cons l rest ih =>
    intro k0
    rw [tiledFrom_cons, List.mem_append, ih (k0 + 1)]
    obtain ⟨op, ts⟩ := l
    have hhead : (k, t) ∈ tiledFrom d [(op, ts)] k0 ↔ k = k0 ∧ op = d ∧ ts = some t := by
      cases ts with
      | none => simp [tiledFrom]
      | some t0 =>
        by_cases hop : op = d
        · simp [tiledFrom, hop]
          intro _
          exact eq_comm
        · simp [tiledFrom, hop]
    rw [hhead]
    constructor
    · rintro (⟨h1, h2, h3⟩ | ⟨h1, h2⟩)
      · refine ⟨by omega, ?_⟩
        rw [h1, Nat.sub_self, h2, h3]
        simp
      · refine ⟨by omega, ?_⟩
        have : k - k0 = (k - (k0 + 1)) + 1 := by omega
        rw [this, List.getElem?_cons_succ]
        exact h2
    · rintro ⟨h1, h2⟩
      by_cases hk : k = k0
      · left
        rw [hk, Nat.sub_self] at h2
        simp only [List.getElem?_cons_zero, Option.some.injEq, Prod.mk.injEq] at h2
        exact ⟨hk, h2.1, h2.2⟩
      · right
        refine ⟨by omega, ?_⟩
        have : k - k0 = (k - (k0 + 1)) + 1 := by omega
        rw [this, List.getElem?_cons_succ] at h2
        exact h2

theorem tilingWalk_entries (path : List MappingNode) :
    (∀ de ∈ (path.foldl tilingVisit
        { prob_id_to_expr := [], cur_dim_idx := 0, einsum_id := none,
          leaf_id := none }).prob_id_to_expr,
      de.2 = tiledFrom de.1 (storedLoopsOf path) 0) ∧
    (∀ d, tiledFrom d (storedLoopsOf path) 0 ≠ [] →
      (d, tiledFrom d (storedLoopsOf path) 0) ∈ (path.foldl tilingVisit
        { prob_id_to_expr := [], cur_dim_idx := 0, einsum_id := none,
          leaf_id := none }).prob_id_to_expr) := by
  have hfun := foldl_invariant tilingVisit
    (fun s => ∀ e ∈ s.prob_id_to_expr, StdMap.find e.1 s.prob_id_to_expr = some e.2)
    (fun s a hs => tilingVisit_functional s a hs) path
    { prob_id_to_expr := [], cur_dim_idx := 0, einsum_id := none, leaf_id := none }
    (fun e he => absurd he (List.not_mem_nil _))
  obtain ⟨_, hfind⟩ := tilingWalk_spec path
    { prob_id_to_expr := [], cur_dim_idx := 0, einsum_id := none, leaf_id := none }
  have hfind2 : ∀ d, (StdMap.find d (path.foldl tilingVisit
      { prob_id_to_expr := [], cur_dim_idx := 0, einsum_id := none,
        leaf_id := none }).prob_id_to_expr).getD [] = tiledFrom d (storedLoopsOf path) 0 := by
    intro d
    rw [hfind d]
    simp [StdMap.find]
  constructor
  · intro de hde
    have h1 := hfun de hde
    have h2 := hfind2 de.1
    rw [h1] at h2
    exact h2
  · intro d hd
    have h2 := hfind2 d
    cases hf : StdMap.find d (path.foldl tilingVisit
        { prob_id_to_expr := [], cur_dim_idx := 0, einsum_id := none,
          leaf_id := none }).prob_id_to_expr with
    | none =>
      rw [hf] at h2
      exact absurd h2.symm hd
    | some e =>
      rw [hf] at h2
      have : e = tiledFrom d (storedLoopsOf path) 0 := h2
      rw [← this]
      exact StdMap.find_mem d e _ hf

theorem list_ext_getD (a b : List Int) (hlen : a.length = b.length)
    (h : ∀ k, a.getD k 0 = b.getD k 0) : a = b := by
  apply List.ext_getElem hlen
  intro k h1 h2
  have := h k
  rw [List.getD_eq_getElem?_getD, List.getD_eq_getElem?_getD,
    List.getElem?_eq_getElem h1, List.getElem?_eq_getElem h2] at this
  exact this

theorem tilingFold_affs (w : FusedWorkload) (einsum : EinsumId) (path : List MappingNode) :
    ((path.foldl tilingVisit
        { prob_id_to_expr := [], cur_dim_idx := 0, einsum_id := none,
          leaf_id := none }).prob_id_to_expr.foldl
      (probDimStep (w.EinsumDimToIdx einsum) (Aff.zero_on_domain (storedLoopsOf path).length))
      (MultiAff.zero (storedLoopsOf path).length (w.EinsumOspaceBound einsum).dim,
        IslSet.universe_on (storedLoopsOf path).length)).1 =
    { nIn := (storedLoopsOf path).length,
      affs := (List.range (w.EinsumOspaceBound einsum).dim).map
        (fun i => { coeffs := targetRow (w.EinsumDimToIdx einsum) i (storedLoopsOf path),
                    const := 0 }) } := by
  obtain ⟨hent, hall⟩ := tilingWalk_entries path
  have hQ : ∀ de ∈ (path.foldl tilingVisit
      { prob_id_to_expr := [], cur_dim_idx := 0, einsum_id := none,
        leaf_id := none }).prob_id_to_expr,
      ∀ kt ∈ de.2, (storedLoopsOf path)[kt.1]? = some (de.1, some kt.2) := by
    intro de hde kt hkt
    rw [hent de hde] at hkt
    have := (mem_tiledFrom de.1 kt.1 kt.2 (storedLoopsOf path) 0).mp hkt
    exact this.2
  have hlen0 : ∀ a ∈ (MultiAff.zero (storedLoopsOf path).length
      (w.EinsumOspaceBound einsum).dim).affs, a.coeffs.length = (storedLoopsOf path).length := by
    intro a ha
    have : a = Aff.zero_on_domain (storedLoopsOf path).length := List.eq_of_mem_replicate ha
    rw [this]
    simp [Aff.zero_on_domain]
  obtain ⟨r1, r2, r3⟩ := probFold_maff (w.EinsumDimToIdx einsum)
    (Aff.zero_on_domain (storedLoopsOf path).length) (storedLoopsOf path) _
    (MultiAff.zero (storedLoopsOf path).length (w.EinsumOspaceBound einsum).dim)
    (IslSet.universe_on (storedLoopsOf path).length) hQ hlen0
  generalize ((path.foldl tilingVisit
        { prob_id_to_expr := [], cur_dim_idx := 0, einsum_id := none,
          leaf_id := none }).prob_id_to_expr.foldl
      (probDimStep (w.EinsumDimToIdx einsum) (Aff.zero_on_domain (storedLoopsOf path).length))
      (MultiAff.zero (storedLoopsOf path).length (w.EinsumOspaceBound einsum).dim,
        IslSet.universe_on (storedLoopsOf path).length)).1 = R at r1 r2 r3
  obtain ⟨Rn, Ra⟩ := R
  simp only at r1 r2 r3
  have hn : Rn = (storedLoopsOf path).length := r1
  subst hn
  congr 1
  have hRlen : Ra.length = (w.EinsumOspaceBound einsum).dim := by
    rw [r2]
    simp [MultiAff.zero]
  apply List.ext_getElem
  · rw [hRlen]
    simp
  · intro i h1 h2
    rw [List.getElem_map, List.getElem_range]
    obtain ⟨a, ha, c1, c2, c3⟩ := r3 i Ra[i] (List.getElem?_eq_getElem h1)
    have ha0 : a = Aff.zero_on_domain (storedLoopsOf path).length :=
      List.eq_of_mem_replicate (List.getElem?_mem ha)
    have hconst : Ra[i].const = 0 := by
      rw [c1, ha0]
      rfl
    have hcoeffs : Ra[i].coeffs = targetRow (w.EinsumDimToIdx einsum) i (storedLoopsOf path) := by
      apply list_ext_getD
      · rw [c2]
        simp [targetRow]
      · intro k
        by_cases hex : ∃ de ∈ (path.foldl tilingVisit
            { prob_id_to_expr := [], cur_dim_idx := 0, einsum_id := none,
              leaf_id := none }).prob_id_to_expr,
            StdMap.find de.1 (w.EinsumDimToIdx einsum) = some i ∧ k ∈ de.2.map Prod.fst
        · exact (c3 k).1 hex
        · rw [(c3 k).2 hex, ha0]
          have hz : (Aff.zero_on_domain (storedLoopsOf path).length).coeffs.getD k 0 = 0 := by
            simp only [Aff.zero_on_domain, List.getD_eq_getElem?_getD, List.getElem?_replicate]
            split <;> rfl
          rw [hz]
          symm
          apply targetRow_getD_zero
          intro d t hLk hfd
          apply hex
          have hmem : (k, t) ∈ tiledFrom d (storedLoopsOf path) 0 :=
            (mem_tiledFrom d k t (storedLoopsOf path) 0).mpr ⟨Nat.zero_le _, hLk⟩
          refine ⟨(d, tiledFrom d (storedLoopsOf path) 0),
            hall d (List.ne_nil_of_mem hmem), hfd, ?_⟩
          exact List.mem_map.mpr ⟨(k, t), hmem, rfl⟩
    cases hR : Ra[i] with
    | mk cs c =>
      rw [hR] at hconst hcoeffs
      simp only at hconst hcoeffs
      rw [hconst, hcoeffs]

theorem pathTiling_eq (w : FusedWorkload) (path : List MappingNode) :
    pathTiling w path =
      (pathLeaf path).map (fun le => (le.1, tilingSpec w le.2 path)) := by
  obtain ⟨hl, he⟩ := tilingWalk_leaf path
    { prob_id_to_expr := [], cur_dim_idx := 0, einsum_id := none, leaf_id := none }
    none rfl rfl
  have hl2 : (path.foldl tilingVisit
      { prob_id_to_expr := [], cur_dim_idx := 0, einsum_id := none,
        leaf_id := none }).leaf_id = (pathLeaf path).map Prod.fst := hl
  have he2 : (path.foldl tilingVisit
      { prob_id_to_expr := [], cur_dim_idx := 0, einsum_id := none,
        leaf_id := none }).einsum_id = (pathLeaf path).map Prod.snd := he
  have hc : (path.foldl tilingVisit
      { prob_id_to_expr := [], cur_dim_idx := 0, einsum_id := none,
        leaf_id := none }).cur_dim_idx = (storedLoopsOf path).length := by
    rw [(tilingWalk_spec path _).1]
    simp
  unfold pathTiling
  simp only [hl2, he2, hc]
  cases hpl : pathLeaf path with
  | none => rfl
  | some le =>
    obtain ⟨leaf, einsum⟩ := le
    simp only [Option.map_some']
    congr 2
    have hR1 := tilingFold_affs w einsum path
    apply IslMap.eq_of_rel
    · show (_ : MultiAff).nIn = (storedLoopsOf path).length
      rw [hR1]
    · show (_ : MultiAff).affs.length = (w.EinsumOspaceBound einsum).dim
      rw [hR1]
      simp
    · intro x o
      show ((x.length = (_ : MultiAff).nIn ∧ o = (_ : MultiAff).affs.map (fun a => a.eval x)) ∧
        (_ : IslSet).mem x) ↔ _
      rw [hR1, probFold_iter_set (w.EinsumDimToIdx einsum) (storedLoopsOf path).length x _ _ _
        (fun h => h)]
      obtain ⟨hent, hall⟩ := tilingWalk_entries path
      have hmap : (List.map (fun a => a.eval x)
          ((List.range (w.EinsumOspaceBound einsum).dim).map
            (fun i => Aff.mk (targetRow (w.EinsumDimToIdx einsum) i (storedLoopsOf path)) 0))) =
          (List.range (w.EinsumOspaceBound einsum).dim).map
            (fun i => tileSum (w.EinsumDimToIdx einsum) i (storedLoopsOf path) x) := by
        rw [List.map_map]
        apply List.map_congr_left
        intro i _
        show (0 : Int) + _ = _
        rw [Int.zero_add]
        rfl
      simp only [hmap]
      constructor
      · rintro ⟨⟨h1, h2⟩, _, h4⟩
        refine ⟨h1, h2, ?_⟩
        intro d hd
        by_cases hnil : tiledFrom d (storedLoopsOf path) 0 = []
        · unfold tiledLoops
          rw [hnil]
          trivial
        · exact h4 _ (hall d hnil) hd
      · rintro ⟨h1, h2, h3⟩
        refine ⟨⟨h1, h2⟩, h1, ?_⟩
        intro de hde hd
        rw [hent de hde]
        exact h3 de.1 hd

/-! ## The entries of `TilingFromMapping` -/

theorem tilingPaths_find (w : FusedWorkload) :
    ∀ (paths : List (List MappingNode)) (init result : BranchTilings),
      tilingPaths w paths init = some result →
      ∀ leaf T, StdMap.find leaf result = some T →
        StdMap.find leaf init = some T ∨
          (StdMap.find leaf init = none ∧ ∃ path einsum,
            firstPathOf paths leaf = some path ∧ pathLeaf path = some (leaf, einsum) ∧
            T = tilingSpec w einsum path) := by
  intro paths
  induction paths with
  | nil =>
    intro init result h leaf T hfind
    simp only [tilingPaths, Option.some.injEq] at h
    subst h
    exact Or.inl hfind
  | cons p rest ih =>
    intro init result h leaf T hfind
    unfold tilingPaths at h
    rw [pathTiling_eq] at h
    cases hpl : pathLeaf p with
    | none => simp [hpl] at h
    | some le =>
      obtain ⟨l, einsum⟩ := le
      simp only [hpl, Option.map_some'] at h
      have hfirst : ∀ (_ : List MappingNode), firstPathOf (p :: rest) leaf =
          if l = leaf then some p else firstPathOf rest leaf := by
        intro _
        unfold firstPathOf
        rw [List.find?_cons]
        by_cases hll : l = leaf
        · simp [hpl, hll]
        · simp [hpl, hll]
      rcases ih _ result h leaf T hfind with hA | ⟨hnone, path, e2, hf, hp, hT⟩
      · rw [StdMap.find_emplace] at hA
        cases hinit : StdMap.find leaf init with
        | some u =>
          simp only [hinit] at hA
          exact Or.inl hA
        | none =>
          simp only [hinit] at hA
          refine Or.inr ⟨rfl, ?_⟩
          by_cases hll : l = leaf
          · simp only [hll, if_true, Option.some.injEq] at hA
            refine ⟨p, einsum, ?_, ?_, hA.symm⟩
            · rw [hfirst p, if_pos hll]
            · rw [hpl, hll]
          · simp [hll] at hA
      · rw [StdMap.find_emplace] at hnone
        cases hinit : StdMap.find leaf init with
        | some u => simp [hinit] at hnone
        | none =>
          simp only [hinit] at hnone
          refine Or.inr ⟨rfl, path, e2, ?_, hp, hT⟩
          by_cases hll : l = leaf
          · simp [hll] at hnone
          · rw [hfirst p, if_neg hll]
            exact hf

theorem tilingPaths_total (w : FusedWorkload) :
    ∀ (paths : List (List MappingNode)) (init result : BranchTilings),
      tilingPaths w paths init = some result →
      (∀ leaf T, StdMap.find leaf init = some T → StdMap.find leaf result = some T) ∧
      ∀ path ∈ paths, ∃ leaf einsum T, pathLeaf path = some (leaf, einsum) ∧
        StdMap.find leaf result = some T := by
  intro paths
  induction paths with
  | nil =>
    intro init result h
    simp only [tilingPaths, Option.some.injEq] at h
    subst h
    exact ⟨fun _ _ h => h, fun _ hp => absurd hp (List.not_mem_nil _)⟩
  | cons p rest ih =>
    intro init result h
    unfold tilingPaths at h
    rw [pathTiling_eq] at h
    cases hpl : pathLeaf p with
    | none => simp [hpl] at h
    | some le =>
      obtain ⟨l, einsum⟩ := le
      simp only [hpl, Option.map_some'] at h
      obtain ⟨hkeep, hrest⟩ := ih _ result h
      have hem : ∀ leaf T, StdMap.find leaf init = some T →
          StdMap.find leaf (StdMap.emplace natLt l (tilingSpec w einsum p) init) = some T := by
        intro leaf T hf
        rw [StdMap.find_emplace, hf]
      refine ⟨fun leaf T hf => hkeep leaf T (hem leaf T hf), ?_⟩
      intro path hpath
      rcases List.mem_cons.mp hpath with h1 | h1
      · rw [h1]
        have : ∃ T, StdMap.find l
            (StdMap.emplace natLt l (tilingSpec w einsum p) init) = some T := by
          rw [StdMap.find_emplace]
          cases StdMap.find l init with
          | some u => exact ⟨u, rfl⟩
          | none => exact ⟨tilingSpec w einsum p, by simp⟩
        obtain ⟨T, hT⟩ := this
        exact ⟨l, einsum, T, hpl, hkeep l T hT⟩
      · exact hrest path h1

theorem boundRange_find (m : FusedMapping) (w : FusedWorkload) :
    ∀ (result bt : BranchTilings), forEachM (boundRange m w) result = some bt →
      ∀ leaf,
        (∀ T, StdMap.find leaf bt = some T →
          ∃ T0 kernel, StdMap.find leaf result = some T0 ∧ m.kernelAt leaf = some kernel ∧
            T = T0.intersect_range (w.EinsumOspaceBound kernel)) ∧
        (∀ T0, StdMap.find leaf result = some T0 → ∃ T, StdMap.find leaf bt = some T) := by
  intro result
  induction result with
  | nil =>
    intro bt h leaf
    simp only [forEachM, Option.some.injEq] at h
    subst h
    exact ⟨fun T hT => by simp [StdMap.find] at hT, fun T hT => by simp [StdMap.find] at hT⟩
  | cons e rest ih =>
    intro bt h leaf
    unfold forEachM at h
    cases hb : boundRange m w e with
    | none => simp [hb] at h
    | some b =>
      simp only [hb] at h
      cases hr : forEachM (boundRange m w) rest with
      | none => simp [hr] at h
      | some bs =>
        simp only [hr, Option.some.injEq] at h
        subst h
        unfold boundRange at hb
        cases hk : m.kernelAt e.1 with
        | none => simp [hk] at hb
        | some kernel =>
          simp only [hk, Option.some.injEq] at hb
          subst hb
          obtain ⟨i1, i2⟩ := ih bs hr leaf
          by_cases hel : e.1 = leaf
          · constructor
            · intro T hT
              simp only [StdMap.find, hel, if_true, Option.some.injEq] at hT
              refine ⟨e.2, kernel, by simp [StdMap.find, hel], by rw [← hel]; exact hk,
                hT.symm⟩
            · intro T0 _
              exact ⟨e.2.intersect_range (w.EinsumOspaceBound kernel),
                by simp [StdMap.find, hel]⟩
          · constructor
            · intro T hT
              simp only [StdMap.find, hel, if_false] at hT
              obtain ⟨T0, k2, h1, h2, h3⟩ := i1 T hT
              exact ⟨T0, k2, by simp only [StdMap.find, hel, if_false]; exact h1, h2, h3⟩
            · intro T0 hT0
              simp only [StdMap.find, hel, if_false] at hT0
              obtain ⟨T, hT⟩ := i2 T0 hT0
              exact ⟨T, by simp only [StdMap.find, hel, if_false]; exact hT⟩

theorem TilingFromMapping_find (m : FusedMapping) (w : FusedWorkload) (bt : BranchTilings)
    (h : TilingFromMapping m w = some bt) (leaf : NodeID) (T : IslMap)
    (hT : StdMap.find leaf bt = some T) :
    ∃ path einsum kernel, firstPathOf m.paths leaf = some path ∧
      pathLeaf path = some (leaf, einsum) ∧ m.kernelAt leaf = some kernel ∧
      T = (tilingSpec w einsum path).intersect_range (w.EinsumOspaceBound kernel) := by
  unfold TilingFromMapping at h
  cases hp : tilingPaths w m.paths [] with
  | none => simp [hp] at h
  | some result =>
    simp only [hp] at h
    obtain ⟨T0, kernel, h1, h2, h3⟩ := (boundRange_find m w result bt h leaf).1 T hT
    rcases tilingPaths_find w m.paths [] result hp leaf T0 h1 with hA | ⟨_, path, einsum, q1, q2, q3⟩
    · simp [StdMap.find] at hA
    · exact ⟨path, einsum, kernel, q1, q2, h2, by rw [h3, q3]⟩

theorem TilingFromMapping_paths (m : FusedMapping) (w : FusedWorkload) (bt : BranchTilings)
    (h : TilingFromMapping m w = some bt) :
    ∀ path ∈ m.paths, ∃ leaf einsum T, pathLeaf path = some (leaf, einsum) ∧
      StdMap.find leaf bt = some T := by
  unfold TilingFromMapping at h
  cases hp : tilingPaths w m.paths [] with
  | none => simp [hp] at h
  | some result =>
    simp only [hp] at h
    intro path hpath
    obtain ⟨leaf, einsum, T0, h1, h2⟩ := (tilingPaths_total w m.paths [] result hp).2 path hpath
    obtain ⟨T, hT⟩ := (boundRange_find m w result bt h leaf).2 T0 h2
    exact ⟨leaf, einsum, T, h1, hT⟩

/-! ## The output coordinates of the tiling -/

theorem tileSum_eq_sum (D : List (DimensionId × Nat)) (i : Nat) (d : DimensionId)
    (hd : StdMap.find d D = some i) (hinj : ∀ d', StdMap.find d' D = some i → d' = d) :
    ∀ (L : List (DimensionId × Option Int)) (pre xs : List Int), xs.length = L.length →
      (List.zipWith (fun c v => c * v) (targetRow D i L) xs).sum =
        ((tiledFrom d L pre.length).map (fun kt => kt.2 * (pre ++ xs).getD kt.1 0)).sum := by
  intro L
  induction L with
  | nil =>
    intro pre xs _
    simp [targetRow, tiledFrom]
  | cons l rest ih =>
    intro pre xs hlen
    cases xs with
    | nil => simp at hlen
    | cons v xs1 =>
      have hlen1 : xs1.length = rest.length := by simpa using hlen
      have hih := ih (pre ++ [v]) xs1 hlen1
      have happ : pre ++ [v] ++ xs1 = pre ++ v :: xs1 := by simp
      have hplen : (pre ++ [v]).length = pre.length + 1 := by simp
      rw [happ, hplen] at hih
      have hrow : targetRow D i (l :: rest) =
          (match l.2 with
            | some t => if StdMap.find l.1 D = some i then t else 0
            | none => 0) :: targetRow D i rest := rfl
      rw [hrow, List.zipWith_cons_cons, List.sum_cons, hih]
      obtain ⟨op, ts⟩ := l
      cases ts with
      | none =>
        simp [tiledFrom]
      | some t =>
        by_cases hop : op = d
        · have hf : StdMap.find op D = some i := by rw [hop]; exact hd
          simp only [hf, if_true, tiledFrom, hop, List.map_cons, List.sum_cons]
          have hget : (pre ++ v :: xs1).getD pre.length 0 = v := by
            rw [List.getD_eq_getElem?_getD, List.getElem?_append_right (Nat.le_refl _),
              Nat.sub_self]
            simp
          rw [hget]
          simp [hop] at hf
          simp [hf]
        · have hf : StdMap.find op D ≠ some i := fun h => hop (hinj op h)
          simp [hf, tiledFrom, hop]

theorem mem_tiledLoops (path : List MappingNode) (d : DimensionId) (k : Nat) (c : Int) :
    (k, c) ∈ tiledLoops d path ↔
      ∃ t, (loopsOf path)[k]? = some (d, some t) ∧ c = narrowToInt t := by
  unfold tiledLoops
  rw [mem_tiledFrom, Nat.sub_zero]
  constructor
  · rintro ⟨_, hk⟩
    exact storedLoopsOf_tiled_inv path k d c hk
  · rintro ⟨t, hk, hc⟩
    rw [hc]
    exact ⟨Nat.zero_le _, storedLoopsOf_tiled path k d t hk⟩

/-- C12 counterexample: a loop of tile size `2^32 + 2` on dimension 0.  The
tile size is recorded as an `int`, which makes it 2: the iteration tuple `[1]`
is related to the operation `2`, not to `(2^32 + 2) · 1`. -/
theorem TilingFromMapping_tile_size_narrowed :
    ∃ bt T, TilingFromMapping wideMapping recurrenceWorkload = some bt ∧
      StdMap.find 1 bt = some T ∧
      loopsOf widePath = [(0, some 4294967298)] ∧
      tiledLoops 0 widePath = [(0, 2)] ∧
      T.rel [1] [2] ∧ (2 : Int) ≠ 4294967298 * 1 := by
  refine ⟨_, _, rfl, rfl, rfl, rfl, ?_, by decide⟩
  refine ⟨⟨⟨rfl, by decide⟩, rfl, rfl, by decide⟩, ?_⟩
  exact List.Forall₂.cons ⟨by decide, by decide⟩ List.Forall₂.nil

/-- C12 (amended): when `TilingFromMapping` returns, the leaf of every path has
an entry, and every entry is built from a path of the mapping that ends in that
leaf (the first such path).  Its relation has one domain coordinate per `For`
or `ParFor` node of the path, with or without a tile size.  It holds exactly
the pairs `(x, o)` in which `x` has one coordinate per loop, every coordinate
of `o` is the sum of `c(k) · x[k]` over the tiled loops bound to it, `x`
satisfies the constraints of the tiled loops, and `o` lies in the output-space
bound; for a dimension `d` of the einsum that owns its output index, the
coordinate of `o` is the sum of `c(k) · x[k]` over the loops `k` of the path
that are bound to `d` and have a known tile size.  Here `c(k)` is the tile size
of loop `k` converted to `int`, which is the tile size itself when it is below
`2^31`. -/
theorem TilingFromMapping_affine (m : FusedMapping) (w : FusedWorkload)
    (bt : BranchTilings) (h : TilingFromMapping m w = some bt) :
    (∀ path ∈ m.paths, ∃ leaf einsum T, pathLeaf path = some (leaf, einsum) ∧
      StdMap.find leaf bt = some T) ∧
    ∀ leaf T, StdMap.find leaf bt = some T →
      ∃ path einsum kernel, firstPathOf m.paths leaf = some path ∧
        pathLeaf path = some (leaf, einsum) ∧ m.kernelAt leaf = some kernel ∧
        T.nIn = (loopsOf path).length ∧
        (∀ d k c, (k, c) ∈ tiledLoops d path ↔
          ∃ t, (loopsOf path)[k]? = some (d, some t) ∧ c = narrowToInt t) ∧
        (∀ k d (t : Nat), (loopsOf path)[k]? = some (d, some t) → t < 2147483648 →
          (k, (t : Int)) ∈ tiledLoops d path) ∧
        (∀ x o, T.rel x o ↔
          (x.length = (loopsOf path).length ∧
            o = (List.range (w.EinsumOspaceBound einsum).dim).map
              (fun i => tileSum (w.EinsumDimToIdx einsum) i (storedLoopsOf path) x) ∧
            ∀ d, (StdMap.find d (w.EinsumDimToIdx einsum)).isSome →
              chainFrom x none (tiledLoops d path)) ∧
          (w.EinsumOspaceBound kernel).mem o) ∧
        ∀ x o, T.rel x o →
          ∀ d i, StdMap.find d (w.EinsumDimToIdx einsum) = some i →
            (∀ d', StdMap.find d' (w.EinsumDimToIdx einsum) = some i → d' = d) →
            i < (w.EinsumOspaceBound einsum).dim →
            o[i]? = some ((tiledLoops d path).map (fun kt => kt.2 * x.getD kt.1 0)).sum := by
  refine ⟨TilingFromMapping_paths m w bt h, ?_⟩
  intro leaf T hT
  obtain ⟨path, einsum, kernel, h1, h2, h3, h4⟩ := TilingFromMapping_find m w bt h leaf T hT
  refine ⟨path, einsum, kernel, h1, h2, h3, by rw [h4]; exact storedLoopsOf_length path,
    mem_tiledLoops path, ?_, ?_, ?_⟩
  · intro k d t hk ht
    exact (mem_tiledLoops path d k t).mpr ⟨t, hk, (narrowToInt_of_lt t ht).symm⟩
  · intro x o
    rw [h4, ← storedLoopsOf_length path]
    exact Iff.rfl
  · intro x o hrel
    rw [h4] at hrel
    obtain ⟨⟨hx, ho, _⟩, _⟩ := hrel
    intro d i hd hinj hi
    rw [ho, List.getElem?_map, List.getElem?_range hi]
    simp only [Option.map_some', Option.some.injEq]
    have := tileSum_eq_sum (w.EinsumDimToIdx einsum) i d hd hinj (storedLoopsOf path) [] x hx
    simpa [tileSum, tiledLoops] using this

/-- Witness for C12 (amended): the two-loop scenario. -/
theorem TilingFromMapping_affine_witness :
    ∃ bt, TilingFromMapping scenarioMapping scenarioWorkload = some bt ∧
      (∀ path ∈ scenarioMapping.paths, ∃ leaf einsum T,
        pathLeaf path = some (leaf, einsum) ∧ StdMap.find leaf bt = some T) ∧
      ∀ leaf T, StdMap.find leaf bt = some T →
        ∃ path einsum kernel, firstPathOf scenarioMapping.paths leaf = some path ∧
          pathLeaf path = some (leaf, einsum) ∧
          scenarioMapping.kernelAt leaf = some kernel ∧
          T.nIn = (loopsOf path).length ∧
          (∀ d k c, (k, c) ∈ tiledLoops d path ↔
            ∃ t, (loopsOf path)[k]? = some (d, some t) ∧ c = narrowToInt t) ∧
          (∀ k d (t : Nat), (loopsOf path)[k]? = some (d, some t) → t < 2147483648 →
            (k, (t : Int)) ∈ tiledLoops d path) ∧
          (∀ x o, T.rel x o ↔
            (x.length = (loopsOf path).length ∧
              o = (List.range (scenarioWorkload.EinsumOspaceBound einsum).dim).map
                (fun i => tileSum (scenarioWorkload.EinsumDimToIdx einsum) i
                  (storedLoopsOf path) x) ∧
              ∀ d, (StdMap.find d (scenarioWorkload.EinsumDimToIdx einsum)).isSome →
                chainFrom x none (tiledLoops d path)) ∧
            (scenarioWorkload.EinsumOspaceBound kernel).mem o) ∧
          ∀ x o, T.rel x o →
            ∀ d i, StdMap.find d (scenarioWorkload.EinsumDimToIdx einsum) = some i →
              (∀ d', StdMap.find d' (scenarioWorkload.EinsumDimToIdx einsum) = some i →
                d' = d) →
              i < (scenarioWorkload.EinsumOspaceBound einsum).dim →
              o[i]? = some ((tiledLoops d path).map (fun kt => kt.2 * x.getD kt.1 0)).sum :=
  ⟨_, rfl, TilingFromMapping_affine scenarioMapping scenarioWorkload _ rfl⟩

/-! ## The constraints on the loop coordinates -/

theorem chainFrom_nonneg (x : List Int) :
    ∀ (e : List (Nat × Int)) (last : Option Int), chainFrom x last e →
      ∀ kt ∈ e, 0 ≤ x.getD kt.1 0 := by
  intro e
  induction e with
  | nil => intro _ _ kt hkt; exact absurd hkt (List.not_mem_nil _)
  | cons p rest ih =>
    intro last h kt hkt
    obtain ⟨k, t⟩ := p
    obtain ⟨h1, _, h3⟩ := h
    rcases List.mem_cons.mp hkt with hh | hh
    · rw [hh]; exact h1
    · exact ih (some t) h3 kt hh

/-- C16 counterexample: on a path whose only loop has no tile size, the tuple
with coordinate `-1` is related to the operation `0`. -/
theorem TilingFromMapping_untiled_loop_negative :
    ∃ bt T, TilingFromMapping untiledMapping recurrenceWorkload = some bt ∧
      StdMap.find 1 bt = some T ∧ loopsOf untiledPath = [(0, none)] ∧
      T.rel [-1] [0] ∧ ¬ (0 ≤ ([-1] : List Int).getD 0 0) := by
  refine ⟨_, _, rfl, rfl, rfl, ?_, by decide⟩
  refine ⟨⟨⟨rfl, rfl⟩, rfl⟩, ?_⟩
  exact List.Forall₂.cons ⟨by decide, by decide⟩ List.Forall₂.nil

/-- C16 (amended): when `TilingFromMapping` returns, every entry is built from
the first path that ends in its leaf, and in every pair `(x, o)` of its relation
the coordinate of every loop of that path that has a known tile size and is
bound to a dimension of the einsum is non-negative. -/
theorem TilingFromMapping_tiled_nonneg (m : FusedMapping) (w : FusedWorkload)
    (bt : BranchTilings) (h : TilingFromMapping m w = some bt) :
    ∀ leaf T, StdMap.find leaf bt = some T →
      ∃ path einsum, firstPathOf m.paths leaf = some path ∧
        pathLeaf path = some (leaf, einsum) ∧
        ∀ x o, T.rel x o →
          x.length = (loopsOf path).length ∧
          ∀ k d t, (loopsOf path)[k]? = some (d, some t) →
            (StdMap.find d (w.EinsumDimToIdx einsum)).isSome → 0 ≤ x.getD k 0 := by
  intro leaf T hT
  obtain ⟨path, einsum, kernel, h1, h2, _, h4⟩ := TilingFromMapping_find m w bt h leaf T hT
  refine ⟨path, einsum, h1, h2, ?_⟩
  intro x o hrel
  rw [h4] at hrel
  obtain ⟨⟨hx, _, hchain⟩, _⟩ := hrel
  refine ⟨hx.trans (storedLoopsOf_length path), ?_⟩
  intro k d t hk hd
  have hmem : (k, narrowToInt t) ∈ tiledLoops d path :=
    (mem_tiledFrom d k (narrowToInt t) (storedLoopsOf path) 0).mpr
      ⟨Nat.zero_le _, storedLoopsOf_tiled path k d t hk⟩
  exact chainFrom_nonneg x _ none (hchain d hd) (k, narrowToInt t) hmem

/-- Witness for C16 (amended): the two-loop scenario and its leaf, node 3. -/
theorem TilingFromMapping_tiled_nonneg_witness :
    ∃ bt T, TilingFromMapping scenarioMapping scenarioWorkload = some bt ∧
      StdMap.find 3 bt = some T ∧
      ∃ path einsum, firstPathOf scenarioMapping.paths 3 = some path ∧
        pathLeaf path = some (3, einsum) ∧
        ∀ x o, T.rel x o →
          x.length = (loopsOf path).length ∧
          ∀ k d t, (loopsOf path)[k]? = some (d, some t) →
            (StdMap.find d (scenarioWorkload.EinsumDimToIdx einsum)).isSome →
            0 ≤ x.getD k 0 :=
  ⟨_, _, rfl, rfl,
    TilingFromMapping_tiled_nonneg scenarioMapping scenarioWorkload _ rfl 3 _ rfl⟩

theorem getElem?_cons_sub {α : Type} (l : α) (rest : List α) (k k0 : Nat) (h : k0 < k) :
    (l :: rest)[k - k0]? = rest[k - (k0 + 1)]? := by
  have : k - k0 = (k - (k0 + 1)) + 1 := by omega
  rw [this, List.getElem?_cons_succ]

theorem tiledFrom_first (d : DimensionId) (k2 : Nat) (t2 : Int) :
    ∀ (L : List (DimensionId × Option Int)) (k0 : Nat), k0 ≤ k2 →
      L[k2 - k0]? = some (d, some t2) →
      (∀ k t, k0 ≤ k → k < k2 → L[k - k0]? ≠ some (d, some t)) →
      ∃ tail, tiledFrom d L k0 = (k2, t2) :: tail := by
  intro L
  induction L with
  | nil => intro k0 _ h _; simp at h
  | cons l rest ih =>
    intro k0 hle hk2 hno
    by_cases hk : k2 = k0
    · rw [hk, Nat.sub_self] at hk2
      simp only [List.getElem?_cons_zero, Option.some.injEq] at hk2
      rw [hk2, hk]
      exact ⟨tiledFrom d rest (k0 + 1), by simp [tiledFrom]⟩
    · have hlt : k0 < k2 := by omega
      rw [getElem?_cons_sub l rest k2 k0 hlt] at hk2
      obtain ⟨tail, htail⟩ := ih (k0 + 1) (by omega) hk2
        (fun k t h1 h2 => by
          have := hno k t (by omega) h2
          rw [getElem?_cons_sub l rest k k0 (by omega)] at this
          exact this)
      have hhead : ∀ t, (l :: rest)[k0 - k0]? ≠ some (d, some t) :=
        fun t => hno k0 t (Nat.le_refl _) hlt
      rw [tiledFrom_cons, htail]
      obtain ⟨op, ts⟩ := l
      cases ts with
      | none => exact ⟨tail, by simp [tiledFrom]⟩
      | some t0 =>
        by_cases hop : op = d
        · have := hhead t0
          rw [Nat.sub_self, hop] at this
          exact absurd (List.getElem?_cons_zero) this
        · exact ⟨tail, by simp [tiledFrom, hop]⟩

theorem chainFrom_lt (x : List Int) (d : DimensionId) (k1 k2 : Nat) (t1 t2 : Int) :
    ∀ (L : List (DimensionId × Option Int)) (k0 : Nat) (last : Option Int),
      chainFrom x last (tiledFrom d L k0) → k0 ≤ k1 → k1 < k2 →
      L[k1 - k0]? = some (d, some t1) → L[k2 - k0]? = some (d, some t2) →
      (∀ k t, k1 < k → k < k2 → L[k - k0]? ≠ some (d, some t)) →
      x.getD k2 0 < t1 := by
  intro L
  induction L with
  | nil => intro k0 _ _ _ _ h _ _; simp at h
  | cons l rest ih =>
    intro k0 last hchain hle hlt hk1 hk2 hno
    have hk2r : rest[k2 - (k0 + 1)]? = some (d, some t2) := by
      rw [← getElem?_cons_sub l rest k2 k0 (by omega)]
      exact hk2
    by_cases hk : k1 = k0
    · rw [hk, Nat.sub_self] at hk1
      simp only [List.getElem?_cons_zero, Option.some.injEq] at hk1
      rw [hk1] at hchain
      obtain ⟨tail, htail⟩ := tiledFrom_first d k2 t2 rest (k0 + 1) (by omega) hk2r
        (fun k t h1 h2 => by
          have := hno k t (by omega) h2
          rw [getElem?_cons_sub l rest k k0 (by omega)] at this
          exact this)
      have hc : chainFrom x last ((k0, t1) :: (k2, t2) :: tail) := by
        have : tiledFrom d ((d, some t1) :: rest) k0 = (k0, t1) :: (k2, t2) :: tail := by
          simp [tiledFrom, htail]
        rw [this] at hchain
        exact hchain
      exact hc.2.2.2.1
    · have hk1r : rest[k1 - (k0 + 1)]? = some (d, some t1) := by
        rw [← getElem?_cons_sub l rest k1 k0 (by omega)]
        exact hk1
      have hnor : ∀ k t, k1 < k → k < k2 → rest[k - (k0 + 1)]? ≠ some (d, some t) := by
        intro k t h1 h2
        have := hno k t h1 h2
        rw [getElem?_cons_sub l rest k k0 (by omega)] at this
        exact this
      obtain ⟨op, ts⟩ := l
      cases ts with
      | none =>
        have : tiledFrom d ((op, none) :: rest) k0 = tiledFrom d rest (k0 + 1) := by
          simp [tiledFrom]
        rw [this] at hchain
        exact ih (k0 + 1) last hchain (by omega) hlt hk1r hk2r hnor
      | some t0 =>
        by_cases hop : op = d
        · have : tiledFrom d ((op, some t0) :: rest) k0 =
              (k0, t0) :: tiledFrom d rest (k0 + 1) := by
            simp [tiledFrom, hop]
          rw [this] at hchain
          exact ih (k0 + 1) (some t0) hchain.2.2 (by omega) hlt hk1r hk2r hnor
        · have : tiledFrom d ((op, some t0) :: rest) k0 = tiledFrom d rest (k0 + 1) := by
            simp [tiledFrom, hop]
          rw [this] at hchain
          exact ih (k0 + 1) last hchain (by omega) hlt hk1r hk2r hnor

/-- C17: when `TilingFromMapping` returns, every entry is built from the first
path that ends in its leaf, and for two loops `k1 < k2` of that path that have
known tile sizes and are bound to the same dimension of the einsum, with no
such loop between them (`k1` is the nearest enclosing one), every pair `(x, o)`
of the relation has `x[k2]` strictly below the tile size of loop `k1`, both as
the mapping declares it and as it is recorded (converted to `int`). -/
theorem TilingFromMapping_inner_below_outer_tile (m : FusedMapping) (w : FusedWorkload)
    (bt : BranchTilings) (h : TilingFromMapping m w = some bt) :
    ∀ leaf T, StdMap.find leaf bt = some T →
      ∃ path einsum, firstPathOf m.paths leaf = some path ∧
        pathLeaf path = some (leaf, einsum) ∧
        ∀ x o, T.rel x o →
          x.length = (loopsOf path).length ∧
          ∀ d, (StdMap.find d (w.EinsumDimToIdx einsum)).isSome →
            ∀ k1 (t1 : Nat) k2 (t2 : Nat), k1 < k2 →
              (loopsOf path)[k1]? = some (d, some t1) →
              (loopsOf path)[k2]? = some (d, some t2) →
              (∀ k t, k1 < k → k < k2 → (loopsOf path)[k]? ≠ some (d, some t)) →
              x.getD k2 0 < t1 ∧ x.getD k2 0 < narrowToInt t1 := by
  intro leaf T hT
  obtain ⟨path, einsum, kernel, h1, h2, _, h4⟩ := TilingFromMapping_find m w bt h leaf T hT
  refine ⟨path, einsum, h1, h2, ?_⟩
  intro x o hrel
  rw [h4] at hrel
  obtain ⟨⟨hx, _, hchain⟩, _⟩ := hrel
  refine ⟨hx.trans (storedLoopsOf_length path), ?_⟩
  intro d hd k1 t1 k2 t2 hlt hk1 hk2 hno
  have hlt2 : x.getD k2 0 < narrowToInt t1 :=
    chainFrom_lt x d k1 k2 (narrowToInt t1) (narrowToInt t2) (storedLoopsOf path) 0 none
      (hchain d hd) (Nat.zero_le _) hlt (storedLoopsOf_tiled path k1 d t1 hk1)
      (storedLoopsOf_tiled path k2 d t2 hk2)
      (fun k c hk1k hkk2 hst => by
        rw [Nat.sub_zero] at hst
        obtain ⟨t, ht, _⟩ := storedLoopsOf_tiled_inv path k d c hst
        exact hno k t hk1k hkk2 ht)
  exact ⟨lt_of_lt_of_le hlt2 (narrowToInt_le t1), hlt2⟩

/-- Witness for C17: the recurrence has two nested loops on dimension 0 with
tile sizes 4 and 1; in the tiling of its leaf (node 4) the inner coordinate is
below 4. -/
theorem TilingFromMapping_inner_below_outer_tile_witness :
    ∃ bt T, TilingFromMapping recurrenceMapping recurrenceWorkload = some bt ∧
      StdMap.find 4 bt = some T ∧
      loopsOf recurrencePath = [(0, some 4), (0, some 1)] ∧
      ∃ path einsum, firstPathOf recurrenceMapping.paths 4 = some path ∧
        pathLeaf path = some (4, einsum) ∧
        ∀ x o, T.rel x o →
          x.length = (loopsOf path).length ∧
          ∀ d, (StdMap.find d (recurrenceWorkload.EinsumDimToIdx einsum)).isSome →
            ∀ k1 (t1 : Nat) k2 (t2 : Nat), k1 < k2 →
              (loopsOf path)[k1]? = some (d, some t1) →
              (loopsOf path)[k2]? = some (d, some t2) →
              (∀ k t, k1 < k → k < k2 → (loopsOf path)[k]? ≠ some (d, some t)) →
              x.getD k2 0 < t1 ∧ x.getD k2 0 < narrowToInt t1 :=
  ⟨_, _, rfl, rfl, rfl,
    TilingFromMapping_inner_below_outer_tile recurrenceMapping recurrenceWorkload _ rfl
      4 _ rfl⟩

/-! ## Loops on a dimension the einsum does not have -/

theorem zipsum_set_zero :
    ∀ (c x : List Int) (k : Nat) (v : Int), c.getD k 0 = 0 →
      (List.zipWith (fun c v => c * v) c (x.set k v)).sum =
        (List.zipWith (fun c v => c * v) c x).sum := by
  intro c
  induction c with
  | nil => intro x k v _; simp
  | cons a rest ih =>
    intro x k v h
    cases x with
    | nil => simp
    | cons b xs =>
      cases k with
      | zero =>
        have ha : a = 0 := by simpa using h
        simp [ha]
      | succ k =>
        have hr : rest.getD k 0 = 0 := by simpa using h
        simp only [List.set_cons_succ, List.zipWith_cons_cons, List.sum_cons, ih xs k v hr]

theorem chainFrom_congr (x y : List Int) :
    ∀ (e : List (Nat × Int)) (last : Option Int),
      (∀ kt ∈ e, y.getD kt.1 0 = x.getD kt.1 0) → chainFrom x last e → chainFrom y last e := by
  intro e
  induction e with
  | nil => intro _ _ _; trivial
  | cons p rest ih =>
    intro last hag h
    obtain ⟨k, t⟩ := p
    obtain ⟨h1, h2, h3⟩ := h
    have hk : y.getD k 0 = x.getD k 0 := hag (k, t) (List.mem_cons_self _ _)
    refine ⟨by rw [hk]; exact h1, ?_, ih (some t)
      (fun kt hkt => hag kt (List.mem_cons_of_mem _ hkt)) h3⟩
    cases last with
    | none => trivial
    | some c =>
      show y.getD k 0 < c
      rw [hk]
      exact h2

/-- C19: when `TilingFromMapping` returns, every entry is built from the first
path that ends in its leaf, and for a loop of that path whose problem dimension
is not a dimension of the einsum, the relation holds, with a pair `(x, o)`,
every pair `(x', o)` in which `x'` differs from `x` at most at that loop's
coordinate. -/
theorem TilingFromMapping_foreign_loop_free (m : FusedMapping) (w : FusedWorkload)
    (bt : BranchTilings) (h : TilingFromMapping m w = some bt) :
    ∀ leaf T, StdMap.find leaf bt = some T →
      ∃ path einsum, firstPathOf m.paths leaf = some path ∧
        pathLeaf path = some (leaf, einsum) ∧
        ∀ k0 d0 ts, (loopsOf path)[k0]? = some (d0, ts) →
          StdMap.find d0 (w.EinsumDimToIdx einsum) = none →
          ∀ x o v, T.rel x o → T.rel (x.set k0 v) o := by
  intro leaf T hT
  obtain ⟨path, einsum, kernel, h1, h2, _, h4⟩ := TilingFromMapping_find m w bt h leaf T hT
  refine ⟨path, einsum, h1, h2, ?_⟩
  intro k0 d0 ts hk00 hd0 x o v hrel
  have hk0 : (storedLoopsOf path)[k0]? = some (d0, ts.map narrowToInt) := by
    rw [storedLoopsOf_getElem?, hk00]
    rfl
  rw [h4] at hrel ⊢
  obtain ⟨⟨hx, ho, hchain⟩, hbound⟩ := hrel
  refine ⟨⟨by rw [List.length_set]; exact hx, ?_, ?_⟩, hbound⟩
  · rw [ho]
    apply List.map_congr_left
    intro i _
    unfold tileSum
    symm
    apply zipsum_set_zero
    apply targetRow_getD_zero
    intro d t hL hfd
    rw [hk0] at hL
    simp only [Option.some.injEq, Prod.mk.injEq] at hL
    rw [← hL.1, hd0] at hfd
    exact Option.noConfusion hfd
  · intro d hd
    apply chainFrom_congr x (x.set k0 v) _ none _ (hchain d hd)
    intro kt hkt
    have hL := ((mem_tiledFrom d kt.1 kt.2 (storedLoopsOf path) 0).mp hkt).2
    rw [Nat.sub_zero] at hL
    rw [getD_set_int, if_neg]
    rintro ⟨hk, _⟩
    rw [← hk, hk0] at hL
    simp only [Option.some.injEq, Prod.mk.injEq] at hL
    rw [← hL.1, hd0] at hd
    exact Bool.noConfusion hd

/-- Witness for C19: a path with a loop on dimension 0 above a loop on
dimension 7, which the einsum does not have. -/
theorem TilingFromMapping_foreign_loop_free_witness :
    ∃ bt T, TilingFromMapping foreignMapping recurrenceWorkload = some bt ∧
      StdMap.find 2 bt = some T ∧
      loopsOf foreignPath = [(0, some 1), (7, some 3)] ∧
      StdMap.find 7 (recurrenceWorkload.EinsumDimToIdx 0) = none ∧
      ∃ path einsum, firstPathOf foreignMapping.paths 2 = some path ∧
        pathLeaf path = some (2, einsum) ∧
        ∀ k0 d0 ts, (loopsOf path)[k0]? = some (d0, ts) →
          StdMap.find d0 (recurrenceWorkload.EinsumDimToIdx einsum) = none →
          ∀ x o v, T.rel x o → T.rel (x.set k0 v) o :=
  ⟨_, _, rfl, rfl, rfl, rfl,
    TilingFromMapping_foreign_loop_free foreignMapping recurrenceWorkload _ rfl 2 _ rfl⟩

/-! ## Several tiled loops on one dimension -/

/-- C18 counterexample: two nested loops on dimension 0, both with tile size 2.
The tuples `[1, 0]` and `[0, 1]` both satisfy the domain constraints and both
are related to the operation `2`. -/
theorem TilingFromMapping_overlapping_tiles :
    ∃ bt T, TilingFromMapping overlapMapping recurrenceWorkload = some bt ∧
      StdMap.find 2 bt = some T ∧
      tiledLoops 0 overlapPath = [(0, 2), (1, 2)] ∧
      T.rel [1, 0] [2] ∧ T.rel [0, 1] [2] := by
  refine ⟨(TilingFromMapping overlapMapping recurrenceWorkload).getD [],
    tilingAt (TilingFromMapping overlapMapping recurrenceWorkload) 2, rfl, rfl, rfl, ?_⟩
  obtain ⟨path, einsum, kernel, h1, h2, h3, h4⟩ :=
    TilingFromMapping_find overlapMapping recurrenceWorkload _ rfl 2
      (tilingAt (TilingFromMapping overlapMapping recurrenceWorkload) 2) rfl
  have hp : path = overlapPath := (Option.some.inj (h1.symm.trans rfl))
  subst hp
  have he : einsum = 0 := by
    have : some ((2 : NodeID), einsum) = some (2, 0) := h2.symm.trans rfl
    simp only [Option.some.injEq, Prod.mk.injEq, true_and] at this
    exact this
  subst he
  have hk : kernel = 0 := Option.some.inj (h3.symm.trans rfl)
  subst hk
  rw [h4]
  have hchain : ∀ (x : List Int), chainFrom x none [(0, 2), (1, 2)] →
      ∀ d, (StdMap.find d (recurrenceWorkload.EinsumDimToIdx 0)).isSome →
        chainFrom x none (tiledLoops d overlapPath) := by
    intro x hx d hd
    have hd0 : d = 0 := by
      by_contra hne
      have : StdMap.find d (recurrenceWorkload.EinsumDimToIdx 0) = none := by
        show (if (0 : Nat) = d then some 0 else none) = none
        rw [if_neg (fun h => hne h.symm)]
      rw [this] at hd
      exact Bool.noConfusion hd
    rw [hd0]
    exact hx
  constructor
  · refine ⟨⟨rfl, rfl, hchain _ ⟨by decide, trivial, by decide, by decide, trivial⟩⟩, ?_⟩
    exact List.Forall₂.cons ⟨by decide, by decide⟩ List.Forall₂.nil
  · refine ⟨⟨rfl, rfl, hchain _ ⟨by decide, trivial, by decide, by decide, trivial⟩⟩, ?_⟩
    exact List.Forall₂.cons ⟨by decide, by decide⟩ List.Forall₂.nil
theorem radix_unique (t a b a' b' : Int) (hb : 0 ≤ b) (hbt : b < t) (hb' : 0 ≤ b')
    (hbt' : b' < t) (h : t * a + b = t * a' + b') : a = a' ∧ b = b' := by
  have ht : 0 ≤ t := by omega
  have ha : a = a' := by
    by_contra hne
    rcases lt_or_gt_of_ne hne with hlt | hgt
    · have h1 : t * (a + 1) ≤ t * a' := mul_le_mul_of_nonneg_left (by omega) ht
      have h2 : t * (a + 1) = t * a + t := by ring
      omega
    · have h1 : t * (a' + 1) ≤ t * a := mul_le_mul_of_nonneg_left (by omega) ht
      have h2 : t * (a' + 1) = t * a' + t := by ring
      omega
  refine ⟨ha, ?_⟩
  rw [ha] at h
  omega

theorem chainFrom_unit_zero (x : List Int) :
    ∀ (e : List (Nat × Int)), (∀ kt ∈ e, kt.2 = 1) → chainFrom x (some 1) e →
      ∀ kt ∈ e, x.getD kt.1 0 = 0 := by
  intro e
  induction e with
  | nil => intro _ _ kt hkt; exact absurd hkt (List.not_mem_nil _)
  | cons p rest ih =>
    intro hone h kt hkt
    obtain ⟨k, t⟩ := p
    obtain ⟨h1, h2, h3⟩ := h
    have h2' : x.getD k 0 < 1 := h2
    have ht : t = 1 := hone (k, t) (List.mem_cons_self _ _)
    rw [ht] at h3
    rcases List.mem_cons.mp hkt with hh | hh
    · rw [hh]
      show x.getD k 0 = 0
      omega
    · exact ih (fun kt hkt => hone kt (List.mem_cons_of_mem _ hkt)) h3 kt hh

theorem sum_unit_zero (x : List Int) :
    ∀ (e : List (Nat × Int)), (∀ kt ∈ e, x.getD kt.1 0 = 0) →
      (e.map (fun kt => kt.2 * x.getD kt.1 0)).sum = 0 := by
  intro e
  induction e with
  | nil => intro _; rfl
  | cons p rest ih =>
    intro h
    rw [List.map_cons, List.sum_cons, ih (fun kt hkt => h kt (List.mem_cons_of_mem _ hkt)),
      h p (List.mem_cons_self _ _)]
    simp

theorem chain_unique (x y : List Int) (k0 : Nat) (t0 : Int) (inner : List (Nat × Int))
    (ht0 : 0 < t0 ∨ inner ≠ []) (hone : ∀ kt ∈ inner, kt.2 = 1)
    (hx : chainFrom x none ((k0, t0) :: inner)) (hy : chainFrom y none ((k0, t0) :: inner))
    (hsum : (((k0, t0) :: inner).map (fun kt => kt.2 * x.getD kt.1 0)).sum =
      (((k0, t0) :: inner).map (fun kt => kt.2 * y.getD kt.1 0)).sum) :
    ∀ kt ∈ (k0, t0) :: inner, x.getD kt.1 0 = y.getD kt.1 0 := by
  obtain ⟨_, _, hxi⟩ := hx
  obtain ⟨_, _, hyi⟩ := hy
  cases inner with
  | nil =>
    simp only [List.map_cons, List.map_nil, List.sum_cons, List.sum_nil, Int.add_zero] at hsum
    have ht0p : 0 < t0 := ht0.elim id (fun hne => absurd rfl hne)
    have : x.getD k0 0 = y.getD k0 0 := Int.eq_of_mul_eq_mul_left (by omega) hsum
    intro kt hkt
    rw [List.mem_singleton.mp hkt]
    exact this
  | cons p rest =>
    obtain ⟨k1, t1⟩ := p
    have ht1 : t1 = 1 := hone (k1, t1) (List.mem_cons_self _ _)
    subst ht1
    obtain ⟨hx1, hx2, hx3⟩ := hxi
    obtain ⟨hy1, hy2, hy3⟩ := hyi
    have hx2' : x.getD k1 0 < t0 := hx2
    have hy2' : y.getD k1 0 < t0 := hy2
    have hrest : ∀ kt ∈ rest, kt.2 = 1 := fun kt hkt => hone kt (List.mem_cons_of_mem _ hkt)
    have hxz := chainFrom_unit_zero x rest hrest hx3
    have hyz := chainFrom_unit_zero y rest hrest hy3
    simp only [List.map_cons, List.sum_cons, sum_unit_zero x rest hxz,
      sum_unit_zero y rest hyz, Int.add_zero, Int.one_mul] at hsum
    obtain ⟨ha, hb⟩ := radix_unique t0 _ _ _ _ hx1 hx2' hy1 hy2' hsum
    intro kt hkt
    rcases List.mem_cons.mp hkt with hh | hh
    · rw [hh]; exact ha
    · rcases List.mem_cons.mp hh with hh2 | hh2
      · rw [hh2]; exact hb
      · rw [hxz kt hh2, hyz kt hh2]

/-- C18 (amended): when `TilingFromMapping` returns, every entry is built from
the first path that ends in its leaf, and for a dimension of the einsum whose
tiled loops on that path are an outermost loop of positive tile size followed
by loops of tile size 1, two tuples of the relation whose outputs agree on the
coordinate of that dimension agree on the coordinates of all those loops.
The tile sizes are the recorded ones (`tiledLoops`); with several tiled loops
on the dimension the same holds whatever the recorded size of the outermost
one. -/
theorem TilingFromMapping_unique_decomposition (m : FusedMapping) (w : FusedWorkload)
    (bt : BranchTilings) (h : TilingFromMapping m w = some bt) :
    ∀ leaf T, StdMap.find leaf bt = some T →
      ∃ path einsum, firstPathOf m.paths leaf = some path ∧
        pathLeaf path = some (leaf, einsum) ∧
        ∀ d i, StdMap.find d (w.EinsumDimToIdx einsum) = some i →
          (∀ d', StdMap.find d' (w.EinsumDimToIdx einsum) = some i → d' = d) →
          i < (w.EinsumOspaceBound einsum).dim →
          ∀ k0 t0 inner, tiledLoops d path = (k0, t0) :: inner → (0 < t0 ∨ inner ≠ []) →
            (∀ kt ∈ inner, kt.2 = 1) →
            ∀ x o y o', T.rel x o → T.rel y o' → o[i]? = o'[i]? →
              ∀ kt ∈ tiledLoops d path, x.getD kt.1 0 = y.getD kt.1 0 := by
  intro leaf T hT
  obtain ⟨path, einsum, kernel, h1, h2, _, h4⟩ := TilingFromMapping_find m w bt h leaf T hT
  refine ⟨path, einsum, h1, h2, ?_⟩
  intro d i hd hinj hi k0 t0 inner htl ht0 hone x o y o' hx hy ho
  rw [h4] at hx hy
  obtain ⟨⟨hxl, hxo, hxc⟩, _⟩ := hx
  obtain ⟨⟨hyl, hyo, hyc⟩, _⟩ := hy
  have hsx := tileSum_eq_sum (w.EinsumDimToIdx einsum) i d hd hinj (storedLoopsOf path) [] x hxl
  have hsy := tileSum_eq_sum (w.EinsumDimToIdx einsum) i d hd hinj (storedLoopsOf path) [] y hyl
  have hcx := hxc d (by rw [hd]; rfl)
  have hcy := hyc d (by rw [hd]; rfl)
  rw [hxo, hyo, List.getElem?_map, List.getElem?_map, List.getElem?_range hi] at ho
  simp only [Option.map_some', Option.some.injEq] at ho
  have hsum : ((tiledLoops d path).map (fun kt => kt.2 * x.getD kt.1 0)).sum =
      ((tiledLoops d path).map (fun kt => kt.2 * y.getD kt.1 0)).sum := by
    have e1 : tileSum (w.EinsumDimToIdx einsum) i (storedLoopsOf path) x =
        ((tiledLoops d path).map (fun kt => kt.2 * x.getD kt.1 0)).sum := by
      simpa [tileSum, tiledLoops] using hsx
    have e2 : tileSum (w.EinsumDimToIdx einsum) i (storedLoopsOf path) y =
        ((tiledLoops d path).map (fun kt => kt.2 * y.getD kt.1 0)).sum := by
      simpa [tileSum, tiledLoops] using hsy
    rw [← e1, ← e2]
    exact ho
  rw [htl] at hsum hcx hcy ⊢
  exact chain_unique x y k0 t0 inner ht0 hone hcx hcy hsum

/-- Witness for C18 (amended): the recurrence has two nested loops on dimension
0 with tile sizes 4 and 1. -/
theorem TilingFromMapping_unique_decomposition_witness :
    ∃ bt T, TilingFromMapping recurrenceMapping recurrenceWorkload = some bt ∧
      StdMap.find 4 bt = some T ∧
      tiledLoops 0 recurrencePath = [(0, 4), (1, 1)] ∧
      ∃ path einsum, firstPathOf recurrenceMapping.paths 4 = some path ∧
        pathLeaf path = some (4, einsum) ∧
        ∀ d i, StdMap.find d (recurrenceWorkload.EinsumDimToIdx einsum) = some i →
          (∀ d', StdMap.find d' (recurrenceWorkload.EinsumDimToIdx einsum) = some i →
            d' = d) →
          i < (recurrenceWorkload.EinsumOspaceBound einsum).dim →
          ∀ k0 t0 inner, tiledLoops d path = (k0, t0) :: inner → (0 < t0 ∨ inner ≠ []) →
            (∀ kt ∈ inner, kt.2 = 1) →
            ∀ x o y o', T.rel x o → T.rel y o' → o[i]? = o'[i]? →
              ∀ kt ∈ tiledLoops d path, x.getD kt.1 0 = y.getD kt.1 0 :=
  ⟨_, _, rfl, rfl, rfl,
    TilingFromMapping_unique_decomposition recurrenceMapping recurrenceWorkload _ rfl
      4 _ rfl⟩

/-! ## The reduced tilings of the logical buffers -/

theorem producerUpdate_xFilter (m : FusedMapping) (prod_einsum : EinsumId)
    (required_ops : IslMap) (idx : Nat) (a b : NodeID × IslMap)
    (h : producerUpdate m prod_einsum required_ops idx a = some b) : xFilter a b := by
  unfold producerUpdate at h
  cases hk : m.kernelAt a.1 with
  | none => simp [hk] at h
  | some kernel =>
    simp only [hk] at h
    by_cases hne : kernel ≠ prod_einsum
    · rw [if_pos hne, Option.some.injEq] at h
      subst h
      exact xFilter_refl a
    · rw [if_neg hne, Option.some.injEq] at h
      subst h
      exact inferredProdTiling_xFilter required_ops idx a

theorem readTensorStep_xFilter (E : Engine) (m : FusedMapping) (w : FusedWorkload)
    (idx : Nat) (top : List (DataSpaceId × Nat)) (j : Nat) (einsum_id : EinsumId)
    (S S' : BranchTilings) (t : DataSpaceId)
    (h : readTensorStep E m w idx top j einsum_id S t = some S') :
    List.Forall₂ xFilter S S' := by
  unfold readTensorStep at h
  cases hw : w.WriterEinsum t with
  | none =>
    simp only [hw, Option.some.injEq] at h
    subst h
    exact forall₂_refl_of xFilter xFilter_refl S
  | some prod_einsum =>
    simp only [hw] at h
    cases hj : S[j]? with
    | none => simp [hj] at h
    | some entry =>
      simp only [hj] at h
      cases ht : StdMap.find t top with
      | none => simp [ht] at h
      | some top_idx =>
        simp only [ht] at h
        exact forEachM_forall₂ _ xFilter
          (fun a b hab => producerUpdate_xFilter m prod_einsum _ idx a b hab) S S' h

theorem consumerStep_xFilter (E : Engine) (m : FusedMapping) (w : FusedWorkload)
    (idx : Nat) (top : List (DataSpaceId × Nat)) (S S' : BranchTilings) (j : Nat)
    (h : consumerStep E m w idx top S j = some S') :
    List.Forall₂ xFilter S S' := by
  unfold consumerStep at h
  cases hj : S[j]? with
  | none =>
    simp only [hj, Option.some.injEq] at h
    subst h
    exact forall₂_refl_of xFilter xFilter_refl S
  | some entry =>
    simp only [hj] at h
    cases hc : isComplete E entry.2 with
    | true =>
      simp only [hc, if_true] at h
      cases hk : m.kernelAt entry.1 with
      | none => simp [hk] at h
      | some einsum_id =>
        simp only [hk] at h
        exact foldM_invariant _ (fun U => List.Forall₂ xFilter S U)
          (fun U t U' hU hstep => forall₂_trans_of xFilter xFilter_trans S U U' hU
            (readTensorStep_xFilter E m w idx top j einsum_id U U' t hstep))
          _ S S' (forall₂_refl_of xFilter xFilter_refl S) h
    | false =>
      simp only [hc, Bool.false_eq_true, if_false, Option.some.injEq] at h
      subst h
      exact forall₂_refl_of xFilter xFilter_refl S

theorem LoopBoundsInference_xFilter (E : Engine) (T : BranchTilings)
    (m : FusedMapping) (w : FusedWorkload) (idx : Nat) (top : List (DataSpaceId × Nat))
    (S : BranchTilings) (h : LoopBoundsInference E T m w idx top = some S) :
    List.Forall₂ xFilter T S := by
  unfold LoopBoundsInference at h
  refine iterateM_invariant _ (fun U => List.Forall₂ xFilter T U) ?_ _ T S
    (forall₂_refl_of xFilter xFilter_refl T) h
  intro U U' hU hstep
  refine forall₂_trans_of xFilter xFilter_trans T U U' hU ?_
  unfold inferencePass at hstep
  exact foldM_invariant _ (fun V => List.Forall₂ xFilter U V)
    (fun V j V' hV hs => forall₂_trans_of xFilter xFilter_trans U V V' hV
      (consumerStep_xFilter E m w idx top V V' j hs))
    _ U U' (forall₂_refl_of xFilter xFilter_refl U) hstep

theorem bufferLevelWalk_spec :
    ∀ (path : List MappingNode) (s : List (LogicalBuffer × Nat) × Nat),
      (path.foldl bufferLevelVisit s).2 = s.2 + (loopsOf path).length ∧
      ((∀ e ∈ s.1, e.2 ≤ s.2) →
        ∀ e ∈ (path.foldl bufferLevelVisit s).1, e.2 ≤ (path.foldl bufferLevelVisit s).2) := by
  intro path
  induction path with
  | nil => intro s; exact ⟨by simp [loopsOf], fun h => h⟩
  | cons node rest ih =>
    intro s
    rw [List.foldl_cons]
    obtain ⟨h1, h2⟩ := ih (bufferLevelVisit s node)
    have hstep : (bufferLevelVisit s node).2 + (loopsOf rest).length =
          s.2 + (loopsOf (node :: rest)).length ∧
        ((∀ e ∈ s.1, e.2 ≤ s.2) →
          ∀ e ∈ (bufferLevelVisit s node).1, e.2 ≤ (bufferLevelVisit s node).2) := by
      cases node with
      | For id op ts =>
        refine ⟨by simp [bufferLevelVisit, loopsOf, loopOf]; omega, ?_⟩
        intro hs e he
        exact Nat.le_succ_of_le (hs e he)
      | ParFor id op ts =>
        refine ⟨by simp [bufferLevelVisit, loopsOf, loopOf]; omega, ?_⟩
        intro hs e he
        exact Nat.le_succ_of_le (hs e he)
      | Root id => exact ⟨by simp [bufferLevelVisit, loopsOf, loopOf], fun hs => hs⟩
      | Pipeline id => exact ⟨by simp [bufferLevelVisit, loopsOf, loopOf], fun hs => hs⟩
      | Sequential id => exact ⟨by simp [bufferLevelVisit, loopsOf, loopOf], fun hs => hs⟩
      | Storage id b d =>
        refine ⟨by simp [bufferLevelVisit, loopsOf, loopOf], ?_⟩
        intro hs e he
        simp only [bufferLevelVisit, List.mem_append, List.mem_singleton] at he
        rcases he with he | he
        · exact hs e he
        · rw [he]
          exact Nat.le_refl _
      | Compute id k =>
        refine ⟨by simp [bufferLevelVisit, loopsOf, loopOf], ?_⟩
        intro hs e he
        simp only [bufferLevelVisit, List.mem_map] at he
        obtain ⟨e0, he0, heq⟩ := he
        rw [← heq]
        exact hs e0 he0
    exact ⟨by rw [h1]; exact hstep.1, fun hs => h2 (hstep.2 hs)⟩

theorem bufferLevels_of_path (pre : List MappingNode) (id : NodeID) (kernel : EinsumId) :
    pathLeaf (pre ++ [MappingNode.Compute id kernel]) = some (id, kernel) ∧
    ∀ e ∈ ((pre ++ [MappingNode.Compute id kernel]).foldl bufferLevelVisit ([], 0)).1,
      e.1.branch_leaf_id = id ∧
        e.2 ≤ (loopsOf (pre ++ [MappingNode.Compute id kernel])).length := by
  constructor
  · unfold pathLeaf
    rw [List.foldl_append]
    rfl
  · intro e he
    have hlen : (loopsOf (pre ++ [MappingNode.Compute id kernel])).length =
        (loopsOf pre).length := by
      simp [loopsOf, loopOf]
    obtain ⟨h1, h2⟩ := bufferLevelWalk_spec pre ([], 0)
    rw [List.foldl_append] at he
    simp only [List.foldl_cons, List.foldl_nil, bufferLevelVisit, List.mem_map] at he
    obtain ⟨e0, he0, heq⟩ := he
    have hle := h2 (fun e he => absurd he (List.not_mem_nil _)) e0 he0
    rw [h1] at hle
    rw [← heq, hlen]
    exact ⟨rfl, by simpa using hle⟩

theorem mem_bufferLevels :
    ∀ (paths : List (List MappingNode)) (init : List (LogicalBuffer × Nat))
      (e : LogicalBuffer × Nat),
      e ∈ paths.foldl (fun result path => result ++ (path.foldl bufferLevelVisit ([], 0)).1)
          init →
      e ∈ init ∨ ∃ p ∈ paths, e ∈ (p.foldl bufferLevelVisit ([], 0)).1 := by
  intro paths
  induction paths with
  | nil => intro init e he; exact Or.inl he
  | cons p rest ih =>
    intro init e he
    rw [List.foldl_cons] at he
    rcases ih _ e he with h | ⟨q, hq, hmem⟩
    · rcases List.mem_append.mp h with h1 | h1
      · exact Or.inl h1
      · exact Or.inr ⟨p, List.mem_cons_self _ _, h1⟩
    · exact Or.inr ⟨q, List.mem_cons_of_mem _ hq, hmem⟩

theorem LogicalBufTiling_keys (branch_tiling : BranchTilings) :
    ∀ (levels : List (LogicalBuffer × Nat)) (init result : LogicalBufTiling),
      foldM
        (fun result (e : LogicalBuffer × Nat) =>
          match StdMap.find e.1.branch_leaf_id branch_tiling with
          | none => none
          | some tiling =>
            some (StdMap.emplace LogicalBuffer.lt e.1 (project_dim_in_after tiling e.2) result))
        init levels = some result →
      (∀ buf T, StdMap.find buf init = some T → StdMap.find buf result = some T) ∧
      ∀ e ∈ levels, ∃ T, StdMap.find e.1 result = some T := by
  intro levels
  induction levels with
  | nil =>
    intro init result h
    simp only [foldM, Option.some.injEq] at h
    subst h
    exact ⟨fun _ _ h => h, fun e he => absurd he (List.not_mem_nil _)⟩
  | cons e rest ih =>
    intro init result h
    unfold foldM at h
    cases hB : StdMap.find e.1.branch_leaf_id branch_tiling with
    | none => simp [hB] at h
    | some B0 =>
      simp only [hB] at h
      obtain ⟨hkeep, hrest⟩ := ih _ result h
      constructor
      · intro buf T hf
        apply hkeep
        rw [StdMap.find_emplace, hf]
      · intro e' he'
        rcases List.mem_cons.mp he' with h1 | h1
        · rw [h1]
          cases hf : StdMap.find e.1 init with
          | some u =>
            exact ⟨u, hkeep e.1 u (by rw [StdMap.find_emplace, hf])⟩
          | none =>
            exact ⟨project_dim_in_after B0 e.2,
              hkeep e.1 _ (by rw [StdMap.find_emplace, hf]; simp)⟩
        · exact hrest e' h1

theorem isComplete_false_of_unbounded (E : Engine) (tiling : IslMap) (i : Nat)
    (hi : i < tiling.domain.dim)
    (hlb : E.isl_set_dim_has_lower_bound tiling.domain i = false) :
    isComplete E tiling = false := by
  unfold isComplete
  rw [List.all_eq_false]
  exact ⟨i, List.mem_range.mpr hi, by rw [hlb]; exact Bool.false_ne_true⟩

/-- C21: a leaf whose tiling domain has a coordinate without a lower bound is
skipped as a consumer: its turn in the pass returns the tilings as they are.
When every leaf either has such a domain or is a `Compute` leaf whose einsum
reads no tensor that has a writer, `LoopBoundsInference` returns the tilings it
was given. -/
theorem LoopBoundsInference_skips_unbounded (E : Engine) (T : BranchTilings)
    (m : FusedMapping) (w : FusedWorkload) (idx : Nat) (top : List (DataSpaceId × Nat))
    (h : ∀ e ∈ T,
      (∃ i, i < e.2.domain.dim ∧ E.isl_set_dim_has_lower_bound e.2.domain i = false) ∨
      ∃ k, m.kernelAt e.1 = some k ∧
        ∀ t ∈ w.TensorsReadByEinsum k, w.WriterEinsum t = none) :
    (∀ (S : BranchTilings) (j : Nat) (entry : NodeID × IslMap), S[j]? = some entry →
      (∃ i, i < entry.2.domain.dim ∧
        E.isl_set_dim_has_lower_bound entry.2.domain i = false) →
      consumerStep E m w idx top S j = some S) ∧
    LoopBoundsInference E T m w idx top = some T := by
  have hskip : ∀ (S : BranchTilings) (j : Nat) (entry : NodeID × IslMap),
      S[j]? = some entry →
      (∃ i, i < entry.2.domain.dim ∧
        E.isl_set_dim_has_lower_bound entry.2.domain i = false) →
      consumerStep E m w idx top S j = some S := by
    intro S j entry hj ⟨i, hi, hlb⟩
    unfold consumerStep
    simp only [hj, isComplete_false_of_unbounded E entry.2 i hi hlb, Bool.false_eq_true,
      if_false]
  refine ⟨hskip, ?_⟩
  unfold LoopBoundsInference
  apply iterateM_fixed
  unfold inferencePass
  apply foldM_fixed
  intro j _
  cases hj : T[j]? with
  | none =>
    unfold consumerStep
    simp only [hj]
  | some entry =>
    rcases h entry (List.getElem?_mem hj) with hinc | ⟨k, hk, hreads⟩
    · exact hskip T j entry hj hinc
    · unfold consumerStep
      simp only [hj]
      cases hc : isComplete E entry.2 with
      | true =>
        simp only [if_true, hk]
        apply foldM_fixed
        intro t ht
        unfold readTensorStep
        simp only [hreads t ht]
      | false => simp

/-- Witness for C21: a path whose only loop has no tile size, under an einsum
that reads the tensor it writes.  Coordinate 0 of the tiling domain is unconstrained,
the leaf is skipped and inference returns the input. -/
theorem LoopBoundsInference_skips_unbounded_witness :
    recurrenceWorkload.TensorsReadByEinsum 0 = [0] ∧
    recurrenceWorkload.WriterEinsum 0 = some 0 ∧
    (∀ S j entry, S[j]? = some entry →
      (∃ i, i < entry.2.domain.dim ∧
        unboundedEngine.isl_set_dim_has_lower_bound entry.2.domain i = false) →
      consumerStep unboundedEngine untiledMapping recurrenceWorkload 0 [(0, 0)] S j
        = some S) ∧
    LoopBoundsInference unboundedEngine
      ((TilingFromMapping untiledMapping recurrenceWorkload).getD [])
      untiledMapping recurrenceWorkload 0 [(0, 0)] =
        some ((TilingFromMapping untiledMapping recurrenceWorkload).getD []) :=
  ⟨rfl, rfl,
    LoopBoundsInference_skips_unbounded unboundedEngine
      ((TilingFromMapping untiledMapping recurrenceWorkload).getD [])
      untiledMapping recurrenceWorkload 0 [(0, 0)] (by
        intro e he
        have he1 : e = ((TilingFromMapping untiledMapping recurrenceWorkload).getD [])[0] :=
          List.mem_singleton.mp he
        left
        refine ⟨0, ?_, rfl⟩
        rw [he1]
        exact Nat.zero_lt_one)⟩

/-! ## Output dimensions without a tiled loop -/

theorem zipsum_zero_of_getD (c x : List Int) (h : ∀ k, c.getD k 0 = 0) :
    (List.zipWith (fun c v => c * v) c x).sum = 0 := by
  have hc : c = List.replicate c.length 0 := by
    apply list_ext_getD
    · simp
    · intro k
      rw [h k, List.getD_eq_getElem?_getD, List.getElem?_replicate]
      split <;> rfl
  rw [hc]
  exact zipsum_replicate_zero _ _

/-- C27: when `TilingFromMapping` returns, every entry is built from the first
path that ends in its leaf, and an output index of the einsum to which no loop
of that path with a known tile size is bound holds the constant 0 in every
pair `(x, o)` of the relation. -/
theorem TilingFromMapping_untiled_dimension_zero (m : FusedMapping) (w : FusedWorkload)
    (bt : BranchTilings) (h : TilingFromMapping m w = some bt) :
    ∀ leaf T, StdMap.find leaf bt = some T →
      ∃ path einsum, firstPathOf m.paths leaf = some path ∧
        pathLeaf path = some (leaf, einsum) ∧
        ∀ x o, T.rel x o →
          ∀ d i, StdMap.find d (w.EinsumDimToIdx einsum) = some i →
            i < (w.EinsumOspaceBound einsum).dim →
            (∀ d', StdMap.find d' (w.EinsumDimToIdx einsum) = some i →
              tiledLoops d' path = []) →
            o[i]? = some 0 := by
  intro leaf T hT
  obtain ⟨path, einsum, kernel, h1, h2, _, h4⟩ := TilingFromMapping_find m w bt h leaf T hT
  refine ⟨path, einsum, h1, h2, ?_⟩
  intro x o hrel d i _ hi hnone
  rw [h4] at hrel
  obtain ⟨⟨_, ho, _⟩, _⟩ := hrel
  rw [ho, List.getElem?_map, List.getElem?_range hi]
  simp only [Option.map_some', Option.some.injEq]
  unfold tileSum
  apply zipsum_zero_of_getD
  intro k
  apply targetRow_getD_zero
  intro d' t hL hfd
  have hmem : (k, t) ∈ tiledLoops d' path :=
    (mem_tiledFrom d' k t (storedLoopsOf path) 0).mpr ⟨Nat.zero_le _, hL⟩
  rw [hnone d' hfd] at hmem
  exact absurd hmem (List.not_mem_nil _)

/-- Witness for C27: a path with one loop on dimension 0 under an einsum over
dimensions 0 and 1; no loop is bound to dimension 1. -/
theorem TilingFromMapping_untiled_dimension_zero_witness :
    ∃ bt T, TilingFromMapping inertMapping scenarioWorkload = some bt ∧
      StdMap.find 3 bt = some T ∧
      StdMap.find 1 (scenarioWorkload.EinsumDimToIdx 0) = some 1 ∧
      tiledLoops 1 inertPath = [] ∧
      ∃ path einsum, firstPathOf inertMapping.paths 3 = some path ∧
        pathLeaf path = some (3, einsum) ∧
        ∀ x o, T.rel x o →
          ∀ d i, StdMap.find d (scenarioWorkload.EinsumDimToIdx einsum) = some i →
            i < (scenarioWorkload.EinsumOspaceBound einsum).dim →
            (∀ d', StdMap.find d' (scenarioWorkload.EinsumDimToIdx einsum) = some i →
              tiledLoops d' path = []) →
            o[i]? = some 0 :=
  ⟨_, _, rfl, rfl, rfl, rfl,
    TilingFromMapping_untiled_dimension_zero inertMapping scenarioWorkload _ rfl 3 _ rfl⟩

/-! ## The pipeline index -/

theorem branchIdxPath_none :
    ∀ (p : List MappingNode) (k : Nat),
      branchIdxPath p k = none ↔ ∀ n ∈ p, IsBranchV n = false := by
  intro p
  induction p with
  | nil => intro k; simp [branchIdxPath]
  | cons node rest ih =>
    intro k
    unfold branchIdxPath
    cases hb : IsBranchV node with
    | true =>
      simp only [if_true]
      constructor
      · intro h; exact Option.noConfusion h
      · intro h
        have := h node (List.mem_cons_self _ _)
        rw [hb] at this
        exact Bool.noConfusion this
    | false =>
      simp only [Bool.false_eq_true, if_false]
      have hrest : ∀ k', branchIdxPath rest k' = none ↔
          ∀ n ∈ node :: rest, IsBranchV n = false := by
        intro k'
        rw [ih k']
        constructor
        · intro h n hn
          rcases List.mem_cons.mp hn with h1 | h1
          · rw [h1]; exact hb
          · exact h n h1
        · intro h n hn
          exact h n (List.mem_cons_of_mem _ hn)
      split
      · exact hrest _
      · exact hrest _

theorem branchIdxPath_first (br : MappingNode) (b : List MappingNode)
    (hbr : IsBranchV br = true) :
    ∀ (a : List MappingNode) (k : Nat), (∀ n ∈ a, IsBranchV n = false) →
      branchIdxPath (a ++ br :: b) k = some (k + (loopsOf a).length) := by
  intro a
  induction a with
  | nil =>
    intro k _
    simp [branchIdxPath, hbr, loopsOf]
  | cons node rest ih =>
    intro k hno
    have hb : IsBranchV node = false := hno node (List.mem_cons_self _ _)
    have hrest : ∀ n ∈ rest, IsBranchV n = false :=
      fun n hn => hno n (List.mem_cons_of_mem _ hn)
    rw [List.cons_append]
    unfold branchIdxPath
    simp only [hb, Bool.false_eq_true, if_false]
    cases node with
    | For id op ts =>
      simp only [IsLoopV, if_true]
      rw [ih (k + 1) hrest]
      simp [loopsOf, loopOf]
      omega
    | ParFor id op ts =>
      simp only [IsLoopV, if_true]
      rw [ih (k + 1) hrest]
      simp [loopsOf, loopOf]
      omega
    | Root id =>
      simp only [IsLoopV, Bool.false_eq_true, if_false]
      rw [ih k hrest]
      simp [loopsOf, loopOf]
    | Storage id bf d =>
      simp only [IsLoopV, Bool.false_eq_true, if_false]
      rw [ih k hrest]
      simp [loopsOf, loopOf]
    | Compute id kn =>
      simp only [IsLoopV, Bool.false_eq_true, if_false]
      rw [ih k hrest]
      simp [loopsOf, loopOf]
    | Pipeline id => simp [IsBranchV] at hb
    | Sequential id => simp [IsBranchV] at hb

/-- C28: `BranchIdxFromMapping` returns no value exactly when no path holds a
branch node; otherwise, for the first path that holds one and the first branch
node on it, it returns the number of `For`/`ParFor` nodes before that node
(0 when there is none, as for a path that starts with its branch node). -/
theorem BranchIdxFromMapping_first_branch (m : FusedMapping) :
    (BranchIdxFromMapping m = none ↔ ∀ p ∈ m.paths, ∀ n ∈ p, IsBranchV n = false) ∧
    (∀ before p after a br b, m.paths = before ++ p :: after →
      (∀ q ∈ before, ∀ n ∈ q, IsBranchV n = false) →
      p = a ++ br :: b → IsBranchV br = true → (∀ n ∈ a, IsBranchV n = false) →
      BranchIdxFromMapping m = some (loopsOf a).length) ∧
    (∀ before after br b, m.paths = before ++ (br :: b) :: after →
      (∀ q ∈ before, ∀ n ∈ q, IsBranchV n = false) → IsBranchV br = true →
      BranchIdxFromMapping m = some 0) := by
  have hfirst : ∀ before p after a br b, m.paths = before ++ p :: after →
      (∀ q ∈ before, ∀ n ∈ q, IsBranchV n = false) →
      p = a ++ br :: b → IsBranchV br = true → (∀ n ∈ a, IsBranchV n = false) →
      BranchIdxFromMapping m = some (loopsOf a).length := by
    intro before p after a br b hpaths hbefore hp hbr ha
    unfold BranchIdxFromMapping
    rw [hpaths, List.findSome?_append]
    have hnone : List.findSome? (fun path => branchIdxPath path 0) before = none := by
      rw [List.findSome?_eq_none_iff]
      intro q hq
      exact (branchIdxPath_none q 0).mpr (hbefore q hq)
    rw [hnone, hp]
    simp only [Option.none_or, List.findSome?_cons]
    rw [branchIdxPath_first br b hbr a 0 ha]
    simp
  refine ⟨?_, hfirst, ?_⟩
  · unfold BranchIdxFromMapping
    rw [List.findSome?_eq_none_iff]
    constructor
    · intro h p hp
      exact (branchIdxPath_none p 0).mp (h p hp)
    · intro h p hp
      exact (branchIdxPath_none p 0).mpr (h p hp)
  · intro before after br b hpaths hbefore hbr
    exact hfirst before (br :: b) after [] br b hpaths hbefore rfl hbr
      (fun n hn => absurd hn (List.not_mem_nil _))

/-! ## Buffer levels -/

theorem levelsAfter_cons (leaf : NodeID) (before : List MappingNode) (node : MappingNode)
    (rest : List MappingNode) :
    levelsAfter leaf before (node :: rest) =
      (match node with
        | .Storage _ buffer dspace =>
          [({ buffer_id := buffer, dspace_id := dspace, branch_leaf_id := leaf },
            (loopsOf before).length)]
        | _ => []) ++ levelsAfter leaf (before ++ [node]) rest := rfl

theorem levelsAfter_append (leaf : NodeID) :
    ∀ (a before b : List MappingNode),
      levelsAfter leaf before (a ++ b) =
        levelsAfter leaf before a ++ levelsAfter leaf (before ++ a) b := by
  intro a
  induction a with
  | nil => intro before b; simp [levelsAfter]
  | cons node rest ih =>
    intro before b
    rw [List.cons_append, levelsAfter_cons, levelsAfter_cons, ih (before ++ [node]) b,
      List.append_assoc, List.append_assoc]
    simp

theorem bufferLevelWalk_eq (id : NodeID) :
    ∀ (pre before : List MappingNode) (s : List (LogicalBuffer × Nat) × Nat),
      s.2 = (loopsOf before).length →
      (pre.foldl bufferLevelVisit s).1.map (withLeaf id) =
        s.1.map (withLeaf id) ++ levelsAfter id before pre := by
  intro pre
  induction pre with
  | nil => intro before s _; simp [levelsAfter]
  | cons node rest ih =>
    intro before s hs
    rw [List.foldl_cons]
    have hlen : (bufferLevelVisit s node).2 = (loopsOf (before ++ [node])).length := by
      cases node with
      | For i op ts => simp [bufferLevelVisit, loopsOf, loopOf, hs]
      | ParFor i op ts => simp [bufferLevelVisit, loopsOf, loopOf, hs]
      | Root i => simp [bufferLevelVisit, loopsOf, loopOf, hs]
      | Storage i b d => simp [bufferLevelVisit, loopsOf, loopOf, hs]
      | Compute i k => simp [bufferLevelVisit, loopsOf, loopOf, hs]
      | Pipeline i => simp [bufferLevelVisit, loopsOf, loopOf, hs]
      | Sequential i => simp [bufferLevelVisit, loopsOf, loopOf, hs]
    rw [ih (before ++ [node]) (bufferLevelVisit s node) hlen, levelsAfter_cons,
      ← List.append_assoc]
    congr 1
    cases node with
    | For i op ts => simp [bufferLevelVisit]
    | ParFor i op ts => simp [bufferLevelVisit]
    | Root i => simp [bufferLevelVisit]
    | Pipeline i => simp [bufferLevelVisit]
    | Sequential i => simp [bufferLevelVisit]
    | Storage i b d => simp [bufferLevelVisit, withLeaf, hs]
    | Compute i k =>
      simp only [bufferLevelVisit, List.append_nil]
      exact withLeaf_withLeaf id i s.1

theorem bufferLevels_path_eq (pre : List MappingNode) (id : NodeID) (kernel : EinsumId) :
    ((pre ++ [MappingNode.Compute id kernel]).foldl bufferLevelVisit ([], 0)).1 =
      levelsOfPath (pre ++ [MappingNode.Compute id kernel]) := by
  unfold levelsOfPath
  rw [(bufferLevels_of_path pre id kernel).1, List.foldl_append]
  simp only [List.foldl_cons, List.foldl_nil, bufferLevelVisit, Option.map_some',
    Option.getD_some]
  have h := bufferLevelWalk_eq id pre [] ([], 0) rfl
  simp only [List.map_nil, List.nil_append] at h
  rw [levelsAfter_append]
  simp only [levelsAfter, List.append_nil]
  exact h

theorem foldl_append_eq_flatten {α β : Type} (f g : α → List β) :
    ∀ (l : List α) (init : List β), (∀ a ∈ l, f a = g a) →
      l.foldl (fun r a => r ++ f a) init = init ++ (l.map g).flatten := by
  intro l
  induction l with
  | nil => intro init _; simp
  | cons a rest ih =>
    intro init h
    rw [List.foldl_cons, ih _ (fun b hb => h b (List.mem_cons_of_mem _ hb)),
      h a (List.mem_cons_self _ _)]
    simp

/-- C22: for a mapping whose paths end in their `Compute` leaf,
`BufferIterLevelsFromMapping` returns the entries of the paths in enumeration
order, and for each path one entry per `Storage` node in root-to-leaf order:
the logical buffer (buffer id, dataspace id, id of the leaf of the path) with,
as its level, the number of `For`/`ParFor` nodes before the `Storage` node. -/
theorem BufferIterLevelsFromMapping_eq (m : FusedMapping) (hpaths : PathsEndInCompute m) :
    BufferIterLevelsFromMapping m = (m.paths.map levelsOfPath).flatten := by
  unfold BufferIterLevelsFromMapping
  rw [foldl_append_eq_flatten (fun path => (path.foldl bufferLevelVisit ([], 0)).1)
    levelsOfPath m.paths []]
  · simp
  · intro p hp
    obtain ⟨pre, id, kernel, hpeq⟩ := hpaths p hp
    rw [hpeq]
    exact bufferLevels_path_eq pre id kernel

/-- Witness for C22: the path with two `Storage` nodes under one loop gives two
entries at level 1, owned by leaf 3. -/
theorem BufferIterLevelsFromMapping_eq_witness :
    BufferIterLevelsFromMapping inertMapping = (inertMapping.paths.map levelsOfPath).flatten ∧
    BufferIterLevelsFromMapping inertMapping =
      [({ buffer_id := 0, dspace_id := 0, branch_leaf_id := 3 }, 1),
       ({ buffer_id := 1, dspace_id := 5, branch_leaf_id := 3 }, 1)] :=
  ⟨BufferIterLevelsFromMapping_eq inertMapping (by
      intro p hp
      exact ⟨[.For 0 0 (some 1), .Storage 1 0 0, .Storage 2 1 5], 3, 0,
        List.mem_singleton.mp hp⟩), rfl⟩

/-! ## Storage nodes in the skew builder -/

theorem lastBuffer_snoc (pre : List MappingNode) (node : MappingNode) :
    lastBuffer (pre ++ [node]) =
      match storageBuffer node with
      | some b => some b
      | none => lastBuffer pre := by
  unfold lastBuffer
  rw [List.reverse_append]
  simp only [List.reverse_cons, List.reverse_nil, List.nil_append, List.singleton_append,
    List.findSome?_cons]
  cases storageBuffer node <;> rfl

theorem spatialSinceStorage_snoc (pre : List MappingNode) (node : MappingNode) :
    spatialSinceStorage (pre ++ [node]) =
      match node with
      | .Storage _ _ _ => false
      | .ParFor _ _ _ => true
      | _ => spatialSinceStorage pre := by
  unfold spatialSinceStorage sinceLastStorage
  rw [List.reverse_append]
  simp only [List.reverse_cons, List.reverse_nil, List.nil_append, List.singleton_append,
    List.takeWhile_cons]
  cases node <;> simp [storageBuffer]

theorem skewWalk_history (leaf : MappingNode) (skews : LogicalBufSkews)
    (pre : List MappingNode) :
    (pre.foldl (skewVisit leaf) (skewStart skews)).new_cur_has_spatial =
        spatialSinceStorage pre ∧
      (pre.foldl (skewVisit leaf) (skewStart skews)).last_buf = lastBuffer pre := by
  induction pre using List.reverseRecOn with
  | nil => exact ⟨rfl, rfl⟩
  | append_singleton pre node ih =>
    rw [List.foldl_append, lastBuffer_snoc, spatialSinceStorage_snoc]
    simp only [List.foldl_cons, List.foldl_nil]
    obtain ⟨h1, h2⟩ := ih
    cases node with
    | For i op ts => exact ⟨h1, h2⟩
    | ParFor i op ts => exact ⟨rfl, h2⟩
    | Storage i b d => exact ⟨rfl, rfl⟩
    | Root i => exact ⟨h1, h2⟩
    | Compute i k => exact ⟨h1, h2⟩
    | Pipeline i => exact ⟨h1, h2⟩
    | Sequential i => exact ⟨h1, h2⟩

/-- C25: at a `Storage` node whose buffer is not the buffer of the `Storage`
node seen last on the path, the walk inserts one synthetic coordinate tagged
`SpaceX` at the end of the domain when no `ParFor` node has been seen since
the last `Storage` node (since the start of the path when there is none), and
inserts nothing otherwise. -/
theorem skewVisit_synthetic_coordinate (leaf : MappingNode) (skews : LogicalBufSkews)
    (pre : List MappingNode) (id : NodeID) (b : BufferId) (d : DataSpaceId)
    (hnew : lastBuffer pre ≠ some b) :
    (spatialSinceStorage pre = false →
      (skewVisit leaf (pre.foldl (skewVisit leaf) (skewStart skews)) (.Storage id b d)).tags =
          (pre.foldl (skewVisit leaf) (skewStart skews)).tags ++ [spacetime.Dimension.SpaceX] ∧
        (skewVisit leaf (pre.foldl (skewVisit leaf) (skewStart skews)) (.Storage id b d)).map =
          insert_dummy_dim_ins (pre.foldl (skewVisit leaf) (skewStart skews)).map
            (pre.foldl (skewVisit leaf) (skewStart skews)).map.nIn 1 ∧
        (skewVisit leaf (pre.foldl (skewVisit leaf) (skewStart skews))
            (.Storage id b d)).map.nIn =
          (pre.foldl (skewVisit leaf) (skewStart skews)).map.nIn + 1) ∧
    (spatialSinceStorage pre = true →
      (skewVisit leaf (pre.foldl (skewVisit leaf) (skewStart skews)) (.Storage id b d)).tags =
          (pre.foldl (skewVisit leaf) (skewStart skews)).tags ∧
        (skewVisit leaf (pre.foldl (skewVisit leaf) (skewStart skews)) (.Storage id b d)).map =
          (pre.foldl (skewVisit leaf) (skewStart skews)).map) := by
  obtain ⟨h1, h2⟩ := skewWalk_history leaf skews pre
  rw [← h2] at hnew
  rw [← h1]
  generalize pre.foldl (skewVisit leaf) (skewStart skews) = s at hnew
  constructor
  · intro hs
    simp [skewVisit, skewStorage, hnew, hs, insert_dummy_dim_ins]
  · intro hs
    simp [skewVisit, skewStorage, hnew, hs]

/-- Witness for C25: after a `For` loop the first `Storage` node gets a
synthetic coordinate; after a `ParFor` loop it gets none. -/
theorem skewVisit_synthetic_coordinate_witness :
    lastBuffer [MappingNode.For 0 0 (some 1)] ≠ some 0 ∧
    spatialSinceStorage [MappingNode.For 0 0 (some 1)] = false ∧
    (skewVisit (.Compute 3 0)
        ([MappingNode.For 0 0 (some 1)].foldl (skewVisit (.Compute 3 0)) (skewStart []))
        (.Storage 1 0 0)).tags = [spacetime.Dimension.Time, spacetime.Dimension.SpaceX] ∧
    spatialSinceStorage [MappingNode.For 0 0 (some 1), MappingNode.ParFor 1 1 (some 1)] = true ∧
    (skewVisit (.Compute 3 0)
        ([MappingNode.For 0 0 (some 1), MappingNode.ParFor 1 1 (some 1)].foldl
          (skewVisit (.Compute 3 0)) (skewStart []))
        (.Storage 2 0 0)).tags = [spacetime.Dimension.Time, spacetime.Dimension.SpaceX] :=
  ⟨by decide, rfl,
    ((skewVisit_synthetic_coordinate (.Compute 3 0) [] [MappingNode.For 0 0 (some 1)] 1 0 0
      (by decide)).1 rfl).1,
    rfl,
    ((skewVisit_synthetic_coordinate (.Compute 3 0) []
      [MappingNode.For 0 0 (some 1), MappingNode.ParFor 1 1 (some 1)] 2 0 0
      (by decide)).2 rfl).1⟩

/-! ## Temporal steps of `Run` -/

theorem foldM_snoc {σ α : Type} (f : σ → α → Option σ) (a : α) :
    ∀ (l : List α) (s : σ),
      foldM f s (l ++ [a]) =
        match foldM f s l with
        | none => none
        | some s' => f s' a := by
  intro l
  induction l with
  | nil =>
    intro s
    simp only [List.nil_append, foldM]
    cases f s a <;> rfl
  | cons b rest ih =>
    intro s
    rw [List.cons_append]
    unfold foldM
    cases f s b with
    | none => rfl
    | some s1 => exact ih s1

theorem spatialMaskLoop_prefix (dim_tags : List SpaceTime) :
    ∀ k, k ≤ dim_tags.length →
      ∃ s, foldM (spatialMaskStep dim_tags) (List.replicate dim_tags.length false, [])
          (List.range k) = some s ∧
        s.1.length = dim_tags.length ∧
        (∀ j, j < k → s.1[j]? = (dim_tags.map isSpatial)[j]?) ∧
        s.2 = (dim_tags.take k).filter (fun t => !isSpatial t) := by
  intro k
  induction k with
  | zero =>
    intro _
    refine ⟨_, rfl, by simp, fun j hj => absurd hj (Nat.not_lt_zero _), by simp⟩
  | succ k ih =>
    intro hk
    obtain ⟨s, hs, h1, h2, h3⟩ := ih (by omega)
    have hlt : k < dim_tags.length := by omega
    rw [List.range_succ, foldM_snoc, hs]
    simp only
    unfold spatialMaskStep
    rw [List.getElem?_eq_getElem hlt]
    simp only [h1, hlt, if_true]
    refine ⟨_, rfl, by simp [h1], ?_, ?_⟩
    · intro j hj
      simp only
      rw [List.getElem?_set]
      by_cases hkj : k = j
      · subst hkj
        simp [h1, hlt]
      · rw [if_neg hkj]
        exact h2 j (by omega)
    · simp only
      rw [List.take_succ, List.getElem?_eq_getElem hlt, List.filter_append, ← h3]
      cases hsp : isSpatial dim_tags[k] <;> simp [hsp]

theorem spatialMaskLoop_eq (dim_tags : List SpaceTime) :
    spatialMaskLoop dim_tags =
      some (dim_tags.map isSpatial, dim_tags.filter (fun t => !isSpatial t)) := by
  obtain ⟨s, hs, h1, h2, h3⟩ := spatialMaskLoop_prefix dim_tags dim_tags.length (Nat.le_refl _)
  unfold spatialMaskLoop
  rw [hs]
  have hm : s.1 = dim_tags.map isSpatial := by
    apply List.ext_getElem?
    intro j
    by_cases hj : j < dim_tags.length
    · exact h2 j hj
    · rw [List.getElem?_eq_none (by omega), List.getElem?_eq_none (by simp; omega)]
  rw [List.take_length] at h3
  rw [← hm, ← h3]

theorem dropMasked_eq_filter :
    ∀ (tags : List SpaceTime) (s : List Int),
      dropMasked (tags.map isSpatial) s =
        ((s.zip tags).filter (fun p => !isSpatial p.2)).map Prod.fst := by
  intro tags
  induction tags with
  | nil => intro s; cases s <;> simp [dropMasked]
  | cons t rest ih =>
    intro s
    cases s with
    | nil => simp [dropMasked]
    | cons v vs =>
      simp only [List.map_cons, dropMasked, List.zip_cons_cons, List.filter_cons]
      cases hsp : isSpatial t with
      | true => simpa using ih vs
      | false => simpa using ih vs

/-- C26 counterexample: the compute leaves 3 and 5 both belong to einsum 0;
the tags of leaf 3 are `[Temporal]`, those of leaf 5 are `[Spatial]`.  The
tags stored with the temporal steps of einsum 0 are those built for leaf 5,
the empty sequence, not the tags of leaf 3 without the `Spatial` ones. -/
theorem Run_temporal_tags_overwritten :
    ∃ r v, Run twinMapping twinAnalysis noReuse = some r ∧
      twinAnalysis.lcomp_to_occupancy =
        [({ branch_leaf_id := 3 }, temporalLeaf), ({ branch_leaf_id := 5 }, spatialLeaf)] ∧
      twinMapping.kernelAt 3 = some 0 ∧
      temporalLeaf.dim_in_tags.filter (fun t => !isSpatial t) = [SpaceTime.Temporal] ∧
      StdMap.find 0 r.temporal_steps = some v ∧ v.1 = [] ∧
      v.1 ≠ temporalLeaf.dim_in_tags.filter (fun t => !isSpatial t) :=
  ⟨_, _, rfl, rfl, rfl, rfl, rfl, rfl, by decide⟩

/-- C26 (amended): when `Run` returns, every compute leaf it was handed has an
einsum.  For the leaf, the loop over the tag positions builds the mask of the
`Spatial` positions and the tags of the leaf with the `Spatial` tags removed,
in their order; the count is taken through the projector with that mask, which
relates a tuple of the leaf's domain to the tuple of its coordinates at the
positions that are not tagged `Spatial`.  When no compute leaf processed after
it belongs to the same einsum, the temporal-step entry of the einsum holds
these tags and this count. -/
theorem Run_temporal_tags (m : FusedMapping) (mar : MappingAnalysisResult)
    (ReuseAnalysis : List (LogicalBuffer × Occupancy) → ReuseAnalysisOptions →
      ReuseAnalysisOutput) (r : Result) (h : Run m mar ReuseAnalysis = some r) :
    ∀ pre e post, mar.lcomp_to_occupancy = pre ++ e :: post →
      ∃ kernel, m.kernelAt e.1.branch_leaf_id = some kernel ∧
        ((∀ e' ∈ post, m.kernelAt e'.1.branch_leaf_id ≠ some kernel) →
          StdMap.find kernel r.temporal_steps =
            some (e.2.dim_in_tags.filter (fun t => !isSpatial t),
              isl_map_card (boundedIdentity e.2))) ∧
        spatialMaskLoop e.2.dim_in_tags =
          some (e.2.dim_in_tags.map isSpatial,
            e.2.dim_in_tags.filter (fun t => !isSpatial t)) ∧
        boundedIdentity e.2 =
          (isl_map_identity
            ((dim_projector e.2.map.nIn (e.2.dim_in_tags.map isSpatial)).apply_range
              e.2.map).domain.dim).intersect_domain
            ((dim_projector e.2.map.nIn (e.2.dim_in_tags.map isSpatial)).apply_range
              e.2.map).domain ∧
        ∀ t s, (dim_projector e.2.map.nIn (e.2.dim_in_tags.map isSpatial)).rel t s ↔
          s.length = e.2.map.nIn ∧
            t = ((s.zip e.2.dim_in_tags).filter (fun p => !isSpatial p.2)).map Prod.fst := by
  intro pre e post hsplit
  unfold Run at h
  simp only at h
  cases h1 : foldM (bufStatsStep m)
      { ops := [], fills := [], fills_by_parent := [], fills_by_peer := [],
        occupancy := [], temporal_steps := [] }
      (ReuseAnalysis mar.lbuf_to_occupancy { count_hops := false }).buf_to_stats with
  | none => simp [h1] at h
  | some r1 =>
    simp only [h1] at h
    rw [hsplit] at h
    obtain ⟨s0, s1, hstep⟩ := foldM_step_defined (computeStep m) _ r1 r h e
      (List.mem_append.mpr (Or.inr (List.mem_cons_self _ _)))
    obtain ⟨kernel, hk, _⟩ := computeStep_steps_find m s0 s1 e hstep
    refine ⟨kernel, hk, ?_, spatialMaskLoop_eq _, rfl, ?_⟩
    · intro hlast
      refine foldM_last_write (computeStep m)
        (fun s => StdMap.find kernel s.temporal_steps) _ e ?_ post ?_ pre r1 r h
      · intro s s' hs
        obtain ⟨k2, hk2, hfind⟩ := computeStep_steps_find m s s' e hs
        have he2 : k2 = kernel := Option.some.inj (hk2.symm.trans hk)
        subst he2
        show StdMap.find _ s'.temporal_steps = _
        rw [hfind, if_pos rfl]
      · intro b hb s s' hs hg
        obtain ⟨k2, hk2, hfind⟩ := computeStep_steps_find m s s' b hs
        show StdMap.find _ s'.temporal_steps = _
        rw [hfind, if_neg]
        · exact hg
        · intro heq
          exact hlast b hb (by rw [hk2, heq])
    · intro t s
      show (s.length = e.2.map.nIn ∧ t = dropMasked (e.2.dim_in_tags.map isSpatial) s) ↔ _
      rw [dropMasked_eq_filter]

/-- Witness for C26 (amended): the leaf of the split mapping is the only
compute leaf; it has the tags `[Temporal, Spatial]`, and the tags stored with
the temporal steps of its einsum are `[Temporal]`. -/
theorem Run_temporal_tags_witness :
    ∃ r, Run splitMapping (splitAnalysis 4) noReuse = some r ∧
      StdMap.find 0 r.temporal_steps = some ([SpaceTime.Temporal],
        isl_map_card (boundedIdentity (splitOccupancy 4))) ∧
      ∃ kernel, splitMapping.kernelAt 2 = some kernel ∧
        ((∀ e' ∈ ([] : List (LogicalComputeUnit × Occupancy)),
            splitMapping.kernelAt e'.1.branch_leaf_id ≠ some kernel) →
          StdMap.find kernel r.temporal_steps =
            some ((splitOccupancy 4).dim_in_tags.filter (fun t => !isSpatial t),
              isl_map_card (boundedIdentity (splitOccupancy 4)))) ∧
        spatialMaskLoop (splitOccupancy 4).dim_in_tags =
          some ((splitOccupancy 4).dim_in_tags.map isSpatial,
            (splitOccupancy 4).dim_in_tags.filter (fun t => !isSpatial t)) ∧
        boundedIdentity (splitOccupancy 4) =
          (isl_map_identity
            ((dim_projector (splitOccupancy 4).map.nIn
              ((splitOccupancy 4).dim_in_tags.map isSpatial)).apply_range
              (splitOccupancy 4).map).domain.dim).intersect_domain
            ((dim_projector (splitOccupancy 4).map.nIn
              ((splitOccupancy 4).dim_in_tags.map isSpatial)).apply_range
              (splitOccupancy 4).map).domain ∧
        ∀ t s, (dim_projector (splitOccupancy 4).map.nIn
            ((splitOccupancy 4).dim_in_tags.map isSpatial)).rel t s ↔
          s.length = (splitOccupancy 4).map.nIn ∧
            t = ((s.zip (splitOccupancy 4).dim_in_tags).filter
              (fun p => !isSpatial p.2)).map Prod.fst :=
  ⟨_, rfl, rfl,
    Run_temporal_tags splitMapping (splitAnalysis 4) noReuse _ rfl
      [] ({ branch_leaf_id := 2 }, splitOccupancy 4) [] rfl⟩

/-! ## The keyed lookups of the pipeline -/

theorem find_of_forall₂_xFilter_left :
    ∀ (T S : BranchTilings), List.Forall₂ xFilter T S →
      ∀ leaf B0, StdMap.find leaf T = some B0 → ∃ B, StdMap.find leaf S = some B := by
  intro T S h
  induction h with
  | nil => intro leaf B0 hB; simp [StdMap.find] at hB
  | @cons a b l1 l2 hab _ ih =>
    intro leaf B0 hB
    by_cases hl : a.1 = leaf
    · have : b.1 = leaf := by rw [hab.1]; exact hl
      exact ⟨b.2, by simp [StdMap.find, this]⟩
    · simp only [StdMap.find, hl, if_false] at hB
      obtain ⟨B, hB'⟩ := ih leaf B0 hB
      have : ¬ b.1 = leaf := by rw [hab.1]; exact hl
      exact ⟨B, by simp only [StdMap.find, this, if_false]; exact hB'⟩

/-- C29: for a mapping whose paths end in their `Compute` leaf, once
`TilingFromMapping` and `LoopBoundsInference` have returned, the two keyed
lookups that follow are defined: the leaf id of every entry of
`BufferIterLevelsFromMapping` is a key of the inferred branch tilings, so
`LogicalBufTilingFromMapping` returns, and every logical buffer of
`LogicalBufSkewsFromMapping` is a key of the map it returns. -/
theorem pipeline_lookups_defined (E : Engine) (m : FusedMapping) (w : FusedWorkload)
    (idx : Nat) (top : List (DataSpaceId × Nat)) (bt0 bt : BranchTilings)
    (hpaths : PathsEndInCompute m)
    (h0 : TilingFromMapping m w = some bt0)
    (h1 : LoopBoundsInference E bt0 m w idx top = some bt) :
    (∀ e ∈ BufferIterLevelsFromMapping m,
      ∃ B, StdMap.find e.1.branch_leaf_id bt = some B) ∧
    ∃ tilings, LogicalBufTilingFromMapping m bt = some tilings ∧
      ∀ buf sk, (buf, sk) ∈ LogicalBufSkewsFromMapping m →
        ∃ T, StdMap.find buf tilings = some T := by
  have hkeys : ∀ e ∈ BufferIterLevelsFromMapping m,
      ∃ B, StdMap.find e.1.branch_leaf_id bt = some B := by
    intro e he
    unfold BufferIterLevelsFromMapping at he
    rcases mem_bufferLevels m.paths [] e he with hnil | ⟨p, hp, hpe⟩
    · exact absurd hnil (List.not_mem_nil _)
    · obtain ⟨pre, id, kernel, hpeq⟩ := hpaths p hp
      subst hpeq
      obtain ⟨hpl, hent⟩ := bufferLevels_of_path pre id kernel
      obtain ⟨hid, _⟩ := hent e hpe
      obtain ⟨leaf, einsum, T, q1, q2⟩ := TilingFromMapping_paths m w bt0 h0 _ hp
      rw [hpl] at q1
      simp only [Option.some.injEq, Prod.mk.injEq] at q1
      rw [hid, q1.1]
      exact find_of_forall₂_xFilter_left bt0 bt
        (LoopBoundsInference_xFilter E bt0 m w idx top bt h1) leaf T q2
  refine ⟨hkeys, ?_⟩
  obtain ⟨tilings, ht, _⟩ := foldM_total
    (fun result (e : LogicalBuffer × Nat) =>
      match StdMap.find e.1.branch_leaf_id bt with
      | none => none
      | some tiling =>
        some (StdMap.emplace LogicalBuffer.lt e.1 (project_dim_in_after tiling e.2) result))
    (fun _ => True) (BufferIterLevelsFromMapping m) []
    (fun s a ha _ => by
      obtain ⟨B, hB⟩ := hkeys a ha
      exact ⟨StdMap.emplace LogicalBuffer.lt a.1 (project_dim_in_after B a.2) s,
        by simp only [hB], trivial⟩)
    trivial
  refine ⟨tilings, ht, ?_⟩
  intro buf sk hsk
  have hlevel := LogicalBufSkews_level m hpaths buf sk hsk
  exact (LogicalBufTiling_keys bt _ [] tilings ht).2 (buf, sk.map.nOut)
    (StdMap.find_mem buf _ _ hlevel)

/-- Witness for C29: the two-loop scenario. -/
theorem pipeline_lookups_defined_witness :
    ∃ bt0 bt,
      TilingFromMapping scenarioMapping scenarioWorkload = some bt0 ∧
      LoopBoundsInference boundedEngine bt0 scenarioMapping scenarioWorkload 0 [] = some bt ∧
      (∀ e ∈ BufferIterLevelsFromMapping scenarioMapping,
        ∃ B, StdMap.find e.1.branch_leaf_id bt = some B) ∧
      ∃ tilings, LogicalBufTilingFromMapping scenarioMapping bt = some tilings ∧
        ∀ buf sk, (buf, sk) ∈ LogicalBufSkewsFromMapping scenarioMapping →
          ∃ T, StdMap.find buf tilings = some T :=
  ⟨_, _, rfl, rfl,
    pipeline_lookups_defined boundedEngine scenarioMapping scenarioWorkload 0 [] _ _
      scenario_paths_end_in_compute rfl rfl⟩

/-! ## Element counts of component names -/

theorem dots_eq : "..".toList = [Char.ofNat 46, Char.ofNat 46] := by decide

theorem lbracket_eq : "[".toList = [Char.ofNat 91] := by decide

theorem rbracket_eq : "]".toList = [Char.ofNat 93] := by decide

theorem strFind_nil (pat : List Char) :
    strFind pat [] = if pat = [] then some 0 else none := rfl

theorem strFind_cons (pat : List Char) (c : Char) (rest : List Char) :
    strFind pat (c :: rest) =
      if pat.isPrefixOf (c :: rest) then some 0
      else (strFind pat rest).map (fun i => i + 1) := rfl

theorem strFind_none_iff (pat : List Char) (hpat : pat ≠ []) :
    ∀ (s : List Char), strFind pat s = none ↔ ¬ pat <:+: s := by
  intro s
  induction s with
  | nil =>
    rw [strFind_nil, if_neg hpat]
    simp only [true_iff]
    intro h
    exact hpat (List.eq_nil_of_infix_nil h)
  | cons c rest ih =>
    rw [strFind_cons]
    by_cases hp : pat.isPrefixOf (c :: rest) = true
    · rw [if_pos hp]
      constructor
      · intro h; exact Option.noConfusion h
      · intro h; exact absurd (List.isPrefixOf_iff_prefix.mp hp).isInfix h
    · rw [if_neg hp, Option.map_eq_none', ih, List.infix_cons_iff]
      have hnp : ¬ pat <+: c :: rest := fun h => hp (List.isPrefixOf_iff_prefix.mpr h)
      constructor
      · rintro h (h1 | h1)
        · exact hnp h1
        · exact h h1
      · intro h h1
        exact h (Or.inr h1)

theorem strFind_cons_ne (p0 : Char) (ps : List Char) (c : Char) (hc : c ≠ p0)
    (s : List Char) :
    strFind (p0 :: ps) (c :: s) = (strFind (p0 :: ps) s).map (fun i => i + 1) := by
  have : (p0 :: ps).isPrefixOf (c :: s) = false := by
    show (p0 == c && ps.isPrefixOf s) = false
    have : (p0 == c) = false := beq_false_of_ne (fun h => hc h.symm)
    rw [this]
    rfl
  rw [strFind_cons, this]
  rfl

theorem strFind_skip (p0 : Char) (ps w : List Char) :
    ∀ (u : List Char), (∀ c ∈ u, c ≠ p0) →
      strFind (p0 :: ps) (u ++ w) = (strFind (p0 :: ps) w).map (fun i => i + u.length) := by
  intro u
  induction u with
  | nil => intro _; simp
  | cons c rest ih =>
    intro h
    rw [List.cons_append, strFind_cons_ne p0 ps c (h c (List.mem_cons_self _ _)),
      ih (fun c' hc' => h c' (List.mem_cons_of_mem _ hc')), Option.map_map]
    congr 1

theorem strFind_here (p0 : Char) (ps v : List Char) :
    strFind (p0 :: ps) (p0 :: ps ++ v) = some 0 := by
  have : (p0 :: ps).isPrefixOf (p0 :: ps ++ v) = true :=
    List.isPrefixOf_iff_prefix.mpr (List.prefix_append (p0 :: ps) v)
  rw [List.cons_append] at this
  rw [List.cons_append, strFind_cons, if_pos this]

theorem strFind_dots_skip :
    ∀ (pre : List Char), ¬ [Char.ofNat 46, Char.ofNat 46] <:+: pre →
      ∀ (c : Char) (s : List Char), c ≠ Char.ofNat 46 →
      strFind [Char.ofNat 46, Char.ofNat 46] (pre ++ c :: s) =
        (strFind [Char.ofNat 46, Char.ofNat 46] (c :: s)).map (fun i => i + pre.length) := by
  intro pre
  induction pre with
  | nil => intro _ c s _; simp
  | cons q rest ih =>
    intro hno c s hc
    have hrest : ¬ [Char.ofNat 46, Char.ofNat 46] <:+: rest :=
      fun h => hno (List.infix_cons h)
    have hnp : ([Char.ofNat 46, Char.ofNat 46]).isPrefixOf (q :: (rest ++ c :: s)) = false := by
      cases rest with
      | nil =>
        rw [List.nil_append]
        simp only [List.isPrefixOf]
        have : (Char.ofNat 46 == c) = false := beq_false_of_ne (fun h => hc h.symm)
        rw [this]
        simp
      | cons q' rest' =>
        rw [List.cons_append]
        simp only [List.isPrefixOf]
        by_contra hcon
        simp only [Bool.and_true, Bool.not_eq_false, Bool.and_eq_true, beq_iff_eq] at hcon
        apply hno
        rw [← hcon.1, ← hcon.2]
        exact ⟨[], rest', rfl⟩
    rw [List.cons_append, strFind_cons, hnp]
    simp only [Bool.false_eq_true, if_false]
    rw [ih hrest c s hc, Option.map_map]
    congr 1

theorem isDigitChar_toNat (c : Char) (h : isDigitChar c = true) :
    48 ≤ c.toNat ∧ c.toNat ≤ 57 := by
  unfold isDigitChar at h
  simpa using h

theorem isDigitChar_ne_low (c : Char) (h : isDigitChar c = true) :
    c ≠ Char.ofNat 46 ∧ c ≠ Char.ofNat 45 ∧ c ≠ Char.ofNat 43 := by
  have h1 := (isDigitChar_toNat c h).1
  refine ⟨?_, ?_, ?_⟩ <;>
  · intro hc
    rw [hc] at h1
    exact absurd h1 (by decide)

theorem isDigitChar_ne_bracket (c : Char) (h : isDigitChar c = true) :
    c ≠ Char.ofNat 91 ∧ c ≠ Char.ofNat 93 := by
  have h1 := (isDigitChar_toNat c h).2
  constructor
  · intro hc
    rw [hc] at h1
    exact absurd h1 (by decide)
  · intro hc
    rw [hc] at h1
    exact absurd h1 (by decide)

theorem stoul_digits (A : List Char) (hA : A ≠ []) (hAd : ∀ c ∈ A, isDigitChar c = true)
    (hAv : decimalValue A < 2 ^ 64) : stoul A = some (decimalValue A) := by
  cases A with
  | nil => exact absurd rfl hA
  | cons a rest =>
    have ha := hAd a (List.mem_cons_self _ _)
    have hsp : isSpaceChar a = false := by
      have := isDigitChar_toNat a ha
      unfold isSpaceChar
      simp
      omega
    have hdrop : (a :: rest).dropWhile isSpaceChar = a :: rest := by
      simp [List.dropWhile, hsp]
    have h45 : a ≠ Char.ofNat 45 := (isDigitChar_ne_low a ha).2.1
    have h43 : a ≠ Char.ofNat 43 := (isDigitChar_ne_low a ha).2.2
    have htake : (a :: rest).takeWhile isDigitChar = a :: rest :=
      List.takeWhile_eq_self_iff.mpr hAd
    unfold stoul
    simp only [hdrop, List.head?_cons, Option.some.injEq, h45, h43, or_self, if_false, htake,
      hAv, if_true]
    simp

theorem drop_take_mid (u A v : List Char) :
    ((u ++ (A ++ v)).drop u.length).take A.length = A := by
  rw [List.drop_left, List.take_left]

theorem parseElementSize_range (pre A B post : List Char)
    (hpre1 : Char.ofNat 91 ∉ pre) (hpre2 : Char.ofNat 93 ∉ pre)
    (hpre3 : ¬ [Char.ofNat 46, Char.ofNat 46] <:+: pre)
    (hA : A ≠ []) (hAd : ∀ c ∈ A, isDigitChar c = true)
    (hB : B ≠ []) (hBd : ∀ c ∈ B, isDigitChar c = true)
    (hAv : decimalValue A < 2 ^ 64) (hBv : decimalValue B < 2 ^ 64) :
    parseElementSize
        (pre ++ Char.ofNat 91 :: (A ++ Char.ofNat 46 :: Char.ofNat 46 ::
          (B ++ Char.ofNat 93 :: post))) =
      some ((decimalValue B + 2 ^ 64 - decimalValue A + 1) % 2 ^ 64) := by
  have hbegin : strFind [Char.ofNat 91]
      (pre ++ Char.ofNat 91 :: (A ++ Char.ofNat 46 :: Char.ofNat 46 ::
        (B ++ Char.ofNat 93 :: post))) = some pre.length := by
    rw [strFind_skip (Char.ofNat 91) [] _ pre (fun c hc h => hpre1 (h ▸ hc))]
    have := strFind_here (Char.ofNat 91) []
      (A ++ Char.ofNat 46 :: Char.ofNat 46 :: (B ++ Char.ofNat 93 :: post))
    rw [List.cons_append, List.nil_append] at this
    rw [this]
    simp
  have hend : strFind [Char.ofNat 93]
      (pre ++ Char.ofNat 91 :: (A ++ Char.ofNat 46 :: Char.ofNat 46 ::
        (B ++ Char.ofNat 93 :: post))) = some (pre.length + 1 + A.length + 2 + B.length) := by
    have hsplit : pre ++ Char.ofNat 91 :: (A ++ Char.ofNat 46 :: Char.ofNat 46 ::
        (B ++ Char.ofNat 93 :: post)) =
        (pre ++ Char.ofNat 91 :: (A ++ Char.ofNat 46 :: Char.ofNat 46 :: B)) ++
          Char.ofNat 93 :: post := by simp
    rw [hsplit, strFind_skip (Char.ofNat 93) [] _ _ ?_]
    · have := strFind_here (Char.ofNat 93) [] post
      rw [List.cons_append, List.nil_append] at this
      rw [this]
      simp
      omega
    · intro c hc
      simp only [List.mem_append, List.mem_cons] at hc
      rcases hc with h | h | h | h | h | h
      · exact fun hh => hpre2 (hh ▸ h)
      · rw [h]; decide
      · exact (isDigitChar_ne_bracket c (hAd c h)).2
      · rw [h]; decide
      · rw [h]; decide
      · exact (isDigitChar_ne_bracket c (hBd c h)).2
  have hdots : strFind [Char.ofNat 46, Char.ofNat 46]
      (pre ++ Char.ofNat 91 :: (A ++ Char.ofNat 46 :: Char.ofNat 46 ::
        (B ++ Char.ofNat 93 :: post))) = some (pre.length + 1 + A.length) := by
    rw [strFind_dots_skip pre hpre3 (Char.ofNat 91) _ (by decide),
      strFind_cons_ne (Char.ofNat 46) [Char.ofNat 46] (Char.ofNat 91) (by decide),
      strFind_skip (Char.ofNat 46) [Char.ofNat 46] _ A
        (fun c hc => (isDigitChar_ne_low c (hAd c hc)).1)]
    have := strFind_here (Char.ofNat 46) [Char.ofNat 46] (B ++ Char.ofNat 93 :: post)
    rw [List.cons_append, List.cons_append, List.nil_append] at this
    rw [this]
    simp
    omega
  have hsub1 : substr
      (pre ++ Char.ofNat 91 :: (A ++ Char.ofNat 46 :: Char.ofNat 46 ::
        (B ++ Char.ofNat 93 :: post))) (pre.length + 1)
      (pre.length + 1 + A.length - pre.length - 1) = some A := by
    have hsplit : pre ++ Char.ofNat 91 :: (A ++ Char.ofNat 46 :: Char.ofNat 46 ::
        (B ++ Char.ofNat 93 :: post)) =
        (pre ++ [Char.ofNat 91]) ++ (A ++ Char.ofNat 46 :: Char.ofNat 46 ::
          (B ++ Char.ofNat 93 :: post)) := by simp
    have hlen : pre.length + 1 = (pre ++ [Char.ofNat 91]).length := by simp
    have hk : pre.length + 1 + A.length - pre.length - 1 = A.length := by omega
    unfold substr
    rw [if_pos (by simp), hk, hsplit, hlen, drop_take_mid]
  have hsub2 : substr
      (pre ++ Char.ofNat 91 :: (A ++ Char.ofNat 46 :: Char.ofNat 46 ::
        (B ++ Char.ofNat 93 :: post))) (pre.length + 1 + A.length + 2)
      (pre.length + 1 + A.length + 2 + B.length - (pre.length + 1 + A.length) - 2) =
        some B := by
    have hsplit : pre ++ Char.ofNat 91 :: (A ++ Char.ofNat 46 :: Char.ofNat 46 ::
        (B ++ Char.ofNat 93 :: post)) =
        (pre ++ Char.ofNat 91 :: (A ++ [Char.ofNat 46, Char.ofNat 46])) ++
          (B ++ Char.ofNat 93 :: post) := by simp
    have hlen : pre.length + 1 + A.length + 2 =
        (pre ++ Char.ofNat 91 :: (A ++ [Char.ofNat 46, Char.ofNat 46])).length := by
      simp
      omega
    have hk : pre.length + 1 + A.length + 2 + B.length - (pre.length + 1 + A.length) - 2 =
        B.length := by omega
    unfold substr
    rw [if_pos (by simp; omega), hk, hsplit, hlen, drop_take_mid]
  unfold parseElementSize
  rw [lbracket_eq, rbracket_eq, dots_eq, hbegin, hend, hdots]
  simp only
  rw [if_pos ⟨by omega, by omega, by omega⟩, hsub1, hsub2]
  simp only
  rw [stoul_digits A hA hAd hAv, stoul_digits B hB hBd hBv]

/-- C30 counterexample: for `a = 0` and `b = 2^64 - 1`, decimal numbers with
`a ≤ b`, the result is 0 and not `b - a + 1`; and a number from `2^64` on makes
`std::stoul` throw, so nothing is returned. -/
theorem parseElementSize_full_range_wraps :
    parseElementSize "PE[0..18446744073709551615]".toList = some 0 ∧
      decimalValue "0".toList = 0 ∧
      decimalValue "18446744073709551615".toList = 2 ^ 64 - 1 ∧
      (2 ^ 64 - 1 - 0 + 1 : Nat) ≠ 0 ∧
      parseElementSize "PE[0..18446744073709551616]".toList = none := by
  decide

/-- C30 (amended): a name without `[`, without `]` or without `..` has size 1.
For a name `prefix[a..b]` (and whatever follows), with a prefix that holds
neither bracket nor `..` and runs of decimal digits `a` and `b` of values
below `2^64`, the result is `b - a + 1` reduced modulo `2^64`; this is
`b - a + 1` itself when `a ≤ b` and `b - a + 1 < 2^64`, and 16 for
`PE[0..15]`. -/
theorem parseElementSize_spec :
    (∀ name : List Char,
      (¬ "[".toList <:+: name ∨ ¬ "]".toList <:+: name ∨ ¬ "..".toList <:+: name) →
      parseElementSize name = some 1) ∧
    (∀ pre A B post : List Char,
      ¬ "[".toList <:+: pre → ¬ "]".toList <:+: pre → ¬ "..".toList <:+: pre →
      A ≠ [] → (∀ c ∈ A, isDigitChar c = true) →
      B ≠ [] → (∀ c ∈ B, isDigitChar c = true) →
      decimalValue A < 2 ^ 64 → decimalValue B < 2 ^ 64 →
      parseElementSize (pre ++ "[".toList ++ A ++ "..".toList ++ B ++ "]".toList ++ post) =
          some ((decimalValue B + 2 ^ 64 - decimalValue A + 1) % 2 ^ 64) ∧
        (decimalValue A ≤ decimalValue B → decimalValue B - decimalValue A + 1 < 2 ^ 64 →
          parseElementSize
              (pre ++ "[".toList ++ A ++ "..".toList ++ B ++ "]".toList ++ post) =
            some (decimalValue B - decimalValue A + 1))) ∧
    parseElementSize "PE[0..15]".toList = some 16 := by
  refine ⟨?_, ?_, by decide⟩
  · intro name h
    have h1 : ¬ "[".toList <:+: name → strFind "[".toList name = none :=
      (strFind_none_iff _ (by decide) name).mpr
    have h2 : ¬ "]".toList <:+: name → strFind "]".toList name = none :=
      (strFind_none_iff _ (by decide) name).mpr
    have h3 : ¬ "..".toList <:+: name → strFind "..".toList name = none :=
      (strFind_none_iff _ (by decide) name).mpr
    unfold parseElementSize
    rcases h with h | h | h
    · rw [h1 h]
    · rw [h2 h]
      cases strFind "[".toList name <;> rfl
    · rw [h3 h]
      cases strFind "[".toList name <;> cases strFind "]".toList name <;> rfl
  · intro pre A B post hp1 hp2 hp3 hA hAd hB hBd hAv hBv
    have hname : pre ++ "[".toList ++ A ++ "..".toList ++ B ++ "]".toList ++ post =
        pre ++ Char.ofNat 91 :: (A ++ Char.ofNat 46 :: Char.ofNat 46 ::
          (B ++ Char.ofNat 93 :: post)) := by
      rw [lbracket_eq, rbracket_eq, dots_eq]
      simp
    have hq1 : Char.ofNat 91 ∉ pre := by
      intro hmem
      apply hp1
      rw [lbracket_eq]
      obtain ⟨u, v, huv⟩ := List.append_of_mem hmem
      exact ⟨u, v, by rw [huv]; simp⟩
    have hq2 : Char.ofNat 93 ∉ pre := by
      intro hmem
      apply hp2
      rw [rbracket_eq]
      obtain ⟨u, v, huv⟩ := List.append_of_mem hmem
      exact ⟨u, v, by rw [huv]; simp⟩
    have hq3 : ¬ [Char.ofNat 46, Char.ofNat 46] <:+: pre := by
      rw [← dots_eq]
      exact hp3
    have hmain := parseElementSize_range pre A B post hq1 hq2 hq3 hA hAd hB hBd hAv hBv
    rw [hname, hmain]
    refine ⟨rfl, ?_⟩
    intro hle hlt
    congr 1
    have : decimalValue B + 2 ^ 64 - decimalValue A + 1 =
        (decimalValue B - decimalValue A + 1) + 2 ^ 64 := by omega
    rw [this, Nat.add_mod_right, Nat.mod_eq_of_lt hlt]

/-- Witness for C30 (amended): `PE[3..7]` has five elements. -/
theorem parseElementSize_spec_witness :
    parseElementSize ("PE".toList ++ "[".toList ++ "3".toList ++ "..".toList ++ "7".toList ++
      "]".toList ++ []) = some 5 :=
  (parseElementSize_spec.2.1 "PE".toList "3".toList "7".toList [] (by decide) (by decide)
    (by decide) (by decide) (by decide) (by decide) (by decide) (by decide)
    (by decide)).2 (by decide) (by decide)

/-! ## The shape of the skews -/

theorem snoc_of_length_succ {α : Type} (x : List α) (n : Nat) (h : x.length = n + 1) :
    ∃ x0 a, x = x0 ++ [a] ∧ x0.length = n := by
  rcases List.eq_nil_or_concat x with hnil | ⟨x0, a, hx⟩
  · rw [hnil] at h
    simp at h
  · refine ⟨x0, a, by rw [hx]; simp, ?_⟩
    rw [hx] at h
    simpa using h

theorem dropMasked_snoc :
    ∀ (mask : List Bool) (x0 : List Int) (b : Bool) (a : Int), mask.length = x0.length →
      dropMasked (mask ++ [b]) (x0 ++ [a]) =
        dropMasked mask x0 ++ (if b then [] else [a]) := by
  intro mask
  induction mask with
  | nil =>
    intro x0 b a h
    have : x0 = [] := List.length_eq_zero.mp h.symm
    subst this
    cases b <;> simp [dropMasked]
  | cons m rest ih =>
    intro x0 b a h
    cases x0 with
    | nil => simp at h
    | cons v vs =>
      have h' : rest.length = vs.length := by simpa using h
      have hih := ih vs b a h'
      cases m <;> simp [dropMasked, hih]

theorem keepMasked_snoc :
    ∀ (mask : List Bool) (x0 : List Int) (b : Bool) (a : Int), mask.length = x0.length →
      keepMasked (mask ++ [b]) (x0 ++ [a]) =
        keepMasked mask x0 ++ (if b then [a] else []) := by
  intro mask
  induction mask with
  | nil =>
    intro x0 b a h
    have : x0 = [] := List.length_eq_zero.mp h.symm
    subst this
    cases b <;> simp [keepMasked]
  | cons m rest ih =>
    intro x0 b a h
    cases x0 with
    | nil => simp at h
    | cons v vs =>
      have h' : rest.length = vs.length := by simpa using h
      have hih := ih vs b a h'
      cases m <;> simp [keepMasked, hih]

theorem snoc_parts {α : Type} (x0 : List α) (a : α) (n : Nat) (h : x0.length = n) :
    (x0 ++ [a]).take n ++ (x0 ++ [a]).drop (n + 1) = x0 ∧
      ((x0 ++ [a]).drop n).take 1 = [a] := by
  subst h
  constructor
  · rw [List.take_left, List.drop_eq_nil_of_le (by simp), List.append_nil]
  · rw [List.drop_left]
    rfl

theorem skewShape_start :
    skewShape [] [] (map_from_multi_aff (MultiAff.identity_on_domain 0)) := by
  refine ⟨[], rfl, rfl, fun p hp => absurd hp (List.not_mem_nil _), rfl, rfl, ?_⟩
  intro x y
  show (x.length = 0 ∧ y = []) ↔ _
  constructor
  · rintro ⟨hx, hy⟩
    have : x = [] := List.length_eq_zero.mp hx
    subst this
    exact ⟨rfl, hy, fun v hv => absurd hv (List.not_mem_nil _)⟩
  · rintro ⟨hx, hy, _⟩
    have : x = [] := List.length_eq_zero.mp hx
    subst this
    exact ⟨rfl, hy⟩

theorem skewShape_other (pre : List MappingNode) (node : MappingNode)
    (tags : List spacetime.Dimension) (map : IslMap) (hnode : loopTag node = none)
    (h : skewShape pre tags map) : skewShape (pre ++ [node]) tags map := by
  obtain ⟨mask, h1, h2, h3, h4, h5, h6⟩ := h
  refine ⟨mask, h1, ?_, h3, h4, h5, h6⟩
  rw [h2]
  simp [loopTags, List.filterMap_append, hnode]

theorem skewShape_loop (pre : List MappingNode) (node : MappingNode)
    (tags : List spacetime.Dimension) (map : IslMap) (t : spacetime.Dimension)
    (hnode : loopTag node = some t) (h : skewShape pre tags map) :
    skewShape (pre ++ [node]) (tags ++ [t]) (insert_equal_dims map map.nIn map.nOut 1) := by
  obtain ⟨mask, h1, h2, h3, h4, h5, h6⟩ := h
  have hzip : (tags ++ [t]).zip (mask ++ [false]) = tags.zip mask ++ [(t, false)] := by
    rw [List.zip_append h1.symm]
    rfl
  refine ⟨mask ++ [false], by simp [h1], ?_, ?_, ?_, ?_, ?_⟩
  · rw [hzip, List.filterMap_append, h2]
    simp [loopTags, List.filterMap_append, hnode]
  · intro p hp hp2
    rw [hzip] at hp
    rcases List.mem_append.mp hp with hh | hh
    · exact h3 p hh hp2
    · rw [List.mem_singleton.mp hh] at hp2
      exact Bool.noConfusion hp2
  · show map.nIn + 1 = (tags ++ [t]).length
    simp [h4]
  · show map.nOut + 1 = ((mask ++ [false]).filter (fun b => !b)).length
    simp [h5, List.filter_append]
  · intro x y
    show (x.length = map.nIn + 1 ∧ y.length = map.nOut + 1 ∧
        map.rel (x.take map.nIn ++ x.drop (map.nIn + 1))
          (y.take map.nOut ++ y.drop (map.nOut + 1)) ∧
        (x.drop map.nIn).take 1 = (y.drop map.nOut).take 1) ↔ _
    constructor
    · rintro ⟨hx, hy, hrel, heq⟩
      obtain ⟨x0, a, hxe, hx0⟩ := snoc_of_length_succ x map.nIn hx
      obtain ⟨y0, b, hye, hy0⟩ := snoc_of_length_succ y map.nOut hy
      subst hxe
      subst hye
      rw [(snoc_parts x0 a map.nIn hx0).1, (snoc_parts y0 b map.nOut hy0).1] at hrel
      rw [(snoc_parts x0 a map.nIn hx0).2, (snoc_parts y0 b map.nOut hy0).2] at heq
      obtain ⟨_, hyd, hz⟩ := (h6 x0 y0).mp hrel
      have hab : a = b := by simpa using heq
      have hml : mask.length = x0.length := by rw [h1, hx0, h4]
      refine ⟨by simp [hx0, h4], ?_, ?_⟩
      · rw [dropMasked_snoc mask x0 false a hml, ← hyd, hab]
        simp
      · rw [keepMasked_snoc mask x0 false a hml]
        simpa using hz
    · rintro ⟨hx, hy, hz⟩
      have hx' : x.length = map.nIn + 1 := by rw [hx, h4]; simp
      obtain ⟨x0, a, hxe, hx0⟩ := snoc_of_length_succ x map.nIn hx'
      subst hxe
      have hml : mask.length = x0.length := by rw [h1, hx0, h4]
      rw [dropMasked_snoc mask x0 false a hml] at hy
      rw [keepMasked_snoc mask x0 false a hml] at hz
      have hdl : (dropMasked mask x0).length = map.nOut := by
        rw [dropMasked_length mask x0 hml.symm, h5]
      have hy' : y = dropMasked mask x0 ++ [a] := by simpa using hy
      subst hy'
      refine ⟨hx', by simp [hdl], ?_, ?_⟩
      · rw [(snoc_parts x0 a map.nIn hx0).1, (snoc_parts (dropMasked mask x0) a map.nOut hdl).1]
        exact (h6 x0 _).mpr ⟨by rw [hx0, h4], rfl, by simpa using hz⟩
      · rw [(snoc_parts x0 a map.nIn hx0).2, (snoc_parts (dropMasked mask x0) a map.nOut hdl).2]

theorem skewShape_synthetic (pre : List MappingNode)
    (tags : List spacetime.Dimension) (map : IslMap) (h : skewShape pre tags map) :
    skewShape pre (tags ++ [spacetime.Dimension.SpaceX])
      (insert_dummy_dim_ins map map.nIn 1) := by
  obtain ⟨mask, h1, h2, h3, h4, h5, h6⟩ := h
  have hzip : (tags ++ [spacetime.Dimension.SpaceX]).zip (mask ++ [true]) =
      tags.zip mask ++ [(spacetime.Dimension.SpaceX, true)] := by
    rw [List.zip_append h1.symm]
    rfl
  refine ⟨mask ++ [true], by simp [h1], ?_, ?_, ?_, ?_, ?_⟩
  · rw [hzip, List.filterMap_append, h2]
    simp
  · intro p hp hp2
    rw [hzip] at hp
    rcases List.mem_append.mp hp with hh | hh
    · exact h3 p hh hp2
    · rw [List.mem_singleton.mp hh]
  · show map.nIn + 1 = (tags ++ [spacetime.Dimension.SpaceX]).length
    simp [h4]
  · show map.nOut = ((mask ++ [true]).filter (fun b => !b)).length
    simp [h5, List.filter_append]
  · intro x y
    show (x.length = map.nIn + 1 ∧
        map.rel (x.take map.nIn ++ x.drop (map.nIn + 1)) y ∧
        (x.drop map.nIn).take 1 = List.replicate 1 0) ↔ _
    constructor
    · rintro ⟨hx, hrel, heq⟩
      obtain ⟨x0, a, hxe, hx0⟩ := snoc_of_length_succ x map.nIn hx
      subst hxe
      rw [(snoc_parts x0 a map.nIn hx0).1] at hrel
      rw [(snoc_parts x0 a map.nIn hx0).2] at heq
      obtain ⟨_, hyd, hz⟩ := (h6 x0 y).mp hrel
      have ha : a = 0 := by simpa using heq
      have hml : mask.length = x0.length := by rw [h1, hx0, h4]
      refine ⟨by simp [hx0, h4], ?_, ?_⟩
      · rw [dropMasked_snoc mask x0 true a hml, ← hyd]
        simp
      · rw [keepMasked_snoc mask x0 true a hml]
        intro v hv
        rcases List.mem_append.mp hv with hh | hh
        · exact hz v hh
        · have : v = a := by simpa using hh
          rw [this, ha]
    · rintro ⟨hx, hy, hz⟩
      have hx' : x.length = map.nIn + 1 := by rw [hx, h4]; simp
      obtain ⟨x0, a, hxe, hx0⟩ := snoc_of_length_succ x map.nIn hx'
      subst hxe
      have hml : mask.length = x0.length := by rw [h1, hx0, h4]
      rw [dropMasked_snoc mask x0 true a hml] at hy
      rw [keepMasked_snoc mask x0 true a hml] at hz
      have hy' : y = dropMasked mask x0 := by simpa using hy
      have ha : a = 0 := hz a (by simp)
      refine ⟨hx', ?_, ?_⟩
      · rw [(snoc_parts x0 a map.nIn hx0).1]
        exact (h6 x0 y).mpr ⟨by rw [hx0, h4], hy',
          fun v hv => hz v (List.mem_append.mpr (Or.inl hv))⟩
      · rw [(snoc_parts x0 a map.nIn hx0).2, ha]
        rfl

theorem recordedAt_snoc (full : List MappingNode) (node : MappingNode)
    (e : LogicalBuffer × Skew) (h : recordedAt full e) : recordedAt (full ++ [node]) e := by
  obtain ⟨pre, id, post, hfull, hshape⟩ := h
  exact ⟨pre, id, post ++ [node], by rw [hfull]; simp, hshape⟩

theorem skewVisit_shape (leaf : MappingNode) (init : LogicalBufSkews)
    (pre : List MappingNode) (s : SkewWalk) (node : MappingNode)
    (hs : skewShape pre s.tags s.map)
    (hrec : ∀ e ∈ s.skews, e ∈ init ∨ recordedAt pre e) :
    skewShape (pre ++ [node]) (skewVisit leaf s node).tags (skewVisit leaf s node).map ∧
      ∀ e ∈ (skewVisit leaf s node).skews, e ∈ init ∨ recordedAt (pre ++ [node]) e := by
  have hmono : ∀ e ∈ s.skews, e ∈ init ∨ recordedAt (pre ++ [node]) e := by
    intro e he
    rcases hrec e he with h | h
    · exact Or.inl h
    · exact Or.inr (recordedAt_snoc pre node e h)
  cases node with
  | For i op ts => exact ⟨skewShape_loop pre _ s.tags s.map _ rfl hs, hmono⟩
  | ParFor i op ts => exact ⟨skewShape_loop pre _ s.tags s.map _ rfl hs, hmono⟩
  | Root i => exact ⟨skewShape_other pre _ s.tags s.map rfl hs, hmono⟩
  | Compute i k => exact ⟨skewShape_other pre _ s.tags s.map rfl hs, hmono⟩
  | Pipeline i => exact ⟨skewShape_other pre _ s.tags s.map rfl hs, hmono⟩
  | Sequential i => exact ⟨skewShape_other pre _ s.tags s.map rfl hs, hmono⟩
  | Storage i b d =>
    have hcore : ∀ (cur : Bool),
        skewShape pre (if cur then s.tags else s.tags ++ [spacetime.Dimension.SpaceX])
          (if cur then s.map else insert_dummy_dim_ins s.map s.map.nIn 1) := by
      intro cur
      cases cur with
      | true => exact hs
      | false => exact skewShape_synthetic pre s.tags s.map hs
    have hshape := hcore
      (if s.last_buf = some b then s.new_cur_has_spatial || s.cur_has_spatial
        else s.new_cur_has_spatial)
    refine ⟨skewShape_other pre _ _ _ rfl hshape, ?_⟩
    intro e he
    rcases StdMap.mem_emplace LogicalBuffer.lt _ _ s.skews e he with h | ⟨_, h⟩
    · exact hmono e h
    · right
      rw [h]
      exact ⟨pre, i, [], rfl, hshape⟩

theorem skewWalk_shape (leaf : MappingNode) (init : LogicalBufSkews) :
    ∀ (rest pre : List MappingNode) (s : SkewWalk),
      skewShape pre s.tags s.map →
      (∀ e ∈ s.skews, e ∈ init ∨ recordedAt pre e) →
      ∀ e ∈ (rest.foldl (skewVisit leaf) s).skews, e ∈ init ∨ recordedAt (pre ++ rest) e := by
  intro rest
  induction rest with
  | nil =>
    intro pre s _ hrec e he
    rw [List.append_nil]
    exact hrec e he
  | cons node rest ih =>
    intro pre s hs hrec e he
    obtain ⟨h1, h2⟩ := skewVisit_shape leaf init pre s node hs hrec
    have := ih (pre ++ [node]) (skewVisit leaf s node) h1 h2 e he
    rw [List.append_assoc] at this
    exact this

theorem skewPath_shape (init : LogicalBufSkews) (path : List MappingNode) :
    ∀ e ∈ skewPath init path, e ∈ init ∨ recordedAt path e := by
  intro e he
  unfold skewPath at he
  cases hl : path.getLast? with
  | none =>
    rw [hl] at he
    exact Or.inl he
  | some leaf =>
    rw [hl] at he
    have := skewWalk_shape leaf init path [] _ skewShape_start
      (fun e he => Or.inl he) e he
    rw [List.nil_append] at this
    exact this

theorem skewPaths_shape :
    ∀ (paths : List (List MappingNode)) (init : LogicalBufSkews),
      ∀ e ∈ paths.foldl skewPath init, e ∈ init ∨ ∃ p ∈ paths, recordedAt p e := by
  intro paths
  induction paths with
  | nil => intro init e he; exact Or.inl he
  | cons p rest ih =>
    intro init e he
    rw [List.foldl_cons] at he
    rcases ih (skewPath init p) e he with h | ⟨q, hq, hrec⟩
    · rcases skewPath_shape init p e h with h1 | h1
      · exact Or.inl h1
      · exact Or.inr ⟨p, List.mem_cons_self _ _, h1⟩
    · exact Or.inr ⟨q, List.mem_cons_of_mem _ hq, hrec⟩

theorem skewVisit_mono (leaf : MappingNode) (s : SkewWalk) (node : MappingNode)
    (e : LogicalBuffer × Skew) (he : e ∈ s.skews) : e ∈ (skewVisit leaf s node).skews := by
  cases node with
  | Storage i b d => exact StdMap.mem_emplace_of_mem LogicalBuffer.lt _ _ s.skews e he
  | For i op ts => exact he
  | ParFor i op ts => exact he
  | Root i => exact he
  | Compute i k => exact he
  | Pipeline i => exact he
  | Sequential i => exact he

theorem skewWalk_mono (leaf : MappingNode) (e : LogicalBuffer × Skew) :
    ∀ (nodes : List MappingNode) (s : SkewWalk), e ∈ s.skews →
      e ∈ (nodes.foldl (skewVisit leaf) s).skews := by
  intro nodes
  induction nodes with
  | nil => intro s he; exact he
  | cons node rest ih =>
    intro s he
    exact ih _ (skewVisit_mono leaf s node e he)

theorem skewPath_mono (init : LogicalBufSkews) (path : List MappingNode)
    (e : LogicalBuffer × Skew) (he : e ∈ init) : e ∈ skewPath init path := by
  unfold skewPath
  cases path.getLast? with
  | none => exact he
  | some leaf => exact skewWalk_mono leaf e path _ he

theorem skewPaths_mono (e : LogicalBuffer × Skew) :
    ∀ (paths : List (List MappingNode)) (init : LogicalBufSkews), e ∈ init →
      e ∈ paths.foldl skewPath init := by
  intro paths
  induction paths with
  | nil => intro init he; exact he
  | cons p rest ih =>
    intro init he
    exact ih _ (skewPath_mono init p e he)

theorem skewPath_records (init : LogicalBufSkews) (pre post : List MappingNode)
    (i : NodeID) (b : BufferId) (d : DataSpaceId) :
    ∃ leaf sk, (pre ++ MappingNode.Storage i b d :: post).getLast? = some leaf ∧
      (({ buffer_id := b, dspace_id := d, branch_leaf_id := GetNodeId leaf } : LogicalBuffer),
        sk) ∈ skewPath init (pre ++ MappingNode.Storage i b d :: post) := by
  have hne : pre ++ MappingNode.Storage i b d :: post ≠ [] := by simp
  obtain ⟨leaf, hleaf⟩ : ∃ leaf, (pre ++ MappingNode.Storage i b d :: post).getLast? =
      some leaf := ⟨_, List.getLast?_eq_getLast _ hne⟩
  unfold skewPath
  rw [hleaf]
  simp only [List.foldl_append, List.foldl_cons]
  obtain ⟨sk, hsk⟩ := StdMap.key_mem_emplace LogicalBuffer.lt
    ({ buffer_id := b, dspace_id := d, branch_leaf_id := GetNodeId leaf } : LogicalBuffer)
    (({ map := (skewVisit leaf (pre.foldl (skewVisit leaf)
          { tags := [],
            map := map_from_multi_aff (MultiAff.identity_on_domain 0),
            cur_has_spatial := false,
            new_cur_has_spatial := false,
            last_buf := none,
            skews := init }) (.Storage i b d)).map,
        dim_in_tags := (skewVisit leaf (pre.foldl (skewVisit leaf)
          { tags := [],
            map := map_from_multi_aff (MultiAff.identity_on_domain 0),
            cur_has_spatial := false,
            new_cur_has_spatial := false,
            last_buf := none,
            skews := init }) (.Storage i b d)).tags }) : Skew)
    (pre.foldl (skewVisit leaf)
          { tags := [],
            map := map_from_multi_aff (MultiAff.identity_on_domain 0),
            cur_has_spatial := false,
            new_cur_has_spatial := false,
            last_buf := none,
            skews := init }).skews
  exact ⟨leaf, sk, rfl, skewWalk_mono leaf _ post _ hsk⟩

theorem skewPaths_records :
    ∀ (paths : List (List MappingNode)) (init : LogicalBufSkews),
      ∀ path ∈ paths, ∀ pre i b d post, path = pre ++ MappingNode.Storage i b d :: post →
        ∃ leaf sk, path.getLast? = some leaf ∧
          (({ buffer_id := b, dspace_id := d, branch_leaf_id := GetNodeId leaf } :
            LogicalBuffer), sk) ∈ paths.foldl skewPath init := by
  intro paths
  induction paths with
  | nil => intro init path hp; exact absurd hp (List.not_mem_nil _)
  | cons p rest ih =>
    intro init path hp pre i b d post hpath
    rw [List.foldl_cons]
    rcases List.mem_cons.mp hp with h1 | h1
    · obtain ⟨leaf, sk, hl, hmem⟩ := skewPath_records init pre post i b d
      subst h1
      subst hpath
      exact ⟨leaf, sk, hl, skewPaths_mono _ rest _ hmem⟩
    · exact ih _ path h1 pre i b d post hpath

theorem skewWalk_state_shape (leaf : MappingNode) :
    ∀ (rest pre : List MappingNode) (s : SkewWalk),
      skewShape pre s.tags s.map →
      skewShape (pre ++ rest) (rest.foldl (skewVisit leaf) s).tags
        (rest.foldl (skewVisit leaf) s).map := by
  intro rest
  induction rest with
  | nil =>
    intro pre s hs
    rw [List.append_nil]
    exact hs
  | cons node rest ih =>
    intro pre s hs
    have h1 := (skewVisit_shape leaf s.skews pre s node hs (fun e he => Or.inl he)).1
    have := ih (pre ++ [node]) (skewVisit leaf s node) h1
    rw [List.append_assoc] at this
    exact this

theorem skewVisit_find_other (leaf : MappingNode) (s : SkewWalk) (node : MappingNode)
    (key : LogicalBuffer)
    (h : (∀ j, node ≠ MappingNode.Storage j key.buffer_id key.dspace_id) ∨
      GetNodeId leaf ≠ key.branch_leaf_id) :
    StdMap.find key (skewVisit leaf s node).skews = StdMap.find key s.skews := by
  cases node with
  | Storage i b d =>
    show StdMap.find key (StdMap.emplace LogicalBuffer.lt _ _ s.skews) = _
    rw [StdMap.find_emplace]
    cases hf : StdMap.find key s.skews with
    | some u => rfl
    | none =>
      simp only
      rw [if_neg]
      intro heq
      rcases h with h | h
      · apply h i
        rw [← heq]
      · apply h
        rw [← heq]
  | For i op ts => rfl
  | ParFor i op ts => rfl
  | Root i => rfl
  | Compute i k => rfl
  | Pipeline i => rfl
  | Sequential i => rfl

theorem skewWalk_find_other (leaf : MappingNode) (key : LogicalBuffer) :
    ∀ (nodes : List MappingNode) (s : SkewWalk),
      ((∀ j, MappingNode.Storage j key.buffer_id key.dspace_id ∉ nodes) ∨
        GetNodeId leaf ≠ key.branch_leaf_id) →
      StdMap.find key (nodes.foldl (skewVisit leaf) s).skews = StdMap.find key s.skews := by
  intro nodes
  induction nodes with
  | nil => intro s _; rfl
  | cons node rest ih =>
    intro s h
    rw [List.foldl_cons, ih (skewVisit leaf s node)
      (h.imp (fun h1 j hj => h1 j (List.mem_cons_of_mem _ hj)) id)]
    apply skewVisit_find_other
    exact h.imp (fun h1 j hj => h1 j (by rw [hj]; exact List.mem_cons_self _ _)) id

theorem skewVisit_find_keep (leaf : MappingNode) (s : SkewWalk) (node : MappingNode)
    (key : LogicalBuffer) (v : Skew) (h : StdMap.find key s.skews = some v) :
    StdMap.find key (skewVisit leaf s node).skews = some v := by
  cases node with
  | Storage i b d =>
    show StdMap.find key (StdMap.emplace LogicalBuffer.lt _ _ s.skews) = _
    rw [StdMap.find_emplace, h]
  | For i op ts => exact h
  | ParFor i op ts => exact h
  | Root i => exact h
  | Compute i k => exact h
  | Pipeline i => exact h
  | Sequential i => exact h

theorem skewWalk_find_keep (leaf : MappingNode) (key : LogicalBuffer) (v : Skew) :
    ∀ (nodes : List MappingNode) (s : SkewWalk), StdMap.find key s.skews = some v →
      StdMap.find key (nodes.foldl (skewVisit leaf) s).skews = some v := by
  intro nodes
  induction nodes with
  | nil => intro s h; exact h
  | cons node rest ih =>
    intro s h
    exact ih _ (skewVisit_find_keep leaf s node key v h)

theorem skewPath_find_keep (init : LogicalBufSkews) (path : List MappingNode)
    (key : LogicalBuffer) (v : Skew) (h : StdMap.find key init = some v) :
    StdMap.find key (skewPath init path) = some v := by
  unfold skewPath
  cases path.getLast? with
  | none => exact h
  | some leaf => exact skewWalk_find_keep leaf key v path _ h

theorem skewPaths_find_keep (key : LogicalBuffer) (v : Skew) :
    ∀ (paths : List (List MappingNode)) (init : LogicalBufSkews),
      StdMap.find key init = some v → StdMap.find key (paths.foldl skewPath init) = some v := by
  intro paths
  induction paths with
  | nil => intro init h; exact h
  | cons p rest ih =>
    intro init h
    exact ih _ (skewPath_find_keep init p key v h)

theorem skewPaths_find_other (key : LogicalBuffer) :
    ∀ (paths : List (List MappingNode)) (init : LogicalBufSkews),
      (∀ q ∈ paths, ∀ lq, q.getLast? = some lq → GetNodeId lq = key.branch_leaf_id →
        ∀ j, MappingNode.Storage j key.buffer_id key.dspace_id ∉ q) →
      StdMap.find key (paths.foldl skewPath init) = StdMap.find key init := by
  intro paths
  induction paths with
  | nil => intro init _; rfl
  | cons p rest ih =>
    intro init h
    rw [List.foldl_cons, ih (skewPath init p)
      (fun q hq => h q (List.mem_cons_of_mem _ hq))]
    unfold skewPath
    cases hl : p.getLast? with
    | none => rfl
    | some leaf =>
      simp only
      apply skewWalk_find_other
      by_cases hid : GetNodeId leaf = key.branch_leaf_id
      · exact Or.inl (h p (List.mem_cons_self _ _) leaf hl hid)
      · exact Or.inr hid

theorem skewPath_first_record (init : LogicalBufSkews) (pre post : List MappingNode)
    (i : NodeID) (b : BufferId) (d : DataSpaceId) (leaf : MappingNode)
    (hleaf : (pre ++ MappingNode.Storage i b d :: post).getLast? = some leaf)
    (hinit : StdMap.find
      ({ buffer_id := b, dspace_id := d, branch_leaf_id := GetNodeId leaf } : LogicalBuffer)
      init = none)
    (hpre : ∀ j, MappingNode.Storage j b d ∉ pre) :
    ∃ sk, StdMap.find
        ({ buffer_id := b, dspace_id := d, branch_leaf_id := GetNodeId leaf } : LogicalBuffer)
        (skewPath init (pre ++ MappingNode.Storage i b d :: post)) = some sk ∧
      skewShape pre sk.dim_in_tags sk.map := by
  unfold skewPath
  rw [hleaf]
  show ∃ sk, StdMap.find _
      ((pre ++ MappingNode.Storage i b d :: post).foldl (skewVisit leaf)
        (skewStart init)).skews = some sk ∧ _
  rw [List.foldl_append, List.foldl_cons]
  have hshape := skewWalk_state_shape leaf pre [] (skewStart init) skewShape_start
  rw [List.nil_append] at hshape
  have hnone := skewWalk_find_other leaf
    ({ buffer_id := b, dspace_id := d, branch_leaf_id := GetNodeId leaf } : LogicalBuffer)
    pre (skewStart init) (Or.inl hpre)
  rw [show (skewStart init).skews = init from rfl, hinit] at hnone
  generalize pre.foldl (skewVisit leaf) (skewStart init) = s1 at hshape hnone ⊢
  have hcore : ∀ (cur : Bool),
      skewShape pre (if cur then s1.tags else s1.tags ++ [spacetime.Dimension.SpaceX])
        (if cur then s1.map else insert_dummy_dim_ins s1.map s1.map.nIn 1) := by
    intro cur
    cases cur with
    | true => exact hshape
    | false => exact skewShape_synthetic pre s1.tags s1.map hshape
  have hsh : skewShape pre (skewVisit leaf s1 (MappingNode.Storage i b d)).tags
      (skewVisit leaf s1 (MappingNode.Storage i b d)).map :=
    hcore
      (if s1.last_buf = some b then s1.new_cur_has_spatial || s1.cur_has_spatial
        else s1.new_cur_has_spatial)
  refine ⟨{ map := (skewVisit leaf s1 (MappingNode.Storage i b d)).map,
            dim_in_tags := (skewVisit leaf s1 (MappingNode.Storage i b d)).tags },
    skewWalk_find_keep leaf _ _ post _ ?_, hsh⟩
  show StdMap.find _ (StdMap.emplace LogicalBuffer.lt _ _ s1.skews) = _
  rw [StdMap.find_emplace, hnone]
  simp only [if_true]
  rfl

/-- C23 counterexample: on the path `Storage`, `For`, `Storage`, `Compute`
with both `Storage` nodes for buffer 0 and dataspace 0, the only entry of the
result is the one recorded at the first `Storage` node.  Its tags are
`[SpaceX]`: the `Time` tag of the `For` node above the second `Storage` node
is not among them. -/
theorem LogicalBufSkews_second_storage_shadowed :
    dupMapping.paths = [dupPath] ∧
    dupPath = [MappingNode.Storage 0 0 0, MappingNode.For 1 0 (some 2)] ++
      MappingNode.Storage 2 0 0 :: [MappingNode.Compute 3 0] ∧
    loopTags [MappingNode.Storage 0 0 0, MappingNode.For 1 0 (some 2)] =
      [spacetime.Dimension.Time] ∧
    ∃ sk, LogicalBufSkewsFromMapping dupMapping =
        [(({ buffer_id := 0, dspace_id := 0, branch_leaf_id := 3 } : LogicalBuffer), sk)] ∧
      sk.dim_in_tags = [spacetime.Dimension.SpaceX] ∧
      spacetime.Dimension.Time ∉ sk.dim_in_tags :=
  ⟨rfl, rfl, rfl, _, rfl, rfl, by decide⟩

/-- C23 (amended): take a path of the mapping and a `Storage` node on it that
is the first one recorded for its logical buffer: no `Storage` node above it
on the path binds the same buffer and dataspace, and no earlier path that ends
in a node of the same id holds one.  Then the result of
`LogicalBufSkewsFromMapping` has, under the node's buffer, its dataspace and
the last node of the path, the skew recorded at that node: with `pre` the
nodes above the node, its tags are, in order, one `Time` per `For` node and
one `SpaceX` per `ParFor` node of `pre`, with only synthetic `SpaceX` tags
besides them, and its relation passes the coordinates of these loops through
unchanged (the synthetic coordinates are 0).  Every `Storage` node of every
path has an entry under its buffer, dataspace and last node of the path, and
every entry was recorded, with this shape, at a `Storage` node of its buffer
and dataspace.  For a `For` node above a `ParFor` node above a `Storage` node
the tags are `[Time, SpaceX]`. -/
theorem LogicalBufSkews_shape (m : FusedMapping) :
    (∀ before path after pre i b d post leaf,
      m.paths = before ++ path :: after →
      path = pre ++ MappingNode.Storage i b d :: post →
      path.getLast? = some leaf →
      (∀ j, MappingNode.Storage j b d ∉ pre) →
      (∀ q ∈ before, ∀ lq, q.getLast? = some lq → GetNodeId lq = GetNodeId leaf →
        ∀ j, MappingNode.Storage j b d ∉ q) →
      ∃ sk, StdMap.find
          ({ buffer_id := b, dspace_id := d, branch_leaf_id := GetNodeId leaf } : LogicalBuffer)
          (LogicalBufSkewsFromMapping m) = some sk ∧
        skewShape pre sk.dim_in_tags sk.map) ∧
    (∀ path ∈ m.paths, ∀ pre i b d post, path = pre ++ MappingNode.Storage i b d :: post →
      ∃ leaf sk, path.getLast? = some leaf ∧
        (({ buffer_id := b, dspace_id := d, branch_leaf_id := GetNodeId leaf } :
          LogicalBuffer), sk) ∈ LogicalBufSkewsFromMapping m) ∧
    (∀ buf sk, (buf, sk) ∈ LogicalBufSkewsFromMapping m →
      ∃ path ∈ m.paths, ∃ pre i post,
        path = pre ++ MappingNode.Storage i buf.buffer_id buf.dspace_id :: post ∧
        skewShape pre sk.dim_in_tags sk.map) ∧
    (∀ (leaf : MappingNode) (skews : LogicalBufSkews) (i1 i2 i3 : NodeID)
        (d1 d2 : DimensionId) (t1 t2 : Option Nat) (b : BufferId) (d : DataSpaceId),
      ([MappingNode.For i1 d1 t1, MappingNode.ParFor i2 d2 t2,
          MappingNode.Storage i3 b d].foldl (skewVisit leaf) (skewStart skews)).tags =
        [spacetime.Dimension.Time, spacetime.Dimension.SpaceX]) := by
  refine ⟨?_, ?_, ?_, ?_⟩
  · intro before path after pre i b d post leaf hm hpath hleaf hpre hbefore
    unfold LogicalBufSkewsFromMapping
    rw [hm, List.foldl_append, List.foldl_cons]
    have hinit : StdMap.find
        ({ buffer_id := b, dspace_id := d, branch_leaf_id := GetNodeId leaf } : LogicalBuffer)
        (before.foldl skewPath []) = none := by
      rw [skewPaths_find_other _ before [] hbefore]
      rfl
    subst hpath
    obtain ⟨sk, h1, h2⟩ :=
      skewPath_first_record (before.foldl skewPath []) pre post i b d leaf hleaf hinit hpre
    exact ⟨sk, skewPaths_find_keep _ sk after _ h1, h2⟩
  · intro path hp pre i b d post hpath
    exact skewPaths_records m.paths [] path hp pre i b d post hpath
  · intro buf sk h
    unfold LogicalBufSkewsFromMapping at h
    rcases skewPaths_shape m.paths [] (buf, sk) h with hnil | ⟨p, hp, pre, i, post, h1, h2⟩
    · exact absurd hnil (List.not_mem_nil _)
    · exact ⟨p, hp, pre, i, post, h1, h2⟩
  · intro leaf skews i1 i2 i3 d1 d2 t1 t2 b d
    rfl

/-- Witness for C23 (amended): the path `For`, `ParFor`, `Storage`, `Compute`
records buffer 0 with the tags `[Time, SpaceX]` and the shape of its two
loops. -/
theorem LogicalBufSkews_shape_witness :
    (∃ sk, StdMap.find ({ buffer_id := 0, dspace_id := 0, branch_leaf_id := 3 } : LogicalBuffer)
        (LogicalBufSkewsFromMapping nestedMapping) = some sk ∧
      sk.dim_in_tags = [spacetime.Dimension.Time, spacetime.Dimension.SpaceX]) ∧
    loopTags [MappingNode.For 0 0 (some 2), MappingNode.ParFor 1 1 (some 2)] =
      [spacetime.Dimension.Time, spacetime.Dimension.SpaceX] ∧
    ∃ sk, StdMap.find ({ buffer_id := 0, dspace_id := 0, branch_leaf_id := 3 } : LogicalBuffer)
        (LogicalBufSkewsFromMapping nestedMapping) = some sk ∧
      skewShape [MappingNode.For 0 0 (some 2), MappingNode.ParFor 1 1 (some 2)]
        sk.dim_in_tags sk.map :=
  ⟨⟨_, rfl, rfl⟩, rfl,
    (LogicalBufSkews_shape nestedMapping).1 [] nestedPath []
      [MappingNode.For 0 0 (some 2), MappingNode.ParFor 1 1 (some 2)] 2 0 0
      [MappingNode.Compute 3 0] (MappingNode.Compute 3 0) rfl rfl rfl
      (fun j hj => by simp at hj)
      (fun q hq => absurd hq (List.not_mem_nil _))⟩

end Timeloop
